import Mathlib

/-!
# mqt-core: graph, register algebra, circuit container and tensor export

A shallow embedding of

* `include/mqt-core/UndirectedGraph.hpp` (`qc::UndirectedGraph`),
* `include/mqt-core/ir/QuantumComputation.hpp` (`qc::QuantumComputation`),
* `src/dd/Operations.cpp` (`dd::dumpTensor`),

together with theorems about the embedded functions.

Conventions of the embedding:

* `std::unordered_map` and `std::map` are association lists; a lookup returns the first
  binding of the key, so `m[k] = x` is modelled by putting `(k, x)` in front.
* `std::vector` is `List`. In the graph and in the container, where the index comes from the
  object itself, `v[i]` without a bounds check is `List.getD` with the default written out at
  the place of use, and a write `v[i] = x` is `List.set`. In `dumpTensor` the vector `inds` is
  supplied by the caller: an access `inds[qubit]` beyond it is undefined behaviour and ends
  the embedded call with `DumpError.undefinedBehaviour`.
* A C++ exception is the `Except.error` result; the state of a mutating member function is
  passed explicitly and returned.
* The counters of `dumpTensor` (`inds` and `gateIdx`) are of type `std::size_t` and are
  supplied by the caller: their increment is modulo `2^64` (`wrapIncr`). The sizes of the
  containers are natural numbers.
* The number type `fp` is a type parameter. `gphase` is embedded twice: over an exact ordered
  field, and over `double`, the IEEE 754 binary64 format (`Binary64`).
-/

namespace qc

/-! ## `UndirectedGraph.hpp` -/

/-- First binding of `k` in an association list: `std::unordered_map::find`. -/
def mapFind {K A : Type} [DecidableEq K] (k : K) : List (K × A) → Option A
  | [] => none
  | (k', a) :: rest => if k = k' then some a else mapFind k rest

/-- Checked lookup `std::unordered_map::at`, which throws `std::out_of_range`. -/
def mapAt {K A : Type} [DecidableEq K] (k : K) (m : List (K × A)) : Except String A :=
  match mapFind k m with
  | some a => .ok a
  | none => .error "std::out_of_range"

/-- Insertion into a `std::unordered_set`, kept as a duplicate-free list. -/
def setEmplace {A : Type} [DecidableEq A] (s : List A) (a : A) : List A :=
  if a ∈ s then s else s ++ [a]

/-- The data members of `UndirectedGraph<V, E>`. An edge label is a nullable `E`:
`none` is the `nullptr` that marks an absent entry of the adjacency table. -/
structure UndirectedGraph (V E : Type) where
  adjacencyMatrix : List (List (Option E)) := []
  mapping : List (V × Nat) := []
  invMapping : List (Nat × V) := []
  nVertices : Nat := 0
  nEdges : Nat := 0
  degrees : List Nat := []

namespace UndirectedGraph

variable {V E : Type} [DecidableEq V]

/-- The entry `adjacencyMatrix[r][c]`. -/
def entry (g : UndirectedGraph V E) (r c : Nat) : Option E :=
  (g.adjacencyMatrix.getD r []).getD c none

/-- The assignment `adjacencyMatrix[r][c] = e`. -/
def setEntry (g : UndirectedGraph V E) (r c : Nat) (e : Option E) : UndirectedGraph V E :=
  { g with adjacencyMatrix := g.adjacencyMatrix.set r ((g.adjacencyMatrix.getD r []).set c e) }

/-- The increment `++degrees[i]`. -/
def incDegree (g : UndirectedGraph V E) (i : Nat) : UndirectedGraph V E :=
  { g with degrees := g.degrees.set i (g.degrees.getD i 0 + 1) }

/-- Source: `addVertex(v)`: throws when `v` is already a vertex. -/
def addVertex (g : UndirectedGraph V E) (v : V) : Except String (UndirectedGraph V E) :=
  match mapFind v g.mapping with
  | none =>
    .ok { adjacencyMatrix := g.adjacencyMatrix.map (fun row => row ++ [none]) ++ [[none]]
          mapping := (v, g.nVertices) :: g.mapping
          invMapping := (g.nVertices, v) :: g.invMapping
          nVertices := g.nVertices + 1
          nEdges := g.nEdges
          degrees := g.degrees ++ [0] }
  | some _ => .error "The vertex is already in the graph."

/-- The body of `addEdge` after both indices have been looked up. -/
def addEdgeAt (g : UndirectedGraph V E) (i j : Nat) (e : Option E) : UndirectedGraph V E :=
  if i < j then
    let g1 :=
      if (g.entry i (j - i)).isNone then
        let a := g.incDegree i
        let b := if i ≠ j then a.incDegree j else a
        { b with nEdges := b.nEdges + 1 }
      else g
    g1.setEntry i (j - i) e
  else
    let g1 :=
      if (g.entry j (i - j)).isNone then
        let a := g.incDegree i
        let b := if i ≠ j then a.incDegree j else a
        { b with nEdges := b.nEdges + 1 }
      else g
    g1.setEntry j (i - j) e

/-- The statement `if (mapping.find(u) == mapping.end()) { addVertex(u); }` of `addEdge`. -/
def addVertexIfNew (g : UndirectedGraph V E) (u : V) : Except String (UndirectedGraph V E) :=
  if mapFind u g.mapping = none then g.addVertex u else .ok g

/-- Source: `addEdge(u, v, e)`. -/
def addEdge (g : UndirectedGraph V E) (u v : V) (e : Option E) :
    Except String (UndirectedGraph V E) := do
  let g1 ← g.addVertexIfNew u
  let g2 ← g1.addVertexIfNew v
  let i ← mapAt u g2.mapping
  let j ← mapAt v g2.mapping
  pure (g2.addEdgeAt i j e)

/-- Source: `getNVertices()`. -/
def getNVertices (g : UndirectedGraph V E) : Nat := g.nVertices

/-- Source: `getNEdges()`. -/
def getNEdges (g : UndirectedGraph V E) : Nat := g.nEdges

/-- The test `i < j ? adjacencyMatrix[i][j - i] != nullptr : adjacencyMatrix[j][i - j] != nullptr`
shared by `getEdge`, `getAdjacentEdges` and `getNeighbours`. -/
def present (g : UndirectedGraph V E) (i j : Nat) : Bool :=
  if i < j then (g.entry i (j - i)).isSome else (g.entry j (i - j)).isSome

/-- Source: `getEdge(v, u)`. -/
def getEdge (g : UndirectedGraph V E) (v u : V) : Except String E := do
  let i ← mapAt v g.mapping
  let j ← mapAt u g.mapping
  match (if i < j then g.entry i (j - i) else g.entry j (i - j)) with
  | some e => pure e
  | none => .error "The edge does not exist."

/-- One round of the loop of `getNeighbours`. -/
def neighboursStep (g : UndirectedGraph V E) (i : Nat) (result : List V) (j : Nat) :
    Except String (List V) :=
  if g.present i j then do
    let u ← mapAt j g.invMapping
    pure (setEmplace result u)
  else pure result

/-- Source: `getNeighbours(v)`. -/
def getNeighbours (g : UndirectedGraph V E) (v : V) : Except String (List V) :=
  match mapFind v g.mapping with
  | none => .error "The vertex is not in the graph."
  | some i => (List.range g.nVertices).foldlM (g.neighboursStep i) []

/-- Source: `getDegree(v)`. -/
def getDegree (g : UndirectedGraph V E) (v : V) : Except String Nat :=
  match mapFind v g.mapping with
  | none => .error "The vertex is not in the graph."
  | some i => .ok (g.degrees.getD i 0)

/-- Source: `isAdjacent(u, v)`. -/
def isAdjacent (g : UndirectedGraph V E) (u v : V) : Except String Bool := do
  let i ← mapAt u g.mapping
  let j ← mapAt v g.mapping
  pure ((decide (i < j) && (g.entry i (j - i)).isSome) ||
        (decide (j < i) && (g.entry j (i - j)).isSome))

/-- Source: `getVertices()`: the keys of `mapping`, gathered in a set. -/
def getVertices (g : UndirectedGraph V E) : List V :=
  g.mapping.foldl (fun acc v => setEmplace acc v.1) []

/-- A call of one of the two mutating member functions. -/
inductive Call (V E : Type) where
  | addVertex (v : V)
  | addEdge (u v : V) (e : Option E)

/-- The label passed by a call is not `nullptr` (an `addVertex` call passes none). -/
def Call.labelPresent : Call V E → Bool
  | .addVertex _ => true
  | .addEdge _ _ e => e.isSome

/-- One call; a call that throws leaves the graph as it was. -/
def step (g : UndirectedGraph V E) : Call V E → UndirectedGraph V E
  | .addVertex v => match g.addVertex v with
    | .ok g' => g'
    | .error _ => g
  | .addEdge u v e => match g.addEdge u v e with
    | .ok g' => g'
    | .error _ => g

/-- The graph reached from `g` by a sequence of calls. -/
def run (g : UndirectedGraph V E) (calls : List (Call V E)) : UndirectedGraph V E :=
  calls.foldl step g

end UndirectedGraph

/-! ## Register maps (`QuantumComputation.hpp`, `consolidateRegister`) -/

/-- Lexicographic comparison of two names, character code by character code. -/
def nameLt : List Char → List Char → Bool
  | [], [] => false
  | [], _ :: _ => true
  | _ :: _, [] => false
  | a :: as, b :: bs => if a.toNat < b.toNat then true else if b.toNat < a.toNat then false
    else nameLt as bs

/-- Ascending key order, `std::less<>`. -/
def keyLess (a b : String) : Bool := nameLt a.data b.data

/-- Descending key order, `std::greater<>`. -/
def keyGreater (a b : String) : Bool := nameLt b.data a.data

/-- Modelled from the spec: the type `RegisterMap` (declared in `Definitions.hpp`) is missing
from the sources. The spec describes it as a mapping from register name (string, unique key)
to `(startIndex, length)`. It is kept as the list of its entries in iteration order; the key
order `lt` of the map is a parameter of the functions that insert into it. Start indices and
lengths are natural numbers. -/
abbrev RegisterMap := List (String × Nat × Nat)

namespace RegisterMap

/-- Source: `regs.find(name)`. -/
def find (name : String) (regs : RegisterMap) : Option (Nat × Nat) := mapFind name regs

/-- Source: `regs.erase(name)`. -/
def erase (name : String) (regs : RegisterMap) : RegisterMap :=
  regs.filter (fun r => !decide (r.1 = name))

/-- Placement of a new entry according to the key order `lt`. -/
def place (lt : String → String → Bool) (r : String × Nat × Nat) : RegisterMap → RegisterMap
  | [] => [r]
  | r' :: rest => if lt r.1 r'.1 then r :: r' :: rest else r' :: place lt r rest

/-- Source: `regs.insert({name, value})`: nothing happens when the key is already present. -/
def insert (lt : String → String → Bool) (r : String × Nat × Nat) (regs : RegisterMap) :
    RegisterMap :=
  match find r.1 regs with
  | some _ => regs
  | none => place lt r regs

end RegisterMap

/-! ### Adding and removing a qubit -/

/-- The assignment `regs[name] = value` for a key that is present: the value is replaced in
place. -/
def RegisterMap.assign (name : String) (value : Nat × Nat) (regs : RegisterMap) : RegisterMap :=
  regs.map (fun r => if r.1 = name then (name, value) else r)

/-- The assignment `regs[name] = value`: the value of a key that is present is replaced, a
new key is placed according to the key order `lt`. -/
def RegisterMap.set (lt : String → String → Bool) (r : String × Nat × Nat)
    (regs : RegisterMap) : RegisterMap :=
  match RegisterMap.find r.1 regs with
  | some _ => RegisterMap.assign r.1 r.2 regs
  | none => RegisterMap.place lt r regs

/-- Modelled from the spec: `removeQubitfromQubitRegister(regs, reg, idx)` is declared and
documented in the header; its definition is missing. By the spec `idx` must lie inside the
range of the register `reg`, otherwise the call fails. If `idx` is the sole element, the
register is deleted; if it is the first or the last element, the range is shrunk by one from
that end; if it is interior, the register is split into `<reg>_l` (original start, as many
qubits as lie below `idx`) and `<reg>_h` (start `idx + 1`, the remaining qubits), and the
original entry is deleted. -/
def removeQubitfromQubitRegister (lt : String → String → Bool) (regs : RegisterMap)
    (reg : String) (idx : Nat) : Except String RegisterMap :=
  match RegisterMap.find reg regs with
  | none => .error "The register does not exist."
  | some (start, length) =>
    if idx < start ∨ start + length ≤ idx then .error "The index is outside the register."
    else if length = 1 then .ok (RegisterMap.erase reg regs)
    else if idx = start then .ok (RegisterMap.assign reg (start + 1, length - 1) regs)
    else if idx = start + length - 1 then
      .ok (RegisterMap.assign reg (start, length - 1) regs)
    else
      .ok (RegisterMap.set lt (reg ++ "_h", idx + 1, start + length - idx - 1)
        (RegisterMap.set lt (reg ++ "_l", start, idx - start) (RegisterMap.erase reg regs)))

/-- The test whether the index `i` lies immediately before the start or immediately after the
end of a register. -/
def adjacentTo (i : Nat) (r : String × Nat × Nat) : Bool :=
  decide (r.2.1 = i + 1) || decide (r.2.1 + r.2.2 = i)

/-- The range of a register extended by the adjacent index `i`. -/
def extendedBy (i : Nat) (r : String × Nat × Nat) : Nat × Nat :=
  if r.2.1 = i + 1 then (i, r.2.2 + 1) else (r.2.1, r.2.2 + 1)

/-- Modelled from the spec: `addQubitToQubitRegister(regs, physicalQubitIndex,
defaultRegName)` is declared and documented in the header; its definition is missing. By the
spec, if `regs` is empty the register `defaultRegName` with the one index is created;
otherwise, if the index is immediately before or after the range of an existing register (the
first such register in the order of the map is taken), that register is extended by one;
otherwise a new singleton register named `defaultRegName_<index>` is created. -/
def addQubitToQubitRegister (lt : String → String → Bool) (regs : RegisterMap)
    (physicalQubitIndex : Nat) (defaultRegName : String) : RegisterMap :=
  if regs.isEmpty then [(defaultRegName, physicalQubitIndex, 1)]
  else
    match regs.find? (adjacentTo physicalQubitIndex) with
    | some r => RegisterMap.assign r.1 (extendedBy physicalQubitIndex r) regs
    | none =>
      RegisterMap.set lt
        (defaultRegName ++ "_" ++ toString physicalQubitIndex, physicalQubitIndex, 1) regs

/-! ### `createRegisterArray` -/

/-- Source: `sortedRegs.insert({reg.second.first, reg})` on the map `sortedRegs`, which is kept
as the list of its values in ascending order of the key, the start index: nothing happens
when the key is already present. -/
def sortedInsert (reg : String × Nat × Nat) :
    List (String × Nat × Nat) → List (String × Nat × Nat)
  | [] => [reg]
  | r :: rest =>
    if reg.2.1 < r.2.1 then reg :: r :: rest
    else if reg.2.1 = r.2.1 then r :: rest
    else r :: sortedInsert reg rest

/-- The loop that fills `sortedRegs` from the register map. -/
def sortedRegs (regs : RegisterMap) : List (String × Nat × Nat) :=
  regs.foldl (fun sorted reg => sortedInsert reg sorted) []

/-- The inner loop of `createRegisterArray`: one entry `(name, name[i])` is appended for every
`i` below the length of the register. -/
def pushRegister (regnames : List (String × String)) (reg : String × Nat × Nat) :
    List (String × String) :=
  (List.range reg.2.2).foldl
    (fun regnames i => regnames ++ [(reg.1, reg.1 ++ "[" ++ toString i ++ "]")]) regnames

/-- Source: `createRegisterArray(regs, regnames)`: the value of `regnames` after the call. -/
def createRegisterArray (regs : RegisterMap) (_regnames : List (String × String)) :
    List (String × String) :=
  (sortedRegs regs).foldl pushRegister []

/-- The test `regname.length() > 2 && regname.compare(regname.size() - 2, 2, "_l") == 0`. -/
def isLowerPart (regname : String) : Bool :=
  decide (regname.length > 2) && decide (regname.data.drop (regname.length - 2) = ['_', 'l'])

/-- The name `regname.substr(0, regname.size() - 1) + 'h'`. -/
def highName (regname : String) : String :=
  ⟨regname.data.take (regname.length - 1) ++ ['h']⟩

/-- The name `regname.substr(0, regname.size() - 2)`. -/
def targetName (regname : String) : String :=
  ⟨regname.data.take (regname.length - 2)⟩

/-- The `for` loop of `consolidateRegister` over the entries still to be visited; `regs` is
the whole map and `finished` the current value of the flag. The result is the flag and the
map when the loop is left (by exhaustion or by `break`). -/
def consolidateFor (lt : String → String → Bool) (regs : RegisterMap) :
    List (String × Nat × Nat) → Bool → Bool × RegisterMap
  | [], finished => (finished, regs)
  | qreg :: rest, _ =>
    let regname := qreg.1
    if isLowerPart regname then
      let lowidx := qreg.2.1
      let lownum := qreg.2.2
      let highname := highName regname
      match RegisterMap.find highname regs with
      | some (highidx, highnum) =>
        if lowidx + lownum = highidx then
          let targetname := targetName regname
          (false, RegisterMap.erase highname (RegisterMap.erase regname
            (RegisterMap.insert lt (targetname, lowidx, lownum + highnum) regs)))
        else (true, regs)
      | none => (true, regs)
    else consolidateFor lt regs rest true

/-- The `while (!finished)` loop of `consolidateRegister`, with a bound on the number of
rounds; `none` when the bound is used up before the flag is set. -/
def consolidateWhile (lt : String → String → Bool) : Nat → Bool → RegisterMap → Option RegisterMap
  | _, true, regs => some regs
  | 0, false, _ => none
  | fuel + 1, false, regs =>
    let r := consolidateFor lt regs regs false
    consolidateWhile lt fuel r.1 r.2

/-- Source: `consolidateRegister(regs)` run for at most `fuel` rounds of its outer loop. -/
def consolidateRegister (lt : String → String → Bool) (fuel : Nat) (regs : RegisterMap) :
    Option RegisterMap :=
  consolidateWhile lt fuel regs.isEmpty regs

/-- A pair `X_l`, `X_h` of registers of the map where the first ends where the second begins. -/
def mergeablePair (regs : RegisterMap) (x : String) : Bool :=
  match RegisterMap.find (x ++ "_l") regs, RegisterMap.find (x ++ "_h") regs with
  | some (ls, ll), some (hs, _) => decide (ls + ll = hs)
  | _, _ => false

/-! ## Operations -/

/-- Modelled from the spec: `Definitions.hpp` is missing from the sources; qubit and
classical-bit indices are natural numbers. -/
abbrev Qubit := Nat

/-- Modelled from the spec: see `Qubit`. -/
abbrev Bit := Nat

/-- Modelled from the spec: the polarity of a control (`Control::Type` in the missing
`operations/Control.hpp`). -/
inductive Polarity where
  | pos
  | neg
  deriving DecidableEq

/-- Modelled from the spec: a control is a qubit with a polarity; the sources use its members
`qubit` and `type` and build it from a qubit alone or from a qubit and a polarity. -/
structure Control where
  qubit : Qubit
  type : Polarity := Polarity.pos
  deriving DecidableEq

/-- Modelled from the spec: the set of controls of an operation, in iteration order. -/
abbrev Controls := List Control

/-- The list of targets of an operation (`std::vector<Qubit>`). -/
abbrev Targets := List Qubit

/-- Modelled from the spec: the type tag of an operation (`operations/OpType.hpp` is missing
from the sources). There is one tag for each gate name that the emission functions of
`QuantumComputation.hpp` look up in `OP_NAME_TO_TYPE`, the three tags `Barrier`, `Measure`
and `Reset` named in the sources, and the tags of the two wrapping operation kinds. -/
inductive OpType where
  | i | x | y | z | h | s | sdg | t | tdg | v | vdg | sx | sxdg
  | rx | ry | rz | p
  | u2
  | u
  | swap | dcx | ecr | iswap | iswapdg | peres | peresdg | move
  | rxx | ryy | rzz | rzx
  | xx_minus_yy | xx_plus_yy
  | Barrier | Measure | Reset
  | Compound | ClassicControlled
  deriving DecidableEq

/-- Modelled from the spec: the comparison of a classically controlled operation. -/
inductive ComparisonKind where
  | Eq | Neq | Lt | Leq | Gt | Geq
  deriving DecidableEq

/-- The type `SymbolOrNumber` of a gate parameter, `std::variant<Symbolic, fp>`: a symbolic
expression of type `S` or a number of type `F`. -/
inductive SymbolOrNumber (S F : Type) where
  | symbol (e : S)
  | number (x : F)
  deriving DecidableEq

/-- Source: `std::holds_alternative<fp>(param)`. -/
def SymbolOrNumber.holdsFp {S F : Type} : SymbolOrNumber S F → Bool
  | .number _ => true
  | .symbol _ => false

/-- Modelled from the spec: the operation classes (`operations/*.hpp`) are missing from the
sources. Following the spec an operation is a closed tagged variant: a concrete standard
operation, a symbolic operation, a non-unitary operation (measurement or reset), a
classically controlled operation, or a compound operation. Each constructor keeps exactly
the arguments that the sources pass to the constructor of the class. -/
inductive Operation (F S : Type) where
  | standard (controls : Controls) (targets : Targets) (type : OpType) (params : List F)
  | symbolic (controls : Controls) (targets : Targets) (type : OpType)
      (params : List (SymbolOrNumber S F))
  | nonUnitary (targets : Targets) (classics : List Bit) (type : OpType)
  | classicControlled (op : Operation F S) (controlRegister : Bit × Nat)
      (expectedValue : Nat) (cmp : ComparisonKind)
  | compound (ops : List (Operation F S))

namespace Operation

variable {F S : Type}

/-- Modelled from the spec: `isStandardOperation()`, true for the concrete standard variant. -/
def isStandardOperation : Operation F S → Bool
  | .standard _ _ _ _ => true
  | _ => false

mutual
/-- Modelled from the spec: `isSymbolicOperation()`, true for the symbolic variant; a compound
operation is symbolic when one of its children is. -/
def isSymbolicOperation : Operation F S → Bool
  | .symbolic _ _ _ _ => true
  | .compound ops => anySymbolic ops
  | _ => false
/-- Some operation of the list is symbolic. -/
def anySymbolic : List (Operation F S) → Bool
  | [] => false
  | op :: rest => isSymbolicOperation op || anySymbolic rest
end

/-- Modelled from the spec: `getType()`. -/
def getType : Operation F S → OpType
  | .standard _ _ type _ => type
  | .symbolic _ _ type _ => type
  | .nonUnitary _ _ type => type
  | .classicControlled _ _ _ _ => OpType.ClassicControlled
  | .compound _ => OpType.Compound

/-- Modelled from the spec: `getControls()`. -/
def getControls : Operation F S → Controls
  | .standard controls _ _ _ => controls
  | .symbolic controls _ _ _ => controls
  | .classicControlled op _ _ _ => getControls op
  | _ => []

/-- Modelled from the spec: `getTargets()`. -/
def getTargets : Operation F S → Targets
  | .standard _ targets _ _ => targets
  | .symbolic _ targets _ _ => targets
  | .nonUnitary targets _ _ => targets
  | .classicControlled op _ _ _ => getTargets op
  | .compound _ => []

/-- Modelled from the spec: `setControls(c)` on a (copy of a) standard operation. -/
def setControls (c : Controls) : Operation F S → Operation F S
  | .standard _ targets type params => .standard c targets type params
  | .symbolic _ targets type params => .symbolic c targets type params
  | op => op

/-- Modelled from the spec: `setTargets(t)` on a (copy of a) standard operation. -/
def setTargets (t : Targets) : Operation F S → Operation F S
  | .standard controls _ type params => .standard controls t type params
  | .symbolic controls _ type params => .symbolic controls t type params
  | .nonUnitary _ classics type => .nonUnitary t classics type
  | op => op

/-- Modelled from the spec: `isCompoundOperation()`, true for the compound variant, the case in
which the `dynamic_cast` to `CompoundOperation` succeeds. -/
def isCompoundOperation : Operation F S → Bool
  | .compound _ => true
  | _ => false

end Operation

/-! ### The number type `fp` as a `double` -/

/-- A value of the number type `fp`, a `double` of the IEEE 754 binary64 format. A finite
value is `units * 2^(-1074)` with the sign `negative`, so that `2^1074` units make the
value 1; the two zeros are `finite false 0` and `finite true 0`. -/
inductive Binary64 where
  | finite (negative : Bool) (units : Nat)
  | infinite (negative : Bool)
  | nan
  deriving DecidableEq

namespace Binary64

/-- The distance, in units, between neighbouring doubles of a binade: a magnitude `m` with
`2^e ≤ m < 2^(e + 1)` and `e ≥ 53` has 53 significant bits when it is a multiple of
`2^(e - 52)`. -/
def spacing (m : Nat) : Nat := 2 ^ (Nat.log2 m - 52)

/-- The test whether a value is a `double`: a finite value needs a magnitude below `2^1024`,
which is `2^2098` units, with at most 53 significant bits. -/
def isDouble : Binary64 → Bool
  | finite _ units =>
    decide (units < 2 ^ 2098) && (decide (units < 2 ^ 53) || decide (units % spacing units = 0))
  | _ => true

/-- The rounding of a magnitude to the nearest magnitude with 53 significant bits, a tie
going to the even significand (the default rounding of IEEE 754). Magnitudes below `2^53`
units are exact. -/
def roundMagnitude (m : Nat) : Nat :=
  if m < 2 ^ 53 then m
  else if 2 * (m % spacing m) < spacing m then m / spacing m * spacing m
  else if 2 * (m % spacing m) = spacing m ∧ (m / spacing m) % 2 = 0 then
    m / spacing m * spacing m
  else (m / spacing m + 1) * spacing m

/-- The `double` for an exact result with the sign `negative` and the magnitude `m`: the
rounded magnitude, or an infinity when that is `2^1024` or more. -/
def round (negative : Bool) (m : Nat) : Binary64 :=
  if roundMagnitude m < 2 ^ 2098 then finite negative (roundMagnitude m) else infinite negative

/-- The sum `x + y` of two values of type `double`. An exact sum of zero is `+0` unless both
summands are negative. -/
def add : Binary64 → Binary64 → Binary64
  | nan, _ => nan
  | _, nan => nan
  | infinite s, infinite t => if s = t then infinite s else nan
  | infinite s, finite _ _ => infinite s
  | finite _ _, infinite t => infinite t
  | finite s a, finite t b =>
    if s = t then round s (a + b)
    else if a = b then finite false 0
    else if b < a then round s (a - b)
    else round t (b - a)

/-- The negation `-x`. -/
def neg : Binary64 → Binary64
  | finite s a => finite (!s) a
  | infinite s => infinite (!s)
  | nan => nan

/-- The difference `x - y`. -/
def sub (x y : Binary64) : Binary64 := add x (neg y)

/-- The comparison `x < y`: false when an operand is not a number; the two zeros are equal. -/
def lt : Binary64 → Binary64 → Bool
  | nan, _ => false
  | _, nan => false
  | infinite s, infinite t => s && !t
  | infinite s, finite _ _ => s
  | finite _ _, infinite t => !t
  | finite false a, finite false b => decide (a < b)
  | finite true a, finite true b => decide (b < a)
  | finite true a, finite false b => !(decide (a = 0) && decide (b = 0))
  | finite false _, finite true _ => false

/-- The comparison `x >= y`: false when an operand is not a number. -/
def ge : Binary64 → Binary64 → Bool
  | nan, _ => false
  | _, nan => false
  | x, y => !(lt x y)

/-- The product `2 * x`, which is exact unless it overflows. -/
def twice : Binary64 → Binary64
  | finite s a => if 2 * a < 2 ^ 2098 then finite s (2 * a) else infinite s
  | infinite s => infinite s
  | nan => nan

/-- The literal `0` converted to `double`. -/
def zero : Binary64 := finite false 0

/-- The constant `PI` of the missing `Definitions.hpp` as the `double` nearest to π, which is
`884279719003555 * 2^(-48)`. -/
def PI : Binary64 := finite false (884279719003555 * 2 ^ 1026)

/-- The `double` `1e17`, which is `10^17` exactly. -/
def hugeAngle : Binary64 := finite false (10 ^ 17 * 2 ^ 1074)

/-- The `double` `2^55`. -/
def angleBound : Binary64 := finite false (2 ^ 55 * 2 ^ 1074)

end Binary64

/-! ## `QuantumComputation.hpp` -/

/-- Modelled from the spec: a layout (`Permutation`, declared in the missing headers) maps
physical qubits (keys) to logical qubits (values). -/
abbrev Permutation := List (Qubit × Qubit)

/-- The data members of `QuantumComputation`; `F` is the number type `fp`, `S` the type of
symbolic expressions and `Var` the type `sym::Variable`. The random generator `mt` is left
out: no function embedded here reads or writes it. -/
structure QuantumComputation (F S Var : Type) where
  ops : List (Operation F S)
  nqubits : Nat
  nclassics : Nat
  nancillae : Nat
  name : String
  qregs : RegisterMap
  cregs : RegisterMap
  ancregs : RegisterMap
  seed : Nat
  globalPhase : F
  occurringVariables : List Var
  initialLayout : Permutation
  outputPermutation : Permutation
  ancillary : List Bool
  garbage : List Bool

namespace QuantumComputation

variable {F S Var : Type}

/-- The default-constructed `QuantumComputation`. -/
def empty [Zero F] : QuantumComputation F S Var :=
  { ops := [], nqubits := 0, nclassics := 0, nancillae := 0, name := "", qregs := [],
    cregs := [], ancregs := [], seed := 0, globalPhase := 0, occurringVariables := [],
    initialLayout := [], outputPermutation := [], ancillary := [], garbage := [] }

/-- Source: `getNops()`. -/
def getNops (qc : QuantumComputation F S Var) : Nat := qc.ops.length

/-- Source: `getNqubits()`. -/
def getNqubits (qc : QuantumComputation F S Var) : Nat := qc.nqubits + qc.nancillae

/-- Source: `getGlobalPhase()`. -/
def getGlobalPhase (qc : QuantumComputation F S Var) : F := qc.globalPhase

/-- Source: `at(i)`, the checked access to the `i`-th operation. -/
def opAt (qc : QuantumComputation F S Var) (i : Nat) : Option (Operation F S) := qc.ops.get? i

/-- Source: `emplace_back`: the new operation goes to the end of the sequence. -/
def emplace_back (qc : QuantumComputation F S Var) (op : Operation F S) :
    QuantumComputation F S Var :=
  { qc with ops := qc.ops ++ [op] }

/-- Source: `isVariableFree()`. -/
def isVariableFree (qc : QuantumComputation F S Var) : Bool :=
  qc.ops.all (fun op => !op.isSymbolicOperation)

/-- Source: `getVariables()`. -/
def getVariables (qc : QuantumComputation F S Var) : List Var := qc.occurringVariables

/-- Modelled from the spec: `checkQubitRange` is declared in the header and defined in a
source file that is missing. By the spec a range check fails with an out-of-range condition
if a referenced qubit exceeds the current size of the container. -/
def checkQubit (qc : QuantumComputation F S Var) (qubit : Qubit) : Except String Unit :=
  if qubit < qc.getNqubits then .ok () else .error "Qubit index out of range"

/-- Modelled from the spec: `checkQubitRange(qubit, controls)`, see `checkQubit`. -/
def checkQubitRange (qc : QuantumComputation F S Var) (qubit : Qubit) (controls : Controls) :
    Except String Unit := do
  checkQubit qc qubit
  controls.forM (fun c => checkQubit qc c.qubit)

/-- Modelled from the spec: `checkQubitRange(qubit0, qubit1, controls)`, see `checkQubit`. -/
def checkQubitRange2 (qc : QuantumComputation F S Var) (qubit0 qubit1 : Qubit)
    (controls : Controls) : Except String Unit := do
  checkQubit qc qubit0
  checkQubit qc qubit1
  controls.forM (fun c => checkQubit qc c.qubit)

section emission

variable [DecidableEq Var] (vars : S → List Var)

/-- Modelled from the spec: `addVariable` is declared in the header and defined in a source
file that is missing. By the spec a symbolic parameter is registered in
`occurringVariables`; a number registers nothing. The variables `vars e` that occur in a
symbolic expression `e` are a parameter. -/
def addVariable (qc : QuantumComputation F S Var) (expr : SymbolOrNumber S F) :
    QuantumComputation F S Var :=
  match expr with
  | .symbol e => { qc with occurringVariables := (vars e).foldl setEmplace qc.occurringVariables }
  | .number _ => qc

/-- Source: `addVariables(vars...)`, the fold `(addVariable(vars), ...)` from left to right. -/
def addVariables (qc : QuantumComputation F S Var) (exprs : List (SymbolOrNumber S F)) :
    QuantumComputation F S Var :=
  exprs.foldl (addVariable vars) qc

/-- The body of `mc##op` generated by `DEFINE_SINGLE_TARGET_SINGLE_PARAMETER_OPERATION`;
the match on `.number` is the test `std::holds_alternative<fp>` followed by `std::get<fp>`. -/
def mcSingleTargetSingleParameter (op : OpType) (qc : QuantumComputation F S Var)
    (param : SymbolOrNumber S F) (controls : Controls) (target : Qubit) :
    Except String (QuantumComputation F S Var) := do
  checkQubitRange qc target controls
  match param with
  | .number x => pure (qc.emplace_back (.standard controls [target] op [x]))
  | _ =>
    pure ((addVariables vars qc [param]).emplace_back (.symbolic controls [target] op [param]))

/-- The function `op` generated by `DEFINE_SINGLE_TARGET_SINGLE_PARAMETER_OPERATION`. -/
def opSingleTargetSingleParameter (op : OpType) (qc : QuantumComputation F S Var)
    (param : SymbolOrNumber S F) (target : Qubit) : Except String (QuantumComputation F S Var) :=
  mcSingleTargetSingleParameter vars op qc param [] target

/-- The function `c##op` generated by `DEFINE_SINGLE_TARGET_SINGLE_PARAMETER_OPERATION`. -/
def cSingleTargetSingleParameter (op : OpType) (qc : QuantumComputation F S Var)
    (param : SymbolOrNumber S F) (control : Control) (target : Qubit) :
    Except String (QuantumComputation F S Var) :=
  mcSingleTargetSingleParameter vars op qc param [control] target

/-- The body of `mc##op` generated by `DEFINE_SINGLE_TARGET_TWO_PARAMETER_OPERATION`. -/
def mcSingleTargetTwoParameter (op : OpType) (qc : QuantumComputation F S Var)
    (param0 param1 : SymbolOrNumber S F) (controls : Controls) (target : Qubit) :
    Except String (QuantumComputation F S Var) := do
  checkQubitRange qc target controls
  match param0, param1 with
  | .number x0, .number x1 => pure (qc.emplace_back (.standard controls [target] op [x0, x1]))
  | _, _ =>
    pure ((addVariables vars qc [param0, param1]).emplace_back
      (.symbolic controls [target] op [param0, param1]))

/-- The function `op` generated by `DEFINE_SINGLE_TARGET_TWO_PARAMETER_OPERATION`. -/
def opSingleTargetTwoParameter (op : OpType) (qc : QuantumComputation F S Var)
    (param0 param1 : SymbolOrNumber S F) (target : Qubit) :
    Except String (QuantumComputation F S Var) :=
  mcSingleTargetTwoParameter vars op qc param0 param1 [] target

/-- The function `c##op` generated by `DEFINE_SINGLE_TARGET_TWO_PARAMETER_OPERATION`. -/
def cSingleTargetTwoParameter (op : OpType) (qc : QuantumComputation F S Var)
    (param0 param1 : SymbolOrNumber S F) (control : Control) (target : Qubit) :
    Except String (QuantumComputation F S Var) :=
  mcSingleTargetTwoParameter vars op qc param0 param1 [control] target

/-- The body of `mc##op` generated by `DEFINE_SINGLE_TARGET_THREE_PARAMETER_OPERATION`. -/
def mcSingleTargetThreeParameter (op : OpType) (qc : QuantumComputation F S Var)
    (param0 param1 param2 : SymbolOrNumber S F) (controls : Controls) (target : Qubit) :
    Except String (QuantumComputation F S Var) := do
  checkQubitRange qc target controls
  match param0, param1, param2 with
  | .number x0, .number x1, .number x2 =>
    pure (qc.emplace_back (.standard controls [target] op [x0, x1, x2]))
  | _, _, _ =>
    pure ((addVariables vars qc [param0, param1, param2]).emplace_back
      (.symbolic controls [target] op [param0, param1, param2]))

/-- The function `op` generated by `DEFINE_SINGLE_TARGET_THREE_PARAMETER_OPERATION`. -/
def opSingleTargetThreeParameter (op : OpType) (qc : QuantumComputation F S Var)
    (param0 param1 param2 : SymbolOrNumber S F) (target : Qubit) :
    Except String (QuantumComputation F S Var) :=
  mcSingleTargetThreeParameter vars op qc param0 param1 param2 [] target

/-- The function `c##op` generated by `DEFINE_SINGLE_TARGET_THREE_PARAMETER_OPERATION`. -/
def cSingleTargetThreeParameter (op : OpType) (qc : QuantumComputation F S Var)
    (param0 param1 param2 : SymbolOrNumber S F) (control : Control) (target : Qubit) :
    Except String (QuantumComputation F S Var) :=
  mcSingleTargetThreeParameter vars op qc param0 param1 param2 [control] target

/-- The body of `mc##op` generated by `DEFINE_TWO_TARGET_TWO_PARAMETER_OPERATION`. -/
def mcTwoTargetTwoParameter (op : OpType) (qc : QuantumComputation F S Var)
    (param0 param1 : SymbolOrNumber S F) (controls : Controls) (target0 target1 : Qubit) :
    Except String (QuantumComputation F S Var) := do
  checkQubitRange2 qc target0 target1 controls
  match param0, param1 with
  | .number x0, .number x1 =>
    pure (qc.emplace_back (.standard controls [target0, target1] op [x0, x1]))
  | _, _ =>
    pure ((addVariables vars qc [param0, param1]).emplace_back
      (.symbolic controls [target0, target1] op [param0, param1]))

/-- The function `op` generated by `DEFINE_TWO_TARGET_TWO_PARAMETER_OPERATION`. -/
def opTwoTargetTwoParameter (op : OpType) (qc : QuantumComputation F S Var)
    (param0 param1 : SymbolOrNumber S F) (target0 target1 : Qubit) :
    Except String (QuantumComputation F S Var) :=
  mcTwoTargetTwoParameter vars op qc param0 param1 [] target0 target1

/-- The function `c##op` generated by `DEFINE_TWO_TARGET_TWO_PARAMETER_OPERATION`. -/
def cTwoTargetTwoParameter (op : OpType) (qc : QuantumComputation F S Var)
    (param0 param1 : SymbolOrNumber S F) (control : Control) (target0 target1 : Qubit) :
    Except String (QuantumComputation F S Var) :=
  mcTwoTargetTwoParameter vars op qc param0 param1 [control] target0 target1

/-- Source: `mcrx(theta, controls, target)`. -/
def mcrx := @mcSingleTargetSingleParameter F S Var _ vars OpType.rx
/-- Source: `mcry(theta, controls, target)`. -/
def mcry := @mcSingleTargetSingleParameter F S Var _ vars OpType.ry
/-- Source: `mcrz(theta, controls, target)`. -/
def mcrz := @mcSingleTargetSingleParameter F S Var _ vars OpType.rz
/-- Source: `mcp(theta, controls, target)`. -/
def mcp := @mcSingleTargetSingleParameter F S Var _ vars OpType.p
/-- Source: `mcu2(phi, lambda, controls, target)`. -/
def mcu2 := @mcSingleTargetTwoParameter F S Var _ vars OpType.u2
/-- Source: `mcu(theta, phi, lambda, controls, target)`. -/
def mcu := @mcSingleTargetThreeParameter F S Var _ vars OpType.u
/-- Source: `mcxx_minus_yy(theta, beta, controls, target0, target1)`. -/
def mcxx_minus_yy := @mcTwoTargetTwoParameter F S Var _ vars OpType.xx_minus_yy
/-- Source: `mcxx_plus_yy(theta, beta, controls, target0, target1)`. -/
def mcxx_plus_yy := @mcTwoTargetTwoParameter F S Var _ vars OpType.xx_plus_yy

end emission

/-! ### `gphase` and `invert` -/

section phase

variable [LinearOrderedField F]

/-- The loop `while (globalPhase < 0) globalPhase += 2 * PI` for at most `fuel` rounds;
`none` when the bound is used up while the condition still holds. -/
def gphaseRaise (PI : F) : Nat → F → Option F
  | 0, p => if p < 0 then none else some p
  | fuel + 1, p => if p < 0 then gphaseRaise PI fuel (p + 2 * PI) else some p

/-- The loop `while (globalPhase >= 2 * PI) globalPhase -= 2 * PI` for at most `fuel` rounds. -/
def gphaseLower (PI : F) : Nat → F → Option F
  | 0, p => if p ≥ 2 * PI then none else some p
  | fuel + 1, p => if p ≥ 2 * PI then gphaseLower PI fuel (p - 2 * PI) else some p

/-- Source: `gphase(angle)` over an exact ordered field `F` in place of `fp`; the constant `PI` of the
missing `Definitions.hpp` is a parameter, and each loop runs for at most `fuel` rounds. -/
def gphase (PI : F) (fuel : Nat) (qc : QuantumComputation F S Var) (angle : F) :
    Option (QuantumComputation F S Var) :=
  match gphaseRaise PI fuel (qc.globalPhase + angle) with
  | none => none
  | some p1 =>
    match gphaseLower PI fuel p1 with
    | none => none
    | some p2 => some { qc with globalPhase := p2 }

end phase

/-! ### `gphase` over `double` -/

namespace Double

/-- The loop `while (globalPhase < 0) globalPhase += 2 * PI` over `double`, for at most `fuel`
rounds; `none` when the bound is used up while the condition still holds. -/
def gphaseRaise : Nat → Binary64 → Option Binary64
  | 0, p => if Binary64.lt p Binary64.zero then none else some p
  | fuel + 1, p =>
    if Binary64.lt p Binary64.zero then
      gphaseRaise fuel (Binary64.add p (Binary64.twice Binary64.PI))
    else some p

/-- The loop `while (globalPhase >= 2 * PI) globalPhase -= 2 * PI` over `double`, for at most
`fuel` rounds. -/
def gphaseLower : Nat → Binary64 → Option Binary64
  | 0, p => if Binary64.ge p (Binary64.twice Binary64.PI) then none else some p
  | fuel + 1, p =>
    if Binary64.ge p (Binary64.twice Binary64.PI) then
      gphaseLower fuel (Binary64.sub p (Binary64.twice Binary64.PI))
    else some p

/-- Source: `gphase(angle)` with `fp` the type `double`; each loop runs for at most `fuel`
rounds. -/
def gphase (fuel : Nat) (qc : QuantumComputation Binary64 S Var) (angle : Binary64) :
    Option (QuantumComputation Binary64 S Var) :=
  match gphaseRaise fuel (Binary64.add qc.globalPhase angle) with
  | none => none
  | some p1 =>
    match gphaseLower fuel p1 with
    | none => none
    | some p2 => some { qc with globalPhase := p2 }

/-- A container without qubits whose global phase is `+0`. -/
def examplePhaseCircuit : QuantumComputation Binary64 String String :=
  { ops := [], nqubits := 0, nclassics := 0, nancillae := 0, name := "", qregs := [],
    cregs := [], ancregs := [], seed := 0, globalPhase := Binary64.zero
    occurringVariables := [], initialLayout := [], outputPermutation := [], ancillary := [],
    garbage := [] }

end Double

/-- Source: `invert()`; the member function `Operation::invert` of the missing operation classes is
the parameter `opInvert`. The warning written to `std::cerr` is not part of the state. -/
def invert (opInvert : Operation F S → Operation F S) (qc : QuantumComputation F S Var) :
    QuantumComputation F S Var :=
  let ops := (qc.ops.map opInvert).reverse
  if qc.initialLayout.length = qc.outputPermutation.length then
    { qc with ops := ops, initialLayout := qc.outputPermutation,
              outputPermutation := qc.initialLayout }
  else
    { qc with ops := ops }

/-! ### `barrier` -/

/-- Modelled from the spec: `checkQubitRange(qubits)` for a vector of qubits, see `checkQubit`. -/
def checkQubits (qc : QuantumComputation F S Var) (qubits : List Qubit) : Except String Unit :=
  qubits.forM (fun q => checkQubit qc q)

/-- Source: `barrier()`: one barrier on the qubits `0, …, getNqubits() - 1`. -/
def barrier (qc : QuantumComputation F S Var) : QuantumComputation F S Var :=
  qc.emplace_back (.standard [] (List.range qc.getNqubits) OpType.Barrier [])

/-- Source: `barrier(target)`. -/
def barrierQubit (qc : QuantumComputation F S Var) (target : Qubit) :
    Except String (QuantumComputation F S Var) := do
  checkQubit qc target
  pure (qc.emplace_back (.standard [] [target] OpType.Barrier []))

/-- Source: `barrier(targets)`. -/
def barrierQubits (qc : QuantumComputation F S Var) (targets : Targets) :
    Except String (QuantumComputation F S Var) := do
  checkQubits qc targets
  pure (qc.emplace_back (.standard [] targets OpType.Barrier []))

/-! ### Counting qubits -/

/-- Source: `getNgarbageQubits()`, the number of entries `true` of `garbage`. -/
def getNgarbageQubits (qc : QuantumComputation F S Var) : Nat := qc.garbage.count true

/-- Source: `getNmeasuredQubits()`. The difference is taken in `std::size_t`, taken here to be
an unsigned type of 64 bits, in which it wraps around. -/
def getNmeasuredQubits (qc : QuantumComputation F S Var) : Nat :=
  (qc.getNqubits + 2 ^ 64 - qc.getNgarbageQubits % 2 ^ 64) % 2 ^ 64

/-! ### `asOperation` -/

/-- Source: `asCompoundOperation()`: the new operation and the container after the call. The
vector `ops` is moved into the new operation; a vector that has been moved from is empty. -/
def asCompoundOperation (qc : QuantumComputation F S Var) :
    Operation F S × QuantumComputation F S Var :=
  (.compound qc.ops, { qc with ops := [] })

/-- Source: `asOperation()`: the handle returned (`none` is the empty handle `{}`) and the
container after the call. -/
def asOperation (qc : QuantumComputation F S Var) :
    Option (Operation F S) × QuantumComputation F S Var :=
  if qc.ops.isEmpty then (none, qc)
  else if qc.ops.length = 1 then (qc.ops.head?, { qc with ops := [] })
  else (some qc.asCompoundOperation.1, qc.asCompoundOperation.2)

/-! ### Member functions with the container after a throw made explicit -/

/-- Modelled from the spec: `checkBitRange(bit)` is declared in the header and defined in a
source file that is missing. By the spec a range check fails with an out-of-range condition
if a referenced classical bit exceeds the current size of the container. -/
def checkBit (qc : QuantumComputation F S Var) (bit : Bit) : Except String Unit :=
  if bit < qc.nclassics then .ok () else .error "Classical bit index out of range"

/-- Modelled from the spec: `checkBitRange(bits)` for a vector of bits, see `checkBit`. -/
def checkBits (qc : QuantumComputation F S Var) (bits : List Bit) : Except String Unit :=
  bits.forM (fun b => checkBit qc b)

/-- Modelled from the spec: `checkClassicalRegister(creg)` is declared in the header and
defined in a source file that is missing; a classical register is a pair of a start index and
a length, and the check fails if the register exceeds the classical bits of the container. -/
def checkClassicalRegister (qc : QuantumComputation F S Var) (creg : Bit × Nat) :
    Except String Unit :=
  if creg.1 + creg.2 ≤ qc.nclassics then .ok () else .error "Classical register out of range"

/-- A member function of the container as a function of the container before the call: what
the call returns or throws, and the container after the call. -/
abbrev Statement (F S Var : Type) :=
  QuantumComputation F S Var → Except String Unit × QuantumComputation F S Var

namespace Statement

/-- A call of a `const` member function that may throw: the container is not touched. -/
def check (c : QuantumComputation F S Var → Except String Unit) : Statement F S Var :=
  fun qc => (c qc, qc)

/-- A statement that changes the container and does not throw. -/
def update (f : QuantumComputation F S Var → QuantumComputation F S Var) : Statement F S Var :=
  fun qc => (.ok (), f qc)

/-- The sequence `s; t`: when `s` throws, `t` is not run and the container is the one that `s`
has left. -/
def seq (s t : Statement F S Var) : Statement F S Var :=
  fun qc =>
    match s qc with
    | (.ok _, qc1) => t qc1
    | (.error e, qc1) => (.error e, qc1)

end Statement

namespace stmt

open Statement

section emission

variable [DecidableEq Var] (vars : S → List Var)

/-- The body of `mc##op` generated by `DEFINE_SINGLE_TARGET_OPERATION`. -/
def mcSingleTarget (op : OpType) (controls : Controls) (target : Qubit) : Statement F S Var :=
  seq (check (fun qc => checkQubitRange qc target controls))
    (update (fun qc => qc.emplace_back (.standard controls [target] op [])))

/-- The body of `mc##op` generated by `DEFINE_SINGLE_TARGET_SINGLE_PARAMETER_OPERATION`. -/
def mcSingleTargetSingleParameter (op : OpType) (param : SymbolOrNumber S F)
    (controls : Controls) (target : Qubit) : Statement F S Var :=
  seq (check (fun qc => checkQubitRange qc target controls))
    (match param with
     | .number x => update (fun qc => qc.emplace_back (.standard controls [target] op [x]))
     | _ =>
       seq (update (fun qc => addVariables vars qc [param]))
         (update (fun qc => qc.emplace_back (.symbolic controls [target] op [param]))))

/-- The body of `mc##op` generated by `DEFINE_SINGLE_TARGET_TWO_PARAMETER_OPERATION`. -/
def mcSingleTargetTwoParameter (op : OpType) (param0 param1 : SymbolOrNumber S F)
    (controls : Controls) (target : Qubit) : Statement F S Var :=
  seq (check (fun qc => checkQubitRange qc target controls))
    (match param0, param1 with
     | .number x0, .number x1 =>
       update (fun qc => qc.emplace_back (.standard controls [target] op [x0, x1]))
     | _, _ =>
       seq (update (fun qc => addVariables vars qc [param0, param1]))
         (update (fun qc => qc.emplace_back (.symbolic controls [target] op [param0, param1]))))

/-- The body of `mc##op` generated by `DEFINE_SINGLE_TARGET_THREE_PARAMETER_OPERATION`. -/
def mcSingleTargetThreeParameter (op : OpType) (param0 param1 param2 : SymbolOrNumber S F)
    (controls : Controls) (target : Qubit) : Statement F S Var :=
  seq (check (fun qc => checkQubitRange qc target controls))
    (match param0, param1, param2 with
     | .number x0, .number x1, .number x2 =>
       update (fun qc => qc.emplace_back (.standard controls [target] op [x0, x1, x2]))
     | _, _, _ =>
       seq (update (fun qc => addVariables vars qc [param0, param1, param2]))
         (update (fun qc =>
           qc.emplace_back (.symbolic controls [target] op [param0, param1, param2]))))

/-- The body of `mc##op` generated by `DEFINE_TWO_TARGET_OPERATION`. -/
def mcTwoTarget (op : OpType) (controls : Controls) (target0 target1 : Qubit) :
    Statement F S Var :=
  seq (check (fun qc => checkQubitRange2 qc target0 target1 controls))
    (update (fun qc => qc.emplace_back (.standard controls [target0, target1] op [])))

/-- The body of `mc##op` generated by `DEFINE_TWO_TARGET_SINGLE_PARAMETER_OPERATION`. -/
def mcTwoTargetSingleParameter (op : OpType) (param : SymbolOrNumber S F)
    (controls : Controls) (target0 target1 : Qubit) : Statement F S Var :=
  seq (check (fun qc => checkQubitRange2 qc target0 target1 controls))
    (match param with
     | .number x =>
       update (fun qc => qc.emplace_back (.standard controls [target0, target1] op [x]))
     | _ =>
       seq (update (fun qc => addVariables vars qc [param]))
         (update (fun qc => qc.emplace_back (.symbolic controls [target0, target1] op [param]))))

/-- The body of `mc##op` generated by `DEFINE_TWO_TARGET_TWO_PARAMETER_OPERATION`. -/
def mcTwoTargetTwoParameter (op : OpType) (param0 param1 : SymbolOrNumber S F)
    (controls : Controls) (target0 target1 : Qubit) : Statement F S Var :=
  seq (check (fun qc => checkQubitRange2 qc target0 target1 controls))
    (match param0, param1 with
     | .number x0, .number x1 =>
       update (fun qc => qc.emplace_back (.standard controls [target0, target1] op [x0, x1]))
     | _, _ =>
       seq (update (fun qc => addVariables vars qc [param0, param1]))
         (update (fun qc =>
           qc.emplace_back (.symbolic controls [target0, target1] op [param0, param1]))))

end emission

/-- Source: `measure(qubit, bit)`; the operation built from a qubit and a bit is a
measurement. -/
def measure (qubit : Qubit) (bit : Bit) : Statement F S Var :=
  seq (check (fun qc => checkQubit qc qubit))
    (seq (check (fun qc => checkBit qc bit))
      (update (fun qc => qc.emplace_back (.nonUnitary [qubit] [bit] OpType.Measure))))

/-- Source: `measure(qubits, bits)`. -/
def measureQubits (qubits : Targets) (bits : List Bit) : Statement F S Var :=
  seq (check (fun qc => checkQubits qc qubits))
    (seq (check (fun qc => checkBits qc bits))
      (update (fun qc => qc.emplace_back (.nonUnitary qubits bits OpType.Measure))))

/-- Source: `reset(target)`. -/
def reset (target : Qubit) : Statement F S Var :=
  seq (check (fun qc => checkQubit qc target))
    (update (fun qc => qc.emplace_back (.nonUnitary [target] [] OpType.Reset)))

/-- Source: `reset(targets)`. -/
def resetQubits (targets : Targets) : Statement F S Var :=
  seq (check (fun qc => checkQubits qc targets))
    (update (fun qc => qc.emplace_back (.nonUnitary targets [] OpType.Reset)))

/-- Source: `barrier(target)`. -/
def barrier (target : Qubit) : Statement F S Var :=
  seq (check (fun qc => checkQubit qc target))
    (update (fun qc => qc.emplace_back (.standard [] [target] OpType.Barrier [])))

/-- Source: `barrier(targets)`. -/
def barrierQubits (targets : Targets) : Statement F S Var :=
  seq (check (fun qc => checkQubits qc targets))
    (update (fun qc => qc.emplace_back (.standard [] targets OpType.Barrier [])))

/-- Source: `classicControlled(op, target, controls, controlRegister, expectedValue, cmp,
params)`, the overload with a set of controls. -/
def classicControlled (op : OpType) (target : Qubit) (controls : Controls)
    (controlRegister : Bit × Nat) (expectedValue : Nat) (cmp : ComparisonKind)
    (params : List F) : Statement F S Var :=
  seq (check (fun qc => checkQubitRange qc target controls))
    (seq (check (fun qc => checkClassicalRegister qc controlRegister))
      (update (fun qc => qc.emplace_back
        (.classicControlled (.standard controls [target] op params) controlRegister
          expectedValue cmp))))

/-- Source: `classicControlled(op, target, controlRegister, expectedValue, cmp, params)`, the
overload without controls. -/
def classicControlledNoControl (op : OpType) (target : Qubit) (controlRegister : Bit × Nat)
    (expectedValue : Nat) (cmp : ComparisonKind) (params : List F) : Statement F S Var :=
  classicControlled op target [] controlRegister expectedValue cmp params

/-- Source: `classicControlled(op, target, control, controlRegister, expectedValue, cmp,
params)`, the overload with a single control. -/
def classicControlledSingleControl (op : OpType) (target : Qubit) (control : Control)
    (controlRegister : Bit × Nat) (expectedValue : Nat) (cmp : ComparisonKind)
    (params : List F) : Statement F S Var :=
  classicControlled op target [control] controlRegister expectedValue cmp params

/-- The default argument `expectedValue = 1U` of `classicControlled`. -/
def defaultExpectedValue : Nat := 1

/-- The default argument `cmp = ComparisonKind::Eq` of `classicControlled`. -/
def defaultCmp : ComparisonKind := ComparisonKind.Eq

/-- The default argument `params = {}` of `classicControlled`. -/
def defaultParams : List F := []

end stmt

/-- The three overloads `op`, `c##op` and `mc##op` of a gate: they differ in the set of
controls that reaches the body of `mc##op`, which is `Controls{}`, `Controls{control}` or the
argument `controls`. -/
inductive ControlForm where
  | op
  | c (control : Control)
  | mc (controls : Controls)

/-- The set of controls that the overload passes to the body of `mc##op`. -/
def ControlForm.controls : ControlForm → Controls
  | .op => []
  | .c control => [control]
  | .mc controls => controls

/-- A call of one of the functions that append an operation after a range check: the seven
families of gate functions with the type of the gate and the overload, `measure`, `reset`,
`barrier` on one or on several qubits, and `classicControlled`. -/
inductive EmissionCall (F S : Type) where
  | singleTarget (op : OpType) (form : ControlForm) (target : Qubit)
  | singleTargetSingleParameter (op : OpType) (param : SymbolOrNumber S F) (form : ControlForm)
      (target : Qubit)
  | singleTargetTwoParameter (op : OpType) (param0 param1 : SymbolOrNumber S F)
      (form : ControlForm) (target : Qubit)
  | singleTargetThreeParameter (op : OpType) (param0 param1 param2 : SymbolOrNumber S F)
      (form : ControlForm) (target : Qubit)
  | twoTarget (op : OpType) (form : ControlForm) (target0 target1 : Qubit)
  | twoTargetSingleParameter (op : OpType) (param : SymbolOrNumber S F) (form : ControlForm)
      (target0 target1 : Qubit)
  | twoTargetTwoParameter (op : OpType) (param0 param1 : SymbolOrNumber S F)
      (form : ControlForm) (target0 target1 : Qubit)
  | measure (qubit : Qubit) (bit : Bit)
  | measureQubits (qubits : Targets) (bits : List Bit)
  | reset (target : Qubit)
  | resetQubits (targets : Targets)
  | barrier (target : Qubit)
  | barrierQubits (targets : Targets)
  | classicControlled (op : OpType) (target : Qubit) (form : ControlForm)
      (controlRegister : Bit × Nat) (expectedValue : Nat) (cmp : ComparisonKind)
      (params : List F)

/-- The member function that a call stands for. -/
def EmissionCall.run [DecidableEq Var] (vars : S → List Var) :
    EmissionCall F S → Statement F S Var
  | .singleTarget op form target => stmt.mcSingleTarget op form.controls target
  | .singleTargetSingleParameter op param form target =>
    stmt.mcSingleTargetSingleParameter vars op param form.controls target
  | .singleTargetTwoParameter op param0 param1 form target =>
    stmt.mcSingleTargetTwoParameter vars op param0 param1 form.controls target
  | .singleTargetThreeParameter op param0 param1 param2 form target =>
    stmt.mcSingleTargetThreeParameter vars op param0 param1 param2 form.controls target
  | .twoTarget op form target0 target1 => stmt.mcTwoTarget op form.controls target0 target1
  | .twoTargetSingleParameter op param form target0 target1 =>
    stmt.mcTwoTargetSingleParameter vars op param form.controls target0 target1
  | .twoTargetTwoParameter op param0 param1 form target0 target1 =>
    stmt.mcTwoTargetTwoParameter vars op param0 param1 form.controls target0 target1
  | .measure qubit bit => stmt.measure qubit bit
  | .measureQubits qubits bits => stmt.measureQubits qubits bits
  | .reset target => stmt.reset target
  | .resetQubits targets => stmt.resetQubits targets
  | .barrier target => stmt.barrier target
  | .barrierQubits targets => stmt.barrierQubits targets
  | .classicControlled op target form controlRegister expectedValue cmp params =>
    stmt.classicControlled op target form.controls controlRegister expectedValue cmp params

/-- The range checks of a call in the order in which its body makes them. -/
def EmissionCall.rangeChecks (qc : QuantumComputation F S Var) :
    EmissionCall F S → Except String Unit
  | .singleTarget _ form target => checkQubitRange qc target form.controls
  | .singleTargetSingleParameter _ _ form target => checkQubitRange qc target form.controls
  | .singleTargetTwoParameter _ _ _ form target => checkQubitRange qc target form.controls
  | .singleTargetThreeParameter _ _ _ _ form target =>
    checkQubitRange qc target form.controls
  | .twoTarget _ form target0 target1 => checkQubitRange2 qc target0 target1 form.controls
  | .twoTargetSingleParameter _ _ form target0 target1 =>
    checkQubitRange2 qc target0 target1 form.controls
  | .twoTargetTwoParameter _ _ _ form target0 target1 =>
    checkQubitRange2 qc target0 target1 form.controls
  | .measure qubit bit => do checkQubit qc qubit; checkBit qc bit
  | .measureQubits qubits bits => do checkQubits qc qubits; checkBits qc bits
  | .reset target => checkQubit qc target
  | .resetQubits targets => checkQubits qc targets
  | .barrier target => checkQubit qc target
  | .barrierQubits targets => checkQubits qc targets
  | .classicControlled _ target form controlRegister _ _ _ => do
    checkQubitRange qc target form.controls
    checkClassicalRegister qc controlRegister

/-! ### `reset`, the counts and `findAndSWAP` -/

/-- Source: `getNancillae()`. -/
def getNancillae (qc : QuantumComputation F S Var) : Nat := qc.nancillae

/-- Source: `getNcbits()`. -/
def getNcbits (qc : QuantumComputation F S Var) : Nat := qc.nclassics

/-- Source: the parameterless `reset()`: the assignments and the calls of `clear()` of its
body; no other data member is mentioned there. -/
def reset (qc : QuantumComputation F S Var) : QuantumComputation F S Var :=
  { qc with ops := [], nqubits := 0, nclassics := 0, nancillae := 0, qregs := [], cregs := []
            ancregs := [], initialLayout := [], outputPermutation := [] }

/-- The assignment of `value` to the entry of the key `key` of a layout, as done through the
reference returned by `map.at(key)`. -/
def assignAt (key value : Qubit) (map : Permutation) : Permutation :=
  map.map (fun q => if q.1 = key then (key, value) else q)

/-- Source: `findAndSWAP(targetValue, newPosition, map)`. The entries of `map` are listed in
the order of iteration; the loop stops at the first entry whose value is `targetValue`, and
`std::swap` exchanges the values found by `map.at(newPosition)` and `map.at(q.first)`, where
`at` throws `std::out_of_range` for a key that is not present. -/
def findAndSWAP (targetValue newPosition : Qubit) (map : Permutation) :
    Except String Permutation :=
  match map.find? (fun q => decide (q.2 = targetValue)) with
  | none => .ok map
  | some q =>
    match mapFind newPosition map, mapFind q.1 map with
    | some a, some b => .ok (assignAt q.1 a (assignAt newPosition b map))
    | _, _ => .error "std::out_of_range"

/-- A layout for the examples: four physical qubits in the order of their indices. -/
def exampleLayout : Permutation := [(0, 2), (1, 0), (2, 3), (3, 1)]

end QuantumComputation

end qc

/-! ## `dd/Operations.cpp` -/

namespace dd

open qc

variable {F S : Type}

/-- Modelled from the spec: the collaborators of `dumpTensor` that are missing from the
sources. `getName` is `Operation::getName`, `getMatrix localOp n` is the matrix
`getDD(localOp, dd).getMatrix(n)` of the decision-diagram package as rows of complex numbers
`(real, imag)`, and `showFp` is the text written by `operator<<` for a number at the
precision `max_digits10`. -/
structure Package (F S : Type) where
  getName : Operation F S → String
  getMatrix : Operation F S → Nat → List (List (F × F))
  showFp : F → String

/-- The ways in which a call of `dumpTensor` does not return: the exception thrown in its
last branch, or an operation that the language leaves undefined: the dereference of
`orderedQubits.rbegin()` on an empty map, and the unchecked access `inds[qubit]` for a
`qubit` that is not below `inds.size()`. -/
inductive DumpError where
  | exception (what : String)
  | undefinedBehaviour
  deriving DecidableEq

/-- The type `std::variant<qc::Qubit, qc::Control>` of the values of `orderedQubits`. -/
inductive QubitOrControl where
  | target (q : Qubit)
  | control (c : Control)
  deriving DecidableEq

/-- The map `orderedQubits` as the list of its entries in ascending key order. -/
abbrev OrderedQubits := List (Qubit × QubitOrControl)

/-- Source: `orderedQubits.emplace(k, v)`: nothing happens when the key is already present. -/
def emplace (k : Qubit) (v : QubitOrControl) : OrderedQubits → OrderedQubits
  | [] => [(k, v)]
  | e :: rest =>
    if k < e.1 then (k, v) :: e :: rest
    else if k = e.1 then e :: rest
    else e :: emplace k v rest

/-- The two loops over the controls and the targets: each fills `orderedQubits` and writes
the tag of the qubit to the stream. -/
def dumpQubitTags (controls : Controls) (targets : Targets) (out : String) :
    String × OrderedQubits :=
  let afterControls := controls.foldl
    (fun (st : String × OrderedQubits) control =>
      (st.1 ++ "\"Q" ++ toString control.qubit ++ "\", ",
       emplace control.qubit (QubitOrControl.control control) st.2))
    (out, [])
  targets.foldl
    (fun (st : String × OrderedQubits) target =>
      (st.1 ++ "\"Q" ++ toString target ++ "\", ",
       emplace target (QubitOrControl.target target) st.2))
    afterControls

/-- The increment `++c` of a counter of type `std::size_t`, a 64-bit unsigned number: the
successor of the largest value is 0. -/
def wrapIncr (c : Nat) : Nat := (c + 1) % 2 ^ 64

/-- The state of the index generation: the streams `ssIn` and `ssOut` and the counters, which
are values of `std::size_t`. -/
structure IndexState where
  ssIn : String
  ssOut : String
  inds : List Nat

/-- One round of the `while` loop of the index generation. The access `inds[qubit]` is not
checked: for a `qubit` that is not below the size of the vector nothing is defined. The
out-leg is written after the increment `++ind`. -/
def indexStep (st : IndexState) (e : Qubit × QubitOrControl) : Except DumpError IndexState :=
  let qubit := e.1
  match st.inds[qubit]? with
  | none => .error DumpError.undefinedBehaviour
  | some ind =>
    .ok { ssIn := st.ssIn ++ ", \"q" ++ toString qubit ++ "_" ++ toString ind ++ "\""
          ssOut := st.ssOut ++ ", \"q" ++ toString qubit ++ "_" ++ toString (wrapIncr ind)
            ++ "\""
          inds := st.inds.set qubit (wrapIncr ind) }

/-- The index generation: `orderedQubits` is traversed from `rbegin()` to `rend()`, the first
entry outside the loop. The argument is the map in ascending key order. -/
def dumpIndices (orderedQubits : OrderedQubits) (inds : List Nat) : Except DumpError IndexState :=
  match orderedQubits.reverse with
  | [] => .error DumpError.undefinedBehaviour
  | e :: rest =>
    let qubit := e.1
    match inds[qubit]? with
    | none => .error DumpError.undefinedBehaviour
    | some idx =>
      rest.foldlM indexStep
        { ssIn := "\"q" ++ toString qubit ++ "_" ++ toString idx ++ "\""
          ssOut := "\"q" ++ toString qubit ++ "_" ++ toString (wrapIncr idx) ++ "\""
          inds := inds.set qubit (wrapIncr idx) }

/-- The loop that writes the tensor dimensions. -/
def dumpDimensions (localQubits : Nat) (out : String) : String :=
  (List.range localQubits).foldl
    (fun out q => (if q ≠ 0 then out ++ ", " else out) ++ "2" ++ ", " ++ "2") out

/-- The state of the loop that builds the local operation. -/
structure LocalState where
  localIdx : Qubit
  localControls : Controls
  localTargets : Targets

/-- The loop over `orderedQubits` that builds `localControls` and `localTargets`. -/
def localFrame (orderedQubits : OrderedQubits) : LocalState :=
  orderedQubits.foldl
    (fun (st : LocalState) e =>
      match e.2 with
      | .target _ =>
        { st with localTargets := st.localTargets ++ [st.localIdx], localIdx := st.localIdx + 1 }
      | .control control =>
        { st with localControls := setEmplace st.localControls ⟨st.localIdx, control.type⟩,
                  localIdx := st.localIdx + 1 })
    { localIdx := 0, localControls := [], localTargets := [] }

/-- The local operation handed to `getDD`. -/
def localOperation (op : Operation F S) (orderedQubits : OrderedQubits) : Operation F S :=
  let st := localFrame orderedQubits
  (op.setControls st.localControls).setTargets st.localTargets

/-- The two nested loops that write the tensor data. -/
def dumpData (dd : Package F S) (localMatrix : List (List (F × F))) (out : String) : String :=
  localMatrix.enum.foldl
    (fun out (r : Nat × List (F × F)) =>
      r.2.enum.foldl
        (fun out (c : Nat × (F × F)) =>
          (if r.1 ≠ 0 ∨ c.1 ≠ 0 then out ++ ", " else out)
            ++ "[" ++ dd.showFp c.2.1 ++ ", " ++ dd.showFp c.2.2 ++ "]")
        out)
    out

/-- The result of a call: the stream, the counters `inds` and the counter `gateIdx`. The
counters are values of `std::size_t` passed by reference; every increment of one of them is
made with `wrapIncr`. -/
structure DumpState where
  out : String
  inds : List Nat
  gateIdx : Nat

/-- The first branch of `dumpTensor`, taken when `op->isStandardOperation()`. -/
def dumpStandard (dd : Package F S) (op : Operation F S) (st : DumpState) :
    Except DumpError DumpState :=
  let controls := op.getControls
  let targets := op.getTargets
  let out := st.out ++ "["
  let out := out ++ "[\"" ++ dd.getName op ++ "\", "
  let tagged := dumpQubitTags controls targets out
  let orderedQubits := tagged.2
  let out := tagged.1 ++ "\"GATE" ++ toString st.gateIdx ++ "\"], "
  let gateIdx := wrapIncr st.gateIdx
  match dumpIndices orderedQubits st.inds with
  | .error err => .error err
  | .ok ix =>
    let out := out ++ "[" ++ ix.ssIn ++ ", " ++ ix.ssOut ++ "], "
    let localQubits := targets.length + controls.length
    let out := dumpDimensions localQubits (out ++ "[") ++ "], "
    let localMatrix := dd.getMatrix (localOperation op orderedQubits) localQubits
    let out := dumpData dd localMatrix (out ++ "[") ++ "]"
    .ok { out := out ++ "]", inds := ix.inds, gateIdx := gateIdx }

/-- The last three branches of `dumpTensor`, which look at the type only. -/
def dumpOther (type : OpType) (st : DumpState) : Except DumpError DumpState :=
    if type = OpType.Barrier then .ok st
    else if type = OpType.Measure then .ok st
    else .error (DumpError.exception
      "Dumping of tensors is currently only supported for StandardOperations.")

mutual
/-- Source: `dumpTensor(op, of, inds, gateIdx, dd)`. The constructor `standard` is the case
`op->isStandardOperation()`, the constructor `compound` the case in which the
`dynamic_cast` to `CompoundOperation` succeeds. -/
def dumpTensor (dd : Package F S) : Operation F S → DumpState → Except DumpError DumpState
  | .standard controls targets type params, st =>
    dumpStandard dd (.standard controls targets type params) st
  | .compound ops, st => dumpChildren dd ops true st
  | .symbolic _ _ type _, st => dumpOther type st
  | .nonUnitary _ _ type, st => dumpOther type st
  | .classicControlled _ _ _ _, st => dumpOther OpType.ClassicControlled st
/-- The loop over the children of a compound operation; `first` tells that the child at the
head of the list is `*compoundOp->begin()`. -/
def dumpChildren (dd : Package F S) :
    List (Operation F S) → Bool → DumpState → Except DumpError DumpState
  | [], _, st => .ok st
  | operation :: rest, first, st =>
    let st1 := if first then st else { st with out := st.out ++ ",\n" }
    match dumpTensor dd operation st1 with
    | .error err => .error err
    | .ok st2 => dumpChildren dd rest false st2
end

/-! ### Notions used to state the properties of `dumpTensor` -/

/-- The name of a leg as it is written to the stream: `q<qubit>_<c>` in double quotes. -/
def legName (qubit c : Nat) : String :=
  "\"q" ++ toString qubit ++ "_" ++ toString c ++ "\""

/-- The keys of `orderedQubits`. -/
def keys (m : OrderedQubits) : List Qubit := m.map Prod.fst

/-- The increment `++inds[qubit]` for a `qubit` below the size of the vector. -/
def bump (inds : List Nat) (qubit : Qubit) : List Nat :=
  inds.set qubit (wrapIncr (inds.getD qubit 0))

/-- The strings of a list one after the other. -/
def catAll (l : List String) : String := l.foldr (fun a r => a ++ r) ""

/-- The map filled by the two loops over the controls and the targets. -/
def orderedQubitsOf (controls : Controls) (targets : Targets) : OrderedQubits :=
  targets.foldl (fun m target => emplace target (QubitOrControl.target target) m)
    (controls.foldl (fun m control => emplace control.qubit (QubitOrControl.control control) m) [])

/-- The tags written by the two loops over the controls and the targets. -/
def qubitTags (controls : Controls) (targets : Targets) : String :=
  catAll (controls.map (fun control => "\"Q" ++ toString control.qubit ++ "\", ")) ++
    catAll (targets.map (fun target => "\"Q" ++ toString target ++ "\", "))

/-- The qubits an operation involves: those of its controls, then its targets. -/
def involvedQubits (op : Operation F S) : List Qubit :=
  op.getControls.map Control.qubit ++ op.getTargets

/-- The order-preserving map from the involved qubits onto `0, …, k - 1`: the rank of `q` is
the number of distinct involved qubits below `q`. -/
def rank (involved : List Qubit) (q : Qubit) : Nat :=
  ((involved.filter (fun p => decide (p < q))).dedup).length

/-- The local copy of an operation in the words of the spec: every control on `q` becomes a
control of the same polarity on the rank of `q`, and the target list is mapped to the ranks
of its elements in the same order. -/
def renamedOperation (op : Operation F S) : Operation F S :=
  (op.setControls (op.getControls.map
      (fun c => { qubit := rank (involvedQubits op) c.qubit, type := c.type }))).setTargets
    (op.getTargets.map (rank (involvedQubits op)))

/-- The text of one entry of the tensor data: `[real, imag]`. -/
def pairText (dd : Package F S) (elem : F × F) : String :=
  "[" ++ dd.showFp elem.1 ++ ", " ++ dd.showFp elem.2 ++ "]"

/-- The entries of a matrix in row-major order. -/
def rowMajor (m : List (List (F × F))) : List (F × F) := m.flatten

/-- The matrix returned by the backend for the local copy of an operation. -/
def localMatrix (dd : Package F S) (op : Operation F S) : List (List (F × F)) :=
  dd.getMatrix (localOperation op (dumpQubitTags op.getControls op.getTargets "").2)
    (op.getTargets.length + op.getControls.length)

mutual
/-- The standard operations at the leaves of an operation tree, in the order in which
`dumpTensor` visits them. -/
def standardLeaves : Operation F S → List (Operation F S)
  | .standard controls targets type params => [.standard controls targets type params]
  | .compound ops => standardLeavesOf ops
  | .symbolic _ _ _ _ => []
  | .nonUnitary _ _ _ => []
  | .classicControlled _ _ _ _ => []
/-- The standard leaves of the children of a compound operation. -/
def standardLeavesOf : List (Operation F S) → List (Operation F S)
  | [] => []
  | op :: rest => standardLeaves op ++ standardLeavesOf rest
end

/-- The labels of the record of an operation with the ordinal `g`: the name of the
operation, a tag `Q<q>` for the qubit of every control, a tag `Q<q>` for every target in the
order of the target list, and the tag `GATE<g>`. -/
def recordLabels (dd : Package F S) (op : Operation F S) (g : Nat) : List String :=
  [dd.getName op] ++ op.getControls.map (fun c => "Q" ++ toString c.qubit)
    ++ op.getTargets.map (fun t => "Q" ++ toString t) ++ ["GATE" ++ toString g]

/-- A tuple of labels as it is written to the stream: every label in double quotes, the
labels separated by `, ` and enclosed in square brackets. -/
def labelTuple (labels : List String) : String :=
  "[" ++ ", ".intercalate (labels.map (fun l => "\"" ++ l ++ "\"")) ++ "]"

/-- The part of a record after the label tuple: the index list made of the in-legs and the
out-legs of the involved qubits in descending order (an out-leg carries the incremented
counter), the dimensions and the data, and the closing bracket of the record. -/
def recordBody (dd : Package F S) (op : Operation F S) (inds : List Nat) : String :=
  ("[" ++ ", ".intercalate ((keys (orderedQubitsOf op.getControls op.getTargets)).reverse.map
        (fun q => legName q (inds.getD q 0)))
      ++ ", " ++ ", ".intercalate
        ((keys (orderedQubitsOf op.getControls op.getTargets)).reverse.map
          (fun q => legName q (wrapIncr (inds.getD q 0)))) ++ "], ")
    ++ ("[" ++ dumpDimensions (op.getTargets.length + op.getControls.length) "" ++ "], ")
    ++ ("[" ++ dumpData dd (localMatrix dd op) "" ++ "]")
    ++ "]"

/-- The record of an operation exported with the counters `inds` and the ordinal `g`. -/
def recordText (dd : Package F S) (op : Operation F S) (inds : List Nat) (g : Nat) : String :=
  "[" ++ labelTuple (recordLabels dd op g) ++ ", " ++ recordBody dd op inds

/-- The counters after the record of an operation: the counter of every involved qubit has
been incremented. -/
def countersAfter (op : Operation F S) (inds : List Nat) : List Nat :=
  (keys (orderedQubitsOf op.getControls op.getTargets)).reverse.foldl bump inds

/-- The records of a list of operations exported one after the other, starting with the
counters `inds` and the ordinal `g`; the ordinal is incremented after every record. -/
def recordsFrom (dd : Package F S) : List (Operation F S) → List Nat → Nat → List String
  | [], _, _ => []
  | op :: rest, inds, g =>
    recordText dd op inds g :: recordsFrom dd rest (countersAfter op inds) (wrapIncr g)

/-- The text made of separator texts and records in turn: a separator text, a record, a
separator text, and so on, ending with a separator text. -/
def weave : List String → List String → String
  | [], _ => ""
  | s :: _, [] => s
  | s :: seps, r :: recs => s ++ r ++ weave seps recs

/-- A separator text: the separator `,\n` written any number of times. -/
def SeparatorText (s : String) : Prop := ∃ k, s = catAll (List.replicate k ",\n")

/-- What an export leaves behind, for the standard leaves it has visited: the ordinal has
been incremented once for each of them, the counters are those after their records, and the
stream has received their records, each with the next ordinal, with separator texts around
them. -/
def Exported (dd : Package F S) (leaves : List (Operation F S)) (st st' : DumpState) : Prop :=
  st'.gateIdx = wrapIncr^[leaves.length] st.gateIdx ∧
  st'.inds = leaves.foldl (fun inds leaf => countersAfter leaf inds) st.inds ∧
  ∃ seps : List String, seps.length = leaves.length + 1 ∧ (∀ s ∈ seps, SeparatorText s) ∧
    st'.out = st.out ++ weave seps (recordsFrom dd leaves st.inds st.gateIdx)

/-- A backend for the examples: every gate is called `x`, the matrix of a gate on `n` qubits
is the `2^n × 2^n` matrix of ones, and a number is written in decimal. -/
def examplePackage : Package Nat String :=
  { getName := fun _ => "x"
    getMatrix := fun _ n => List.replicate (2 ^ n) (List.replicate (2 ^ n) (1, 0))
    showFp := fun x => toString x }

/-- A controlled gate with control 3 and target 1. -/
def exampleGate : Operation Nat String :=
  Operation.standard [⟨3, Polarity.pos⟩] [1] OpType.x []

/-- A gate on the two targets 3 and 1, in this order, without controls. -/
def exampleTwoTargetGate : Operation Nat String :=
  Operation.standard [] [3, 1] OpType.ecr []

/-- A gate on the single target 0. -/
def exampleSingleQubitGate : Operation Nat String :=
  Operation.standard [] [0] OpType.x []

/-- A measurement of qubit 0 into bit 0, as `measure(0, 0)` appends it. -/
def exampleMeasurement : Operation Nat String :=
  Operation.nonUnitary [0] [0] OpType.Measure

/-- A state of the export with four counters. -/
def exampleDumpState : DumpState := { out := "", inds := [0, 0, 0, 7], gateIdx := 4 }

/-- A state of the export in which the counter of qubit 3 and the gate counter hold the
largest value of `std::size_t`. -/
def wrappingDumpState : DumpState :=
  { out := "", inds := [0, 0, 0, 2 ^ 64 - 1], gateIdx := 2 ^ 64 - 1 }

/-- A gate on the single target 9, a qubit for which the example states have no counter. -/
def exampleFarGate : Operation Nat String :=
  Operation.standard [] [9] OpType.x []

/-- A compound operation for the examples: a gate, a measurement and a controlled gate. -/
def exampleCompound : Operation Nat String :=
  Operation.compound [exampleSingleQubitGate, exampleMeasurement, exampleGate]

end dd

namespace qc

/-! ### Notions used to state the properties of the graph and of the container -/

namespace UndirectedGraph

variable {V E : Type} [DecidableEq V]

/-- The representation invariant of the graph: the two maps are inverse to each other on the
indices below `nVertices`, row `i` of the adjacency table has `nVertices - i` entries, and
`degrees[i]` counts the indices `j` for which the entry of the pair `(i, j)` is present. -/
structure Inv (g : UndirectedGraph V E) : Prop where
  map_inv : ∀ v i, mapFind v g.mapping = some i →
    i < g.nVertices ∧ mapFind i g.invMapping = some v
  inv_map : ∀ i, i < g.nVertices →
    ∃ v, mapFind i g.invMapping = some v ∧ mapFind v g.mapping = some i
  rows : g.adjacencyMatrix.length = g.nVertices
  cols : ∀ i, i < g.nVertices → (g.adjacencyMatrix.getD i []).length = g.nVertices - i
  degs : g.degrees.length = g.nVertices
  deg_count : ∀ i, i < g.nVertices →
    g.degrees.getD i 0 = (List.range g.nVertices).countP (g.present i)

/-- The entry of the adjacency table that belongs to the pair of indices `(i, j)`:
`i < j ? adjacencyMatrix[i][j - i] : adjacencyMatrix[j][i - j]`. -/
def slot (g : UndirectedGraph V E) (i j : Nat) : Option E :=
  if i < j then g.entry i (j - i) else g.entry j (i - j)

/-- The label that `getEdge(a, b)` returns, if it returns one. -/
def edgeOpt (g : UndirectedGraph V E) (a b : V) : Option E :=
  (mapFind a g.mapping).bind (fun i => (mapFind b g.mapping).bind (fun j => g.slot i j))

/-- The part of the representation invariant that does not depend on the labels: the two maps
are inverse to each other on the indices below `nVertices`, row `i` of the adjacency table
has `nVertices - i` entries, and there are `nVertices` degree counters. -/
structure WellFormed (g : UndirectedGraph V E) : Prop where
  map_inv : ∀ v i, mapFind v g.mapping = some i →
    i < g.nVertices ∧ mapFind i g.invMapping = some v
  inv_map : ∀ i, i < g.nVertices →
    ∃ v, mapFind i g.invMapping = some v ∧ mapFind v g.mapping = some i
  rows : g.adjacencyMatrix.length = g.nVertices
  cols : ∀ i, i < g.nVertices → (g.adjacencyMatrix.getD i []).length = g.nVertices - i
  degs : g.degrees.length = g.nVertices

/-- Source: `addVertex(v)` with the graph made explicit on both outcomes: the first component
is what the call returns or throws, the second the graph after the call. The test comes
first; the branch that throws contains no assignment. -/
def addVertexState (g : UndirectedGraph V E) (v : V) : Except String Unit × UndirectedGraph V E :=
  if mapFind v g.mapping = none then
    (.ok (),
      { adjacencyMatrix := g.adjacencyMatrix.map (fun row => row ++ [none]) ++ [[none]]
        mapping := (v, g.nVertices) :: g.mapping
        invMapping := (g.nVertices, v) :: g.invMapping
        nVertices := g.nVertices + 1
        nEdges := g.nEdges
        degrees := g.degrees ++ [0] })
  else (.error "The vertex is already in the graph.", g)

/-- A call of `addEdge` mentions the unordered pair `{a, b}`. -/
def Call.onPair (a b : V) : Call V E → Prop
  | .addVertex _ => False
  | .addEdge x y _ => (x = a ∧ y = b) ∨ (x = b ∧ y = a)

/-- The access `adjacencyMatrix[r][c]` with the bounds of the two vectors: `none` when `r` or
`c` is out of range, where `operator[]` has no defined result. -/
def entry? (g : UndirectedGraph V E) (r c : Nat) : Option (Option E) :=
  (g.adjacencyMatrix[r]?).bind (fun row => row[c]?)

/-- The access `i < j ? adjacencyMatrix[i][j - i] : adjacencyMatrix[j][i - j]` with the bounds
of the vectors. -/
def slot? (g : UndirectedGraph V E) (i j : Nat) : Option (Option E) :=
  if i < j then g.entry? i (j - i) else g.entry? j (i - j)

/-- The unordered pairs of elements of a list, self-pairs included: every element is paired
with itself and with each of the elements after it. -/
def unorderedPairs {A : Type} : List A → List (A × A)
  | [] => []
  | a :: rest => (a :: rest).map (fun b => (a, b)) ++ unorderedPairs rest

/-- The number of pairs of indices `j ≤ i < n` for which `p i j` holds. -/
def pairCount (p : Nat → Nat → Bool) : Nat → Nat
  | 0 => 0
  | n + 1 => pairCount p n + (List.range (n + 1)).countP (p n)

/-- The empty graph with numbers as vertices and as labels. -/
def emptyGraph : UndirectedGraph Nat Nat := {}

/-- A sequence of calls with present labels: an edge, its re-labelling in the other
argument order, a self-loop and a further vertex. -/
def exampleCalls : List (Call Nat Nat) :=
  [Call.addEdge 0 1 (some 5), Call.addEdge 1 0 (some 7), Call.addEdge 1 1 (some 7),
   Call.addVertex 2]

end UndirectedGraph

/-- The entry of the register array for the local index `i` of a register. -/
def registerEntry (reg : String × Nat × Nat) (i : Nat) : String × String :=
  (reg.1, reg.1 ++ "[" ++ toString i ++ "]")

/-- The index `k` lies in the range of a register. -/
def inRegister (reg : String × Nat × Nat) (k : Nat) : Prop :=
  reg.2.1 ≤ k ∧ k < reg.2.1 + reg.2.2

/-- The registers of a list tile `[0, n)`: every index below `n` lies in a register, no index
lies in two registers, and no register reaches beyond `n`. -/
def Tiles (regs : List (String × Nat × Nat)) (n : Nat) : Prop :=
  (∀ k, k < n → ∃ r ∈ regs, inRegister r k) ∧
  regs.Pairwise (fun r1 r2 => ∀ k, ¬ (inRegister r1 k ∧ inRegister r2 k)) ∧
  ∀ r ∈ regs, ∀ k, inRegister r k → k < n

/-- Some register of the map contains the index `k`. -/
def RegisterMap.covers (regs : RegisterMap) (k : Nat) : Prop :=
  ∃ r ∈ regs, inRegister r k

/-- No index lies in two registers of the map. -/
def RegisterMap.NoOverlap (regs : RegisterMap) : Prop :=
  regs.Pairwise (fun r1 r2 => ∀ k, ¬ (inRegister r1 k ∧ inRegister r2 k))

/-- Two quantum registers and an ancillary register that tile `[0, 6)`, in the order of
their names. -/
def exampleRegisters : RegisterMap := [("anc", 5, 1), ("q", 0, 3), ("r", 3, 2)]

/-- The number of scans of the map, that is, of rounds of the `while` loop, that
`consolidateRegister` makes within the bound `fuel`. -/
def consolidateScans (lt : String → String → Bool) : Nat → Bool → RegisterMap → Nat
  | _, true, _ => 0
  | 0, false, _ => 0
  | fuel + 1, false, regs =>
    let r := consolidateFor lt regs regs false
    1 + consolidateScans lt fuel r.1 r.2

/-- The number of fusions among these scans: the scans that leave the flag unset. -/
def consolidateMerges (lt : String → String → Bool) : Nat → Bool → RegisterMap → Nat
  | _, true, _ => 0
  | 0, false, _ => 0
  | fuel + 1, false, regs =>
    let r := consolidateFor lt regs regs false
    (if r.1 then 0 else 1) + consolidateMerges lt fuel r.1 r.2

/-- The text is a sequence of suffixes `_l` and `_h`. -/
def suffixChain : List Char → Bool
  | [] => true
  | [_] => false
  | c1 :: c2 :: rest =>
    decide (c1 = '_') && (decide (c2 = 'l') || decide (c2 = 'h')) && suffixChain rest

/-- The name `a` is the name `b` with one or more trailing suffixes `_l` or `_h` removed. -/
def splitOf (a b : String) : Bool :=
  decide (a.data.length < b.data.length) && decide (b.data.take a.data.length = a.data)
    && suffixChain (b.data.drop a.data.length)

/-- No key of the map equals another key with one or more trailing suffixes `_l` or `_h`
removed. -/
def SplitFree (regs : RegisterMap) : Prop :=
  ∀ a ∈ regs, ∀ b ∈ regs, splitOf a.1 b.1 = false

/-- The sum of the lengths of the registers of a map. -/
def RegisterMap.totalLength (regs : RegisterMap) : Nat := (regs.map (fun r => r.2.2)).sum

/-- A register map in which the name `q_l` is taken by a register that does not stem from a
split of `q`. -/
def splitClashRegisters : RegisterMap := [("q", 0, 3), ("q_l", 7, 2)]

/-- A register map in ascending key order in which the name `q` is taken while `q_l` ends
where `q_h` begins. -/
def clashingRegisters : RegisterMap := [("q", 0, 2), ("q_h", 4, 2), ("q_l", 2, 2)]

/-- A register map in descending key order left by two splits: `q_h_l` ends where `q_h_h`
begins. -/
def chainedRegisters : RegisterMap := [("q_l", 0, 2), ("q_h_l", 3, 2), ("q_h_h", 5, 1)]

/-- A register map in ascending key order in which `m_l` ends where `m_h` begins. -/
def blockedAscending : RegisterMap :=
  [("a_l", 0, 1), ("m_h", 6, 1), ("m_l", 5, 1), ("z_l", 10, 1)]

/-- The same registers in descending key order. -/
def blockedDescending : RegisterMap :=
  [("z_l", 10, 1), ("m_l", 5, 1), ("m_h", 6, 1), ("a_l", 0, 1)]

/-- A register map in ascending key order left by two splits. -/
def splitRegisters : RegisterMap := [("q_h_h", 5, 1), ("q_h_l", 3, 2), ("q_l", 0, 3)]

namespace QuantumComputation

variable {F S Var : Type} [DecidableEq Var] (vars : S → List Var)

/-- The dispatch rule of the gate emission in the words of the spec: `qc'` is `qc` with
exactly one operation `newOp` appended; `newOp` is the concrete variant if and only if every
parameter is a number; in that case it carries the controls, the targets, the type and the
numbers, and nothing else has changed; otherwise it is the symbolic variant with the same
controls, targets and type and the full parameter list, appended after all parameters have
been passed to `addVariables`. -/
def Dispatched (qc : QuantumComputation F S Var) (controls : Controls) (targets : Targets)
    (type : OpType) (params : List (SymbolOrNumber S F)) (qc' : QuantumComputation F S Var) :
    Prop :=
  ∃ newOp, qc'.ops = qc.ops ++ [newOp] ∧
    (newOp.isStandardOperation = true ↔ ∀ p ∈ params, p.holdsFp = true) ∧
    ((∀ p ∈ params, p.holdsFp = true) →
      ∃ xs, params = xs.map SymbolOrNumber.number ∧
        newOp = Operation.standard controls targets type xs ∧ qc' = qc.emplace_back newOp) ∧
    (¬ (∀ p ∈ params, p.holdsFp = true) →
      newOp = Operation.symbolic controls targets type params ∧
        qc' = (addVariables vars qc params).emplace_back newOp)

/-- A container with three qubits and three concrete gates whose initial layout has three
entries and whose output permutation has two. -/
def exampleCircuit : QuantumComputation ℚ String String :=
  { ops := [Operation.standard [] [0] OpType.h [],
            Operation.standard [⟨0, Polarity.pos⟩] [1] OpType.x [],
            Operation.standard [] [2] OpType.s []]
    nqubits := 3, nclassics := 0, nancillae := 0, name := "", qregs := [("q", 0, 3)]
    cregs := [], ancregs := [], seed := 0, globalPhase := 0, occurringVariables := []
    initialLayout := [(0, 0), (1, 1), (2, 2)], outputPermutation := [(0, 0), (1, 1)]
    ancillary := [false, false, false], garbage := [false, false, false] }

/-- The number of qubits of the container whose ancillary flag is not set. -/
def nonAncillaryQubits (qc : QuantumComputation F S Var) : Nat :=
  ((List.range qc.getNqubits).filter (fun i => !(qc.ancillary.getD i false))).length

/-- A container with two qubits, the second of which is an ancillary qubit; no qubit is
garbage. -/
def exampleAncillaCircuit : QuantumComputation ℚ String String :=
  { ops := [], nqubits := 1, nclassics := 0, nancillae := 1, name := "", qregs := [("q", 0, 1)]
    cregs := [], ancregs := [("anc", 1, 1)], seed := 0, globalPhase := 0
    occurringVariables := [], initialLayout := [(0, 0), (1, 1)]
    outputPermutation := [(0, 0), (1, 1)], ancillary := [false, true]
    garbage := [false, false] }

/-- The example container with a classical register of two bits. -/
def exampleClassicCircuit : QuantumComputation ℚ String String :=
  { exampleCircuit with nclassics := 2, cregs := [("c", 0, 2)] }

/-- An inversion of operations for the examples: `s` and `sdg` are exchanged. -/
def exampleInvert : Operation ℚ String → Operation ℚ String
  | Operation.standard c t OpType.s ps => Operation.standard c t OpType.sdg ps
  | Operation.standard c t OpType.sdg ps => Operation.standard c t OpType.s ps
  | op => op

/-- In the examples a symbolic expression is one variable, given by its name. -/
def exampleVars (e : String) : List String := [e]

end QuantumComputation

end qc

/-! # Theorems -/

set_option linter.unusedSectionVars false

namespace qc

/-! ## Lists and association lists -/

theorem mapFind_some_mem {K A : Type} [DecidableEq K] {k : K} {m : List (K × A)} {a : A}
    (h : mapFind k m = some a) : (k, a) ∈ m := by
  induction m with
  | nil => simp [mapFind] at h
  | cons e rest ih =>
    obtain ⟨k', a'⟩ := e
    simp only [mapFind] at h
    split at h
    · rename_i hk
      simp only [Option.some.injEq] at h
      subst hk; subst h
      exact List.mem_cons_self _ _
    · exact List.mem_cons_of_mem _ (ih h)

theorem mapFind_none_not_mem {K A : Type} [DecidableEq K] {k : K} {m : List (K × A)}
    (h : mapFind k m = none) (a : A) : (k, a) ∉ m := by
  induction m with
  | nil => simp
  | cons e rest ih =>
    obtain ⟨k', a'⟩ := e
    simp only [mapFind] at h
    split at h
    · simp at h
    · rename_i hk
      intro hmem
      rcases List.mem_cons.mp hmem with heq | hrest
      · exact hk (by simpa using congrArg Prod.fst heq)
      · exact ih h hrest

theorem mapFind_of_mem {K A : Type} [DecidableEq K] {m : List (K × A)}
    (hkeys : (m.map Prod.fst).Nodup) {k : K} {a : A} (h : (k, a) ∈ m) :
    mapFind k m = some a := by
  cases hf : mapFind k m with
  | none => exact absurd h (mapFind_none_not_mem hf a)
  | some b =>
    have hb := mapFind_some_mem hf
    have := List.inj_on_of_nodup_map hkeys hb h rfl
    rw [(Prod.mk.inj this).2]

theorem mem_setEmplace {A : Type} [DecidableEq A] (s : List A) (a b : A) :
    b ∈ setEmplace s a ↔ b ∈ s ∨ b = a := by
  unfold setEmplace
  split
  · rename_i h
    constructor
    · exact Or.inl
    · rintro (h1 | h1)
      · exact h1
      · exact h1 ▸ h
  · simp

theorem mem_foldl_setEmplace {A : Type} [DecidableEq A] (l s : List A) (b : A) :
    b ∈ l.foldl setEmplace s ↔ b ∈ s ∨ b ∈ l := by
  induction l generalizing s with
  | nil => simp
  | cons a l ih =>
    rw [List.foldl_cons, ih, mem_setEmplace, List.mem_cons]
    tauto

theorem getD_set_succ_self (l : List Nat) {k : Nat} (h : k < l.length) :
    (l.set k (l.getD k 0 + 1)).getD k 0 = l.getD k 0 + 1 := by
  simp [List.getD_eq_getElem?_getD, List.getElem?_set_self, h]

theorem getD_set_succ_ne (l : List Nat) {k q : Nat} (h : q ≠ k) :
    (l.set k (l.getD k 0 + 1)).getD q 0 = l.getD q 0 := by
  simp [List.getD_eq_getElem?_getD, List.getElem?_set_ne (Ne.symm h)]

theorem countP_range_succ (p : Nat → Bool) (n : Nat) :
    (List.range (n + 1)).countP p = (List.range n).countP p + (if p n then 1 else 0) := by
  rw [List.range_succ, List.countP_append, List.countP_singleton]

theorem countP_or_eq (p : Nat → Bool) (n b0 : Nat) (hb : b0 < n) (hp : p b0 = false) :
    (List.range n).countP (fun b => p b || decide (b = b0)) = (List.range n).countP p + 1 := by
  induction n with
  | zero => exact absurd hb (Nat.not_lt_zero _)
  | succ n ih =>
    rw [countP_range_succ, countP_range_succ]
    by_cases hn : b0 = n
    · subst hn
      have hcongr : (List.range b0).countP (fun b => p b || decide (b = b0))
          = (List.range b0).countP p := by
        apply List.countP_congr
        intro b hb'
        have : b ≠ b0 := Nat.ne_of_lt (List.mem_range.mp hb')
        simp [this]
      rw [hcongr, hp]
      simp
    · rw [ih (by omega)]
      have : n ≠ b0 := fun h => hn h.symm
      simp [this]
      omega


theorem mapFind_cons {K A : Type} [DecidableEq K] (k k' : K) (a : A) (m : List (K × A)) :
    mapFind k ((k', a) :: m) = if k = k' then some a else mapFind k m := rfl

/-! ## The graph -/

namespace UndirectedGraph

variable {V E : Type} [DecidableEq V]

theorem entry_none_of_le {g : UndirectedGraph V E} (h : Inv g) (r c : Nat)
    (hrc : g.nVertices ≤ r + c) : g.entry r c = none := by
  unfold entry
  by_cases hr : r < g.nVertices
  · have := h.cols r hr
    rw [List.getD_eq_default _ _ (by omega)]
  · rw [List.getD_eq_default g.adjacencyMatrix _ (by rw [h.rows]; omega)]
    rfl

theorem present_false_of_le {g : UndirectedGraph V E} (h : Inv g) (a b : Nat)
    (hab : g.nVertices ≤ a ∨ g.nVertices ≤ b) : g.present a b = false := by
  unfold present
  split
  · rw [entry_none_of_le h _ _ (by omega)]; rfl
  · rw [entry_none_of_le h _ _ (by omega)]; rfl

/-- The graph after `addVertex(v)` for a new vertex. -/
theorem addVertex_ok {g : UndirectedGraph V E} {v : V} (hv : mapFind v g.mapping = none) :
    g.addVertex v = .ok
      { adjacencyMatrix := g.adjacencyMatrix.map (fun row => row ++ [none]) ++ [[none]]
        mapping := (v, g.nVertices) :: g.mapping
        invMapping := (g.nVertices, v) :: g.invMapping
        nVertices := g.nVertices + 1
        nEdges := g.nEdges
        degrees := g.degrees ++ [0] } := by
  unfold addVertex
  rw [hv]

theorem entry_addVertex {g : UndirectedGraph V E} (h : Inv g) (m : List (V × Nat))
    (im : List (Nat × V)) (k ne : Nat) (ds : List Nat) (r c : Nat) :
    entry ({ adjacencyMatrix := g.adjacencyMatrix.map (fun row => row ++ [none]) ++ [[none]]
             mapping := m, invMapping := im, nVertices := k, nEdges := ne, degrees := ds } :
           UndirectedGraph V E) r c = g.entry r c := by
  unfold entry
  simp only [List.getD_eq_getElem?_getD]
  by_cases hr : r < g.nVertices
  · have hlen := h.cols r hr
    have hr' : r < g.adjacencyMatrix.length := by rw [h.rows]; exact hr
    rw [List.getElem?_append_left (by simpa using hr'), List.getElem?_map,
      List.getElem?_eq_getElem hr']
    simp only [Option.map_some', Option.getD_some]
    by_cases hc : c < g.adjacencyMatrix[r].length
    · rw [List.getElem?_append_left hc]
    · rw [List.getElem?_eq_none (l := g.adjacencyMatrix[r]) (by omega)]
      rcases Nat.lt_or_ge c (g.adjacencyMatrix[r].length + 1) with h1 | h1
      · have : c = g.adjacencyMatrix[r].length := by omega
        subst this
        simp
      · rw [List.getElem?_eq_none (by simp; omega)]
  · have hr' : g.adjacencyMatrix.length ≤ r := by rw [h.rows]; omega
    rw [List.getElem?_eq_none (l := g.adjacencyMatrix) hr']
    rcases Nat.lt_or_ge r (g.adjacencyMatrix.length + 1) with h1 | h1
    · have : r = g.adjacencyMatrix.length := by omega
      subst this
      rw [List.getElem?_append_right (by simp)]
      simp only [List.length_map, Nat.sub_self, List.getElem?_cons_zero, Option.getD_some,
        Option.getD_none, List.getElem?_nil]
      cases c <;> simp
    · have e1 : (g.adjacencyMatrix.map (fun row => row ++ [none]) ++ [[none]])[r]? = none :=
        List.getElem?_eq_none (by simp; omega)
      rw [e1]


theorem present_addVertex {g : UndirectedGraph V E} (h : Inv g) (m : List (V × Nat))
    (im : List (Nat × V)) (k ne : Nat) (ds : List Nat) (a : Nat) :
    present ({ adjacencyMatrix := g.adjacencyMatrix.map (fun row => row ++ [none]) ++ [[none]]
               mapping := m, invMapping := im, nVertices := k, nEdges := ne, degrees := ds } :
             UndirectedGraph V E) a = g.present a := by
  funext b
  unfold present
  simp only [entry_addVertex h]

theorem Inv_empty : Inv ({} : UndirectedGraph V E) where
  map_inv := fun v i h => by simp [mapFind] at h
  inv_map := fun i h => absurd h (Nat.not_lt_zero i)
  rows := rfl
  cols := fun i h => absurd h (Nat.not_lt_zero i)
  degs := rfl
  deg_count := fun i h => absurd h (Nat.not_lt_zero i)

theorem Inv_addVertex {g : UndirectedGraph V E} (h : Inv g) {v : V}
    (hv : mapFind v g.mapping = none) :
    Inv ({ adjacencyMatrix := g.adjacencyMatrix.map (fun row => row ++ [none]) ++ [[none]]
           mapping := (v, g.nVertices) :: g.mapping
           invMapping := (g.nVertices, v) :: g.invMapping
           nVertices := g.nVertices + 1
           nEdges := g.nEdges
           degrees := g.degrees ++ [0] } : UndirectedGraph V E) where
  map_inv := by
    intro v' i h'
    simp only [mapFind_cons] at h' ⊢
    split at h'
    · rename_i hvv
      simp only [Option.some.injEq] at h'
      subst h'
      exact ⟨Nat.lt_succ_self _, by simp [hvv]⟩
    · obtain ⟨hi, hinv⟩ := h.map_inv v' i h'
      refine ⟨Nat.lt_succ_of_lt hi, ?_⟩
      rw [if_neg (Nat.ne_of_lt hi)]
      exact hinv
  inv_map := by
    intro i hi
    simp only [mapFind_cons]
    by_cases hin : i = g.nVertices
    · exact ⟨v, by rw [if_pos hin], by rw [if_pos rfl, hin]⟩
    · obtain ⟨v', h1, h2⟩ := h.inv_map i (by simp only at hi; omega)
      refine ⟨v', by rw [if_neg hin]; exact h1, ?_⟩
      have hne : v' ≠ v := by
        intro heq
        rw [heq, hv] at h2
        exact Option.noConfusion h2
      rw [if_neg hne]
      exact h2
  rows := by simp [h.rows]
  cols := by
    intro i hi
    simp only at hi ⊢
    simp only [List.getD_eq_getElem?_getD]
    by_cases hin : i < g.nVertices
    · have hlen := h.cols i hin
      have hi' : i < g.adjacencyMatrix.length := by rw [h.rows]; exact hin
      simp only [List.getD_eq_getElem?_getD, List.getElem?_eq_getElem hi',
        Option.getD_some] at hlen
      rw [List.getElem?_append_left (by simpa using hi'), List.getElem?_map,
        List.getElem?_eq_getElem hi']
      simp only [Option.map_some', Option.getD_some, List.length_append, List.length_singleton,
        hlen]
      omega
    · have : i = g.adjacencyMatrix.length := by rw [h.rows]; omega
      subst this
      rw [List.getElem?_append_right (by simp)]
      simp [h.rows]
  degs := by simp [h.degs]
  deg_count := by
    intro i hi
    simp only at hi ⊢
    rw [countP_range_succ]
    simp only [present_addVertex h]
    rw [present_false_of_le h i g.nVertices (Or.inr (Nat.le_refl _))]
    simp only [Bool.false_eq_true, if_false, Nat.add_zero, List.getD_eq_getElem?_getD]
    by_cases hin : i < g.nVertices
    · have := h.deg_count i hin
      simp only [List.getD_eq_getElem?_getD] at this
      rw [List.getElem?_append_left (by rw [h.degs]; exact hin), this]
    · have hieq : i = g.degrees.length := by rw [h.degs]; omega
      have hzero : (List.range g.nVertices).countP (g.present i) = 0 := by
        rw [List.countP_eq_zero]
        intro b _
        rw [present_false_of_le h i b (Or.inl (by omega))]
        simp
      rw [hzero, hieq, List.getElem?_append_right (Nat.le_refl _)]
      simp


theorem entry_setEntry (g : UndirectedGraph V E) (r c : Nat) (e : Option E)
    (hr : r < g.adjacencyMatrix.length) (hc : c < (g.adjacencyMatrix.getD r []).length)
    (r' c' : Nat) :
    (g.setEntry r c e).entry r' c' = if r' = r ∧ c' = c then e else g.entry r' c' := by
  unfold entry setEntry
  simp only [List.getD_eq_getElem?_getD] at hc ⊢
  by_cases hrr : r' = r
  · subst hrr
    rw [List.getElem?_set_self hr]
    simp only [Option.getD_some, true_and]
    by_cases hcc : c' = c
    · subst hcc
      rw [List.getElem?_set_self hc, if_pos rfl]
      rfl
    · rw [List.getElem?_set_ne (Ne.symm hcc), if_neg hcc]
  · rw [List.getElem?_set_ne (Ne.symm hrr), if_neg (fun h => hrr h.1)]

theorem present_lo_hi (g : UndirectedGraph V E) {lo hi : Nat} (hle : lo ≤ hi) :
    g.present lo hi = (g.entry lo (hi - lo)).isSome ∧
      g.present hi lo = (g.entry lo (hi - lo)).isSome := by
  unfold present
  constructor
  · split
    · rfl
    · have : lo = hi := by omega
      subst this
      rfl
  · rw [if_neg (by omega)]

theorem present_setEntry {g : UndirectedGraph V E} (h : Inv g) {lo hi : Nat} (hle : lo ≤ hi)
    (hhi : hi < g.nVertices) (e : E) (a b : Nat) :
    (g.setEntry lo (hi - lo) (some e)).present a b =
      (g.present a b || (decide (a = lo) && decide (b = hi)) ||
        (decide (a = hi) && decide (b = lo))) := by
  have hr : lo < g.adjacencyMatrix.length := by rw [h.rows]; omega
  have hc : hi - lo < (g.adjacencyMatrix.getD lo []).length := by
    rw [h.cols lo (by omega)]; omega
  unfold present
  simp only [entry_setEntry g lo (hi - lo) (some e) hr hc]
  by_cases hab : a < b
  · simp only [if_pos hab]
    by_cases h1 : a = lo ∧ b = hi
    · obtain ⟨rfl, rfl⟩ := h1
      simp
    · have h2 : ¬ (a = lo ∧ b - a = hi - lo) := fun hh => h1 ⟨hh.1, by omega⟩
      have h3 : ¬ (a = hi ∧ b = lo) := fun hh => by omega
      rw [if_neg h2]
      rcases not_and_or.mp h1 with h4 | h4 <;> rcases not_and_or.mp h3 with h5 | h5 <;>
        simp [h4, h5]
  · simp only [if_neg hab]
    by_cases h1 : b = lo ∧ a = hi
    · obtain ⟨rfl, rfl⟩ := h1
      simp
    · have h2 : ¬ (b = lo ∧ a - b = hi - lo) := fun hh => h1 ⟨hh.1, by omega⟩
      have h3 : ¬ (a = lo ∧ b = hi) := fun hh => h1 ⟨by omega, by omega⟩
      rw [if_neg h2]
      rcases not_and_or.mp h1 with h4 | h4 <;> rcases not_and_or.mp h3 with h5 | h5 <;>
        simp [h4, h5]

/-- The fields of the graph after the body of `addEdge`, with `lo` the smaller and `hi` the
larger of the two indices. -/
theorem addEdgeAt_fields (g : UndirectedGraph V E) (i j : Nat) (e : Option E) :
    ∃ lo hi, lo ≤ hi ∧ ((lo = i ∧ hi = j) ∨ (lo = j ∧ hi = i)) ∧
      (g.addEdgeAt i j e).adjacencyMatrix = (g.setEntry lo (hi - lo) e).adjacencyMatrix ∧
      (g.addEdgeAt i j e).mapping = g.mapping ∧
      (g.addEdgeAt i j e).invMapping = g.invMapping ∧
      (g.addEdgeAt i j e).nVertices = g.nVertices ∧
      (g.addEdgeAt i j e).degrees =
        (if (g.entry lo (hi - lo)).isNone then
          (if i ≠ j then (g.degrees.set i (g.degrees.getD i 0 + 1)).set j
              ((g.degrees.set i (g.degrees.getD i 0 + 1)).getD j 0 + 1)
            else g.degrees.set i (g.degrees.getD i 0 + 1))
          else g.degrees) := by
  by_cases hij : i < j
  · refine ⟨i, j, Nat.le_of_lt hij, Or.inl ⟨rfl, rfl⟩, ?_⟩
    unfold addEdgeAt
    rw [if_pos hij]
    cases hslot : (g.entry i (j - i)).isNone <;> by_cases hne : i ≠ j <;>
      simp [setEntry, incDegree, hne]
  · refine ⟨j, i, Nat.le_of_not_lt hij, Or.inr ⟨rfl, rfl⟩, ?_⟩
    unfold addEdgeAt
    rw [if_neg hij]
    cases hslot : (g.entry j (i - j)).isNone <;> by_cases hne : i ≠ j <;>
      simp [setEntry, incDegree, hne]

theorem present_congr {g1 g2 : UndirectedGraph V E}
    (h : g1.adjacencyMatrix = g2.adjacencyMatrix) : g1.present = g2.present := by
  funext a b
  unfold present entry
  rw [h]

theorem Inv_addEdgeAt {g : UndirectedGraph V E} (h : Inv g) {i j : Nat}
    (hi : i < g.nVertices) (hj : j < g.nVertices) (e : E) :
    Inv (g.addEdgeAt i j (some e)) := by
  obtain ⟨lo, hi', hle, hij, hadj, hmap, hinv, hn, hdeg⟩ := addEdgeAt_fields g i j (some e)
  have hhi : hi' < g.nVertices := by rcases hij with ⟨-, rfl⟩ | ⟨-, rfl⟩ <;> assumption
  have hlo : lo < g.nVertices := by omega
  have hr : lo < g.adjacencyMatrix.length := by rw [h.rows]; omega
  have hpres : ∀ a b, (g.addEdgeAt i j (some e)).present a b =
      (g.present a b || (decide (a = lo) && decide (b = hi')) ||
        (decide (a = hi') && decide (b = lo))) := by
    intro a b
    rw [present_congr hadj]
    exact present_setEntry h hle hhi e a b
  refine ⟨?_, ?_, ?_, ?_, ?_, ?_⟩
  · rw [hmap, hinv, hn]; exact h.map_inv
  · rw [hmap, hinv, hn]; exact h.inv_map
  · rw [hadj, hn]; simp [setEntry, h.rows]
  · intro a ha
    rw [hn] at ha ⊢
    rw [hadj]
    have := h.cols a ha
    simp only [setEntry, List.getD_eq_getElem?_getD] at this ⊢
    by_cases hal : a = lo
    · subst hal
      rw [List.getElem?_set_self hr]
      simpa using this
    · rw [List.getElem?_set_ne (Ne.symm hal)]
      exact this
  · rw [hdeg, hn]
    split
    · split <;> simp [h.degs]
    · exact h.degs
  · intro a ha
    rw [hn] at ha ⊢
    have hfun : (g.addEdgeAt i j (some e)).present a =
        fun b => (g.present a b || (decide (a = lo) && decide (b = hi')) ||
          (decide (a = hi') && decide (b = lo))) := funext (hpres a)
    rw [hfun, hdeg]
    obtain ⟨hp1, hp2⟩ := present_lo_hi g hle
    have hbase := h.deg_count a ha
    cases hslot : (g.entry lo (hi' - lo)).isNone with
    | false =>
      have hsome : (g.entry lo (hi' - lo)).isSome = true := by
        cases hent : g.entry lo (hi' - lo) with
        | none => rw [hent] at hslot; simp at hslot
        | some _ => rfl
      rw [hsome] at hp1 hp2
      simp only [Bool.false_eq_true, if_false]
      rw [hbase]
      apply List.countP_congr
      intro b _
      by_cases h1 : a = lo ∧ b = hi'
      · obtain ⟨rfl, rfl⟩ := h1
        simp [hp1]
      · by_cases h2 : a = hi' ∧ b = lo
        · obtain ⟨rfl, rfl⟩ := h2
          simp [hp2]
        · rcases not_and_or.mp h1 with h4 | h4 <;> rcases not_and_or.mp h2 with h5 | h5 <;>
            simp [h4, h5]
    | true =>
      have hnone : (g.entry lo (hi' - lo)).isSome = false := by
        cases hent : g.entry lo (hi' - lo) with
        | none => rfl
        | some _ => rw [hent] at hslot; simp at hslot
      rw [hnone] at hp1 hp2
      simp only [if_true]
      have hcount : (List.range g.nVertices).countP
          (fun b => (g.present a b || (decide (a = lo) && decide (b = hi')) ||
            (decide (a = hi') && decide (b = lo))))
          = (List.range g.nVertices).countP (g.present a)
            + (if a = lo then 1 else 0) + (if a = hi' ∧ hi' ≠ lo then 1 else 0) := by
        by_cases hal : a = lo
        · subst hal
          have hc : (List.range g.nVertices).countP
              (fun b => (g.present a b || (decide (a = a) && decide (b = hi')) ||
                (decide (a = hi') && decide (b = a))))
              = (List.range g.nVertices).countP (fun b => g.present a b || decide (b = hi')) := by
            apply List.countP_congr
            intro b _
            by_cases hb : b = hi'
            · simp [hb]
            · by_cases hah : a = hi'
              · subst hah; simp [hb]
              · simp [hb, hah]
          rw [hc, countP_or_eq _ _ _ hhi hp1]
          have : ¬ (a = hi' ∧ hi' ≠ a) := fun hh => hh.2 hh.1.symm
          simp [this]
        · by_cases hah : a = hi'
          · subst hah
            have hc : (List.range g.nVertices).countP
                (fun b => (g.present a b || (decide (a = lo) && decide (b = a)) ||
                  (decide (a = a) && decide (b = lo))))
                = (List.range g.nVertices).countP (fun b => g.present a b || decide (b = lo)) := by
              apply List.countP_congr
              intro b _
              simp [hal]
            rw [hc, countP_or_eq _ _ _ hlo hp2]
            simp [hal]
          · have hc : (List.range g.nVertices).countP
                (fun b => (g.present a b || (decide (a = lo) && decide (b = hi')) ||
                  (decide (a = hi') && decide (b = lo))))
                = (List.range g.nVertices).countP (g.present a) := by
              apply List.countP_congr
              intro b _
              simp [hal, hah]
            rw [hc]
            simp [hal, hah]
      rw [hcount, ← hbase]
      have hilen : i < g.degrees.length := by rw [h.degs]; exact hi
      have hjlen : j < g.degrees.length := by rw [h.degs]; exact hj
      have hL : (if i ≠ j then (g.degrees.set i (g.degrees.getD i 0 + 1)).set j
              ((g.degrees.set i (g.degrees.getD i 0 + 1)).getD j 0 + 1)
            else g.degrees.set i (g.degrees.getD i 0 + 1)).getD a 0
          = g.degrees.getD a 0 + (if a = i then 1 else 0) + (if a = j ∧ i ≠ j then 1 else 0) := by
        by_cases hne : i ≠ j
        · rw [if_pos hne]
          by_cases haj : a = j
          · rw [haj, getD_set_succ_self _ (by simpa using hjlen),
              getD_set_succ_ne _ (Ne.symm hne)]
            simp [hne, Ne.symm hne]
          · rw [getD_set_succ_ne _ haj]
            by_cases hai : a = i
            · rw [hai, getD_set_succ_self _ hilen]
              simp [hne]
            · rw [getD_set_succ_ne _ hai]
              simp [hai, haj]
        · rw [if_neg hne]
          by_cases hai : a = i
          · rw [hai, getD_set_succ_self _ hilen]
            simp [hne]
          · rw [getD_set_succ_ne _ hai]
            simp [hai, hne]
      rw [hL]
      rcases hij with ⟨h1, h2⟩ | ⟨h1, h2⟩ <;> subst h1 <;> subst h2 <;> split_ifs <;> omega


/-- `addVertex` on a graph that satisfies the invariant, for a vertex that may be new:
afterwards the vertex has an index and the invariant holds. -/
theorem ensureVertex {g : UndirectedGraph V E} (h : Inv g) (u : V) :
    ∃ g1, g.addVertexIfNew u = .ok g1 ∧
      Inv g1 ∧ (∃ i, mapFind u g1.mapping = some i) ∧
      ∀ w i, mapFind w g.mapping = some i → mapFind w g1.mapping = some i := by
  unfold addVertexIfNew
  by_cases hu : mapFind u g.mapping = none
  · rw [if_pos hu, addVertex_ok hu]
    refine ⟨_, rfl, Inv_addVertex h hu, ⟨g.nVertices, by simp [mapFind_cons]⟩, ?_⟩
    intro w i hw
    have hne : w ≠ u := by
      intro heq
      rw [heq, hu] at hw
      exact Option.noConfusion hw
    simp only [mapFind_cons, if_neg hne]
    exact hw
  · rw [if_neg hu]
    refine ⟨g, rfl, h, ?_, fun _ _ hw => hw⟩
    cases hm : mapFind u g.mapping with
    | none => exact absurd hm hu
    | some i => exact ⟨i, rfl⟩

theorem addEdge_ok {g : UndirectedGraph V E} (h : Inv g) (u v : V) (e : E) :
    ∃ g', g.addEdge u v (some e) = .ok g' ∧ Inv g' := by
  obtain ⟨g1, hg1, hinv1, ⟨i, hi⟩, -⟩ := ensureVertex h u
  obtain ⟨g2, hg2, hinv2, ⟨j, hj⟩, hkeep⟩ := ensureVertex hinv1 v
  have hi2 := hkeep u i hi
  refine ⟨g2.addEdgeAt i j (some e), ?_,
    Inv_addEdgeAt hinv2 (hinv2.map_inv u i hi2).1 (hinv2.map_inv v j hj).1 e⟩
  unfold addEdge
  simp only [bind, Except.bind, hg1, hg2, mapAt, hi2, hj]
  rfl

theorem Inv_step {g : UndirectedGraph V E} (h : Inv g) (c : Call V E)
    (hc : c.labelPresent = true) : Inv (g.step c) := by
  cases c with
  | addVertex v =>
    simp only [step]
    cases hm : mapFind v g.mapping with
    | none =>
      rw [addVertex_ok hm]
      exact Inv_addVertex h hm
    | some i =>
      have : g.addVertex v = .error "The vertex is already in the graph." := by
        unfold addVertex
        rw [hm]
      rw [this]
      exact h
  | addEdge u v e =>
    cases e with
    | none => simp [Call.labelPresent] at hc
    | some e =>
      obtain ⟨g', hg', hinv⟩ := addEdge_ok h u v e
      simp only [step]
      rw [hg']
      exact hinv

theorem Inv_run {g : UndirectedGraph V E} (h : Inv g) (calls : List (Call V E))
    (hc : ∀ c ∈ calls, c.labelPresent = true) : Inv (g.run calls) := by
  induction calls generalizing g with
  | nil => exact h
  | cons c calls ih =>
    unfold run
    rw [List.foldl_cons]
    exact ih (Inv_step h c (hc c (List.mem_cons_self _ _)))
      (fun c' hc' => hc c' (List.mem_cons_of_mem _ hc'))

/-- Under the invariant `getNeighbours` returns as many vertices as there are present
entries in the row and column of the vertex. -/
theorem getNeighbours_count {g : UndirectedGraph V E} (h : Inv g) {v : V} {i : Nat}
    (hv : mapFind v g.mapping = some i) :
    ∃ ns, g.getNeighbours v = .ok ns ∧ ns.Nodup ∧
      ns.length = (List.range g.nVertices).countP (g.present i) := by
  have key : ∀ k, k ≤ g.nVertices →
      ∃ ns, (List.range k).foldlM (g.neighboursStep i) [] = .ok ns ∧ ns.Nodup ∧
        ns.length = (List.range k).countP (g.present i) ∧
        ∀ u ∈ ns, ∃ j, j < k ∧ mapFind j g.invMapping = some u := by
    intro k
    induction k with
    | zero =>
      intro _
      exact ⟨[], rfl, List.nodup_nil, rfl, fun u hu => absurd hu (List.not_mem_nil u)⟩
    | succ k ih =>
      intro hk
      obtain ⟨ns, hrun, hnd, hlen, hmem⟩ := ih (by omega)
      rw [List.range_succ, List.foldlM_append, hrun, List.countP_append, List.countP_singleton]
      obtain ⟨u, hu1, hu2⟩ := h.inv_map k (by omega)
      cases hp : g.present i k with
      | false =>
        refine ⟨ns, ?_, hnd, by simpa using hlen, fun w hw => ?_⟩
        · simp [neighboursStep, hp, pure, Except.pure, bind, Except.bind]
        · obtain ⟨j, hj, hjw⟩ := hmem w hw
          exact ⟨j, by omega, hjw⟩
      | true =>
        have hnot : u ∉ ns := by
          intro hin
          obtain ⟨j, hj, hju⟩ := hmem u hin
          obtain ⟨v', hv1, hv2⟩ := h.inv_map j (by omega)
          rw [hju] at hv1
          simp only [Option.some.injEq] at hv1
          subst hv1
          rw [hu2] at hv2
          simp only [Option.some.injEq] at hv2
          omega
        refine ⟨ns ++ [u], ?_, List.Nodup.append hnd (List.nodup_singleton u)
          (by simpa using hnot), by simp [hlen], fun w hw => ?_⟩
        · simp [neighboursStep, hp, mapAt, hu1, setEmplace, hnot, pure, Except.pure, bind,
            Except.bind]
        · rcases List.mem_append.mp hw with hw | hw
          · obtain ⟨j, hj, hjw⟩ := hmem w hw
            exact ⟨j, by omega, hjw⟩
          · rw [List.mem_singleton.mp hw]
            exact ⟨k, Nat.lt_succ_self _, hu1⟩
  obtain ⟨ns, hrun, hnd, hlen, -⟩ := key g.nVertices (Nat.le_refl _)
  refine ⟨ns, ?_, hnd, hlen⟩
  unfold getNeighbours
  rw [hv]
  exact hrun

/-- Claim C1, as stated, fails: after the single call `addEdge(0, 1, nullptr)` on the empty graph
the degree of vertex 0 is 1 while `getNeighbours(0)` is empty, so the degree is not the number
of neighbours. -/
theorem degree_exceeds_neighbours_null_label :
    (run emptyGraph [Call.addEdge 0 1 none]).getDegree 0 = Except.ok 1 ∧
    (run emptyGraph [Call.addEdge 0 1 none]).getNeighbours 0 = Except.ok [] ∧
    ¬ ∃ ns, (run emptyGraph [Call.addEdge 0 1 none]).getNeighbours 0 = Except.ok ns ∧
        (run emptyGraph [Call.addEdge 0 1 none]).getDegree 0 = Except.ok ns.length := by
  refine ⟨rfl, rfl, ?_⟩
  rintro ⟨ns, h1, h2⟩
  have e1 : (run emptyGraph [Call.addEdge 0 1 none]).getNeighbours 0 = Except.ok [] := rfl
  have e2 : (run emptyGraph [Call.addEdge 0 1 none]).getDegree 0 = Except.ok 1 := rfl
  rw [e1] at h1
  rw [e2] at h2
  have hns : ns = [] := by injection h1 with h; exact h.symm
  subst hns
  injection h2 with h
  exact absurd h (by decide)

/-- Claim C1, amended: for every graph reached from the empty graph by a sequence of `addVertex`
and `addEdge` calls whose labels are all present (not `nullptr`), re-labellings and self-loops
included, and for every vertex `v` of it, `getNeighbours(v)` returns a set `ns` (a list
without repetition) and `getDegree(v)` returns the number of elements of `ns`. -/
theorem degree_eq_neighbours (calls : List (Call V E))
    (hlabels : ∀ c ∈ calls, c.labelPresent = true) (v : V)
    (hv : (mapFind v (run ({} : UndirectedGraph V E) calls).mapping).isSome = true) :
    ∃ ns, (run ({} : UndirectedGraph V E) calls).getNeighbours v = Except.ok ns ∧ ns.Nodup ∧
      (run ({} : UndirectedGraph V E) calls).getDegree v = Except.ok ns.length := by
  have hinv := Inv_run (Inv_empty (V := V) (E := E)) calls hlabels
  cases hm : mapFind v (run ({} : UndirectedGraph V E) calls).mapping with
  | none => rw [hm] at hv; exact Bool.noConfusion hv
  | some i =>
    obtain ⟨ns, hns, hnd, hlen⟩ := getNeighbours_count hinv hm
    refine ⟨ns, hns, hnd, ?_⟩
    simp only [getDegree, hm]
    rw [hlen, hinv.deg_count i (hinv.map_inv v i hm).1]

/-- Claim C1, amended, on an example: after an edge between 0 and 1, its re-labelling in the
other argument order, a self-loop on 1 and a further vertex, the degree of vertex 1 is the
number of its neighbours. -/
theorem degree_eq_neighbours_witness :
    (∀ c ∈ exampleCalls, c.labelPresent = true) ∧
    (mapFind 1 (run emptyGraph exampleCalls).mapping).isSome = true ∧
    ∃ ns, (run emptyGraph exampleCalls).getNeighbours 1 = Except.ok ns ∧ ns.Nodup ∧
      (run emptyGraph exampleCalls).getDegree 1 = Except.ok ns.length :=
  ⟨by decide, rfl, degree_eq_neighbours exampleCalls (by decide) 1 rfl⟩

/-- The neighbours and the degree of vertex 1 in the example. -/
theorem degree_example :
    (run emptyGraph exampleCalls).getNeighbours 1 = Except.ok [0, 1] ∧
    (run emptyGraph exampleCalls).getDegree 1 = Except.ok 2 ∧
    (run emptyGraph exampleCalls).getNEdges = 2 :=
  ⟨rfl, rfl, rfl⟩

/-! ### The table of labels -/

theorem entry_some_bounds {g : UndirectedGraph V E} {r c : Nat} {l : E}
    (h : g.entry r c = some l) :
    r < g.adjacencyMatrix.length ∧ c < (g.adjacencyMatrix.getD r []).length := by
  unfold entry at h
  by_cases hr : r < g.adjacencyMatrix.length
  · refine ⟨hr, ?_⟩
    by_contra hc
    rw [List.getD_eq_default _ _ (by omega)] at h
    exact Option.noConfusion h
  · rw [List.getD_eq_default g.adjacencyMatrix _ (by omega)] at h
    exact Option.noConfusion h

theorem slot_symm (g : UndirectedGraph V E) (i j : Nat) : g.slot i j = g.slot j i := by
  unfold slot
  rcases Nat.lt_trichotomy i j with h | h | h
  · rw [if_pos h, if_neg (by omega)]
  · subst h; rfl
  · rw [if_neg (by omega), if_pos h]

theorem slot_lo_hi (g : UndirectedGraph V E) {lo hi : Nat} (hle : lo ≤ hi) :
    g.slot lo hi = g.entry lo (hi - lo) := by
  unfold slot
  split
  · rfl
  · have : lo = hi := by omega
    subst this
    rfl

theorem slot_congr {g1 g2 : UndirectedGraph V E}
    (h : g1.adjacencyMatrix = g2.adjacencyMatrix) (a b : Nat) : g1.slot a b = g2.slot a b := by
  unfold slot entry
  rw [h]

theorem present_eq_slot (g : UndirectedGraph V E) (a b : Nat) :
    g.present a b = (g.slot a b).isSome := by
  unfold present slot
  split <;> rfl

theorem slot_setEntry (g : UndirectedGraph V E) {lo hi : Nat} (hle : lo ≤ hi) (e : Option E)
    (hr : lo < g.adjacencyMatrix.length) (hc : hi - lo < (g.adjacencyMatrix.getD lo []).length)
    (a b : Nat) :
    (g.setEntry lo (hi - lo) e).slot a b =
      if (a = lo ∧ b = hi) ∨ (a = hi ∧ b = lo) then e else g.slot a b := by
  unfold slot
  simp only [entry_setEntry g lo (hi - lo) e hr hc]
  by_cases hab : a < b
  · simp only [if_pos hab]
    by_cases h1 : a = lo ∧ b = hi
    · obtain ⟨rfl, rfl⟩ := h1
      simp
    · have h2 : ¬ (a = lo ∧ b - a = hi - lo) := fun hh => h1 ⟨hh.1, by omega⟩
      have h3 : ¬ (a = hi ∧ b = lo) := fun hh => by omega
      rw [if_neg h2, if_neg (by tauto)]
  · simp only [if_neg hab]
    by_cases h1 : b = lo ∧ a = hi
    · obtain ⟨rfl, rfl⟩ := h1
      simp
    · have h2 : ¬ (b = lo ∧ a - b = hi - lo) := fun hh => h1 ⟨hh.1, by omega⟩
      have h3 : ¬ (a = lo ∧ b = hi) := fun hh => h1 ⟨by omega, by omega⟩
      rw [if_neg h2, if_neg (by tauto)]

theorem addEdgeAt_nEdges (g : UndirectedGraph V E) (i j : Nat) (e : Option E) :
    (g.addEdgeAt i j e).nEdges = if (g.slot i j).isNone then g.nEdges + 1 else g.nEdges := by
  unfold addEdgeAt slot
  by_cases hij : i < j
  · simp only [if_pos hij]
    cases hslot : (g.entry i (j - i)).isNone <;> by_cases hne : i ≠ j <;>
      simp [setEntry, incDegree, hne]
  · simp only [if_neg hij]
    cases hslot : (g.entry j (i - j)).isNone <;> by_cases hne : i ≠ j <;>
      simp [setEntry, incDegree, hne]

/-- The labels after the body of `addEdge`, when the entry of the pair lies in the table. -/
theorem slot_addEdgeAt (g : UndirectedGraph V E) (i j : Nat) (e : Option E)
    (hb : ∀ lo hi, lo ≤ hi → ((lo = i ∧ hi = j) ∨ (lo = j ∧ hi = i)) →
      lo < g.adjacencyMatrix.length ∧ hi - lo < (g.adjacencyMatrix.getD lo []).length)
    (a b : Nat) :
    (g.addEdgeAt i j e).slot a b =
      if (a = i ∧ b = j) ∨ (a = j ∧ b = i) then e else g.slot a b := by
  obtain ⟨lo, hi, hle, hij, hadj, -⟩ := addEdgeAt_fields g i j e
  obtain ⟨hr, hc⟩ := hb lo hi hle hij
  rw [slot_congr hadj, slot_setEntry g hle e hr hc]
  have hiff : ((a = lo ∧ b = hi) ∨ (a = hi ∧ b = lo)) ↔ ((a = i ∧ b = j) ∨ (a = j ∧ b = i)) := by
    rcases hij with ⟨rfl, rfl⟩ | ⟨rfl, rfl⟩ <;> tauto
  simp only [hiff]

/-- Writing a label on a pair that has one changes neither the counters nor the maps. -/
theorem addEdgeAt_relabel (g : UndirectedGraph V E) {i j : Nat} {l : E} (e : Option E)
    (h : g.slot i j = some l) :
    (g.addEdgeAt i j e).mapping = g.mapping ∧
    (g.addEdgeAt i j e).nVertices = g.nVertices ∧
    (g.addEdgeAt i j e).nEdges = g.nEdges ∧
    (g.addEdgeAt i j e).degrees = g.degrees ∧
    ∀ a b, (g.addEdgeAt i j e).slot a b =
      if (a = i ∧ b = j) ∨ (a = j ∧ b = i) then e else g.slot a b := by
  obtain ⟨lo, hi, hle, hij, hadj, hmap, hinv, hn, hdeg⟩ := addEdgeAt_fields g i j e
  have hent : g.entry lo (hi - lo) = some l := by
    rw [← slot_lo_hi g hle]
    rcases hij with ⟨rfl, rfl⟩ | ⟨rfl, rfl⟩
    · exact h
    · rw [slot_symm]; exact h
  refine ⟨hmap, hn, ?_, ?_, ?_⟩
  · rw [addEdgeAt_nEdges, h]; rfl
  · rw [hdeg, hent]; rfl
  · apply slot_addEdgeAt
    intro lo' hi' hle' hij'
    have : lo' = lo ∧ hi' = hi := by
      rcases hij with ⟨rfl, rfl⟩ | ⟨rfl, rfl⟩ <;> rcases hij' with ⟨rfl, rfl⟩ | ⟨rfl, rfl⟩ <;>
        constructor <;> omega
    obtain ⟨rfl, rfl⟩ := this
    exact entry_some_bounds hent

/-! ### `getEdge` -/

theorem getEdge_of_indices {g : UndirectedGraph V E} {a b : V} {i j : Nat}
    (ha : mapFind a g.mapping = some i) (hb : mapFind b g.mapping = some j) :
    g.getEdge a b = match g.slot i j with
      | some e => .ok e
      | none => .error "The edge does not exist." := by
  unfold getEdge slot
  simp only [mapAt, ha, hb, bind, Except.bind]
  rfl

theorem getEdge_ok_iff (g : UndirectedGraph V E) (a b : V) (l : E) :
    g.getEdge a b = .ok l ↔ g.edgeOpt a b = some l := by
  unfold edgeOpt
  cases ha : mapFind a g.mapping with
  | none =>
    simp only [Option.bind]
    constructor
    · intro h
      unfold getEdge at h
      simp [mapAt, ha, bind, Except.bind] at h
    · intro h; cases h
  | some i =>
    cases hb : mapFind b g.mapping with
    | none =>
      simp only [Option.bind]
      constructor
      · intro h
        unfold getEdge at h
        simp [mapAt, ha, hb, bind, Except.bind] at h
      · intro h; cases h
    | some j =>
      rw [getEdge_of_indices ha hb]
      simp only [Option.bind]
      cases g.slot i j with
      | none => constructor <;> intro h <;> cases h
      | some e =>
        constructor
        · intro h; injection h with h; rw [h]
        · intro h; injection h with h; rw [h]

theorem getEdge_error_iff (g : UndirectedGraph V E) (a b : V) :
    (∃ msg, g.getEdge a b = .error msg) ↔ g.edgeOpt a b = none := by
  cases hr : g.getEdge a b with
  | error msg =>
    constructor
    · intro _
      cases he : g.edgeOpt a b with
      | none => rfl
      | some l =>
        have := (getEdge_ok_iff g a b l).mpr he
        rw [hr] at this
        cases this
    · intro _; exact ⟨msg, rfl⟩
  | ok l =>
    have := (getEdge_ok_iff g a b l).mp hr
    constructor
    · rintro ⟨msg, h⟩; cases h
    · intro h; rw [this] at h; cases h

/-! ### The representation invariant without the degrees -/

theorem WellFormed_of_Inv {g : UndirectedGraph V E} (h : Inv g) : WellFormed g :=
  ⟨h.map_inv, h.inv_map, h.rows, h.cols, h.degs⟩

theorem slot_none_of_ge {g : UndirectedGraph V E} (h : WellFormed g) (a b : Nat)
    (hab : g.nVertices ≤ a ∨ g.nVertices ≤ b) : g.slot a b = none := by
  have key : ∀ r c, g.nVertices ≤ r + c → g.entry r c = none := by
    intro r c hrc
    unfold entry
    by_cases hr : r < g.nVertices
    · have := h.cols r hr
      rw [List.getD_eq_default _ _ (by omega)]
    · rw [List.getD_eq_default g.adjacencyMatrix _ (by rw [h.rows]; omega)]
      rfl
  unfold slot
  split
  · exact key _ _ (by omega)
  · exact key _ _ (by omega)

theorem slot_addVertex {g : UndirectedGraph V E} (h : WellFormed g) (m : List (V × Nat))
    (im : List (Nat × V)) (k ne : Nat) (ds : List Nat) (a b : Nat) :
    slot ({ adjacencyMatrix := g.adjacencyMatrix.map (fun row => row ++ [none]) ++ [[none]]
            mapping := m, invMapping := im, nVertices := k, nEdges := ne, degrees := ds } :
          UndirectedGraph V E) a b = g.slot a b := by
  have key : ∀ r c,
      entry ({ adjacencyMatrix := g.adjacencyMatrix.map (fun row => row ++ [none]) ++ [[none]]
               mapping := m, invMapping := im, nVertices := k, nEdges := ne, degrees := ds } :
             UndirectedGraph V E) r c = g.entry r c := by
    intro r c
    unfold entry
    simp only [List.getD_eq_getElem?_getD]
    by_cases hr : r < g.nVertices
    · have hlen := h.cols r hr
      have hr' : r < g.adjacencyMatrix.length := by rw [h.rows]; exact hr
      rw [List.getElem?_append_left (by simpa using hr'), List.getElem?_map,
        List.getElem?_eq_getElem hr']
      simp only [Option.map_some', Option.getD_some]
      by_cases hc : c < g.adjacencyMatrix[r].length
      · rw [List.getElem?_append_left hc]
      · rw [List.getElem?_eq_none (l := g.adjacencyMatrix[r]) (by omega)]
        rcases Nat.lt_or_ge c (g.adjacencyMatrix[r].length + 1) with h1 | h1
        · have : c = g.adjacencyMatrix[r].length := by omega
          subst this
          simp
        · rw [List.getElem?_eq_none (by simp; omega)]
    · have hr' : g.adjacencyMatrix.length ≤ r := by rw [h.rows]; omega
      rw [List.getElem?_eq_none (l := g.adjacencyMatrix) hr']
      rcases Nat.lt_or_ge r (g.adjacencyMatrix.length + 1) with h1 | h1
      · have : r = g.adjacencyMatrix.length := by omega
        subst this
        rw [List.getElem?_append_right (by simp)]
        simp only [List.length_map, Nat.sub_self, List.getElem?_cons_zero, Option.getD_some,
          Option.getD_none, List.getElem?_nil]
        cases c <;> simp
      · have e1 : (g.adjacencyMatrix.map (fun row => row ++ [none]) ++ [[none]])[r]? = none :=
          List.getElem?_eq_none (by simp; omega)
        rw [e1]
  unfold slot
  simp only [key]

theorem WellFormed_empty : WellFormed ({} : UndirectedGraph V E) where
  map_inv := fun v i h => by simp [mapFind] at h
  inv_map := fun i h => absurd h (Nat.not_lt_zero i)
  rows := rfl
  cols := fun i h => absurd h (Nat.not_lt_zero i)
  degs := rfl

theorem WellFormed_addVertex {g : UndirectedGraph V E} (h : WellFormed g) {v : V}
    (hv : mapFind v g.mapping = none) :
    WellFormed ({ adjacencyMatrix := g.adjacencyMatrix.map (fun row => row ++ [none]) ++ [[none]]
                  mapping := (v, g.nVertices) :: g.mapping
                  invMapping := (g.nVertices, v) :: g.invMapping
                  nVertices := g.nVertices + 1
                  nEdges := g.nEdges
                  degrees := g.degrees ++ [0] } : UndirectedGraph V E) where
  map_inv := by
    intro v' i h'
    simp only [mapFind_cons] at h' ⊢
    split at h'
    · rename_i hvv
      simp only [Option.some.injEq] at h'
      subst h'
      exact ⟨Nat.lt_succ_self _, by simp [hvv]⟩
    · obtain ⟨hi, hinv⟩ := h.map_inv v' i h'
      refine ⟨Nat.lt_succ_of_lt hi, ?_⟩
      rw [if_neg (Nat.ne_of_lt hi)]
      exact hinv
  inv_map := by
    intro i hi
    simp only [mapFind_cons]
    by_cases hin : i = g.nVertices
    · exact ⟨v, by rw [if_pos hin], by rw [if_pos rfl, hin]⟩
    · obtain ⟨v', h1, h2⟩ := h.inv_map i (by simp only at hi; omega)
      refine ⟨v', by rw [if_neg hin]; exact h1, ?_⟩
      have hne : v' ≠ v := by
        intro heq
        rw [heq, hv] at h2
        exact Option.noConfusion h2
      rw [if_neg hne]
      exact h2
  rows := by simp [h.rows]
  cols := by
    intro i hi
    simp only at hi ⊢
    simp only [List.getD_eq_getElem?_getD]
    by_cases hin : i < g.nVertices
    · have hlen := h.cols i hin
      have hi' : i < g.adjacencyMatrix.length := by rw [h.rows]; exact hin
      simp only [List.getD_eq_getElem?_getD, List.getElem?_eq_getElem hi',
        Option.getD_some] at hlen
      rw [List.getElem?_append_left (by simpa using hi'), List.getElem?_map,
        List.getElem?_eq_getElem hi']
      simp only [Option.map_some', Option.getD_some, List.length_append, List.length_singleton,
        hlen]
      omega
    · have : i = g.adjacencyMatrix.length := by rw [h.rows]; omega
      subst this
      rw [List.getElem?_append_right (by simp)]
      simp [h.rows]
  degs := by simp [h.degs]

theorem WellFormed_addEdgeAt {g : UndirectedGraph V E} (h : WellFormed g) {i j : Nat}
    (hi : i < g.nVertices) (hj : j < g.nVertices) (e : Option E) :
    WellFormed (g.addEdgeAt i j e) := by
  obtain ⟨lo, hi', hle, hij, hadj, hmap, hinv, hn, hdeg⟩ := addEdgeAt_fields g i j e
  have hhi : hi' < g.nVertices := by rcases hij with ⟨-, rfl⟩ | ⟨-, rfl⟩ <;> assumption
  have hlo : lo < g.nVertices := by omega
  have hr : lo < g.adjacencyMatrix.length := by rw [h.rows]; omega
  refine ⟨?_, ?_, ?_, ?_, ?_⟩
  · rw [hmap, hinv, hn]; exact h.map_inv
  · rw [hmap, hinv, hn]; exact h.inv_map
  · rw [hadj, hn]; simp [setEntry, h.rows]
  · intro a ha
    rw [hn] at ha ⊢
    rw [hadj]
    have := h.cols a ha
    simp only [setEntry, List.getD_eq_getElem?_getD] at this ⊢
    by_cases hal : a = lo
    · subst hal
      rw [List.getElem?_set_self hr]
      simpa using this
    · rw [List.getElem?_set_ne (Ne.symm hal)]
      exact this
  · rw [hdeg, hn]
    split
    · split <;> simp [h.degs]
    · exact h.degs

/-- The bounds that `slot_addEdgeAt` asks for hold in a well-formed graph. -/
theorem bounds_of_WellFormed {g : UndirectedGraph V E} (h : WellFormed g) {i j : Nat}
    (hi : i < g.nVertices) (hj : j < g.nVertices) :
    ∀ lo hi', lo ≤ hi' → ((lo = i ∧ hi' = j) ∨ (lo = j ∧ hi' = i)) →
      lo < g.adjacencyMatrix.length ∧ hi' - lo < (g.adjacencyMatrix.getD lo []).length := by
  intro lo hi' hle hij
  have hhi : hi' < g.nVertices := by rcases hij with ⟨-, rfl⟩ | ⟨-, rfl⟩ <;> assumption
  have hlo : lo < g.nVertices := by omega
  refine ⟨by rw [h.rows]; exact hlo, ?_⟩
  rw [h.cols lo hlo]
  omega

theorem index_injective {g : UndirectedGraph V E} (h : WellFormed g) {a b : V} {i : Nat}
    (ha : mapFind a g.mapping = some i) (hb : mapFind b g.mapping = some i) : a = b := by
  have h1 := (h.map_inv a i ha).2
  have h2 := (h.map_inv b i hb).2
  rw [h1] at h2
  exact Option.some.inj h2

/-! ### The edges after `addVertex` and `addEdge` -/

theorem edgeOpt_symm (g : UndirectedGraph V E) (a b : V) : g.edgeOpt a b = g.edgeOpt b a := by
  unfold edgeOpt
  cases mapFind a g.mapping <;> cases mapFind b g.mapping <;>
    simp only [Option.bind]
  exact slot_symm g _ _

theorem edgeOpt_of_indices {g : UndirectedGraph V E} {a b : V} {i j : Nat}
    (ha : mapFind a g.mapping = some i) (hb : mapFind b g.mapping = some j) :
    g.edgeOpt a b = g.slot i j := by
  unfold edgeOpt
  rw [ha, hb]
  rfl

theorem edgeOpt_none_left {g : UndirectedGraph V E} {a : V} (b : V)
    (ha : mapFind a g.mapping = none) : g.edgeOpt a b = none := by
  unfold edgeOpt
  rw [ha]
  rfl

theorem edgeOpt_none_right {g : UndirectedGraph V E} (a : V) {b : V}
    (hb : mapFind b g.mapping = none) : g.edgeOpt a b = none := by
  rw [edgeOpt_symm]
  exact edgeOpt_none_left a hb

theorem edgeOpt_addVertex {g : UndirectedGraph V E} (h : WellFormed g) {v : V}
    (hv : mapFind v g.mapping = none) (a b : V) :
    edgeOpt ({ adjacencyMatrix := g.adjacencyMatrix.map (fun row => row ++ [none]) ++ [[none]]
               mapping := (v, g.nVertices) :: g.mapping
               invMapping := (g.nVertices, v) :: g.invMapping
               nVertices := g.nVertices + 1
               nEdges := g.nEdges
               degrees := g.degrees ++ [0] } : UndirectedGraph V E) a b = g.edgeOpt a b := by
  unfold edgeOpt
  simp only [mapFind_cons, slot_addVertex h]
  by_cases hav : a = v
  · subst hav
    rw [if_pos rfl, hv]
    simp only [Option.bind]
    by_cases hba : b = a
    · rw [if_pos hba]
      exact slot_none_of_ge h _ _ (Or.inl (Nat.le_refl _))
    · rw [if_neg hba]
      cases mapFind b g.mapping with
      | none => rfl
      | some j => exact slot_none_of_ge h _ _ (Or.inl (Nat.le_refl _))
  · rw [if_neg hav]
    cases mapFind a g.mapping with
    | none => rfl
    | some i =>
      simp only [Option.bind]
      by_cases hbv : b = v
      · subst hbv
        rw [if_pos rfl, hv]
        exact slot_none_of_ge h _ _ (Or.inr (Nat.le_refl _))
      · rw [if_neg hbv]

/-- The statement `if (mapping.find(u) == mapping.end()) { addVertex(u); }` on a well-formed
graph: afterwards `u` has an index, the old indices and all edges are as before, and no other
vertex is new. -/
theorem ensureVertex_wf {g : UndirectedGraph V E} (h : WellFormed g) (u : V) :
    ∃ g1, g.addVertexIfNew u = .ok g1 ∧
      WellFormed g1 ∧ (∃ i, mapFind u g1.mapping = some i) ∧
      (∀ w i, mapFind w g.mapping = some i → mapFind w g1.mapping = some i) ∧
      (∀ w, w ≠ u → mapFind w g1.mapping = mapFind w g.mapping) ∧
      (∀ a b, g1.edgeOpt a b = g.edgeOpt a b) := by
  unfold addVertexIfNew
  by_cases hu : mapFind u g.mapping = none
  · rw [if_pos hu, addVertex_ok hu]
    refine ⟨_, rfl, WellFormed_addVertex h hu, ⟨g.nVertices, by simp [mapFind_cons]⟩, ?_, ?_,
      edgeOpt_addVertex h hu⟩
    · intro w i hw
      have hne : w ≠ u := by
        intro heq
        rw [heq, hu] at hw
        exact Option.noConfusion hw
      simp only [mapFind_cons, if_neg hne]
      exact hw
    · intro w hne
      simp only [mapFind_cons, if_neg hne]
  · rw [if_neg hu]
    refine ⟨g, rfl, h, ?_, fun _ _ hw => hw, fun _ _ => rfl, fun _ _ => rfl⟩
    cases hm : mapFind u g.mapping with
    | none => exact absurd hm hu
    | some i => exact ⟨i, rfl⟩

/-- The call `addEdge(u, v, e)` on a well-formed graph returns; afterwards `u` and `v` are
vertices, the old indices are as before, no other vertex is new, and the label of the pair
`{u, v}` is `e` while every other pair has the label it had. -/
theorem addEdge_spec {g : UndirectedGraph V E} (h : WellFormed g) (u v : V) (e : Option E) :
    ∃ g', g.addEdge u v e = .ok g' ∧ WellFormed g' ∧
      (∃ i, mapFind u g'.mapping = some i) ∧ (∃ j, mapFind v g'.mapping = some j) ∧
      (∀ w i, mapFind w g.mapping = some i → mapFind w g'.mapping = some i) ∧
      (∀ w, w ≠ u → w ≠ v → mapFind w g'.mapping = mapFind w g.mapping) ∧
      (∀ a b, g'.edgeOpt a b =
        if (a = u ∧ b = v) ∨ (a = v ∧ b = u) then e else g.edgeOpt a b) := by
  obtain ⟨g1, hg1, hwf1, ⟨i, hi⟩, hkeep1, hnew1, hedge1⟩ := ensureVertex_wf h u
  obtain ⟨g2, hg2, hwf2, ⟨j, hj⟩, hkeep2, hnew2, hedge2⟩ := ensureVertex_wf hwf1 v
  have hi2 := hkeep2 u i hi
  have hilt := (hwf2.map_inv u i hi2).1
  have hjlt := (hwf2.map_inv v j hj).1
  obtain ⟨lo, hi', hle, hij, hadj, hmap, hinv, hn, hdeg⟩ := addEdgeAt_fields g2 i j e
  have hrun : g.addEdge u v e = .ok (g2.addEdgeAt i j e) := by
    unfold addEdge
    simp only [bind, Except.bind, hg1, hg2, mapAt, hi2, hj]
    rfl
  refine ⟨g2.addEdgeAt i j e, hrun, WellFormed_addEdgeAt hwf2 hilt hjlt e,
    ⟨i, by rw [hmap]; exact hi2⟩, ⟨j, by rw [hmap]; exact hj⟩, ?_, ?_, ?_⟩
  · intro w k hw
    rw [hmap]
    exact hkeep2 w k (hkeep1 w k hw)
  · intro w hwu hwv
    rw [hmap, hnew2 w hwv, hnew1 w hwu]
  · intro a b
    have hslot := slot_addEdgeAt g2 i j e (bounds_of_WellFormed hwf2 hilt hjlt)
    have hold : g.edgeOpt a b = g2.edgeOpt a b := by rw [hedge2, hedge1]
    rw [hold]
    unfold edgeOpt
    rw [hmap]
    cases ha : mapFind a g2.mapping with
    | none =>
      have hau : a ≠ u := fun heq => by rw [heq, hi2] at ha; exact Option.noConfusion ha
      have hav : a ≠ v := fun heq => by rw [heq, hj] at ha; exact Option.noConfusion ha
      rw [if_neg (by tauto)]
      rfl
    | some ia =>
      cases hb : mapFind b g2.mapping with
      | none =>
        have hbu : b ≠ u := fun heq => by rw [heq, hi2] at hb; exact Option.noConfusion hb
        have hbv : b ≠ v := fun heq => by rw [heq, hj] at hb; exact Option.noConfusion hb
        rw [if_neg (by tauto)]
        rfl
      | some ib =>
        simp only [Option.bind]
        rw [hslot]
        have hiff : ((ia = i ∧ ib = j) ∨ (ia = j ∧ ib = i)) ↔
            ((a = u ∧ b = v) ∨ (a = v ∧ b = u)) := by
          constructor
          · rintro (⟨rfl, rfl⟩ | ⟨rfl, rfl⟩)
            · exact Or.inl ⟨index_injective hwf2 ha hi2, index_injective hwf2 hb hj⟩
            · exact Or.inr ⟨index_injective hwf2 ha hj, index_injective hwf2 hb hi2⟩
          · rintro (⟨rfl, rfl⟩ | ⟨rfl, rfl⟩)
            · rw [hi2] at ha; rw [hj] at hb
              exact Or.inl ⟨(Option.some.inj ha).symm, (Option.some.inj hb).symm⟩
            · rw [hj] at ha; rw [hi2] at hb
              exact Or.inr ⟨(Option.some.inj ha).symm, (Option.some.inj hb).symm⟩
        simp only [hiff]

theorem WellFormed_step {g : UndirectedGraph V E} (h : WellFormed g) (c : Call V E) :
    WellFormed (g.step c) := by
  cases c with
  | addVertex v =>
    simp only [step]
    cases hm : mapFind v g.mapping with
    | none =>
      rw [addVertex_ok hm]
      exact WellFormed_addVertex h hm
    | some i =>
      have : g.addVertex v = .error "The vertex is already in the graph." := by
        unfold addVertex
        rw [hm]
      rw [this]
      exact h
  | addEdge u v e =>
    obtain ⟨g', hg', hwf, -⟩ := addEdge_spec h u v e
    simp only [step]
    rw [hg']
    exact hwf

theorem WellFormed_run {g : UndirectedGraph V E} (h : WellFormed g) (calls : List (Call V E)) :
    WellFormed (g.run calls) := by
  induction calls generalizing g with
  | nil => exact h
  | cons c calls ih =>
    unfold run
    rw [List.foldl_cons]
    exact ih (WellFormed_step h c)

/-- The edges after one call. -/
theorem edgeOpt_step {g : UndirectedGraph V E} (h : WellFormed g) (c : Call V E) (a b : V) :
    (g.step c).edgeOpt a b = match c with
      | .addVertex _ => g.edgeOpt a b
      | .addEdge x y e => if (a = x ∧ b = y) ∨ (a = y ∧ b = x) then e else g.edgeOpt a b := by
  cases c with
  | addVertex v =>
    simp only [step]
    cases hm : mapFind v g.mapping with
    | none =>
      rw [addVertex_ok hm]
      exact edgeOpt_addVertex h hm a b
    | some i =>
      have : g.addVertex v = .error "The vertex is already in the graph." := by
        unfold addVertex
        rw [hm]
      rw [this]
  | addEdge u v e =>
    obtain ⟨g', hg', -, -, -, -, -, hedge⟩ := addEdge_spec h u v e
    simp only [step]
    rw [hg']
    exact hedge a b

theorem run_append (g : UndirectedGraph V E) (calls : List (Call V E)) (c : Call V E) :
    g.run (calls ++ [c]) = (g.run calls).step c := by
  unfold run
  rw [List.foldl_append]
  rfl

/-! ### The claims on `addVertex`, `addEdge` and `getEdge` -/

theorem addEdge_of_indices {g : UndirectedGraph V E} {u v : V} {i j : Nat}
    (hu : mapFind u g.mapping = some i) (hv : mapFind v g.mapping = some j) (e : Option E) :
    g.addEdge u v e = .ok (g.addEdgeAt i j e) := by
  unfold addEdge addVertexIfNew
  simp [hu, hv, mapAt, bind, Except.bind, pure, Except.pure]

theorem getDegree_congr {g g' : UndirectedGraph V E} (hm : g'.mapping = g.mapping)
    (hd : g'.degrees = g.degrees) (w : V) : g'.getDegree w = g.getDegree w := by
  unfold getDegree
  rw [hm, hd]

/-- Writing a label on a pair of vertices that has one. -/
theorem addEdge_on_edge (g : UndirectedGraph V E) (u v : V) (l : E) (e : Option E)
    (h : g.edgeOpt u v = some l) :
    ∃ g', g.addEdge u v e = .ok g' ∧ g'.edgeOpt u v = e ∧ g'.edgeOpt v u = e ∧
      g'.nEdges = g.nEdges ∧ g'.nVertices = g.nVertices ∧
      ∀ w, g'.getDegree w = g.getDegree w := by
  cases hu : mapFind u g.mapping with
  | none => rw [edgeOpt_none_left v hu] at h; exact Option.noConfusion h
  | some i =>
    cases hv : mapFind v g.mapping with
    | none => rw [edgeOpt_none_right u hv] at h; exact Option.noConfusion h
    | some j =>
      rw [edgeOpt_of_indices hu hv] at h
      obtain ⟨hmap, hn, hne, hdeg, hslot⟩ := addEdgeAt_relabel g e h
      refine ⟨g.addEdgeAt i j e, addEdge_of_indices hu hv e, ?_, ?_, hne, hn,
        getDegree_congr hmap hdeg⟩
      · rw [edgeOpt_of_indices (by rw [hmap]; exact hu) (by rw [hmap]; exact hv), hslot,
          if_pos (Or.inl ⟨rfl, rfl⟩)]
      · rw [edgeOpt_of_indices (by rw [hmap]; exact hv) (by rw [hmap]; exact hu), hslot,
          if_pos (Or.inr ⟨rfl, rfl⟩)]

/-- Claim C16, as stated, fails: when the new label is `nullptr` the pair has no edge
afterwards, so `getEdge` throws, while the number of edges is still 1. -/
theorem relabel_with_null_label_removes_edge :
    (run emptyGraph [Call.addEdge 0 1 (some 5)]).getEdge 0 1 = Except.ok 5 ∧
    ∃ g', (run emptyGraph [Call.addEdge 0 1 (some 5)]).addEdge 0 1 none = Except.ok g' ∧
      g'.getEdge 0 1 = Except.error "The edge does not exist." ∧ g'.getNEdges = 1 :=
  ⟨rfl, _, rfl, rfl, rfl⟩

/-- Claim C16, amended: for every graph, every pair of vertices `u`, `v` that has an edge and
every present label `l'` (not `nullptr`), both `addEdge(u, v, l')` and `addEdge(v, u, l')`
return, and after either call `getEdge(u, v)` and `getEdge(v, u)` return `l'`, `getNEdges` is
as before and `getDegree` returns for every vertex what it returned before. -/
theorem addEdge_relabel (g : UndirectedGraph V E) (u v : V) (l l' : E)
    (h : g.getEdge u v = .ok l) :
    ∃ g1 g2, g.addEdge u v (some l') = .ok g1 ∧ g.addEdge v u (some l') = .ok g2 ∧
      ∀ g', g' = g1 ∨ g' = g2 →
        g'.getEdge u v = .ok l' ∧ g'.getEdge v u = .ok l' ∧ g'.getNEdges = g.getNEdges ∧
        ∀ w, g'.getDegree w = g.getDegree w := by
  have huv := (getEdge_ok_iff g u v l).mp h
  have hvu : g.edgeOpt v u = some l := by rw [edgeOpt_symm]; exact huv
  obtain ⟨g1, hg1, h11, h12, h13, -, h14⟩ := addEdge_on_edge g u v l (some l') huv
  obtain ⟨g2, hg2, h21, h22, h23, -, h24⟩ := addEdge_on_edge g v u l (some l') hvu
  refine ⟨g1, g2, hg1, hg2, ?_⟩
  rintro g' (rfl | rfl)
  · exact ⟨(getEdge_ok_iff _ u v l').mpr h11, (getEdge_ok_iff _ v u l').mpr h12, h13, h14⟩
  · exact ⟨(getEdge_ok_iff _ u v l').mpr h22, (getEdge_ok_iff _ v u l').mpr h21, h23, h24⟩

/-- Claim C16, amended, on an example: the edge between 0 and 1 of the example graph gets the
label 9. -/
theorem addEdge_relabel_witness :
    (run emptyGraph exampleCalls).getEdge 0 1 = Except.ok 7 ∧
    ∃ g1 g2, (run emptyGraph exampleCalls).addEdge 0 1 (some 9) = Except.ok g1 ∧
      (run emptyGraph exampleCalls).addEdge 1 0 (some 9) = Except.ok g2 ∧
      ∀ g', g' = g1 ∨ g' = g2 →
        g'.getEdge 0 1 = Except.ok 9 ∧ g'.getEdge 1 0 = Except.ok 9 ∧
        g'.getNEdges = (run emptyGraph exampleCalls).getNEdges ∧
        ∀ w, g'.getDegree w = (run emptyGraph exampleCalls).getDegree w :=
  ⟨rfl, addEdge_relabel (run emptyGraph exampleCalls) 0 1 7 9 rfl⟩

theorem getEdge_eq_of_edgeOpt {g g' : UndirectedGraph V E} {a b : V} {i j i' j' : Nat}
    (ha : mapFind a g.mapping = some i) (hb : mapFind b g.mapping = some j)
    (ha' : mapFind a g'.mapping = some i') (hb' : mapFind b g'.mapping = some j')
    (h : g'.edgeOpt a b = g.edgeOpt a b) : g'.getEdge a b = g.getEdge a b := by
  rw [getEdge_of_indices ha hb, getEdge_of_indices ha' hb']
  rw [edgeOpt_of_indices ha hb, edgeOpt_of_indices ha' hb'] at h
  rw [h]

/-- Claim C17: on every graph reached from the empty graph by calls of `addVertex` and
`addEdge`, for all `u`, `v` and every present label `l`, the call `addEdge(u, v, l)` returns;
afterwards `getEdge(u, v)` and `getEdge(v, u)` return `l`, `u` and `v` are vertices, `getEdge`
returns the same label for a pair as for the reversed pair, and for every pair other than
`{u, v}` it returns a label exactly when it did before, the same one; for such a pair of
vertices of the old graph its result is the one it had before. -/
theorem addEdge_getEdge_round_trip (calls : List (Call V E)) (u v : V) (l : E) :
    ∃ g', (run ({} : UndirectedGraph V E) calls).addEdge u v (some l) = .ok g' ∧
      g'.getEdge u v = .ok l ∧ g'.getEdge v u = .ok l ∧
      (mapFind u g'.mapping).isSome = true ∧ (mapFind v g'.mapping).isSome = true ∧
      (∀ a b l0, g'.getEdge a b = .ok l0 ↔ g'.getEdge b a = .ok l0) ∧
      ∀ a b, ¬ ((a = u ∧ b = v) ∨ (a = v ∧ b = u)) →
        (∀ l0, g'.getEdge a b = .ok l0 ↔
          (run ({} : UndirectedGraph V E) calls).getEdge a b = .ok l0) ∧
        ((mapFind a (run ({} : UndirectedGraph V E) calls).mapping).isSome = true →
          (mapFind b (run ({} : UndirectedGraph V E) calls).mapping).isSome = true →
          g'.getEdge a b = (run ({} : UndirectedGraph V E) calls).getEdge a b) := by
  have hwf := WellFormed_run (WellFormed_empty (V := V) (E := E)) calls
  obtain ⟨g', hg', -, ⟨i, hi⟩, ⟨j, hj⟩, hkeep, -, hedge⟩ := addEdge_spec hwf u v (some l)
  refine ⟨g', hg', ?_, ?_, by rw [hi]; rfl, by rw [hj]; rfl, ?_, ?_⟩
  · rw [getEdge_ok_iff, hedge, if_pos (Or.inl ⟨rfl, rfl⟩)]
  · rw [getEdge_ok_iff, hedge, if_pos (Or.inr ⟨rfl, rfl⟩)]
  · intro a b l0
    rw [getEdge_ok_iff, getEdge_ok_iff, edgeOpt_symm]
  · intro a b hab
    have hsame := hedge a b
    rw [if_neg hab] at hsame
    refine ⟨fun l0 => by rw [getEdge_ok_iff, getEdge_ok_iff, hsame], ?_⟩
    intro ha hb
    cases hma : mapFind a (run ({} : UndirectedGraph V E) calls).mapping with
    | none => rw [hma] at ha; exact Bool.noConfusion ha
    | some ia =>
      cases hmb : mapFind b (run ({} : UndirectedGraph V E) calls).mapping with
      | none => rw [hmb] at hb; exact Bool.noConfusion hb
      | some ib =>
        exact getEdge_eq_of_edgeOpt hma hmb (hkeep a ia hma) (hkeep b ib hmb) hsame

/-- Claim C18: `addVertex(v)` throws if and only if `v` is already a vertex (it has an index in
`mapping`), and then the graph after the call is the graph before it. The function
`addVertexState` returns the graph after the call on both outcomes; it agrees with `addVertex`
when the call returns. -/
theorem addVertex_fails_iff (g : UndirectedGraph V E) (v : V) :
    ((∃ msg, g.addVertex v = .error msg) ↔ (mapFind v g.mapping).isSome = true) ∧
    ((∃ msg, (g.addVertexState v).1 = .error msg) ↔ (mapFind v g.mapping).isSome = true) ∧
    ((mapFind v g.mapping).isSome = true → (g.addVertexState v).2 = g) ∧
    (∀ g', g.addVertex v = .ok g' → g.addVertexState v = (.ok (), g')) ∧
    g.step (.addVertex v) = (g.addVertexState v).2 := by
  cases hm : mapFind v g.mapping with
  | none =>
    have hs : g.addVertexState v = (.ok (),
        { adjacencyMatrix := g.adjacencyMatrix.map (fun row => row ++ [none]) ++ [[none]]
          mapping := (v, g.nVertices) :: g.mapping
          invMapping := (g.nVertices, v) :: g.invMapping
          nVertices := g.nVertices + 1
          nEdges := g.nEdges
          degrees := g.degrees ++ [0] }) := by
      unfold addVertexState
      rw [if_pos hm]
    simp only [step]
    rw [addVertex_ok hm, hs]
    refine ⟨⟨?_, ?_⟩, ⟨?_, ?_⟩, ?_, ?_, rfl⟩
    · rintro ⟨msg, h⟩; cases h
    · intro h; cases h
    · rintro ⟨msg, h⟩; cases h
    · intro h; cases h
    · intro h; cases h
    · intro g' h
      injection h with h
      rw [h]
  | some i =>
    have ha : g.addVertex v = .error "The vertex is already in the graph." := by
      unfold addVertex
      rw [hm]
    have hs : g.addVertexState v = (.error "The vertex is already in the graph.", g) := by
      unfold addVertexState
      rw [if_neg (by rw [hm]; exact fun h => Option.noConfusion h)]
    simp only [step]
    rw [ha, hs]
    refine ⟨⟨fun _ => rfl, fun _ => ⟨_, rfl⟩⟩, ⟨fun _ => rfl, fun _ => ⟨_, rfl⟩⟩, fun _ => rfl,
      ?_, rfl⟩
    intro g' h
    cases h

theorem foldlM_neighboursStep_absent (g : UndirectedGraph V E) (i k : Nat)
    (h : ∀ j, j < k → g.present i j = false) :
    (List.range k).foldlM (g.neighboursStep i) [] = .ok [] := by
  induction k with
  | zero => rfl
  | succ k ih =>
    rw [List.range_succ, List.foldlM_append, ih (fun j hj => h j (Nat.lt_succ_of_lt hj))]
    simp [neighboursStep, h k (Nat.lt_succ_self k), pure, Except.pure, bind, Except.bind]

/-- Claim C19: on every graph reached from the empty graph by calls of `addVertex` and
`addEdge`, for a `v` that is not yet a vertex, `addVertex(v)` returns; afterwards
`getNVertices` is one more, the index of `v` is the old vertex count, `v` has degree 0, no
neighbours and no edge with any vertex, `getNEdges` is as before, every old vertex has its old
index and its old degree, and `getEdge` returns for every pair without `v` what it returned
before. -/
theorem addVertex_new (calls : List (Call V E)) (v : V)
    (hv : mapFind v (run ({} : UndirectedGraph V E) calls).mapping = none) :
    ∃ g', (run ({} : UndirectedGraph V E) calls).addVertex v = .ok g' ∧
      g'.getNVertices = (run ({} : UndirectedGraph V E) calls).getNVertices + 1 ∧
      mapFind v g'.mapping = some (run ({} : UndirectedGraph V E) calls).getNVertices ∧
      g'.getDegree v = .ok 0 ∧
      g'.getNeighbours v = .ok [] ∧
      (∀ w l, g'.getEdge v w ≠ .ok l ∧ g'.getEdge w v ≠ .ok l) ∧
      g'.getNEdges = (run ({} : UndirectedGraph V E) calls).getNEdges ∧
      (∀ w i, mapFind w (run ({} : UndirectedGraph V E) calls).mapping = some i →
        mapFind w g'.mapping = some i ∧
        g'.getDegree w = (run ({} : UndirectedGraph V E) calls).getDegree w) ∧
      (∀ a b, a ≠ v → b ≠ v →
        g'.getEdge a b = (run ({} : UndirectedGraph V E) calls).getEdge a b) := by
  have hwf := WellFormed_run (WellFormed_empty (V := V) (E := E)) calls
  generalize run ({} : UndirectedGraph V E) calls = g at hv hwf
  have hedge := edgeOpt_addVertex hwf hv
  refine ⟨_, addVertex_ok hv, rfl, by simp [mapFind_cons, getNVertices], ?_, ?_, ?_, rfl, ?_, ?_⟩
  · simp only [getDegree, mapFind_cons, if_pos]
    rw [← hwf.degs]
    simp
  · simp only [getNeighbours, mapFind_cons, if_pos]
    apply foldlM_neighboursStep_absent
    intro j _
    rw [present_eq_slot, slot_addVertex hwf, slot_none_of_ge hwf _ _ (Or.inl (Nat.le_refl _))]
    rfl
  · intro w l
    constructor
    · rw [Ne, getEdge_ok_iff, hedge, edgeOpt_none_left w hv]
      exact fun h => Option.noConfusion h
    · rw [Ne, getEdge_ok_iff, hedge, edgeOpt_none_right w hv]
      exact fun h => Option.noConfusion h
  · intro w i hw
    have hne : w ≠ v := by
      intro heq
      rw [heq, hv] at hw
      exact Option.noConfusion hw
    have hi := (hwf.map_inv w i hw).1
    refine ⟨by simp only [mapFind_cons, if_neg hne]; exact hw, ?_⟩
    simp only [getDegree, mapFind_cons, if_neg hne, hw]
    rw [List.getD_append _ _ _ _ (by rw [hwf.degs]; exact hi)]
  · intro a b ha hb
    unfold getEdge
    simp only [mapFind_cons, mapAt, if_neg ha, if_neg hb]
    cases mapFind a g.mapping with
    | none => rfl
    | some i =>
      cases mapFind b g.mapping with
      | none => rfl
      | some j =>
        have := slot_addVertex hwf ((v, g.nVertices) :: g.mapping)
          ((g.nVertices, v) :: g.invMapping) (g.nVertices + 1) g.nEdges (g.degrees ++ [0]) i j
        unfold slot at this
        simp only [bind, Except.bind]
        rw [this]

/-- Claim C19 on an example: the vertex 3 is added to the example graph. -/
theorem addVertex_new_witness :
    mapFind 3 (run emptyGraph exampleCalls).mapping = none ∧
    ∃ g', (run emptyGraph exampleCalls).addVertex 3 = Except.ok g' ∧
      g'.getNVertices = (run emptyGraph exampleCalls).getNVertices + 1 ∧
      mapFind 3 g'.mapping = some (run emptyGraph exampleCalls).getNVertices ∧
      g'.getDegree 3 = Except.ok 0 ∧
      g'.getNeighbours 3 = Except.ok [] ∧
      (∀ w l, g'.getEdge 3 w ≠ Except.ok l ∧ g'.getEdge w 3 ≠ Except.ok l) ∧
      g'.getNEdges = (run emptyGraph exampleCalls).getNEdges ∧
      (∀ w i, mapFind w (run emptyGraph exampleCalls).mapping = some i →
        mapFind w g'.mapping = some i ∧
        g'.getDegree w = (run emptyGraph exampleCalls).getDegree w) ∧
      (∀ a b, a ≠ 3 → b ≠ 3 →
        g'.getEdge a b = (run emptyGraph exampleCalls).getEdge a b) :=
  ⟨rfl, addVertex_new exampleCalls 3 rfl⟩

/-- The pairs with an edge are those on which `addEdge` was called, when all labels are
present. -/
theorem edgeOpt_isSome_iff (calls : List (Call V E))
    (hlabels : ∀ c ∈ calls, c.labelPresent = true) (a b : V) :
    (edgeOpt (run ({} : UndirectedGraph V E) calls) a b).isSome = true ↔
      ∃ c ∈ calls, c.onPair a b := by
  induction calls using List.reverseRecOn with
  | nil =>
    constructor
    · intro h
      have : edgeOpt (run ({} : UndirectedGraph V E) []) a b = none := rfl
      rw [this] at h
      exact Bool.noConfusion h
    · rintro ⟨c, hc, -⟩
      exact absurd hc (List.not_mem_nil c)
  | append_singleton calls c ih =>
    have hwf := WellFormed_run (WellFormed_empty (V := V) (E := E)) calls
    have ih' := ih (fun c' hc' => hlabels c' (List.mem_append_left _ hc'))
    have hc := hlabels c (List.mem_append_right _ (List.mem_singleton_self c))
    rw [run_append, edgeOpt_step hwf]
    cases c with
    | addVertex x =>
      simp only []
      rw [ih']
      constructor
      · rintro ⟨c', hc', h⟩
        exact ⟨c', List.mem_append_left _ hc', h⟩
      · rintro ⟨c', hc', h⟩
        rcases List.mem_append.mp hc' with hc' | hc'
        · exact ⟨c', hc', h⟩
        · rw [List.mem_singleton.mp hc'] at h
          exact absurd h (fun hf => hf)
    | addEdge x y e =>
      cases e with
      | none => simp [Call.labelPresent] at hc
      | some e =>
        simp only []
        by_cases hab : (a = x ∧ b = y) ∨ (a = y ∧ b = x)
        · rw [if_pos hab]
          refine ⟨fun _ => ⟨_, List.mem_append_right _ (List.mem_singleton_self _), ?_⟩,
            fun _ => rfl⟩
          show (x = a ∧ y = b) ∨ (x = b ∧ y = a)
          rcases hab with ⟨h1, h2⟩ | ⟨h1, h2⟩
          · exact Or.inl ⟨h1.symm, h2.symm⟩
          · exact Or.inr ⟨h2.symm, h1.symm⟩
        · rw [if_neg hab, ih']
          constructor
          · rintro ⟨c', hc', h⟩
            exact ⟨c', List.mem_append_left _ hc', h⟩
          · rintro ⟨c', hc', h⟩
            rcases List.mem_append.mp hc' with hc' | hc'
            · exact ⟨c', hc', h⟩
            · rw [List.mem_singleton.mp hc'] at h
              exfalso
              apply hab
              have h' : (x = a ∧ y = b) ∨ (x = b ∧ y = a) := h
              rcases h' with ⟨h1, h2⟩ | ⟨h1, h2⟩
              · exact Or.inl ⟨h1.symm, h2.symm⟩
              · exact Or.inr ⟨h2.symm, h1.symm⟩

/-- Claim C20: on every graph reached from the empty graph by calls of `addVertex` and
`addEdge` with present labels, `getEdge(u, v)` throws if and only if none of the calls was an
`addEdge` on the pair `{u, v}` (in either order); and `getEdge(u, v)` throws when `u` or `v`
is not a vertex. -/
theorem getEdge_fails_iff_no_call (calls : List (Call V E))
    (hlabels : ∀ c ∈ calls, c.labelPresent = true) (u v : V) :
    ((∃ msg, (run ({} : UndirectedGraph V E) calls).getEdge u v = .error msg) ↔
      ¬ ∃ c ∈ calls, c.onPair u v) ∧
    ((mapFind u (run ({} : UndirectedGraph V E) calls).mapping = none ∨
        mapFind v (run ({} : UndirectedGraph V E) calls).mapping = none) →
      ∃ msg, (run ({} : UndirectedGraph V E) calls).getEdge u v = .error msg) := by
  constructor
  · rw [getEdge_error_iff, ← edgeOpt_isSome_iff calls hlabels u v]
    cases edgeOpt (run ({} : UndirectedGraph V E) calls) u v <;> simp
  · rintro (h | h)
    · exact (getEdge_error_iff _ u v).mpr (edgeOpt_none_left v h)
    · exact (getEdge_error_iff _ u v).mpr (edgeOpt_none_right u h)

/-- Claim C20 on the example graph: no call was made on the pair of the vertices 0 and 2, on
which `getEdge` throws. -/
theorem getEdge_fails_iff_no_call_witness :
    (∀ c ∈ exampleCalls, c.labelPresent = true) ∧
    ((∃ msg, (run emptyGraph exampleCalls).getEdge 0 2 = Except.error msg) ↔
      ¬ ∃ c ∈ exampleCalls, c.onPair 0 2) ∧
    ((mapFind 0 (run emptyGraph exampleCalls).mapping = none ∨
        mapFind 2 (run emptyGraph exampleCalls).mapping = none) →
      ∃ msg, (run emptyGraph exampleCalls).getEdge 0 2 = Except.error msg) :=
  ⟨by decide, getEdge_fails_iff_no_call exampleCalls (by decide) 0 2⟩

/-! ### The representation of reachable graphs -/

/-- The indices of `mapping` are handed out in the order of insertion. -/
theorem mapping_order_step {g : UndirectedGraph V E}
    (h : g.mapping.map Prod.snd = (List.range g.nVertices).reverse) (c : Call V E) :
    (g.step c).mapping.map Prod.snd = (List.range (g.step c).nVertices).reverse := by
  have hv : ∀ (g : UndirectedGraph V E),
      g.mapping.map Prod.snd = (List.range g.nVertices).reverse → ∀ v g1,
      g.addVertexIfNew v = .ok g1 →
      g1.mapping.map Prod.snd = (List.range g1.nVertices).reverse := by
    intro g h v g1 hg1
    unfold addVertexIfNew at hg1
    by_cases hm : mapFind v g.mapping = none
    · rw [if_pos hm, addVertex_ok hm] at hg1
      injection hg1 with hg1
      subst hg1
      simp only [List.map_cons, List.range_succ, List.reverse_append, List.reverse_singleton,
        List.singleton_append, h]
    · rw [if_neg hm] at hg1
      injection hg1 with hg1
      subst hg1
      exact h
  cases c with
  | addVertex v =>
    simp only [step]
    cases hm : mapFind v g.mapping with
    | none =>
      rw [addVertex_ok hm]
      simp only [List.map_cons, List.range_succ, List.reverse_append, List.reverse_singleton,
        List.singleton_append, h]
    | some i =>
      have : g.addVertex v = .error "The vertex is already in the graph." := by
        unfold addVertex
        rw [hm]
      rw [this]
      exact h
  | addEdge u v e =>
    simp only [step]
    cases hr : g.addEdge u v e with
    | error msg => exact h
    | ok g' =>
      simp only []
      unfold addEdge at hr
      cases h1 : g.addVertexIfNew u with
      | error msg => rw [h1] at hr; cases hr
      | ok g1 =>
        cases h2 : g1.addVertexIfNew v with
        | error msg => rw [h1] at hr; simp only [bind, Except.bind, h2] at hr; cases hr
        | ok g2 =>
          have ho := hv g1 (hv g h u g1 h1) v g2 h2
          rw [h1] at hr
          simp only [bind, Except.bind, h2] at hr
          cases h3 : mapAt u g2.mapping with
          | error msg => rw [h3] at hr; cases hr
          | ok i =>
            cases h4 : mapAt v g2.mapping with
            | error msg => rw [h3] at hr; simp only [h4] at hr; cases hr
            | ok j =>
              rw [h3] at hr
              simp only [h4, pure, Except.pure] at hr
              injection hr with hr
              subst hr
              obtain ⟨lo, hi', -, -, -, hmap, -, hn, -⟩ := addEdgeAt_fields g2 i j e
              rw [hmap, hn]
              exact ho

theorem mapping_order_run (calls : List (Call V E)) :
    (run ({} : UndirectedGraph V E) calls).mapping.map Prod.snd
      = (List.range (run ({} : UndirectedGraph V E) calls).nVertices).reverse := by
  induction calls using List.reverseRecOn with
  | nil => rfl
  | append_singleton calls c ih =>
    rw [run_append]
    exact mapping_order_step ih c

/-- The table of the example graph: three vertices, rows of 3, 2 and 1 entries. -/
theorem reachable_representation_example :
    (run emptyGraph exampleCalls).mapping = [(2, 2), (1, 1), (0, 0)] ∧
    (run emptyGraph exampleCalls).adjacencyMatrix
      = [[none, some 7, none], [some 7, none], [none]] ∧
    (run emptyGraph exampleCalls).degrees = [1, 2, 0] ∧
    (run emptyGraph exampleCalls).slot? 2 1 = some none ∧
    (run emptyGraph exampleCalls).slot? 1 3 = none :=
  ⟨rfl, rfl, rfl, rfl, rfl⟩

/-! ### `isAdjacent` -/

theorem isAdjacent_of_indices {g : UndirectedGraph V E} {u v : V} {i j : Nat}
    (hu : mapFind u g.mapping = some i) (hv : mapFind v g.mapping = some j) :
    g.isAdjacent u v = .ok (decide (i ≠ j) && g.present i j) := by
  unfold isAdjacent present
  simp only [mapAt, hu, hv, bind, Except.bind, pure, Except.pure]
  congr 1
  rcases Nat.lt_trichotomy i j with h | h | h
  · have h1 : ¬ j < i := by omega
    have h2 : i ≠ j := by omega
    simp [h, h1, h2]
  · subst h
    simp
  · have h1 : ¬ i < j := by omega
    have h2 : i ≠ j := by omega
    simp [h, h1, h2]

theorem present_symm (g : UndirectedGraph V E) (i j : Nat) : g.present i j = g.present j i := by
  rw [present_eq_slot, present_eq_slot, slot_symm]

/-- The vertices returned by `getNeighbours` in a well-formed graph: those whose index has a
present entry with the index of the argument. -/
theorem getNeighbours_mem {g : UndirectedGraph V E} (h : WellFormed g) {u : V} {i : Nat}
    (hu : mapFind u g.mapping = some i) :
    ∃ ns, g.getNeighbours u = .ok ns ∧
      ∀ w, w ∈ ns ↔ ∃ j, mapFind w g.mapping = some j ∧ g.present i j = true := by
  have key : ∀ k, k ≤ g.nVertices →
      ∃ ns, (List.range k).foldlM (g.neighboursStep i) [] = .ok ns ∧
        ∀ w, w ∈ ns ↔ ∃ j, j < k ∧ mapFind j g.invMapping = some w ∧ g.present i j = true := by
    intro k
    induction k with
    | zero =>
      intro _
      refine ⟨[], rfl, fun w => ⟨fun hw => absurd hw (List.not_mem_nil w), ?_⟩⟩
      rintro ⟨j, hj, -⟩
      exact absurd hj (Nat.not_lt_zero j)
    | succ k ih =>
      intro hk
      obtain ⟨ns, hrun, hmem⟩ := ih (by omega)
      rw [List.range_succ, List.foldlM_append, hrun]
      obtain ⟨u', hu1, hu2⟩ := h.inv_map k (by omega)
      cases hp : g.present i k with
      | false =>
        refine ⟨ns, ?_, fun w => ?_⟩
        · simp [neighboursStep, hp, pure, Except.pure, bind, Except.bind]
        · rw [hmem w]
          constructor
          · rintro ⟨j, hj, hjw, hpj⟩
            exact ⟨j, by omega, hjw, hpj⟩
          · rintro ⟨j, hj, hjw, hpj⟩
            have hne : j ≠ k := by
              intro hjk
              rw [hjk, hp] at hpj
              exact Bool.noConfusion hpj
            exact ⟨j, by omega, hjw, hpj⟩
      | true =>
        refine ⟨setEmplace ns u', ?_, fun w => ?_⟩
        · simp [neighboursStep, hp, mapAt, hu1, pure, Except.pure, bind, Except.bind]
        · rw [mem_setEmplace, hmem w]
          constructor
          · rintro (⟨j, hj, hjw, hpj⟩ | hw)
            · exact ⟨j, by omega, hjw, hpj⟩
            · exact ⟨k, Nat.lt_succ_self k, by rw [hw]; exact hu1, hp⟩
          · rintro ⟨j, hj, hjw, hpj⟩
            by_cases hjk : j = k
            · right
              rw [hjk, hu1] at hjw
              exact (Option.some.inj hjw).symm
            · exact Or.inl ⟨j, by omega, hjw, hpj⟩
  obtain ⟨ns, hrun, hmem⟩ := key g.nVertices (Nat.le_refl _)
  refine ⟨ns, ?_, fun w => ?_⟩
  · unfold getNeighbours
    rw [hu]
    exact hrun
  · rw [hmem w]
    constructor
    · rintro ⟨j, hj, hjw, hpj⟩
      obtain ⟨w', hw1, hw2⟩ := h.inv_map j hj
      rw [hjw] at hw1
      rw [Option.some.inj hw1]
      exact ⟨j, hw2, hpj⟩
    · rintro ⟨j, hjw, hpj⟩
      exact ⟨j, (h.map_inv w j hjw).1, (h.map_inv w j hjw).2, hpj⟩

/-- Claim C33: in every graph reached from the empty graph by calls of `addVertex` and
`addEdge`, for vertices `u` and `v`, `isAdjacent(u, v)` and `isAdjacent(v, u)` return the same
value; for `u ≠ v` this value is `true` exactly when `getEdge(u, v)` returns a label, and
exactly when `v` is among the vertices returned by `getNeighbours(u)`; `isAdjacent(v, v)`
returns `false`; and after a call `addEdge(w, w, l)` with a label `l`, `isAdjacent(w, w)`
still returns `false` although `getEdge(w, w)` returns `l` and `getNeighbours(w)` contains
`w`. -/
theorem isAdjacent_spec (calls : List (Call V E)) (u v : V)
    (hu : (mapFind u (run ({} : UndirectedGraph V E) calls).mapping).isSome = true)
    (hv : (mapFind v (run ({} : UndirectedGraph V E) calls).mapping).isSome = true) :
    (∃ b ns, (run ({} : UndirectedGraph V E) calls).isAdjacent u v = .ok b ∧
      (run ({} : UndirectedGraph V E) calls).isAdjacent v u = .ok b ∧
      (run ({} : UndirectedGraph V E) calls).getNeighbours u = .ok ns ∧
      (u ≠ v → (b = true ↔ ∃ l, (run ({} : UndirectedGraph V E) calls).getEdge u v = .ok l) ∧
        (b = true ↔ v ∈ ns))) ∧
    (run ({} : UndirectedGraph V E) calls).isAdjacent v v = .ok false ∧
    ∀ (w : V) (l : E), ∃ g' ns,
      (run ({} : UndirectedGraph V E) calls).addEdge w w (some l) = .ok g' ∧
      g'.isAdjacent w w = .ok false ∧ g'.getEdge w w = .ok l ∧
      g'.getNeighbours w = .ok ns ∧ w ∈ ns := by
  have hwf := WellFormed_run (WellFormed_empty (V := V) (E := E)) calls
  cases hi : mapFind u (run ({} : UndirectedGraph V E) calls).mapping with
  | none => rw [hi] at hu; exact Bool.noConfusion hu
  | some i =>
  cases hj : mapFind v (run ({} : UndirectedGraph V E) calls).mapping with
  | none => rw [hj] at hv; exact Bool.noConfusion hv
  | some j =>
  refine ⟨?_, ?_, ?_⟩
  · obtain ⟨ns, hns, hmem⟩ := getNeighbours_mem hwf hi
    refine ⟨_, ns, isAdjacent_of_indices hi hj, ?_, hns, fun huv => ?_⟩
    · rw [isAdjacent_of_indices hj hi, present_symm]
      congr 2
      exact decide_eq_decide.mpr ⟨fun h1 h2 => h1 h2.symm, fun h1 h2 => h1 h2.symm⟩
    · have hij : i ≠ j := by
        intro h
        rw [← h] at hj
        exact huv (index_injective hwf hi hj)
      have hb : (decide (i ≠ j) && (run ({} : UndirectedGraph V E) calls).present i j)
          = (run ({} : UndirectedGraph V E) calls).present i j := by
        simp [hij]
      rw [hb]
      constructor
      · rw [getEdge_of_indices hi hj, present_eq_slot]
        cases (run ({} : UndirectedGraph V E) calls).slot i j with
        | none =>
          constructor
          · intro h; exact Bool.noConfusion h
          · rintro ⟨l, h⟩; cases h
        | some e => exact ⟨fun _ => ⟨e, rfl⟩, fun _ => rfl⟩
      · rw [hmem v]
        constructor
        · intro h; exact ⟨j, hj, h⟩
        · rintro ⟨j', hj', h⟩
          rw [hj] at hj'
          rw [Option.some.inj hj']
          exact h
  · rw [isAdjacent_of_indices hj hj]
    simp
  · intro w l
    obtain ⟨g', hg', hwf', ⟨k, hk⟩, -, -, -, hedge⟩ := addEdge_spec hwf w w (some l)
    obtain ⟨ns, hns, hmem⟩ := getNeighbours_mem hwf' hk
    have he : g'.edgeOpt w w = some l := by rw [hedge]; simp
    have hslot : g'.slot k k = some l := by
      rw [edgeOpt_of_indices hk hk] at he
      exact he
    refine ⟨g', ns, hg', ?_, (getEdge_ok_iff g' w w l).mpr he, hns, ?_⟩
    · rw [isAdjacent_of_indices hk hk]
      simp
    · rw [hmem w]
      exact ⟨k, hk, by rw [present_eq_slot, hslot]; rfl⟩

/-- Claim C33 on the example graph, for the vertices 0 and 1. -/
theorem isAdjacent_spec_witness :
    (mapFind 0 (run emptyGraph exampleCalls).mapping).isSome = true ∧
    (mapFind 1 (run emptyGraph exampleCalls).mapping).isSome = true ∧
    (∃ b ns, (run emptyGraph exampleCalls).isAdjacent 0 1 = .ok b ∧
      (run emptyGraph exampleCalls).isAdjacent 1 0 = .ok b ∧
      (run emptyGraph exampleCalls).getNeighbours 0 = .ok ns ∧
      ((0 : Nat) ≠ 1 → (b = true ↔ ∃ l, (run emptyGraph exampleCalls).getEdge 0 1 = .ok l) ∧
        (b = true ↔ 1 ∈ ns))) ∧
    (run emptyGraph exampleCalls).isAdjacent 1 1 = .ok false ∧
    ∀ (w : Nat) (l : Nat), ∃ g' ns,
      (run emptyGraph exampleCalls).addEdge w w (some l) = .ok g' ∧
      g'.isAdjacent w w = .ok false ∧ g'.getEdge w w = .ok l ∧
      g'.getNeighbours w = .ok ns ∧ w ∈ ns :=
  ⟨rfl, rfl, isAdjacent_spec exampleCalls 0 1 rfl rfl⟩

/-- The vertex 1 of the example graph has a self-loop: it is its own neighbour and
`getEdge(1, 1)` returns the label, while `isAdjacent(1, 1)` returns `false`; the vertices 0
and 1 are adjacent in both argument orders. -/
theorem isAdjacent_example :
    (run emptyGraph exampleCalls).isAdjacent 1 1 = .ok false ∧
    (run emptyGraph exampleCalls).getEdge 1 1 = .ok 7 ∧
    (run emptyGraph exampleCalls).getNeighbours 1 = .ok [0, 1] ∧
    (run emptyGraph exampleCalls).isAdjacent 0 1 = .ok true ∧
    (run emptyGraph exampleCalls).isAdjacent 1 0 = .ok true ∧
    (run emptyGraph exampleCalls).isAdjacent 0 2 = .ok false :=
  ⟨rfl, rfl, rfl, rfl, rfl, rfl⟩

/-! ### The number of edges and the sum of the degrees -/

theorem sum_map_add_ite {A : Type} (a : A → Nat) (q : A → Bool) (l : List A) :
    (l.map (fun i => a i + (if q i then 1 else 0))).sum = (l.map a).sum + l.countP q := by
  induction l with
  | nil => rfl
  | cons x rest ih =>
    simp only [List.map_cons, List.sum_cons, List.countP_cons, ih]
    cases q x <;> simp <;> omega

/-- For a symmetric relation on the indices below `n`, the row counts and the diagonal add up
to twice the number of pairs. -/
theorem handshake_index (p : Nat → Nat → Bool) (hsymm : ∀ i j, p i j = p j i) (n : Nat) :
    ((List.range n).map (fun i => (List.range n).countP (p i))).sum
      + (List.range n).countP (fun i => p i i) = 2 * pairCount p n := by
  induction n with
  | zero => rfl
  | succ n ih =>
    have h1 : (List.range n).map (fun i => (List.range (n + 1)).countP (p i))
        = (List.range n).map
            (fun i => (List.range n).countP (p i) + (if p i n then 1 else 0)) :=
      List.map_congr_left (fun i _ => countP_range_succ (p i) n)
    have h2 : (List.range n).countP (fun i => p i n) = (List.range n).countP (p n) :=
      List.countP_congr (fun i _ => by rw [hsymm i n])
    rw [List.range_succ, List.map_append, List.sum_append, List.map_singleton,
      List.sum_singleton, ← List.range_succ, h1, sum_map_add_ite, h2,
      countP_range_succ (fun i => p i i), pairCount, countP_range_succ (p n)]
    omega

theorem pairCount_congr (p q : Nat → Nat → Bool) (n : Nat)
    (h : ∀ i j, i < n → j ≤ i → p i j = q i j) : pairCount p n = pairCount q n := by
  induction n with
  | zero => rfl
  | succ n ih =>
    rw [pairCount, pairCount, ih (fun i j hi hj => h i j (by omega) hj)]
    congr 1
    apply List.countP_congr
    intro j hj
    rw [h n j (Nat.lt_succ_self n) (Nat.le_of_lt_succ (List.mem_range.mp hj))]

/-- A pair that is added to a relation is counted once. -/
theorem pairCount_or (p : Nat → Nat → Bool) {lo hi : Nat} (hle : lo ≤ hi)
    (hp : p hi lo = false) (n : Nat) :
    pairCount (fun a b => p a b || (decide (a = lo) && decide (b = hi))
        || (decide (a = hi) && decide (b = lo))) n
      = pairCount p n + (if hi < n then 1 else 0) := by
  induction n with
  | zero => rfl
  | succ n ih =>
    rw [pairCount, pairCount, ih]
    by_cases hn : n = hi
    · subst hn
      have hrow : (List.range (n + 1)).countP
          (fun b => p n b || (decide (n = lo) && decide (b = n))
            || (decide (n = n) && decide (b = lo)))
          = (List.range (n + 1)).countP (fun b => p n b || decide (b = lo)) := by
        apply List.countP_congr
        intro b _
        by_cases h1 : n = lo
        · by_cases h2 : b = lo
          · simp [h1, h2]
          · have : ¬ b = n := fun hh => h2 (hh.trans h1)
            simp [h1, h2]
        · simp [h1]
      rw [hrow, countP_or_eq (p n) (n + 1) lo (by omega) hp]
      simp
      omega
    · have hrow : (List.range (n + 1)).countP
          (fun b => p n b || (decide (n = lo) && decide (b = hi))
            || (decide (n = hi) && decide (b = lo)))
          = (List.range (n + 1)).countP (p n) := by
        apply List.countP_congr
        intro b hb
        have hb' := List.mem_range.mp hb
        have h1 : ¬ (n = lo ∧ b = hi) := fun hh => by omega
        rcases not_and_or.mp h1 with h1 | h1 <;> simp [h1, hn]
      rw [hrow]
      by_cases h1 : hi < n
      · have : hi < n + 1 := by omega
        simp [h1, this]
        omega
      · have : ¬ hi < n + 1 := by omega
        simp [h1, this]

/-- The counter `nEdges` after `addVertex(v)` for a new vertex. -/
theorem nEdges_addVertex {g : UndirectedGraph V E} (h : Inv g) (v : V)
    (hE : g.nEdges = pairCount g.present g.nVertices) :
    g.nEdges = pairCount
      (present ({ adjacencyMatrix := g.adjacencyMatrix.map (fun row => row ++ [none]) ++ [[none]]
                  mapping := (v, g.nVertices) :: g.mapping
                  invMapping := (g.nVertices, v) :: g.invMapping
                  nVertices := g.nVertices + 1
                  nEdges := g.nEdges
                  degrees := g.degrees ++ [0] } : UndirectedGraph V E))
      (g.nVertices + 1) := by
  have hfun : present
      ({ adjacencyMatrix := g.adjacencyMatrix.map (fun row => row ++ [none]) ++ [[none]]
         mapping := (v, g.nVertices) :: g.mapping
         invMapping := (g.nVertices, v) :: g.invMapping
         nVertices := g.nVertices + 1
         nEdges := g.nEdges
         degrees := g.degrees ++ [0] } : UndirectedGraph V E) = g.present :=
    funext (fun a => present_addVertex h _ _ _ _ _ a)
  rw [hfun, pairCount, ← hE]
  have : (List.range (g.nVertices + 1)).countP (g.present g.nVertices) = 0 := by
    rw [List.countP_eq_zero]
    intro b _
    rw [present_false_of_le h _ _ (Or.inl (Nat.le_refl _))]
    exact Bool.false_ne_true
  rw [this, Nat.add_zero]

/-- The counter `nEdges` after the body of `addEdge` with a label. -/
theorem nEdges_addEdgeAt {g : UndirectedGraph V E} (h : Inv g) {i j : Nat}
    (hi : i < g.nVertices) (hj : j < g.nVertices) (e : E)
    (hE : g.nEdges = pairCount g.present g.nVertices) :
    (g.addEdgeAt i j (some e)).nEdges
      = pairCount (g.addEdgeAt i j (some e)).present (g.addEdgeAt i j (some e)).nVertices := by
  obtain ⟨lo, hi', hle, hij, hadj, hmap, hinv, hn, hdeg⟩ := addEdgeAt_fields g i j (some e)
  have hhi : hi' < g.nVertices := by rcases hij with ⟨-, rfl⟩ | ⟨-, rfl⟩ <;> assumption
  have hfun : (g.addEdgeAt i j (some e)).present =
      fun a b => (g.present a b || (decide (a = lo) && decide (b = hi')) ||
        (decide (a = hi') && decide (b = lo))) := by
    funext a b
    rw [present_congr hadj]
    exact present_setEntry h hle hhi e a b
  have hslot : (g.slot i j).isSome = g.present hi' lo := by
    rw [present_eq_slot]
    rcases hij with ⟨rfl, rfl⟩ | ⟨rfl, rfl⟩
    · rw [slot_symm]
    · rfl
  rw [hfun, hn, addEdgeAt_nEdges]
  cases hp : g.present hi' lo with
  | false =>
    rw [pairCount_or g.present hle hp, if_pos hhi, ← hE]
    rw [hp] at hslot
    cases hs : g.slot i j with
    | none => rfl
    | some l => rw [hs] at hslot; exact Bool.noConfusion hslot
  | true =>
    rw [hp] at hslot
    have hsame : pairCount (fun a b => (g.present a b || (decide (a = lo) && decide (b = hi')) ||
        (decide (a = hi') && decide (b = lo)))) g.nVertices = pairCount g.present g.nVertices := by
      apply pairCount_congr
      intro a b _ _
      by_cases h1 : a = hi' ∧ b = lo
      · obtain ⟨rfl, rfl⟩ := h1
        simp [hp]
      · by_cases h2 : a = lo ∧ b = hi'
        · obtain ⟨rfl, rfl⟩ := h2
          rw [present_symm, hp]
          simp
        · rcases not_and_or.mp h1 with h4 | h4 <;> rcases not_and_or.mp h2 with h5 | h5 <;>
            simp [h4, h5]
    rw [hsame, ← hE]
    cases hs : g.slot i j with
    | none => rw [hs] at hslot; exact Bool.noConfusion hslot
    | some l => rfl

theorem ensureVertex_nEdges {g : UndirectedGraph V E} (h : Inv g) (u : V)
    (hE : g.nEdges = pairCount g.present g.nVertices) :
    ∃ g1, g.addVertexIfNew u = .ok g1 ∧
      Inv g1 ∧ g1.nEdges = pairCount g1.present g1.nVertices ∧
      (∃ i, mapFind u g1.mapping = some i) ∧
      ∀ w i, mapFind w g.mapping = some i → mapFind w g1.mapping = some i := by
  unfold addVertexIfNew
  by_cases hu : mapFind u g.mapping = none
  · rw [if_pos hu, addVertex_ok hu]
    refine ⟨_, rfl, Inv_addVertex h hu, nEdges_addVertex h u hE,
      ⟨g.nVertices, by simp [mapFind_cons]⟩, ?_⟩
    intro w i hw
    have hne : w ≠ u := by
      intro heq
      rw [heq, hu] at hw
      exact Option.noConfusion hw
    simp only [mapFind_cons, if_neg hne]
    exact hw
  · rw [if_neg hu]
    refine ⟨g, rfl, h, hE, ?_, fun _ _ hw => hw⟩
    cases hm : mapFind u g.mapping with
    | none => exact absurd hm hu
    | some i => exact ⟨i, rfl⟩

theorem nEdges_step {g : UndirectedGraph V E} (h : Inv g)
    (hE : g.nEdges = pairCount g.present g.nVertices) (c : Call V E)
    (hc : c.labelPresent = true) :
    (g.step c).nEdges = pairCount (g.step c).present (g.step c).nVertices := by
  cases c with
  | addVertex v =>
    simp only [step]
    cases hm : mapFind v g.mapping with
    | none =>
      rw [addVertex_ok hm]
      exact nEdges_addVertex h v hE
    | some i =>
      have : g.addVertex v = .error "The vertex is already in the graph." := by
        unfold addVertex
        rw [hm]
      rw [this]
      exact hE
  | addEdge u v e =>
    cases e with
    | none => simp [Call.labelPresent] at hc
    | some e =>
      obtain ⟨g1, hg1, hinv1, hE1, ⟨i, hi⟩, -⟩ := ensureVertex_nEdges h u hE
      obtain ⟨g2, hg2, hinv2, hE2, ⟨j, hj⟩, hkeep⟩ := ensureVertex_nEdges hinv1 v hE1
      have hi2 := hkeep u i hi
      have hrun : g.addEdge u v (some e) = .ok (g2.addEdgeAt i j (some e)) := by
        unfold addEdge
        simp only [bind, Except.bind, hg1, hg2, mapAt, hi2, hj]
        rfl
      simp only [step]
      rw [hrun]
      exact nEdges_addEdgeAt hinv2 (hinv2.map_inv u i hi2).1 (hinv2.map_inv v j hj).1 e hE2

theorem nEdges_run (calls : List (Call V E)) (hc : ∀ c ∈ calls, c.labelPresent = true) :
    (run ({} : UndirectedGraph V E) calls).nEdges
      = pairCount (run ({} : UndirectedGraph V E) calls).present
          (run ({} : UndirectedGraph V E) calls).nVertices := by
  induction calls using List.reverseRecOn with
  | nil => rfl
  | append_singleton calls c ih =>
    have hc' : ∀ c ∈ calls, c.labelPresent = true :=
      fun c' hc' => hc c' (List.mem_append_left _ hc')
    rw [run_append]
    exact nEdges_step (Inv_run Inv_empty calls hc') (ih hc') c
      (hc c (List.mem_append_right _ (List.mem_singleton_self c)))

/-! ### The vertices -/

theorem foldl_setEmplace_nodup {A : Type} [DecidableEq A] (l acc : List A)
    (h : (acc ++ l).Nodup) : l.foldl setEmplace acc = acc ++ l := by
  induction l generalizing acc with
  | nil => simp
  | cons a l ih =>
    have ha : a ∉ acc := by
      intro hin
      have := List.nodup_append.mp h
      exact this.2.2 hin (List.mem_cons_self _ _)
    rw [List.foldl_cons]
    have hstep : setEmplace acc a = acc ++ [a] := by
      unfold setEmplace
      rw [if_neg ha]
    rw [hstep, ih _ (by simpa using h)]
    simp

/-- The keys of `mapping` are distinct in a well-formed graph whose indices are handed out
in the order of insertion. -/
theorem keys_nodup {g : UndirectedGraph V E} (h : WellFormed g)
    (hord : g.mapping.map Prod.snd = (List.range g.nVertices).reverse) :
    (g.mapping.map Prod.fst).Nodup := by
  have hsnd : (g.mapping.map Prod.snd).Nodup := by
    rw [hord]
    exact List.nodup_reverse.mpr (List.nodup_range _)
  have hfind : ∀ e ∈ g.mapping, mapFind e.1 g.mapping = some e.2 := by
    intro e he
    have hlt : e.2 < g.nVertices := by
      have : e.2 ∈ g.mapping.map Prod.snd := List.mem_map_of_mem Prod.snd he
      rw [hord] at this
      simpa using this
    obtain ⟨v, -, hv⟩ := h.inv_map e.2 hlt
    have hmem := mapFind_some_mem hv
    have := List.inj_on_of_nodup_map hsnd hmem he rfl
    rw [← this] at hv ⊢
    exact hv
  refine List.Nodup.map_on ?_ hsnd.of_map
  intro x hx y hy hxy
  have h1 := hfind x hx
  have h2 := hfind y hy
  rw [hxy, h2] at h1
  exact Prod.ext hxy (Option.some.inj h1).symm

theorem getVertices_eq {g : UndirectedGraph V E} (hk : (g.mapping.map Prod.fst).Nodup) :
    g.getVertices = g.mapping.map Prod.fst := by
  unfold getVertices
  have : g.mapping.foldl (fun acc v => setEmplace acc v.1) []
      = (g.mapping.map Prod.fst).foldl setEmplace [] := by
    rw [List.foldl_map]
  rw [this, foldl_setEmplace_nodup _ _ (by simpa using hk)]
  simp

theorem mem_unorderedPairs {A : Type} {l : List A} {q : A × A} (h : q ∈ unorderedPairs l) :
    q.1 ∈ l ∧ q.2 ∈ l := by
  induction l with
  | nil => simp [unorderedPairs] at h
  | cons a rest ih =>
    rw [unorderedPairs, List.mem_append, List.mem_map] at h
    rcases h with ⟨b, hb, rfl⟩ | h
    · exact ⟨List.mem_cons_self _ _, hb⟩
    · exact ⟨List.mem_cons_of_mem _ (ih h).1, List.mem_cons_of_mem _ (ih h).2⟩

theorem unorderedPairs_map {A B : Type} (f : A → B) (l : List A) :
    unorderedPairs (l.map f) = (unorderedPairs l).map (fun q => (f q.1, f q.2)) := by
  induction l with
  | nil => rfl
  | cons a rest ih =>
    rw [List.map_cons, unorderedPairs, unorderedPairs, ih, List.map_append, ← List.map_cons,
      List.map_map, List.map_map]
    rfl

theorem countP_unorderedPairs_range (p : Nat → Nat → Bool) (n : Nat) :
    (unorderedPairs (List.range n).reverse).countP (fun q => p q.1 q.2) = pairCount p n := by
  induction n with
  | zero => rfl
  | succ n ih =>
    have hrev : (List.range (n + 1)).reverse = n :: (List.range n).reverse := by
      rw [List.range_succ, List.reverse_append, List.reverse_singleton, List.singleton_append]
    rw [hrev, unorderedPairs, List.countP_append, ih, List.countP_map, ← hrev, pairCount,
      Nat.add_comm]
    congr 1
    exact (List.reverse_perm _).countP_eq _

/-- Claim C32: in every graph reached from the empty graph by calls of `addVertex` and
`addEdge` whose labels are present, the vertices returned by `getVertices` are distinct,
`getNEdges` is the number of unordered pairs of vertices, self-pairs included, for which
`getEdge` returns a label, `getDegree` returns a degree for every vertex, and the sum of these
degrees together with the number of vertices that have a self-loop is twice `getNEdges`,
that is, the sum is `2 · getNEdges` minus the number of self-loops. -/
theorem handshake (calls : List (Call V E)) (hlabels : ∀ c ∈ calls, c.labelPresent = true) :
    (run ({} : UndirectedGraph V E) calls).getVertices.Nodup ∧
    (run ({} : UndirectedGraph V E) calls).getNEdges
      = (unorderedPairs (run ({} : UndirectedGraph V E) calls).getVertices).countP
          (fun q => ((run ({} : UndirectedGraph V E) calls).getEdge q.1 q.2).toBool) ∧
    ∃ ds, List.Forall₂ (fun v d => (run ({} : UndirectedGraph V E) calls).getDegree v = .ok d)
        (run ({} : UndirectedGraph V E) calls).getVertices ds ∧
      ds.sum + (run ({} : UndirectedGraph V E) calls).getVertices.countP
          (fun v => ((run ({} : UndirectedGraph V E) calls).getEdge v v).toBool)
        = 2 * (run ({} : UndirectedGraph V E) calls).getNEdges ∧
      ds.sum = 2 * (run ({} : UndirectedGraph V E) calls).getNEdges
        - (run ({} : UndirectedGraph V E) calls).getVertices.countP
          (fun v => ((run ({} : UndirectedGraph V E) calls).getEdge v v).toBool) := by
  have hinv := Inv_run (Inv_empty (V := V) (E := E)) calls hlabels
  have hwf := WellFormed_of_Inv hinv
  have hord := mapping_order_run (V := V) (E := E) calls
  have hE := nEdges_run calls hlabels
  generalize run ({} : UndirectedGraph V E) calls = g at hinv hwf hord hE ⊢
  have hk := keys_nodup hwf hord
  have hfind : ∀ e ∈ g.mapping, mapFind e.1 g.mapping = some e.2 :=
    fun e he => mapFind_of_mem hk he
  have hedge : ∀ a ∈ g.mapping, ∀ b ∈ g.mapping,
      (g.getEdge a.1 b.1).toBool = g.present a.2 b.2 := by
    intro a ha b hb
    rw [getEdge_of_indices (hfind a ha) (hfind b hb), present_eq_slot]
    cases g.slot a.2 b.2 <;> rfl
  rw [getVertices_eq hk]
  have hpairs : (unorderedPairs (g.mapping.map Prod.fst)).countP
      (fun q => (g.getEdge q.1 q.2).toBool) = pairCount g.present g.nVertices := by
    rw [← countP_unorderedPairs_range, ← hord, unorderedPairs_map, unorderedPairs_map,
      List.countP_map, List.countP_map]
    apply List.countP_congr
    intro q hq
    obtain ⟨h1, h2⟩ := mem_unorderedPairs hq
    simp only [Function.comp, hedge q.1 h1 q.2 h2]
  have hloops : (g.mapping.map Prod.fst).countP (fun v => (g.getEdge v v).toBool)
      = (List.range g.nVertices).countP (fun i => g.present i i) := by
    rw [← (List.reverse_perm (List.range g.nVertices)).countP_eq, ← hord, List.countP_map,
      List.countP_map]
    apply List.countP_congr
    intro e he
    simp only [Function.comp, hedge e he e he]
  have hdeg : ∀ l : List (V × Nat), (∀ e ∈ l, e ∈ g.mapping) →
      List.Forall₂ (fun v d => g.getDegree v = .ok d) (l.map Prod.fst)
        (l.map (fun e => g.degrees.getD e.2 0)) := by
    intro l
    induction l with
    | nil => intro _; exact List.Forall₂.nil
    | cons e rest ih =>
      intro hl
      refine List.Forall₂.cons ?_ (ih (fun e' he' => hl e' (List.mem_cons_of_mem _ he')))
      unfold getDegree
      rw [hfind e (hl e (List.mem_cons_self _ _))]
  have hsum : (g.mapping.map (fun e => g.degrees.getD e.2 0)).sum
      = ((List.range g.nVertices).map
          (fun i => (List.range g.nVertices).countP (g.present i))).sum := by
    have : g.mapping.map (fun e => g.degrees.getD e.2 0)
        = (g.mapping.map Prod.snd).map (fun i => g.degrees.getD i 0) := by
      rw [List.map_map]
      rfl
    rw [this, hord, List.map_reverse, List.sum_reverse]
    congr 1
    apply List.map_congr_left
    intro i hi
    exact hinv.deg_count i (List.mem_range.mp hi)
  have hhand := handshake_index g.present (present_symm g) g.nVertices
  refine ⟨hk, ?_, _, hdeg g.mapping (fun _ he => he), ?_, ?_⟩
  · rw [hpairs]
    exact hE
  · rw [hsum, hloops, hhand, getNEdges, hE]
  · rw [hsum, hloops, getNEdges, hE]
    omega

/-- Claim C32 on the example graph: the edge between 0 and 1 and the self-loop on 1. -/
theorem handshake_witness :
    (∀ c ∈ exampleCalls, c.labelPresent = true) ∧
    (run emptyGraph exampleCalls).getVertices.Nodup ∧
    (run emptyGraph exampleCalls).getNEdges
      = (unorderedPairs (run emptyGraph exampleCalls).getVertices).countP
          (fun q => ((run emptyGraph exampleCalls).getEdge q.1 q.2).toBool) ∧
    ∃ ds, List.Forall₂ (fun v d => (run emptyGraph exampleCalls).getDegree v = .ok d)
        (run emptyGraph exampleCalls).getVertices ds ∧
      ds.sum + (run emptyGraph exampleCalls).getVertices.countP
          (fun v => ((run emptyGraph exampleCalls).getEdge v v).toBool)
        = 2 * (run emptyGraph exampleCalls).getNEdges ∧
      ds.sum = 2 * (run emptyGraph exampleCalls).getNEdges
        - (run emptyGraph exampleCalls).getVertices.countP
          (fun v => ((run emptyGraph exampleCalls).getEdge v v).toBool) :=
  ⟨by decide, handshake exampleCalls (by decide)⟩

/-- The numbers of the example graph: two edges, one of them a self-loop, and the degrees
0, 2 and 1 of the vertices 2, 1 and 0, whose sum is `2 · 2 - 1`. -/
theorem handshake_example :
    (run emptyGraph exampleCalls).getVertices = [2, 1, 0] ∧
    (run emptyGraph exampleCalls).getNEdges = 2 ∧
    (unorderedPairs (run emptyGraph exampleCalls).getVertices).countP
      (fun q => ((run emptyGraph exampleCalls).getEdge q.1 q.2).toBool) = 2 ∧
    (run emptyGraph exampleCalls).getVertices.map (run emptyGraph exampleCalls).getDegree
      = [.ok 0, .ok 2, .ok 1] ∧
    (run emptyGraph exampleCalls).getVertices.countP
      (fun v => ((run emptyGraph exampleCalls).getEdge v v).toBool) = 1 :=
  ⟨rfl, rfl, rfl, rfl, rfl⟩

end UndirectedGraph

/-! ## Register maps -/

theorem RegisterMap.place_perm (lt : String → String → Bool) (r : String × Nat × Nat)
    (regs : RegisterMap) : List.Perm (RegisterMap.place lt r regs) (r :: regs) := by
  induction regs with
  | nil => simp [RegisterMap.place]
  | cons r' rest ih =>
    simp only [RegisterMap.place]
    split
    · exact List.Perm.refl _
    · exact (List.Perm.cons r' ih).trans (List.Perm.swap r r' rest)

theorem RegisterMap.length_insert_le (lt : String → String → Bool) (r : String × Nat × Nat)
    (regs : RegisterMap) : (RegisterMap.insert lt r regs).length ≤ regs.length + 1 := by
  unfold RegisterMap.insert
  split
  · exact Nat.le_succ _
  · rw [(RegisterMap.place_perm lt r regs).length_eq]; simp

theorem RegisterMap.mem_insert_of_mem (lt : String → String → Bool) (r : String × Nat × Nat)
    (regs : RegisterMap) {e : String × Nat × Nat} (h : e ∈ regs) :
    e ∈ RegisterMap.insert lt r regs := by
  unfold RegisterMap.insert
  split
  · exact h
  · exact (RegisterMap.place_perm lt r regs).mem_iff.mpr (List.mem_cons_of_mem _ h)

theorem RegisterMap.key_mem_insert (lt : String → String → Bool) (r : String × Nat × Nat)
    (regs : RegisterMap) : ∃ e ∈ RegisterMap.insert lt r regs, e.1 = r.1 := by
  unfold RegisterMap.insert
  split
  · rename_i v hv
    exact ⟨(r.1, v), mapFind_some_mem hv, rfl⟩
  · exact ⟨r, (RegisterMap.place_perm lt r regs).mem_iff.mpr (List.mem_cons_self _ _), rfl⟩

theorem RegisterMap.mem_erase {name : String} {regs : RegisterMap} {e : String × Nat × Nat} :
    e ∈ RegisterMap.erase name regs ↔ e ∈ regs ∧ e.1 ≠ name := by
  simp [RegisterMap.erase, List.mem_filter]

theorem RegisterMap.length_erase_lt {name : String} {regs : RegisterMap}
    (h : ∃ e ∈ regs, e.1 = name) : (RegisterMap.erase name regs).length < regs.length := by
  obtain ⟨e, he, hname⟩ := h
  unfold RegisterMap.erase
  apply List.length_filter_lt_length_iff_exists.mpr
  exact ⟨e, he, by simp [hname]⟩

theorem isLowerPart_data {regname : String} (h : isLowerPart regname = true) :
    2 < regname.data.length ∧ regname.data.drop (regname.data.length - 2) = ['_', 'l'] := by
  obtain ⟨d⟩ := regname
  simp only [isLowerPart, String.length, Bool.and_eq_true, decide_eq_true_eq] at h
  exact h

theorem highName_ne {regname : String} (h : isLowerPart regname = true) :
    highName regname ≠ regname := by
  obtain ⟨hlen, hdrop⟩ := isLowerPart_data h
  intro heq
  have hd : (highName regname).data = regname.data := congrArg String.data heq
  simp only [highName, String.length] at hd
  have h1 : (regname.data.take (regname.data.length - 1) ++ ['h']).getLast? = some 'h' := by
    simp
  rw [hd] at h1
  have h2 : regname.data.getLast? = some 'l' := by
    have := List.take_append_drop (regname.data.length - 2) regname.data
    rw [hdrop] at this
    rw [← this]
    simp
  rw [h2] at h1
  exact absurd h1 (by decide)

theorem targetName_length {regname : String} (h : isLowerPart regname = true) :
    (targetName regname).data.length + 2 = regname.data.length := by
  obtain ⟨hlen, -⟩ := isLowerPart_data h
  simp only [targetName, String.length, List.length_take]
  omega

theorem highName_length {regname : String} (h : isLowerPart regname = true) :
    (highName regname).data.length = regname.data.length := by
  obtain ⟨hlen, -⟩ := isLowerPart_data h
  simp only [highName, String.length, List.length_append, List.length_take, List.length_singleton]
  omega

theorem targetName_ne {regname : String} (h : isLowerPart regname = true) :
    targetName regname ≠ regname ∧ targetName regname ≠ highName regname := by
  have h1 := targetName_length h
  have h2 := highName_length h
  constructor
  · intro heq
    rw [heq] at h1
    omega
  · intro heq
    rw [heq, h2] at h1
    omega

/-- The map after the three updates of a fusion is shorter and not empty. -/
theorem fusion_shrinks (lt : String → String → Bool) (regs : RegisterMap)
    (qreg : String × Nat × Nat) (v : Nat × Nat) (hmem : qreg ∈ regs)
    (hlow : isLowerPart qreg.1 = true) (hhigh : ∃ e ∈ regs, e.1 = highName qreg.1) :
    let r := RegisterMap.erase (highName qreg.1) (RegisterMap.erase qreg.1
      (RegisterMap.insert lt (targetName qreg.1, v) regs))
    r.length < regs.length ∧ r ≠ [] := by
  intro r
  obtain ⟨e, he, hename⟩ := hhigh
  have hne := highName_ne hlow
  obtain ⟨ht1, ht2⟩ := targetName_ne hlow
  have l1 := RegisterMap.length_insert_le lt (targetName qreg.1, v) regs
  have l2 : (RegisterMap.erase qreg.1 (RegisterMap.insert lt (targetName qreg.1, v) regs)).length
      < (RegisterMap.insert lt (targetName qreg.1, v) regs).length :=
    RegisterMap.length_erase_lt ⟨qreg, RegisterMap.mem_insert_of_mem lt _ regs hmem, rfl⟩
  have l3 : r.length
      < (RegisterMap.erase qreg.1 (RegisterMap.insert lt (targetName qreg.1, v) regs)).length :=
    RegisterMap.length_erase_lt ⟨e, RegisterMap.mem_erase.mpr
      ⟨RegisterMap.mem_insert_of_mem lt _ regs he, by rw [hename]; exact hne⟩, hename⟩
  refine ⟨by omega, ?_⟩
  obtain ⟨t, htmem, htname⟩ := RegisterMap.key_mem_insert lt (targetName qreg.1, v) regs
  have : t ∈ r := RegisterMap.mem_erase.mpr ⟨RegisterMap.mem_erase.mpr
    ⟨htmem, by rw [htname]; exact ht1⟩, by rw [htname]; exact ht2⟩
  exact List.ne_nil_of_mem this

/-- A pass of the `for` loop that sets the flag leaves the map as it was. -/
theorem consolidateFor_true (lt : String → String → Bool) (regs : RegisterMap)
    (rest : List (String × Nat × Nat)) (finished : Bool)
    (h : (consolidateFor lt regs rest finished).1 = true) :
    (consolidateFor lt regs rest finished).2 = regs := by
  induction rest generalizing finished with
  | nil => rfl
  | cons qreg rest ih =>
    simp only [consolidateFor] at h ⊢
    split
    · rename_i hlow
      rw [if_pos hlow] at h
      split
      · rename_i highidx highnum hfind
        rw [hfind] at h
        simp only at h
        split
        · rename_i hadj
          rw [if_pos hadj] at h
          simp at h
        · rfl
      · rfl
    · rename_i hlow
      rw [if_neg hlow] at h
      exact ih true h

/-- A pass of the `for` loop that leaves the flag unset has fused two registers. -/
theorem consolidateFor_false (lt : String → String → Bool) (regs : RegisterMap)
    (rest : List (String × Nat × Nat)) (finished : Bool)
    (hsub : ∀ e ∈ rest, e ∈ regs) (hstart : rest ≠ [] ∨ finished = true)
    (h : (consolidateFor lt regs rest finished).1 = false) :
    (consolidateFor lt regs rest finished).2.length < regs.length ∧
      (consolidateFor lt regs rest finished).2 ≠ [] := by
  induction rest generalizing finished with
  | nil =>
    rcases hstart with h1 | h1
    · exact absurd rfl h1
    · simp [consolidateFor, h1] at h
  | cons qreg rest ih =>
    simp only [consolidateFor] at h ⊢
    split
    · rename_i hlow
      rw [if_pos hlow] at h
      split
      · rename_i highidx highnum hfind
        rw [hfind] at h
        simp only at h
        split
        · exact fusion_shrinks lt regs qreg _ (hsub qreg (List.mem_cons_self _ _)) hlow
            ⟨_, mapFind_some_mem hfind, rfl⟩
        · rename_i hadj
          rw [if_neg hadj] at h
          simp at h
      · rename_i hfind
        rw [hfind] at h
        simp at h
    · rename_i hlow
      rw [if_neg hlow] at h
      exact ih true (fun e he => hsub e (List.mem_cons_of_mem _ he)) (Or.inr rfl) h

/-- The outer loop started on a non-empty map with enough rounds returns a non-empty map on
which a further pass changes nothing. -/
theorem consolidateWhile_some (lt : String → String → Bool) (fuel : Nat) (regs : RegisterMap)
    (hne : regs ≠ []) (hfuel : regs.length ≤ fuel) :
    ∃ r, consolidateWhile lt fuel false regs = some r ∧ r ≠ [] ∧
      consolidateFor lt r r false = (true, r) := by
  induction fuel generalizing regs with
  | zero =>
    have : regs = [] := List.eq_nil_of_length_eq_zero (Nat.le_zero.mp hfuel)
    exact absurd this hne
  | succ fuel ih =>
    simp only [consolidateWhile]
    cases hflag : (consolidateFor lt regs regs false).1 with
    | true =>
      have hsame := consolidateFor_true lt regs regs false hflag
      refine ⟨regs, ?_, hne, Prod.ext hflag hsame⟩
      rw [hsame]
      cases fuel <;> rfl
    | false =>
      obtain ⟨hlt, hne'⟩ := consolidateFor_false lt regs regs false (fun _ he => he)
        (Or.inl hne) hflag
      exact ih _ hne' (by omega)

/-- More rounds do not change a result that has been reached. -/
theorem consolidateWhile_mono (lt : String → String → Bool) (fuel : Nat) (finished : Bool)
    (regs r : RegisterMap) (h : consolidateWhile lt fuel finished regs = some r) :
    consolidateWhile lt (fuel + 1) finished regs = some r := by
  induction fuel generalizing finished regs with
  | zero =>
    cases finished with
    | true => simpa [consolidateWhile] using h
    | false => simp [consolidateWhile] at h
  | succ fuel ih =>
    cases finished with
    | true => simpa [consolidateWhile] using h
    | false =>
      simp only [consolidateWhile] at h
      rw [consolidateWhile]
      exact ih _ _ h

theorem consolidateWhile_mono_le (lt : String → String → Bool) {fuel fuel' : Nat}
    (hle : fuel ≤ fuel') (finished : Bool) (regs r : RegisterMap)
    (h : consolidateWhile lt fuel finished regs = some r) :
    consolidateWhile lt fuel' finished regs = some r := by
  induction hle with
  | refl => exact h
  | step _ ih => exact consolidateWhile_mono lt _ finished regs r ih

/-- Claim C2 fails on the code: the scan stops at the first register whose name ends in `_l`,
whether or not it was fused. With the keys in descending order the map `q_l`, `q_h_l`, `q_h_h`
left by two splits is returned as it is although `q_h_l` ends where `q_h_h` begins; the
registers `a_l`, `m_l`, `m_h`, `z_l` are returned as they are in ascending and in descending key
order although `m_l` ends where `m_h` begins. -/
theorem consolidateRegister_leaves_mergeable_pair :
    (chainedRegisters.Pairwise (fun a b => keyGreater a.1 b.1 = true) ∧
      (∀ fuel, consolidateRegister keyGreater (fuel + 1) chainedRegisters
        = some chainedRegisters) ∧
      mergeablePair chainedRegisters "q_h" = true) ∧
    (blockedDescending.Pairwise (fun a b => keyGreater a.1 b.1 = true) ∧
      (∀ fuel, consolidateRegister keyGreater (fuel + 1) blockedDescending
        = some blockedDescending) ∧
      mergeablePair blockedDescending "m" = true) ∧
    (blockedAscending.Pairwise (fun a b => keyLess a.1 b.1 = true) ∧
      (∀ fuel, consolidateRegister keyLess (fuel + 1) blockedAscending
        = some blockedAscending) ∧
      mergeablePair blockedAscending "m" = true) := by
  refine ⟨⟨by decide, fun fuel => ?_, by decide⟩, ⟨by decide, fun fuel => ?_, by decide⟩,
    ⟨by decide, fun fuel => ?_, by decide⟩⟩ <;> cases fuel <;> rfl

/-- Claim C3: `consolidateRegister` returns on every register map, whatever the key order, and
consolidating its result changes nothing: with `r` the result for `regs`, both
`consolidateRegister(regs)` and `consolidateRegister(r)` are `r`, for every bound on the
number of rounds that is at least the number of registers. -/
theorem consolidateRegister_idempotent (lt : String → String → Bool) (regs : RegisterMap) :
    ∃ r, ∀ fuel, regs.length ≤ fuel →
      consolidateRegister lt fuel regs = some r ∧ consolidateRegister lt fuel r = some r := by
  cases regs with
  | nil =>
    refine ⟨[], fun fuel _ => ?_⟩
    cases fuel <;> exact ⟨rfl, rfl⟩
  | cons e rest =>
    obtain ⟨r, hr, hne, hfix⟩ := consolidateWhile_some lt (e :: rest).length (e :: rest)
      (List.cons_ne_nil _ _) (Nat.le_refl _)
    refine ⟨r, fun fuel hfuel => ⟨?_, ?_⟩⟩
    · exact consolidateWhile_mono_le lt hfuel _ _ _ hr
    · have hpos : 1 ≤ fuel := Nat.le_trans (Nat.succ_le_succ (Nat.zero_le _)) hfuel
      have hempty : r.isEmpty = false := by
        cases r with
        | nil => exact absurd rfl hne
        | cons _ _ => rfl
      have h1 : consolidateWhile lt 1 false r = some r := by
        simp [consolidateWhile, hfix]
      unfold consolidateRegister
      rw [hempty]
      exact consolidateWhile_mono_le lt hpos _ _ _ h1


/-- Claim C3 on an example: three registers in ascending key order left by two splits. -/
theorem consolidateRegister_idempotent_witness :
    ∃ r, consolidateRegister keyLess 3 splitRegisters = some r ∧
      consolidateRegister keyLess 3 r = some r := by
  obtain ⟨r, h⟩ := consolidateRegister_idempotent keyLess splitRegisters
  exact ⟨r, h 3 (by decide)⟩

/-! ### The number of scans -/

theorem consolidateScans_true (lt : String → String → Bool) (fuel : Nat) (regs : RegisterMap) :
    consolidateScans lt fuel true regs = 0 := by
  cases fuel <;> rfl

theorem consolidateMerges_true (lt : String → String → Bool) (fuel : Nat) (regs : RegisterMap) :
    consolidateMerges lt fuel true regs = 0 := by
  cases fuel <;> rfl

/-- The outer loop on a non-empty map: every scan but the last is a fusion, and every fusion
shortens the map. -/
theorem consolidateWhile_scans (lt : String → String → Bool) (fuel : Nat) (regs : RegisterMap)
    (hne : regs ≠ []) (hfuel : regs.length ≤ fuel) :
    ∃ r, consolidateWhile lt fuel false regs = some r ∧ r ≠ [] ∧
      consolidateMerges lt fuel false regs + r.length ≤ regs.length ∧
      consolidateScans lt fuel false regs = consolidateMerges lt fuel false regs + 1 := by
  induction fuel generalizing regs with
  | zero =>
    have : regs = [] := List.eq_nil_of_length_eq_zero (Nat.le_zero.mp hfuel)
    exact absurd this hne
  | succ fuel ih =>
    simp only [consolidateWhile, consolidateMerges, consolidateScans]
    cases hflag : (consolidateFor lt regs regs false).1 with
    | true =>
      have hsame := consolidateFor_true lt regs regs false hflag
      rw [hsame, consolidateMerges_true, consolidateScans_true]
      refine ⟨regs, ?_, hne, by simp, by simp⟩
      cases fuel <;> rfl
    | false =>
      obtain ⟨hlt, hne'⟩ := consolidateFor_false lt regs regs false (fun _ he => he)
        (Or.inl hne) hflag
      obtain ⟨r, hr, hrne, hm, hs⟩ := ih _ hne' (by omega)
      refine ⟨r, hr, hrne, ?_, ?_⟩
      · simp only [Bool.false_eq_true, if_false]
        omega
      · simp only [Bool.false_eq_true, if_false]
        omega

/-- Claim C34: `consolidateRegister` returns on every register map, whatever the key order.
A scan of a non-empty map either sets the flag and leaves the map as it is, or fuses two
registers, and then the map has fewer registers than before and is not empty. Hence, for
every bound on the number of rounds that is at least the number of registers, the call
returns a map `r`, the number of fusions is at most `|regs| - 1` (and at most the number of
registers by which the map has shrunk), and the number of scans of a non-empty map is the
number of fusions plus one: the loop ends with the scan that follows the last fusion. -/
theorem consolidateRegister_terminates (lt : String → String → Bool) (regs : RegisterMap) :
    (∀ m : RegisterMap, m ≠ [] →
      ((consolidateFor lt m m false).1 = true → (consolidateFor lt m m false).2 = m) ∧
      ((consolidateFor lt m m false).1 = false →
        (consolidateFor lt m m false).2.length < m.length ∧
        (consolidateFor lt m m false).2 ≠ [])) ∧
    ∃ r, ∀ fuel, regs.length ≤ fuel →
      consolidateRegister lt fuel regs = some r ∧
      consolidateMerges lt fuel regs.isEmpty regs ≤ regs.length - 1 ∧
      consolidateMerges lt fuel regs.isEmpty regs + r.length ≤ regs.length ∧
      consolidateScans lt fuel regs.isEmpty regs
        = if regs.isEmpty then 0 else consolidateMerges lt fuel regs.isEmpty regs + 1 := by
  constructor
  · intro m hm
    exact ⟨consolidateFor_true lt m m false,
      consolidateFor_false lt m m false (fun _ he => he) (Or.inl hm)⟩
  · cases regs with
    | nil =>
      refine ⟨[], fun fuel _ => ?_⟩
      cases fuel <;> exact ⟨rfl, Nat.le_refl _, Nat.le_refl _, rfl⟩
    | cons e rest =>
      obtain ⟨r, hr, -, -, -⟩ := consolidateWhile_scans lt (e :: rest).length (e :: rest)
        (List.cons_ne_nil _ _) (Nat.le_refl _)
      refine ⟨r, fun fuel hfuel => ?_⟩
      obtain ⟨r', hr', hne', hm, hs⟩ := consolidateWhile_scans lt fuel (e :: rest)
        (List.cons_ne_nil _ _) hfuel
      have hrr : r' = r := by
        have := consolidateWhile_mono_le lt hfuel _ _ _ hr
        rw [hr'] at this
        exact Option.some.inj this
      subst hrr
      have hpos : 0 < r'.length := List.length_pos.mpr hne'
      refine ⟨hr', ?_, hm, ?_⟩
      · simp only [List.isEmpty_cons] at hm ⊢
        omega
      · simp only [List.isEmpty_cons, Bool.false_eq_true, if_false]
        exact hs

/-- The scans of the example left by two splits, in ascending key order: two fusions and a
last scan that finds nothing to fuse. -/
theorem consolidateRegister_terminates_example :
    consolidateRegister keyLess 3 splitRegisters = some [("q", 0, 6)] ∧
    consolidateMerges keyLess 3 false splitRegisters = 2 ∧
    consolidateScans keyLess 3 false splitRegisters = 3 := by
  refine ⟨by decide, by decide, by decide⟩

/-! ### Lookup after the updates of a register map -/

theorem RegisterMap.find_erase (k name : String) (regs : RegisterMap) :
    RegisterMap.find name (RegisterMap.erase k regs)
      = if name = k then none else RegisterMap.find name regs := by
  unfold RegisterMap.find RegisterMap.erase
  induction regs with
  | nil => simp [mapFind]
  | cons r rest ih =>
    obtain ⟨rk, rv⟩ := r
    by_cases hk : rk = k
    · subst hk
      simp only [List.filter_cons, decide_True, Bool.not_true, Bool.false_eq_true, if_false,
        mapFind_cons]
      rw [ih]
      by_cases hn : name = rk
      · simp [hn]
      · simp [hn]
    · simp only [List.filter_cons, hk, decide_False, Bool.not_false, if_true, mapFind_cons]
      rw [ih]
      by_cases hn : name = rk
      · have : name ≠ k := fun h => hk (hn ▸ h)
        simp [hn, hk]
      · simp [hn]

theorem RegisterMap.find_place (lt : String → String → Bool) (r : String × Nat × Nat)
    (name : String) (regs : RegisterMap) (hfresh : RegisterMap.find r.1 regs = none) :
    RegisterMap.find name (RegisterMap.place lt r regs)
      = if name = r.1 then some r.2 else RegisterMap.find name regs := by
  unfold RegisterMap.find at hfresh ⊢
  obtain ⟨k, v⟩ := r
  induction regs with
  | nil => simp [RegisterMap.place, mapFind]
  | cons r' rest ih =>
    obtain ⟨k', v'⟩ := r'
    simp only [mapFind_cons] at hfresh
    have hkk : k ≠ k' := by
      intro h
      rw [if_pos h] at hfresh
      exact Option.noConfusion hfresh
    rw [if_neg hkk] at hfresh
    simp only [RegisterMap.place]
    split
    · simp only [mapFind_cons]
    · simp only [mapFind_cons]
      rw [ih hfresh]
      by_cases hn : name = k'
      · have : name ≠ k := fun h => hkk (h ▸ hn)
        simp [hn, Ne.symm hkk]
      · simp [hn]

theorem RegisterMap.find_insert (lt : String → String → Bool) (r : String × Nat × Nat)
    (name : String) (regs : RegisterMap) (hfresh : RegisterMap.find r.1 regs = none) :
    RegisterMap.find name (RegisterMap.insert lt r regs)
      = if name = r.1 then some r.2 else RegisterMap.find name regs := by
  unfold RegisterMap.insert
  rw [hfresh]
  exact RegisterMap.find_place lt r name regs hfresh

/-! ### Names with the suffixes of a split -/

theorem length_append_l (x : String) : (x ++ "_l").length = x.data.length + 2 := by
  rw [String.length_append]
  rfl

theorem data_append_l (x : String) : (x ++ "_l").data = x.data ++ ['_', 'l'] :=
  String.data_append x "_l"

theorem isLowerPart_append (x : String) (hx : x ≠ "") : isLowerPart (x ++ "_l") = true := by
  have hpos : 0 < x.data.length := by
    apply List.length_pos.mpr
    intro h
    exact hx (String.ext h)
  unfold isLowerPart
  rw [length_append_l, data_append_l]
  simp only [Bool.and_eq_true, decide_eq_true_eq]
  refine ⟨by omega, ?_⟩
  rw [Nat.add_sub_cancel, List.drop_left]

theorem highName_append (x : String) : highName (x ++ "_l") = x ++ "_h" := by
  apply String.ext
  have e2 : (x ++ "_h").data = x.data ++ ['_', 'h'] := String.data_append x "_h"
  unfold highName
  rw [length_append_l, data_append_l, e2]
  have h1 : x.data.length + 2 - 1 = (x.data ++ ['_']).length := by simp
  have h2 : x.data ++ ['_', 'l'] = (x.data ++ ['_']) ++ ['l'] := by simp
  rw [h1, h2, List.take_left]
  simp

theorem targetName_append (x : String) : targetName (x ++ "_l") = x := by
  apply String.ext
  unfold targetName
  rw [length_append_l, data_append_l, Nat.add_sub_cancel, List.take_left]

/-! ### A single pair to fuse -/

/-- A pass of the `for` loop over entries none of which has a name with the suffix `_l`. -/
theorem consolidateFor_no_lower (lt : String → String → Bool) (regs : RegisterMap)
    (rest : List (String × Nat × Nat)) (finished : Bool)
    (hno : ∀ r ∈ rest, isLowerPart r.1 = false) (hstart : rest ≠ [] ∨ finished = true) :
    consolidateFor lt regs rest finished = (true, regs) := by
  induction rest generalizing finished with
  | nil =>
    rcases hstart with h | h
    · exact absurd rfl h
    · rw [h]; rfl
  | cons qreg rest ih =>
    simp only [consolidateFor]
    rw [if_neg (by rw [hno qreg (List.mem_cons_self _ _)]; exact Bool.false_ne_true)]
    exact ih true (fun r hr => hno r (List.mem_cons_of_mem _ hr)) (Or.inr rfl)

/-- A pass of the `for` loop when the only name with the suffix `_l` is `x_l`, which ends
where `x_h` begins. -/
theorem consolidateFor_single_pair (lt : String → String → Bool) (regs : RegisterMap)
    (x : String) (s a b : Nat) (hx : x ≠ "")
    (hhigh : RegisterMap.find (x ++ "_h") regs = some (s + a, b))
    (rest : List (String × Nat × Nat)) (finished : Bool)
    (hlow : mapFind (x ++ "_l") rest = some (s, a))
    (honly : ∀ r ∈ rest, isLowerPart r.1 = true → r.1 = x ++ "_l") :
    consolidateFor lt regs rest finished
      = (false, RegisterMap.erase (x ++ "_h") (RegisterMap.erase (x ++ "_l")
          (RegisterMap.insert lt (x, s, a + b) regs))) := by
  induction rest generalizing finished with
  | nil => simp [mapFind] at hlow
  | cons qreg rest ih =>
    obtain ⟨k, v⟩ := qreg
    simp only [consolidateFor]
    by_cases hk : isLowerPart k = true
    · have hkx : k = x ++ "_l" := honly (k, v) (List.mem_cons_self _ _) hk
      subst hkx
      rw [if_pos hk]
      simp only [mapFind_cons, if_true, Option.some.injEq] at hlow
      subst hlow
      simp only [highName_append, targetName_append, hhigh, if_true]
    · rw [if_neg hk]
      have hne : x ++ "_l" ≠ k := by
        intro h
        rw [← h] at hk
        exact hk (isLowerPart_append x hx)
      simp only [mapFind_cons, if_neg hne] at hlow
      exact ih true hlow (fun r hr => honly r (List.mem_cons_of_mem _ hr))

/-- Claim C29: let a register map hold `x_l ↦ (s, a)` and `x_h ↦ (s + a, b)` for a non-empty
name `x` that does not pass the test for the suffix `_l`, let `x` not be a key and let `x_l`
be the only key that passes the test. Then `consolidateRegister` returns (two rounds of its
outer loop suffice) the map in which `x_l` and `x_h` are erased and `x ↦ (s, a + b)` is
inserted; a lookup in it finds `(s, a + b)` for `x`, nothing for `x_l` and `x_h`, and for
every other name what the map held before. -/
theorem consolidateRegister_fuses_pair (lt : String → String → Bool) (regs : RegisterMap)
    (x : String) (s a b fuel : Nat) (hx : x ≠ "") (hxl : isLowerPart x = false)
    (hlow : RegisterMap.find (x ++ "_l") regs = some (s, a))
    (hhigh : RegisterMap.find (x ++ "_h") regs = some (s + a, b))
    (hfresh : RegisterMap.find x regs = none)
    (honly : ∀ r ∈ regs, isLowerPart r.1 = true → r.1 = x ++ "_l")
    (hfuel : 2 ≤ fuel) :
    consolidateRegister lt fuel regs
      = some (RegisterMap.erase (x ++ "_h") (RegisterMap.erase (x ++ "_l")
          (RegisterMap.insert lt (x, s, a + b) regs))) ∧
    ∀ name, RegisterMap.find name (RegisterMap.erase (x ++ "_h") (RegisterMap.erase (x ++ "_l")
          (RegisterMap.insert lt (x, s, a + b) regs)))
      = if name = x then some (s, a + b)
        else if name = x ++ "_l" ∨ name = x ++ "_h" then none
        else RegisterMap.find name regs := by
  have hlp := isLowerPart_append x hx
  have hxl1 : x ≠ x ++ "_l" := fun h => by rw [← h, hxl] at hlp; exact Bool.noConfusion hlp
  have hxh1 : x ≠ x ++ "_h" := by
    intro h
    have := congrArg String.length h
    simp [String.length_append] at this
    have e : ("_h" : String).length = 2 := rfl
    omega
  have hfind : ∀ name, RegisterMap.find name (RegisterMap.erase (x ++ "_h")
        (RegisterMap.erase (x ++ "_l") (RegisterMap.insert lt (x, s, a + b) regs)))
      = if name = x then some (s, a + b)
        else if name = x ++ "_l" ∨ name = x ++ "_h" then none
        else RegisterMap.find name regs := by
    intro name
    rw [RegisterMap.find_erase, RegisterMap.find_erase,
      RegisterMap.find_insert lt (x, s, a + b) name regs hfresh]
    by_cases h1 : name = x
    · subst h1
      simp [hxl1, hxh1]
    · by_cases h2 : name = x ++ "_h"
      · simp [h2, Ne.symm hxh1]
      · by_cases h3 : name = x ++ "_l"
        · simp [h3, Ne.symm hxl1]
        · simp [h1, h2, h3]
  refine ⟨?_, hfind⟩
  have hne : regs ≠ [] := by
    intro h
    rw [h] at hlow
    simp [RegisterMap.find, mapFind] at hlow
  have hempty : regs.isEmpty = false := by
    cases regs with
    | nil => exact absurd rfl hne
    | cons _ _ => rfl
  obtain ⟨fuel, rfl⟩ : ∃ k, fuel = k + 2 := ⟨fuel - 2, by omega⟩
  unfold consolidateRegister
  rw [hempty]
  simp only [consolidateWhile]
  rw [consolidateFor_single_pair lt regs x s a b hx hhigh regs false hlow honly]
  simp only [consolidateWhile]
  rw [consolidateFor_no_lower lt _ _ false]
  · cases fuel <;> rfl
  · intro r hr
    obtain ⟨h1, h2⟩ := RegisterMap.mem_erase.mp hr
    obtain ⟨h3, h4⟩ := RegisterMap.mem_erase.mp h1
    unfold RegisterMap.insert at h3
    rw [show RegisterMap.find (x, s, a + b).1 regs = none from hfresh] at h3
    rcases List.mem_cons.mp ((RegisterMap.place_perm lt (x, s, a + b) regs).mem_iff.mp h3)
      with h5 | h5
    · rw [h5]
      exact hxl
    · cases hl : isLowerPart r.1 with
      | false => rfl
      | true => exact absurd (honly r h5 hl) h4
  · left
    intro h
    have := hfind x
    rw [h, if_pos rfl] at this
    simp [RegisterMap.find, mapFind] at this

/-- Claim C29 on an example: the registers `q_l` and `q_h` left by a split, next to a register
`anc`, are fused into `q`. -/
theorem consolidateRegister_fuses_pair_witness :
    ("q" : String) ≠ "" ∧ isLowerPart "q" = false ∧
    RegisterMap.find ("q" ++ "_l") [("anc", 5, 1), ("q_h", 3, 2), ("q_l", 0, 3)] = some (0, 3) ∧
    RegisterMap.find ("q" ++ "_h") [("anc", 5, 1), ("q_h", 3, 2), ("q_l", 0, 3)]
      = some (0 + 3, 2) ∧
    RegisterMap.find "q" [("anc", 5, 1), ("q_h", 3, 2), ("q_l", 0, 3)] = none ∧
    (∀ r ∈ ([("anc", 5, 1), ("q_h", 3, 2), ("q_l", 0, 3)] : RegisterMap),
      isLowerPart r.1 = true → r.1 = "q" ++ "_l") ∧
    consolidateRegister keyLess 2 [("anc", 5, 1), ("q_h", 3, 2), ("q_l", 0, 3)]
      = some (RegisterMap.erase ("q" ++ "_h") (RegisterMap.erase ("q" ++ "_l")
          (RegisterMap.insert keyLess ("q", 0, 3 + 2)
            [("anc", 5, 1), ("q_h", 3, 2), ("q_l", 0, 3)]))) ∧
    ∀ name, RegisterMap.find name (RegisterMap.erase ("q" ++ "_h")
        (RegisterMap.erase ("q" ++ "_l") (RegisterMap.insert keyLess ("q", 0, 3 + 2)
          [("anc", 5, 1), ("q_h", 3, 2), ("q_l", 0, 3)])))
      = if name = "q" then some (0, 3 + 2)
        else if name = "q" ++ "_l" ∨ name = "q" ++ "_h" then none
        else RegisterMap.find name [("anc", 5, 1), ("q_h", 3, 2), ("q_l", 0, 3)] :=
  ⟨by decide, by decide, by decide, by decide, by decide, by decide,
    consolidateRegister_fuses_pair keyLess [("anc", 5, 1), ("q_h", 3, 2), ("q_l", 0, 3)]
      "q" 0 3 2 2 (by decide) (by decide) (by decide) (by decide) (by decide) (by decide)
      (by decide)⟩

/-- The map returned for the example: `anc` and the fused register `q`. -/
theorem consolidateRegister_fuses_pair_example :
    consolidateRegister keyLess 2 [("anc", 5, 1), ("q_h", 3, 2), ("q_l", 0, 3)]
      = some [("anc", 5, 1), ("q", 0, 5)] := by
  decide

/-! ### Names with one or more suffixes removed -/

theorem suffixChain_cons2 (c1 c2 : Char) (rest : List Char) :
    suffixChain (c1 :: c2 :: rest) = true ↔
      c1 = '_' ∧ (c2 = 'l' ∨ c2 = 'h') ∧ suffixChain rest = true := by
  simp only [suffixChain, Bool.and_eq_true, Bool.or_eq_true, decide_eq_true_eq, and_assoc]

theorem suffixChain_append (s t : List Char) (hs : suffixChain s = true)
    (ht : suffixChain t = true) : suffixChain (s ++ t) = true := by
  induction s using suffixChain.induct with
  | case1 => exact ht
  | case2 c => simp [suffixChain] at hs
  | case3 c1 c2 rest ih =>
    rw [suffixChain_cons2] at hs
    rw [List.cons_append, List.cons_append, suffixChain_cons2]
    exact ⟨hs.1, hs.2.1, ih hs.2.2⟩

theorem splitOf_iff (a b : String) :
    splitOf a b = true ↔
      ∃ s, s ≠ [] ∧ suffixChain s = true ∧ b.data = a.data ++ s := by
  unfold splitOf
  simp only [Bool.and_eq_true, decide_eq_true_eq]
  constructor
  · rintro ⟨⟨hlen, htake⟩, hchain⟩
    refine ⟨b.data.drop a.data.length, ?_, hchain, ?_⟩
    · intro h
      have := congrArg List.length h
      simp only [List.length_drop, List.length_nil] at this
      omega
    · conv_lhs => rw [← List.take_append_drop a.data.length b.data]
      rw [htake]
  · rintro ⟨s, hne, hchain, hb⟩
    have hpos : 0 < s.length := List.length_pos.mpr hne
    rw [hb]
    refine ⟨⟨?_, ?_⟩, ?_⟩
    · rw [List.length_append]; omega
    · rw [List.take_left]
    · rw [List.drop_left]; exact hchain

theorem data_append_h (x : String) : (x ++ "_h").data = x.data ++ ['_', 'h'] :=
  String.data_append x "_h"

/-- A name with the suffix `_l` is its target name followed by the suffix. -/
theorem lower_eq {regname : String} (h : isLowerPart regname = true) :
    regname = targetName regname ++ "_l" := by
  obtain ⟨hlen, hdrop⟩ := isLowerPart_data h
  apply String.ext
  rw [data_append_l]
  simp only [targetName, String.length]
  conv_lhs => rw [← List.take_append_drop (regname.data.length - 2) regname.data]
  rw [hdrop]

theorem splitOf_target_low (x : String) : splitOf x (x ++ "_l") = true :=
  (splitOf_iff _ _).mpr ⟨['_', 'l'], by simp, rfl, data_append_l x⟩

theorem splitOf_target_high (x : String) : splitOf x (x ++ "_h") = true :=
  (splitOf_iff _ _).mpr ⟨['_', 'h'], by simp, rfl, data_append_h x⟩

theorem splitOf_irrefl (x : String) : splitOf x x = false := by
  unfold splitOf
  simp

/-- A name from which suffixes can be removed to reach `x` is `x_l` or `x_h`, or suffixes can
be removed from it to reach one of the two. -/
theorem splitOf_step {x k : String} (h : splitOf x k = true) :
    k = x ++ "_l" ∨ k = x ++ "_h" ∨ splitOf (x ++ "_l") k = true
      ∨ splitOf (x ++ "_h") k = true := by
  obtain ⟨s, hne, hchain, hk⟩ := (splitOf_iff _ _).mp h
  match s, hne, hchain, hk with
  | [c], _, hchain, _ => simp [suffixChain] at hchain
  | c1 :: c2 :: rest, _, hchain, hk =>
    rw [suffixChain_cons2] at hchain
    obtain ⟨h1, h2, h3⟩ := hchain
    subst h1
    by_cases hrest : rest = []
    · subst hrest
      rcases h2 with rfl | rfl
      · exact Or.inl (String.ext (by rw [hk, data_append_l]))
      · exact Or.inr (Or.inl (String.ext (by rw [hk, data_append_h])))
    · rcases h2 with rfl | rfl
      · refine Or.inr (Or.inr (Or.inl ((splitOf_iff _ _).mpr ⟨rest, hrest, h3, ?_⟩)))
        rw [hk, data_append_l]
        simp
      · refine Or.inr (Or.inr (Or.inr ((splitOf_iff _ _).mpr ⟨rest, hrest, h3, ?_⟩)))
        rw [hk, data_append_h]
        simp

theorem splitOf_extend {k x : String} (h : splitOf k x = true) :
    splitOf k (x ++ "_l") = true := by
  obtain ⟨s, hne, hchain, hx⟩ := (splitOf_iff _ _).mp h
  refine (splitOf_iff _ _).mpr ⟨s ++ ['_', 'l'], by simp, suffixChain_append _ _ hchain rfl, ?_⟩
  rw [data_append_l, hx, List.append_assoc]

/-! ### The registers covered before and after a fusion -/

theorem RegisterMap.keys_erase_nodup {name : String} {regs : RegisterMap}
    (h : (regs.map Prod.fst).Nodup) : ((RegisterMap.erase name regs).map Prod.fst).Nodup :=
  h.sublist ((List.filter_sublist regs).map Prod.fst)

/-- A map with distinct keys is one of its entries followed by the map without it. -/
theorem RegisterMap.perm_cons_erase {regs : RegisterMap} (hkeys : (regs.map Prod.fst).Nodup)
    {e : String × Nat × Nat} (he : e ∈ regs) :
    List.Perm regs (e :: RegisterMap.erase e.1 regs) := by
  induction regs with
  | nil => exact absurd he (List.not_mem_nil e)
  | cons x xs ih =>
    rw [List.map_cons, List.nodup_cons] at hkeys
    by_cases hx : x.1 = e.1
    · have hxe : x = e := by
        rcases List.mem_cons.mp he with h | h
        · exact h.symm
        · exact absurd (List.mem_map.mpr ⟨e, h, hx.symm⟩) hkeys.1
      subst hxe
      have : RegisterMap.erase x.1 (x :: xs) = xs := by
        unfold RegisterMap.erase
        rw [List.filter_cons_of_neg (by simp)]
        apply List.filter_eq_self.mpr
        intro a ha
        have : a.1 ≠ x.1 := fun hh => hkeys.1 (List.mem_map.mpr ⟨a, ha, hh⟩)
        simp [this]
      rw [this]
    · have hmem : e ∈ xs := by
        rcases List.mem_cons.mp he with h | h
        · exact absurd (congrArg Prod.fst h).symm hx
        · exact h
      have : RegisterMap.erase e.1 (x :: xs) = x :: RegisterMap.erase e.1 xs := by
        unfold RegisterMap.erase
        rw [List.filter_cons_of_pos (by simp [hx])]
      rw [this]
      exact ((ih hkeys.2 hmem).cons x).trans (List.Perm.swap _ _ _)

theorem inRegister_fused {low high : String × Nat × Nat} (x : String)
    (hadj : low.2.1 + low.2.2 = high.2.1) (k : Nat) :
    inRegister (x, low.2.1, low.2.2 + high.2.2) k ↔ inRegister low k ∨ inRegister high k := by
  unfold inRegister
  simp only []
  omega

/-- One fusion into a name that is not yet a key: the new map is the fused register
followed by the registers other than the two parts, and the old map is the two parts
followed by the same registers. -/
theorem fusion_perm (lt : String → String → Bool) (regs : RegisterMap)
    (hkeys : (regs.map Prod.fst).Nodup) (x : String) (low high : String × Nat × Nat)
    (hlow : low ∈ regs) (hhigh : high ∈ regs) (hl : low.1 = x ++ "_l") (hh : high.1 = x ++ "_h")
    (habsent : RegisterMap.find x regs = none) (v : Nat × Nat) :
    List.Perm (RegisterMap.erase (x ++ "_h") (RegisterMap.erase (x ++ "_l")
        (RegisterMap.insert lt (x, v) regs)))
      ((x, v) :: RegisterMap.erase (x ++ "_h") (RegisterMap.erase (x ++ "_l") regs)) ∧
    List.Perm regs
      (low :: high :: RegisterMap.erase (x ++ "_h") (RegisterMap.erase (x ++ "_l") regs)) := by
  have hxl : x ≠ x ++ "_l" := by
    intro h
    have := congrArg (fun s => s.data.length) h
    simp only [data_append_l, List.length_append, List.length_cons, List.length_nil] at this
    omega
  have hxh : x ≠ x ++ "_h" := by
    intro h
    have := congrArg (fun s => s.data.length) h
    simp only [data_append_h, List.length_append, List.length_cons, List.length_nil] at this
    omega
  have hlh : x ++ "_h" ≠ x ++ "_l" := by
    intro h
    have := congrArg String.data h
    rw [data_append_l, data_append_h] at this
    have := List.append_cancel_left this
    exact absurd this (by decide)
  constructor
  · have hins : RegisterMap.insert lt (x, v) regs = RegisterMap.place lt (x, v) regs := by
      unfold RegisterMap.insert
      rw [habsent]
    rw [hins]
    have h1 := ((RegisterMap.place_perm lt (x, v) regs).filter
      (fun r => !decide (r.1 = x ++ "_l"))).filter (fun r => !decide (r.1 = x ++ "_h"))
    have h2 : List.filter (fun r => !decide (r.1 = x ++ "_h"))
        (List.filter (fun r => !decide (r.1 = x ++ "_l")) ((x, v) :: regs))
        = (x, v) :: RegisterMap.erase (x ++ "_h") (RegisterMap.erase (x ++ "_l") regs) := by
      rw [List.filter_cons_of_pos (by simp [hxl]), List.filter_cons_of_pos (by simp [hxh])]
      rfl
    rw [h2] at h1
    exact h1
  · have p1 := RegisterMap.perm_cons_erase hkeys hlow
    rw [hl] at p1
    have hmem : high ∈ RegisterMap.erase (x ++ "_l") regs :=
      RegisterMap.mem_erase.mpr ⟨hhigh, by rw [hh]; exact hlh⟩
    have p2 := RegisterMap.perm_cons_erase (RegisterMap.keys_erase_nodup hkeys) hmem
    rw [hh] at p2
    exact p1.trans (p2.cons low)

theorem covers_perm {a b : RegisterMap} (h : List.Perm a b) (k : Nat) :
    RegisterMap.covers a k ↔ RegisterMap.covers b k := by
  unfold RegisterMap.covers
  constructor
  · rintro ⟨r, hr, hk⟩; exact ⟨r, h.mem_iff.mp hr, hk⟩
  · rintro ⟨r, hr, hk⟩; exact ⟨r, h.mem_iff.mpr hr, hk⟩

theorem totalLength_perm {a b : RegisterMap} (h : List.Perm a b) :
    RegisterMap.totalLength a = RegisterMap.totalLength b :=
  (h.map _).sum_eq

theorem NoOverlap_perm {a b : RegisterMap} (h : List.Perm a b) :
    RegisterMap.NoOverlap a ↔ RegisterMap.NoOverlap b :=
  h.pairwise_iff (fun {_ _} h12 k hk => h12 k ⟨hk.2, hk.1⟩)

/-- One fusion into a name that is not yet a key keeps the covered indices, the sum of the
lengths, the disjointness of the ranges, the distinctness of the keys and the absence of
keys that are other keys with suffixes removed. -/
theorem fusion_preserves (lt : String → String → Bool) (regs : RegisterMap)
    (hkeys : (regs.map Prod.fst).Nodup) (hsplit : SplitFree regs) (x : String)
    (low high : String × Nat × Nat)
    (hlow : low ∈ regs) (hhigh : high ∈ regs) (hl : low.1 = x ++ "_l") (hh : high.1 = x ++ "_h")
    (hadj : low.2.1 + low.2.2 = high.2.1) (r : RegisterMap)
    (hr : r = RegisterMap.erase (x ++ "_h") (RegisterMap.erase (x ++ "_l")
        (RegisterMap.insert lt (x, low.2.1, low.2.2 + high.2.2) regs))) :
    (r.map Prod.fst).Nodup ∧ SplitFree r ∧
    (∀ k, RegisterMap.covers r k ↔ RegisterMap.covers regs k) ∧
    RegisterMap.totalLength r = RegisterMap.totalLength regs ∧
    (RegisterMap.NoOverlap regs → RegisterMap.NoOverlap r) := by
  have habsent : RegisterMap.find x regs = none := by
    cases hf : RegisterMap.find x regs with
    | none => rfl
    | some v =>
      have hx := mapFind_some_mem hf
      have := hsplit (x, v) hx low hlow
      rw [hl] at this
      simp only [] at this
      rw [splitOf_target_low] at this
      exact Bool.noConfusion this
  obtain ⟨p1, p2⟩ := fusion_perm lt regs hkeys x low high hlow hhigh hl hh habsent
    (low.2.1, low.2.2 + high.2.2)
  rw [← hr] at p1
  have hrest : ∀ e ∈ RegisterMap.erase (x ++ "_h") (RegisterMap.erase (x ++ "_l") regs),
      e ∈ regs ∧ e.1 ≠ x ++ "_l" ∧ e.1 ≠ x ++ "_h" := by
    intro e he
    obtain ⟨h1, h2⟩ := RegisterMap.mem_erase.mp he
    obtain ⟨h3, h4⟩ := RegisterMap.mem_erase.mp h1
    exact ⟨h3, h4, h2⟩
  have hxkey : x ∉ regs.map Prod.fst := by
    intro hin
    obtain ⟨e, he, hex⟩ := List.mem_map.mp hin
    have := mapFind_none_not_mem habsent e.2
    exact this (by rw [← hex]; exact he)
  refine ⟨?_, ?_, ?_, ?_, ?_⟩
  · rw [(p1.map Prod.fst).nodup_iff, List.map_cons, List.nodup_cons]
    refine ⟨?_, RegisterMap.keys_erase_nodup (RegisterMap.keys_erase_nodup hkeys)⟩
    intro hin
    obtain ⟨e, he, hex⟩ := List.mem_map.mp hin
    exact hxkey (List.mem_map.mpr ⟨e, (hrest e he).1, hex⟩)
  · intro a ha b hb
    rcases List.mem_cons.mp (p1.mem_iff.mp ha) with ha | ha <;>
      rcases List.mem_cons.mp (p1.mem_iff.mp hb) with hb | hb
    · rw [ha, hb]
      exact splitOf_irrefl x
    · rw [ha]
      simp only []
      obtain ⟨hb1, hb2, hb3⟩ := hrest b hb
      cases hs : splitOf x b.1 with
      | false => rfl
      | true =>
        rcases splitOf_step hs with h | h | h | h
        · exact absurd h hb2
        · exact absurd h hb3
        · have := hsplit low hlow b hb1
          rw [hl, h] at this
          exact Bool.noConfusion this
        · have := hsplit high hhigh b hb1
          rw [hh, h] at this
          exact Bool.noConfusion this
    · rw [hb]
      simp only []
      cases hs : splitOf a.1 x with
      | false => rfl
      | true =>
        have := hsplit a (hrest a ha).1 low hlow
        rw [hl, splitOf_extend hs] at this
        exact Bool.noConfusion this
    · exact hsplit a (hrest a ha).1 b (hrest b hb).1
  · intro k
    rw [covers_perm p1, covers_perm p2]
    unfold RegisterMap.covers
    simp only [List.mem_cons, exists_eq_or_imp, inRegister_fused x hadj, or_assoc]
  · rw [totalLength_perm p1, totalLength_perm p2]
    simp only [RegisterMap.totalLength, List.map_cons, List.sum_cons]
    omega
  · intro hno
    rw [NoOverlap_perm p2] at hno
    rw [NoOverlap_perm p1]
    unfold RegisterMap.NoOverlap at hno ⊢
    rw [List.pairwise_cons, List.pairwise_cons] at hno
    rw [List.pairwise_cons]
    refine ⟨fun e he k hk => ?_, hno.2.2⟩
    rcases (inRegister_fused x hadj k).mp hk.1 with h | h
    · exact hno.1 e (List.mem_cons_of_mem _ he) k ⟨h, hk.2⟩
    · exact hno.2.1 e he k ⟨h, hk.2⟩

/-- A pass of the `for` loop that leaves the flag unset has fused a register whose name ends
in `_l` with the register of the matching name that begins where it ends. -/
theorem consolidateFor_fusion (lt : String → String → Bool) (regs : RegisterMap)
    (rest : List (String × Nat × Nat)) (finished : Bool)
    (hsub : ∀ e ∈ rest, e ∈ regs) (hstart : rest ≠ [] ∨ finished = true)
    (h : (consolidateFor lt regs rest finished).1 = false) :
    ∃ low ∈ regs, ∃ high ∈ regs, isLowerPart low.1 = true ∧ high.1 = highName low.1 ∧
      low.2.1 + low.2.2 = high.2.1 ∧
      (consolidateFor lt regs rest finished).2
        = RegisterMap.erase (highName low.1) (RegisterMap.erase low.1
            (RegisterMap.insert lt (targetName low.1, low.2.1, low.2.2 + high.2.2) regs)) := by
  induction rest generalizing finished with
  | nil =>
    rcases hstart with h1 | h1
    · exact absurd rfl h1
    · simp [consolidateFor, h1] at h
  | cons qreg rest ih =>
    simp only [consolidateFor] at h ⊢
    split
    · rename_i hlow
      rw [if_pos hlow] at h
      split
      · rename_i highidx highnum hfind
        rw [hfind] at h
        simp only at h
        split
        · rename_i hadj
          exact ⟨qreg, hsub qreg (List.mem_cons_self _ _),
            (highName qreg.1, highidx, highnum), mapFind_some_mem hfind, hlow, rfl, hadj, rfl⟩
        · rename_i hadj
          rw [if_neg hadj] at h
          simp at h
      · rename_i hfind
        rw [hfind] at h
        simp at h
    · rename_i hlow
      rw [if_neg hlow] at h
      exact ih true (fun e he => hsub e (List.mem_cons_of_mem _ he)) (Or.inr rfl) h

/-- The outer loop on a non-empty map with distinct keys none of which is another key with
suffixes removed. -/
theorem consolidateWhile_preserves (lt : String → String → Bool) (fuel : Nat)
    (regs : RegisterMap) (hne : regs ≠ []) (hfuel : regs.length ≤ fuel)
    (hkeys : (regs.map Prod.fst).Nodup) (hsplit : SplitFree regs) :
    ∃ r, consolidateWhile lt fuel false regs = some r ∧
      (∀ k, RegisterMap.covers r k ↔ RegisterMap.covers regs k) ∧
      RegisterMap.totalLength r = RegisterMap.totalLength regs ∧
      (RegisterMap.NoOverlap regs → RegisterMap.NoOverlap r) := by
  induction fuel generalizing regs with
  | zero =>
    have : regs = [] := List.eq_nil_of_length_eq_zero (Nat.le_zero.mp hfuel)
    exact absurd this hne
  | succ fuel ih =>
    simp only [consolidateWhile]
    cases hflag : (consolidateFor lt regs regs false).1 with
    | true =>
      have hsame := consolidateFor_true lt regs regs false hflag
      refine ⟨regs, ?_, fun _ => Iff.rfl, rfl, fun h => h⟩
      rw [hsame]
      cases fuel <;> rfl
    | false =>
      obtain ⟨hlt, hne'⟩ := consolidateFor_false lt regs regs false (fun _ he => he)
        (Or.inl hne) hflag
      obtain ⟨low, hlow, high, hhigh, hlp, hhn, hadj, hres⟩ :=
        consolidateFor_fusion lt regs regs false (fun _ he => he) (Or.inl hne) hflag
      have hl := lower_eq hlp
      have hh : highName low.1 = targetName low.1 ++ "_h" := by
        conv_lhs => rw [hl]
        exact highName_append _
      have hres' : (consolidateFor lt regs regs false).2
          = RegisterMap.erase (targetName low.1 ++ "_h")
              (RegisterMap.erase (targetName low.1 ++ "_l")
                (RegisterMap.insert lt (targetName low.1, low.2.1, low.2.2 + high.2.2)
                  regs)) := by
        rw [hres, hh, ← hl]
      obtain ⟨hk', hs', hcov, htot, hno⟩ := fusion_preserves lt regs hkeys hsplit
        (targetName low.1) low high hlow hhigh hl (hhn.trans hh) hadj _ hres'
      obtain ⟨r, hr, hcov2, htot2, hno2⟩ := ih _ hne' (by omega) hk' hs'
      exact ⟨r, hr, fun k => (hcov2 k).trans (hcov k), htot2.trans htot,
        fun h => hno2 (hno h)⟩

/-- Claim C35: for a register map with distinct keys in which no key equals another key
with one or more trailing suffixes `_l` or `_h` removed, `consolidateRegister` returns a map
that covers exactly the indices covered before and whose lengths have the same sum, and in
which no index lies in two registers if that was so before. Without the condition on the
keys a fusion into a name `x` that is already a key only erases `x_l` and `x_h`, since
`insert` leaves the entry of `x` as it is: in the example `q`, `q_h`, `q_l` the result is the
register `q` alone, the indices 2 to 5 are no longer covered and the sum of the lengths has
gone down from 6 to 2. -/
theorem consolidateRegister_preserves_cover (lt : String → String → Bool) (regs : RegisterMap) :
    ((regs.map Prod.fst).Nodup → SplitFree regs →
      ∃ r, (∀ fuel, regs.length ≤ fuel → consolidateRegister lt fuel regs = some r) ∧
        (∀ k, RegisterMap.covers r k ↔ RegisterMap.covers regs k) ∧
        RegisterMap.totalLength r = RegisterMap.totalLength regs ∧
        (RegisterMap.NoOverlap regs → RegisterMap.NoOverlap r)) ∧
    (∀ (x : String) (v w : Nat × Nat), RegisterMap.find x regs = some v →
      RegisterMap.erase (x ++ "_h") (RegisterMap.erase (x ++ "_l")
          (RegisterMap.insert lt (x, w) regs))
        = RegisterMap.erase (x ++ "_h") (RegisterMap.erase (x ++ "_l") regs)) ∧
    ((clashingRegisters.map Prod.fst).Nodup ∧ ¬ SplitFree clashingRegisters ∧
      consolidateRegister keyLess 3 clashingRegisters = some [("q", 0, 2)] ∧
      (∀ k, 2 ≤ k → k < 6 → RegisterMap.covers clashingRegisters k ∧
        ¬ RegisterMap.covers [("q", 0, 2)] k) ∧
      RegisterMap.totalLength clashingRegisters = 6 ∧
      RegisterMap.totalLength [("q", 0, 2)] = 2) := by
  refine ⟨fun hkeys hsplit => ?_, fun x v w hf => ?_, by decide, ?_, by decide, ?_, rfl, rfl⟩
  · cases regs with
    | nil =>
      refine ⟨[], fun fuel _ => ?_, fun _ => Iff.rfl, rfl, fun h => h⟩
      cases fuel <;> rfl
    | cons e rest =>
      obtain ⟨r, hr, hcov, htot, hno⟩ := consolidateWhile_preserves lt (e :: rest).length
        (e :: rest) (List.cons_ne_nil _ _) (Nat.le_refl _) hkeys hsplit
      exact ⟨r, fun fuel hfuel => consolidateWhile_mono_le lt hfuel _ _ _ hr, hcov, htot, hno⟩
  · unfold RegisterMap.insert
    rw [hf]
  · intro h
    have := h ("q", 0, 2) (by decide) ("q_l", 2, 2) (by decide)
    exact absurd this (by decide)
  · intro k h2 h6
    constructor
    · by_cases h4 : k < 4
      · exact ⟨("q_l", 2, 2), by decide, by unfold inRegister; simp only []; omega⟩
      · exact ⟨("q_h", 4, 2), by decide, by unfold inRegister; simp only []; omega⟩
    · rintro ⟨r, hr, hk⟩
      rw [List.mem_singleton] at hr
      subst hr
      unfold inRegister at hk
      simp only [] at hk
      omega

/-- Claim C35 on the example left by two splits, in ascending key order. -/
theorem consolidateRegister_preserves_cover_witness :
    (splitRegisters.map Prod.fst).Nodup ∧ SplitFree splitRegisters ∧
    ∃ r, (∀ fuel, splitRegisters.length ≤ fuel →
        consolidateRegister keyLess fuel splitRegisters = some r) ∧
      (∀ k, RegisterMap.covers r k ↔ RegisterMap.covers splitRegisters k) ∧
      RegisterMap.totalLength r = RegisterMap.totalLength splitRegisters ∧
      (RegisterMap.NoOverlap splitRegisters → RegisterMap.NoOverlap r) :=
  ⟨by decide, by unfold SplitFree; decide,
    (consolidateRegister_preserves_cover keyLess splitRegisters).1 (by decide)
      (by unfold SplitFree; decide)⟩

/-! ### The register array -/

theorem sortedInsert_perm (reg : String × Nat × Nat) (l : List (String × Nat × Nat))
    (hnew : ∀ r ∈ l, r.2.1 ≠ reg.2.1) : List.Perm (sortedInsert reg l) (reg :: l) := by
  induction l with
  | nil => exact List.Perm.refl _
  | cons r rest ih =>
    simp only [sortedInsert]
    split
    · exact List.Perm.refl _
    · rw [if_neg (fun h => hnew r (List.mem_cons_self _ _) h.symm)]
      exact (List.Perm.cons r (ih (fun q hq => hnew q (List.mem_cons_of_mem _ hq)))).trans
        (List.Perm.swap reg r rest)

theorem sortedInsert_sorted (reg : String × Nat × Nat) (l : List (String × Nat × Nat))
    (hs : l.Pairwise (fun a b => a.2.1 < b.2.1)) (hnew : ∀ r ∈ l, r.2.1 ≠ reg.2.1) :
    (sortedInsert reg l).Pairwise (fun a b => a.2.1 < b.2.1) := by
  induction l with
  | nil => exact List.pairwise_singleton _ _
  | cons r rest ih =>
    have hrest := (List.pairwise_cons.mp hs).2
    have hhead := (List.pairwise_cons.mp hs).1
    simp only [sortedInsert]
    split
    · rename_i hlt
      refine List.pairwise_cons.mpr ⟨?_, hs⟩
      intro q hq
      rcases List.mem_cons.mp hq with h | h
      · rw [h]; exact hlt
      · exact Nat.lt_trans hlt (hhead q h)
    · rename_i hge
      have hne := hnew r (List.mem_cons_self _ _)
      rw [if_neg (fun h => hne h.symm)]
      have hnew' : ∀ q ∈ rest, q.2.1 ≠ reg.2.1 := fun q hq => hnew q (List.mem_cons_of_mem _ hq)
      refine List.pairwise_cons.mpr ⟨?_, ih hrest hnew'⟩
      intro q hq
      rcases List.mem_cons.mp ((sortedInsert_perm reg rest hnew').mem_iff.mp hq) with h | h
      · rw [h]; omega
      · exact hhead q h

theorem sortedRegs_spec (regs : RegisterMap) (hnd : (regs.map (fun r => r.2.1)).Nodup) :
    List.Perm (sortedRegs regs) regs ∧
      (sortedRegs regs).Pairwise (fun a b => a.2.1 < b.2.1) := by
  have key : ∀ (regs acc : List (String × Nat × Nat)),
      ((acc ++ regs).map (fun r => r.2.1)).Nodup → acc.Pairwise (fun a b => a.2.1 < b.2.1) →
      List.Perm (regs.foldl (fun sorted reg => sortedInsert reg sorted) acc) (acc ++ regs) ∧
        (regs.foldl (fun sorted reg => sortedInsert reg sorted) acc).Pairwise
          (fun a b => a.2.1 < b.2.1) := by
    intro regs
    induction regs with
    | nil => intro acc _ hs; simpa using hs
    | cons r rest ih =>
      intro acc hnd hs
      have hnew : ∀ q ∈ acc, q.2.1 ≠ r.2.1 := by
        intro q hq heq
        rw [List.map_append, List.map_cons] at hnd
        have h1 := (List.nodup_append.mp hnd).2.2
        exact h1 (List.mem_map_of_mem (fun r => r.2.1) hq)
          (by rw [heq]; exact List.mem_cons_self _ _)
      have hperm := sortedInsert_perm r acc hnew
      have hnd' : ((sortedInsert r acc ++ rest).map (fun r => r.2.1)).Nodup := by
        have hp : List.Perm (sortedInsert r acc ++ rest) (acc ++ r :: rest) :=
          (List.Perm.append_right rest hperm).trans
            (List.perm_middle.symm)
        exact (List.Perm.nodup_iff (List.Perm.map _ hp)).mpr hnd
      obtain ⟨h1, h2⟩ := ih (sortedInsert r acc) hnd' (sortedInsert_sorted r acc hs hnew)
      refine ⟨?_, h2⟩
      rw [List.foldl_cons]
      exact h1.trans ((List.Perm.append_right rest hperm).trans List.perm_middle.symm)
  have := key regs [] (by simpa using hnd) List.Pairwise.nil
  simpa [sortedRegs] using this

theorem pushRegister_eq (regnames : List (String × String)) (reg : String × Nat × Nat) :
    pushRegister regnames reg = regnames ++ (List.range reg.2.2).map (registerEntry reg) := by
  unfold pushRegister
  generalize reg.2.2 = n
  induction n with
  | zero => simp
  | succ n ih =>
    rw [List.range_succ, List.foldl_append, ih, List.map_append, ← List.append_assoc]
    rfl

theorem foldl_pushRegister (l : List (String × Nat × Nat)) (acc : List (String × String)) :
    l.foldl pushRegister acc
      = acc ++ (l.map (fun reg => (List.range reg.2.2).map (registerEntry reg))).flatten := by
  induction l generalizing acc with
  | nil => simp
  | cons r rest ih =>
    rw [List.foldl_cons, ih, pushRegister_eq]
    simp

theorem length_register_blocks (l : List (String × Nat × Nat)) :
    ((l.map (fun reg => (List.range reg.2.2).map (registerEntry reg))).flatten).length
      = (l.map (fun r => r.2.2)).sum := by
  induction l with
  | nil => rfl
  | cons r rest ih => simp [ih]

/-- The entry at the place of an index `k` when the registers, in ascending order of their
start indices, tile `[m, n)`. -/
theorem register_blocks_entry (l : List (String × Nat × Nat)) (m n : Nat)
    (hs : l.Pairwise (fun a b => a.2.1 < b.2.1))
    (hdis : l.Pairwise (fun r1 r2 => ∀ k, ¬ (inRegister r1 k ∧ inRegister r2 k)))
    (hin : ∀ r ∈ l, ∀ k, inRegister r k → m ≤ k ∧ k < n)
    (hcov : ∀ k, m ≤ k → k < n → ∃ r ∈ l, inRegister r k)
    (k : Nat) (r : String × Nat × Nat) (hr : r ∈ l) (hk : inRegister r k) :
    ((l.map (fun reg => (List.range reg.2.2).map (registerEntry reg))).flatten)[k - m]?
      = some (registerEntry r (k - r.2.1)) := by
  induction l generalizing m with
  | nil => exact absurd hr (List.not_mem_nil r)
  | cons r0 rest ih =>
    obtain ⟨hs0, hsrest⟩ := List.pairwise_cons.mp hs
    obtain ⟨hd0, hdrest⟩ := List.pairwise_cons.mp hdis
    obtain ⟨hkm, hkn⟩ := hin r hr k hk
    simp only [List.map_cons, List.flatten_cons]
    by_cases hlen : r0.2.2 = 0
    · -- an empty register contributes no entry
      have hnot : ∀ j, ¬ inRegister r0 j := fun j hj => by
        unfold inRegister at hj; omega
      have hr' : r ∈ rest := by
        rcases List.mem_cons.mp hr with h | h
        · rw [h] at hk; exact absurd hk (hnot k)
        · exact h
      rw [hlen]
      simp only [List.range_zero, List.map_nil, List.nil_append]
      refine ih m hsrest hdrest (fun q hq => hin q (List.mem_cons_of_mem _ hq)) ?_ hr'
      intro j hj1 hj2
      obtain ⟨q, hq, hqj⟩ := hcov j hj1 hj2
      rcases List.mem_cons.mp hq with h | h
      · rw [h] at hqj; exact absurd hqj (hnot j)
      · exact ⟨q, h, hqj⟩
    · -- a register with entries begins at `m`
      have hself : inRegister r0 r0.2.1 := by unfold inRegister; omega
      have hm1 : m ≤ r0.2.1 := (hin r0 (List.mem_cons_self _ _) _ hself).1
      have hm2 : r0.2.1 ≤ m := by
        obtain ⟨q, hq, hqm⟩ := hcov m (Nat.le_refl m) (by omega)
        rcases List.mem_cons.mp hq with h | h
        · rw [h] at hqm; exact hqm.1
        · have := hs0 q h
          have := hqm.1
          omega
      have hstart : r0.2.1 = m := Nat.le_antisymm hm2 hm1
      rcases List.mem_cons.mp hr with h | h
      · subst h
        have hlt : k - m < ((List.range r.2.2).map (registerEntry r)).length := by
          unfold inRegister at hk
          simp
          omega
        rw [List.getElem?_append_left hlt, List.getElem?_map,
          List.getElem?_range (by simpa using hlt), hstart]
        rfl
      · have hnotin : ¬ inRegister r0 k := fun h0 => hd0 r h k ⟨h0, hk⟩
        have hge : m + r0.2.2 ≤ k := by
          unfold inRegister at hnotin
          omega
        have hlen' : ((List.range r0.2.2).map (registerEntry r0)).length = r0.2.2 := by simp
        rw [List.getElem?_append_right (by rw [hlen']; omega), hlen']
        have hidx : k - m - r0.2.2 = k - (m + r0.2.2) := by omega
        rw [hidx]
        refine ih (m + r0.2.2) hsrest hdrest ?_ ?_ h
        · intro q hq j hj
          have h1 := hin q (List.mem_cons_of_mem _ hq) j hj
          have h2 : ¬ inRegister r0 j := fun h0 => hd0 q hq j ⟨h0, hj⟩
          unfold inRegister at h2
          omega
        · intro j hj1 hj2
          obtain ⟨q, hq, hqj⟩ := hcov j (by omega) hj2
          rcases List.mem_cons.mp hq with h' | h'
          · rw [h'] at hqj
            unfold inRegister at hqj
            omega
          · exact ⟨q, h', hqj⟩

/-- Claim C30: for a register map whose registers have pairwise distinct start indices,
`createRegisterArray` replaces the output list by the entries `(r, r[0])`, `(r, r[1])`, … of
the registers taken in ascending order of their start indices; its length is the sum of the
lengths of the registers, and when the registers tile `[0, n)` the entry at place `k < n` is
`(r, r[k - start(r)])` for the register `r` that contains `k`. -/
theorem createRegisterArray_spec (regs : RegisterMap) (regnames : List (String × String))
    (hnd : (regs.map (fun r => r.2.1)).Nodup) :
    ∃ sorted, List.Perm sorted regs ∧ sorted.Pairwise (fun a b => a.2.1 < b.2.1) ∧
      createRegisterArray regs regnames
        = (sorted.map (fun reg => (List.range reg.2.2).map (registerEntry reg))).flatten ∧
      (createRegisterArray regs regnames).length = (regs.map (fun r => r.2.2)).sum ∧
      ∀ n, Tiles regs n → ∀ k r, r ∈ regs → inRegister r k →
        (createRegisterArray regs regnames)[k]? = some (registerEntry r (k - r.2.1)) := by
  obtain ⟨hperm, hsorted⟩ := sortedRegs_spec regs hnd
  have heq : createRegisterArray regs regnames
      = ((sortedRegs regs).map
          (fun reg => (List.range reg.2.2).map (registerEntry reg))).flatten := by
    unfold createRegisterArray
    rw [foldl_pushRegister, List.nil_append]
  refine ⟨sortedRegs regs, hperm, hsorted, heq, ?_, ?_⟩
  · rw [heq, length_register_blocks]
    exact List.Perm.sum_eq (List.Perm.map _ hperm)
  · intro n ⟨hcov, hdis, hin⟩ k r hr hk
    rw [heq]
    have hdis' : (sortedRegs regs).Pairwise
        (fun r1 r2 => ∀ k, ¬ (inRegister r1 k ∧ inRegister r2 k)) :=
      (List.Perm.pairwise_iff (fun {a b} h k hk => h k ⟨hk.2, hk.1⟩) hperm).mpr hdis
    have := register_blocks_entry (sortedRegs regs) 0 n hsorted hdis'
      (fun q hq j hj => ⟨Nat.zero_le j, hin q (hperm.mem_iff.mp hq) j hj⟩)
      (fun j _ hj => by
        obtain ⟨q, hq, hqj⟩ := hcov j hj
        exact ⟨q, hperm.mem_iff.mpr hq, hqj⟩)
      k r (hperm.mem_iff.mpr hr) hk
    simpa using this

/-- Claim C30 on an example: three registers that tile `[0, 6)`. -/
theorem createRegisterArray_spec_witness :
    (exampleRegisters.map (fun r => r.2.1)).Nodup ∧
    ∃ sorted, List.Perm sorted exampleRegisters ∧
      sorted.Pairwise (fun a b => a.2.1 < b.2.1) ∧
      createRegisterArray exampleRegisters [("old", "old[0]")]
        = (sorted.map (fun reg => (List.range reg.2.2).map (registerEntry reg))).flatten ∧
      (createRegisterArray exampleRegisters [("old", "old[0]")]).length
        = (exampleRegisters.map (fun r => r.2.2)).sum ∧
      ∀ n, Tiles exampleRegisters n → ∀ k r, r ∈ exampleRegisters → inRegister r k →
        (createRegisterArray exampleRegisters [("old", "old[0]")])[k]?
          = some (registerEntry r (k - r.2.1)) :=
  ⟨by decide, createRegisterArray_spec exampleRegisters [("old", "old[0]")] (by decide)⟩

/-- The register array of the example. -/
theorem createRegisterArray_example :
    createRegisterArray exampleRegisters [("old", "old[0]")]
      = [("q", "q[0]"), ("q", "q[1]"), ("q", "q[2]"), ("r", "r[0]"), ("r", "r[1]"),
         ("anc", "anc[0]")] := by
  decide

/-! ### Adding and removing a qubit -/

theorem RegisterMap.find_assign (k name : String) (v : Nat × Nat) (regs : RegisterMap) :
    RegisterMap.find name (RegisterMap.assign k v regs)
      = if name = k then (RegisterMap.find k regs).map (fun _ => v)
        else RegisterMap.find name regs := by
  unfold RegisterMap.find RegisterMap.assign
  induction regs with
  | nil => simp [mapFind]
  | cons r rest ih =>
    obtain ⟨rk, rv⟩ := r
    by_cases hk : rk = k
    · subst hk
      simp only [List.map_cons, if_true, mapFind_cons]
      by_cases hn : name = rk
      · simp [hn]
      · simp only [if_neg hn]
        rw [ih, if_neg hn]
    · simp only [List.map_cons, if_neg hk, mapFind_cons]
      rw [ih]
      by_cases hn : name = rk
      · have : name ≠ k := fun h => hk (hn ▸ h)
        simp [hn, hk]
      · by_cases hnk : name = k
        · simp [hnk, Ne.symm hk]
        · simp [hn, hnk]

theorem RegisterMap.find_set (lt : String → String → Bool) (r : String × Nat × Nat)
    (name : String) (regs : RegisterMap) :
    RegisterMap.find name (RegisterMap.set lt r regs)
      = if name = r.1 then some r.2 else RegisterMap.find name regs := by
  unfold RegisterMap.set
  cases h : RegisterMap.find r.1 regs with
  | none => exact RegisterMap.find_place lt r name regs h
  | some v =>
    simp only []
    rw [RegisterMap.find_assign, h]
    rfl

theorem append_suffix_ne (reg : String) :
    reg ≠ reg ++ "_l" ∧ reg ≠ reg ++ "_h" ∧ reg ++ "_l" ≠ reg ++ "_h" := by
  refine ⟨?_, ?_, ?_⟩
  · intro h
    have := congrArg String.length h
    rw [String.length_append] at this
    have e : ("_l" : String).length = 2 := rfl
    omega
  · intro h
    have := congrArg String.length h
    rw [String.length_append] at this
    have e : ("_h" : String).length = 2 := rfl
    omega
  · intro h
    have h1 : (reg ++ "_l").data = (reg ++ "_h").data := congrArg String.data h
    rw [String.data_append, String.data_append] at h1
    have h2 := List.append_cancel_left h1
    exact absurd h2 (by decide)

/-- Claim C25, as stated, fails: in the map `q = (0, 3)`, `q_l = (7, 2)` the removal of the
interior index 1 of `q` has to leave `q_l = (0, 1)`, so the other register `q_l = (7, 2)` is
not unchanged: its indices 7 and 8 are lost. No map at all holds both `q_l = (0, 1)` and the
old entry of `q_l`. -/
theorem removeQubitfromQubitRegister_name_clash :
    RegisterMap.find "q" splitClashRegisters = some (0, 3) ∧
    RegisterMap.find ("q" ++ "_l") splitClashRegisters = some (7, 2) ∧
    removeQubitfromQubitRegister keyLess splitClashRegisters "q" 1
      = Except.ok [("q_h", 2, 1), ("q_l", 0, 1)] ∧
    RegisterMap.find ("q" ++ "_l") [("q_h", 2, 1), ("q_l", 0, 1)]
      ≠ RegisterMap.find ("q" ++ "_l") splitClashRegisters ∧
    ¬ ∃ r : RegisterMap, RegisterMap.find ("q" ++ "_l") r = some (0, 1 - 0) ∧
      RegisterMap.find ("q" ++ "_l") r = RegisterMap.find ("q" ++ "_l") splitClashRegisters := by
  refine ⟨rfl, rfl, rfl, by decide, ?_⟩
  rintro ⟨r, h1, h2⟩
  rw [h1] at h2
  have h3 : RegisterMap.find ("q" ++ "_l") splitClashRegisters = some (7, 2) := rfl
  rw [h3] at h2
  exact absurd h2 (by decide)

/-- Claim C25, amended: let `reg ↦ (start, length)` be a register of the map. If `idx` is
outside `[start, start + length)` the call fails. Otherwise it returns a map `r`, and a lookup
in `r` finds, if `length = 1`, nothing for `reg`; if `idx` is the first index, `(start + 1,
length - 1)` for `reg`; if `idx` is the last index, `(start, length - 1)` for `reg`; and
otherwise `(start, idx - start)` for `reg_l`, `(idx + 1, start + length - idx - 1)` for
`reg_h` and nothing for `reg`; for every other name it finds what the map held before.
Every register of the old map other than `reg` is found unchanged in `r`, provided that, when
`idx` is an interior index, the old map has no register named `reg_l` or `reg_h`. -/
theorem removeQubitfromQubitRegister_spec (lt : String → String → Bool) (regs : RegisterMap)
    (reg : String) (start length idx : Nat)
    (hreg : RegisterMap.find reg regs = some (start, length)) :
    ((idx < start ∨ start + length ≤ idx) →
      ∃ msg, removeQubitfromQubitRegister lt regs reg idx = .error msg) ∧
    (start ≤ idx → idx < start + length →
      ∃ r, removeQubitfromQubitRegister lt regs reg idx = .ok r ∧
        (length = 1 →
          ∀ name, RegisterMap.find name r
            = if name = reg then none else RegisterMap.find name regs) ∧
        (length ≠ 1 → idx = start →
          ∀ name, RegisterMap.find name r
            = if name = reg then some (start + 1, length - 1)
              else RegisterMap.find name regs) ∧
        (length ≠ 1 → idx = start + length - 1 →
          ∀ name, RegisterMap.find name r
            = if name = reg then some (start, length - 1) else RegisterMap.find name regs) ∧
        (idx ≠ start → idx ≠ start + length - 1 →
          ∀ name, RegisterMap.find name r
            = if name = reg ++ "_l" then some (start, idx - start)
              else if name = reg ++ "_h" then some (idx + 1, start + length - idx - 1)
              else if name = reg then none
              else RegisterMap.find name regs) ∧
        ((idx ≠ start → idx ≠ start + length - 1 →
            RegisterMap.find (reg ++ "_l") regs = none ∧
            RegisterMap.find (reg ++ "_h") regs = none) →
          ∀ name, name ≠ reg → RegisterMap.find name regs ≠ none →
            RegisterMap.find name r = RegisterMap.find name regs)) := by
  obtain ⟨hl, hh, hlh⟩ := append_suffix_ne reg
  constructor
  · intro hout
    unfold removeQubitfromQubitRegister
    rw [hreg]
    simp only [if_pos hout]
    exact ⟨_, rfl⟩
  · intro h1 h2
    have hin : ¬ (idx < start ∨ start + length ≤ idx) := by omega
    unfold removeQubitfromQubitRegister
    rw [hreg]
    simp only [if_neg hin]
    by_cases hone : length = 1
    · rw [if_pos hone]
      refine ⟨_, rfl, fun _ name => RegisterMap.find_erase reg name regs,
        fun h => absurd hone h, fun h => absurd hone h, fun h3 h4 => ?_,
        fun _ name hname _ => ?_⟩
      · omega
      · rw [RegisterMap.find_erase, if_neg hname]
    · rw [if_neg hone]
      by_cases hfirst : idx = start
      · rw [if_pos hfirst]
        refine ⟨_, rfl, fun h => absurd h hone, fun _ _ name => ?_, fun _ h3 name => ?_,
          fun h3 => absurd hfirst h3, fun _ name hname _ => ?_⟩
        · rw [RegisterMap.find_assign, hreg]; rfl
        · omega
        · rw [RegisterMap.find_assign, if_neg hname]
      · rw [if_neg hfirst]
        by_cases hlast : idx = start + length - 1
        · rw [if_pos hlast]
          refine ⟨_, rfl, fun h => absurd h hone, fun _ h3 => absurd h3 hfirst,
            fun _ _ name => ?_, fun _ h3 => absurd hlast h3, fun _ name hname _ => ?_⟩
          · rw [RegisterMap.find_assign, hreg]; rfl
          · rw [RegisterMap.find_assign, if_neg hname]
        · rw [if_neg hlast]
          have hfind : ∀ name, RegisterMap.find name
              (RegisterMap.set lt (reg ++ "_h", idx + 1, start + length - idx - 1)
                (RegisterMap.set lt (reg ++ "_l", start, idx - start)
                  (RegisterMap.erase reg regs)))
              = if name = reg ++ "_l" then some (start, idx - start)
                else if name = reg ++ "_h" then some (idx + 1, start + length - idx - 1)
                else if name = reg then none
                else RegisterMap.find name regs := by
            intro name
            rw [RegisterMap.find_set, RegisterMap.find_set, RegisterMap.find_erase]
            by_cases n1 : name = reg ++ "_l"
            · simp [n1, hlh, Ne.symm hl]
            · by_cases n2 : name = reg ++ "_h"
              · simp [n2, Ne.symm hlh]
              · simp [n1, n2]
          refine ⟨_, rfl, fun h => absurd h hone, fun _ h3 => absurd h3 hfirst,
            fun _ h3 => absurd h3 hlast, fun _ _ name => hfind name,
            fun hfresh name hname hsome => ?_⟩
          obtain ⟨hfl, hfh⟩ := hfresh hfirst hlast
          have n1 : name ≠ reg ++ "_l" := fun h => hsome (h ▸ hfl)
          have n2 : name ≠ reg ++ "_h" := fun h => hsome (h ▸ hfh)
          rw [hfind, if_neg n1, if_neg n2, if_neg hname]

/-- Claim C25, amended, on an example: the middle qubit of a register of three qubits is
removed; the registers `anc` and `r` are found unchanged. -/
theorem removeQubitfromQubitRegister_spec_witness :
    RegisterMap.find "q" exampleRegisters = some (0, 3) ∧
    ∃ r, removeQubitfromQubitRegister keyLess exampleRegisters "q" 1 = Except.ok r ∧
      (∀ name, RegisterMap.find name r
        = if name = "q" ++ "_l" then some (0, 1 - 0)
          else if name = "q" ++ "_h" then some (1 + 1, 0 + 3 - 1 - 1)
          else if name = "q" then none
          else RegisterMap.find name exampleRegisters) ∧
      (∀ name, name ≠ "q" → RegisterMap.find name exampleRegisters ≠ none →
        RegisterMap.find name r = RegisterMap.find name exampleRegisters) := by
  obtain ⟨r, hr, -, -, -, hsplit, hother⟩ :=
    (removeQubitfromQubitRegister_spec keyLess exampleRegisters "q" 0 3 1 rfl).2
      (by decide) (by decide)
  exact ⟨rfl, r, hr, hsplit (by decide) (by decide), hother (fun _ _ => ⟨rfl, rfl⟩)⟩

/-- The maps returned for the example when the middle, the first and the last qubit of `q`
are removed, and the failure for an index outside `q`. -/
theorem removeQubitfromQubitRegister_example :
    removeQubitfromQubitRegister keyLess exampleRegisters "q" 1
      = Except.ok [("anc", 5, 1), ("q_h", 2, 1), ("q_l", 0, 1), ("r", 3, 2)] ∧
    removeQubitfromQubitRegister keyLess exampleRegisters "q" 0
      = Except.ok [("anc", 5, 1), ("q", 1, 2), ("r", 3, 2)] ∧
    removeQubitfromQubitRegister keyLess exampleRegisters "q" 2
      = Except.ok [("anc", 5, 1), ("q", 0, 2), ("r", 3, 2)] ∧
    removeQubitfromQubitRegister keyLess exampleRegisters "anc" 5
      = Except.ok [("q", 0, 3), ("r", 3, 2)] ∧
    removeQubitfromQubitRegister keyLess exampleRegisters "q" 3
      = Except.error "The index is outside the register." :=
  ⟨rfl, rfl, rfl, rfl, rfl⟩

theorem RegisterMap.mem_assign {name : String} {v : Nat × Nat} {regs : RegisterMap}
    {q : String × Nat × Nat} :
    q ∈ RegisterMap.assign name v regs ↔
      (q = (name, v) ∧ ∃ r ∈ regs, r.1 = name) ∨ (q ∈ regs ∧ q.1 ≠ name) := by
  unfold RegisterMap.assign
  rw [List.mem_map]
  constructor
  · rintro ⟨r, hr, hq⟩
    by_cases h : r.1 = name
    · rw [if_pos h] at hq
      exact Or.inl ⟨hq.symm, r, hr, h⟩
    · rw [if_neg h] at hq
      subst hq
      exact Or.inr ⟨hr, h⟩
  · rintro (⟨hq, r, hr, h⟩ | ⟨hq, h⟩)
    · exact ⟨r, hr, by rw [if_pos h, hq]⟩
    · exact ⟨q, hq, by rw [if_neg h]⟩

theorem RegisterMap.eq_of_key_eq {regs : RegisterMap} (hkeys : (regs.map Prod.fst).Nodup)
    {a b : String × Nat × Nat} (ha : a ∈ regs) (hb : b ∈ regs) (h : a.1 = b.1) : a = b :=
  List.inj_on_of_nodup_map hkeys ha hb h

theorem inRegister_extendedBy {i : Qubit} {r : String × Nat × Nat}
    (hadj : adjacentTo i r = true) (k : Nat) :
    inRegister (r.1, extendedBy i r) k ↔ inRegister r k ∨ k = i := by
  unfold adjacentTo at hadj
  simp only [Bool.or_eq_true, decide_eq_true_eq] at hadj
  unfold inRegister extendedBy
  by_cases h : r.2.1 = i + 1
  · rw [if_pos h]
    simp only
    omega
  · rw [if_neg h]
    simp only
    omega

/-- The registers after a register next to the new index has been extended by it. -/
theorem assign_extended {regs : RegisterMap} (hkeys : (regs.map Prod.fst).Nodup)
    {i : Qubit} {r : String × Nat × Nat} (hr : r ∈ regs) (hadj : adjacentTo i r = true) :
    (∀ k, (RegisterMap.assign r.1 (extendedBy i r) regs).covers k ↔ regs.covers k ∨ k = i) ∧
    (¬ regs.covers i → regs.NoOverlap →
      (RegisterMap.assign r.1 (extendedBy i r) regs).NoOverlap) := by
  constructor
  · intro k
    unfold RegisterMap.covers
    constructor
    · rintro ⟨q, hq, hk⟩
      rcases RegisterMap.mem_assign.mp hq with ⟨h1, -⟩ | ⟨h1, -⟩
      · rw [h1] at hk
        rcases (inRegister_extendedBy hadj k).mp hk with h | h
        · exact Or.inl ⟨r, hr, h⟩
        · exact Or.inr h
      · exact Or.inl ⟨q, h1, hk⟩
    · rintro (⟨q, hq, hk⟩ | hk)
      · by_cases h : q.1 = r.1
        · have := RegisterMap.eq_of_key_eq hkeys hq hr h
          subst this
          exact ⟨(q.1, extendedBy i q), RegisterMap.mem_assign.mpr (Or.inl ⟨rfl, q, hq, rfl⟩),
            (inRegister_extendedBy hadj k).mpr (Or.inl hk)⟩
        · exact ⟨q, RegisterMap.mem_assign.mpr (Or.inr ⟨hq, h⟩), hk⟩
      · exact ⟨(r.1, extendedBy i r), RegisterMap.mem_assign.mpr (Or.inl ⟨rfl, r, hr, rfl⟩),
          (inRegister_extendedBy hadj k).mpr (Or.inr hk)⟩
  · intro hnew hno
    unfold RegisterMap.NoOverlap RegisterMap.assign at *
    rw [List.pairwise_map]
    have hne : regs.Pairwise (fun a b => a.1 ≠ b.1) := by
      have := List.pairwise_map.mp hkeys
      exact this
    refine (hne.and hno).imp_of_mem ?_
    intro a b ha hb hab
    obtain ⟨hab1, hab2⟩ := hab
    intro k hk
    by_cases h1 : a.1 = r.1
    · have har := RegisterMap.eq_of_key_eq hkeys ha hr h1
      have h2 : b.1 ≠ r.1 := fun h => hab1 (h1.trans h.symm)
      rw [if_pos h1, if_neg h2] at hk
      rcases (inRegister_extendedBy hadj k).mp hk.1 with h | h
      · exact hab2 k ⟨har ▸ h, hk.2⟩
      · exact hnew ⟨b, hb, h ▸ hk.2⟩
    · rw [if_neg h1] at hk
      by_cases h2 : b.1 = r.1
      · have hbr := RegisterMap.eq_of_key_eq hkeys hb hr h2
        rw [if_pos h2] at hk
        rcases (inRegister_extendedBy hadj k).mp hk.2 with h | h
        · exact hab2 k ⟨hk.1, hbr ▸ h⟩
        · exact hnew ⟨a, ha, h ▸ hk.1⟩
      · rw [if_neg h2] at hk
        exact hab2 k hk

/-- The registers after a singleton register with a new name has been placed. -/
theorem place_singleton (lt : String → String → Bool) (regs : RegisterMap) (name : String)
    (i : Qubit) :
    (∀ k, (RegisterMap.place lt (name, i, 1) regs).covers k ↔ regs.covers k ∨ k = i) ∧
    (¬ regs.covers i → regs.NoOverlap → (RegisterMap.place lt (name, i, 1) regs).NoOverlap) := by
  have hperm := RegisterMap.place_perm lt (name, i, 1) regs
  have hone : ∀ k, inRegister (name, i, 1) k ↔ k = i := by
    intro k
    unfold inRegister
    simp only
    omega
  constructor
  · intro k
    unfold RegisterMap.covers
    constructor
    · rintro ⟨q, hq, hk⟩
      rcases List.mem_cons.mp (hperm.mem_iff.mp hq) with h | h
      · rw [h] at hk
        exact Or.inr ((hone k).mp hk)
      · exact Or.inl ⟨q, h, hk⟩
    · rintro (⟨q, hq, hk⟩ | hk)
      · exact ⟨q, hperm.mem_iff.mpr (List.mem_cons_of_mem _ hq), hk⟩
      · exact ⟨(name, i, 1), hperm.mem_iff.mpr (List.mem_cons_self _ _), (hone k).mpr hk⟩
  · intro hnew hno
    unfold RegisterMap.NoOverlap at *
    refine (List.Perm.pairwise_iff (fun {a b} h k hk => h k ⟨hk.2, hk.1⟩) hperm).mpr ?_
    refine List.pairwise_cons.mpr ⟨?_, hno⟩
    intro q hq k hk
    have := (hone k).mp hk.1
    exact hnew ⟨q, hq, this ▸ hk.2⟩

/-- Claim C26, as stated, fails: when the index lies in a register already, the rule of the
spec introduces an overlap. The index 1 lies in the register `q = (0, 3)` and is not next to
its range, so the singleton register `q_1 = (1, 1)` is created and index 1 lies in two
registers. When the name `q_5` is taken by another register, creating the singleton register
`q_5 = (5, 1)` drops the index 9 of the old one. -/
theorem addQubitToQubitRegister_overlap :
    RegisterMap.NoOverlap [("q", 0, 3)] ∧
    addQubitToQubitRegister keyLess [("q", 0, 3)] 1 "q" = [("q", 0, 3), ("q_1", 1, 1)] ∧
    ¬ RegisterMap.NoOverlap (addQubitToQubitRegister keyLess [("q", 0, 3)] 1 "q") ∧
    addQubitToQubitRegister keyLess [("q", 0, 1), ("q_5", 9, 1)] 5 "q"
      = [("q", 0, 1), ("q_5", 5, 1)] ∧
    RegisterMap.covers [("q", 0, 1), ("q_5", 9, 1)] 9 ∧
    ¬ RegisterMap.covers (addQubitToQubitRegister keyLess [("q", 0, 1), ("q_5", 9, 1)] 5 "q") 9 := by
  have e1 : addQubitToQubitRegister keyLess [("q", 0, 3)] 1 "q"
      = [("q", 0, 3), ("q_1", 1, 1)] := by decide
  have e2 : addQubitToQubitRegister keyLess [("q", 0, 1), ("q_5", 9, 1)] 5 "q"
      = [("q", 0, 1), ("q_5", 5, 1)] := by decide
  refine ⟨List.pairwise_singleton _ _, e1, ?_, e2, ?_, ?_⟩
  · rw [e1]
    intro h
    have := (List.pairwise_cons.mp h).1 ("q_1", 1, 1) (List.mem_singleton_self _) 1
    apply this
    unfold inRegister
    simp
  · exact ⟨("q_5", 9, 1), by simp, by unfold inRegister; simp⟩
  · rw [e2]
    rintro ⟨q, hq, hk⟩
    simp only [List.mem_cons, List.mem_singleton, List.not_mem_nil, or_false] at hq
    rcases hq with rfl | rfl
    · unfold inRegister at hk; simp at hk
    · unfold inRegister at hk; simp at hk

/-- Claim C26, amended: let `regs` be a register map (no name occurs twice), `i` an index that
lies in no register of it, and `d_<i>` not a key of it. If the map is empty the result is the
one register `d ↦ (i, 1)`; otherwise, if `i` is immediately before the start or immediately
after the end of a register, one such register is extended by one to include `i` and nothing
else changes; otherwise the register `d_<i> ↦ (i, 1)` is added and nothing else changes. In
every case the indices of the result are those of the map and `i`, and the result has no
overlap if the map had none. -/
theorem addQubitToQubitRegister_spec (lt : String → String → Bool) (regs : RegisterMap)
    (i : Qubit) (d : String) (hkeys : (regs.map Prod.fst).Nodup) (hnew : ¬ regs.covers i)
    (hname : RegisterMap.find (d ++ "_" ++ toString i) regs = none) :
    (regs = [] → addQubitToQubitRegister lt regs i d = [(d, i, 1)]) ∧
    (regs ≠ [] → (∃ r ∈ regs, adjacentTo i r = true) →
      ∃ r ∈ regs, adjacentTo i r = true ∧ inRegister (r.1, extendedBy i r) i ∧
        (extendedBy i r).2 = r.2.2 + 1 ∧
        ∀ name, RegisterMap.find name (addQubitToQubitRegister lt regs i d)
          = if name = r.1 then some (extendedBy i r) else RegisterMap.find name regs) ∧
    (regs ≠ [] → (¬ ∃ r ∈ regs, adjacentTo i r = true) →
      ∀ name, RegisterMap.find name (addQubitToQubitRegister lt regs i d)
        = if name = d ++ "_" ++ toString i then some (i, 1)
          else RegisterMap.find name regs) ∧
    (∀ k, (addQubitToQubitRegister lt regs i d).covers k ↔ regs.covers k ∨ k = i) ∧
    (regs.NoOverlap → (addQubitToQubitRegister lt regs i d).NoOverlap) := by
  cases hregs : regs with
  | nil =>
    have e : addQubitToQubitRegister lt [] i d = [(d, i, 1)] := rfl
    rw [e]
    refine ⟨fun _ => rfl, fun h => absurd rfl h, fun h => absurd rfl h, fun k => ?_,
      fun _ => List.pairwise_singleton _ _⟩
    unfold RegisterMap.covers inRegister
    simp only [List.mem_singleton, exists_eq_left, List.not_mem_nil, false_and, exists_false,
      false_or]
    omega
  | cons r0 rest =>
    rw [← hregs]
    have hne : regs ≠ [] := by rw [hregs]; exact List.cons_ne_nil _ _
    have hempty : regs.isEmpty = false := by rw [hregs]; rfl
    cases hfind : regs.find? (adjacentTo i) with
    | some r =>
      have hr : r ∈ regs := List.mem_of_find?_eq_some hfind
      have hadj : adjacentTo i r = true := List.find?_some hfind
      have e : addQubitToQubitRegister lt regs i d
          = RegisterMap.assign r.1 (extendedBy i r) regs := by
        unfold addQubitToQubitRegister
        rw [hempty, hfind]
        rfl
      rw [e]
      obtain ⟨hcov, hno⟩ := assign_extended hkeys hr hadj
      refine ⟨fun h => absurd h hne, fun _ _ => ⟨r, hr, hadj,
        (inRegister_extendedBy hadj i).mpr (Or.inr rfl), ?_, fun name => ?_⟩,
        fun _ h => absurd ⟨r, hr, hadj⟩ h, hcov, hno hnew⟩
      · unfold extendedBy
        split <;> rfl
      · rw [RegisterMap.find_assign]
        have : ∃ v, RegisterMap.find r.1 regs = some v := by
          cases hf : RegisterMap.find r.1 regs with
          | none => exact absurd hr (fun hmem => mapFind_none_not_mem hf r.2 hmem)
          | some v => exact ⟨v, rfl⟩
        obtain ⟨v, hv⟩ := this
        rw [hv]
        rfl
    | none =>
      have hnone : ¬ ∃ r ∈ regs, adjacentTo i r = true := by
        rintro ⟨r, hr, hadj⟩
        have := List.find?_eq_none.mp hfind r hr
        exact this hadj
      have e : addQubitToQubitRegister lt regs i d
          = RegisterMap.place lt (d ++ "_" ++ toString i, i, 1) regs := by
        unfold addQubitToQubitRegister RegisterMap.set
        rw [hempty, hfind]
        simp only [Bool.false_eq_true, if_false]
        rw [hname]
      rw [e]
      obtain ⟨hcov, hno⟩ := place_singleton lt regs (d ++ "_" ++ toString i) i
      refine ⟨fun h => absurd h hne, fun _ h => absurd h hnone, fun _ _ name => ?_, hcov,
        hno hnew⟩
      exact RegisterMap.find_place lt _ name regs hname

/-- Claim C26, amended, on an example: the index 6 is added to the example registers, next
to the end of `anc`. -/
theorem addQubitToQubitRegister_spec_witness :
    (exampleRegisters.map Prod.fst).Nodup ∧ ¬ exampleRegisters.covers 6 ∧
    RegisterMap.find ("q" ++ "_" ++ toString 6) exampleRegisters = none ∧
    (exampleRegisters = [] →
      addQubitToQubitRegister keyLess exampleRegisters 6 "q" = [("q", 6, 1)]) ∧
    (exampleRegisters ≠ [] → (∃ r ∈ exampleRegisters, adjacentTo 6 r = true) →
      ∃ r ∈ exampleRegisters, adjacentTo 6 r = true ∧ inRegister (r.1, extendedBy 6 r) 6 ∧
        (extendedBy 6 r).2 = r.2.2 + 1 ∧
        ∀ name, RegisterMap.find name (addQubitToQubitRegister keyLess exampleRegisters 6 "q")
          = if name = r.1 then some (extendedBy 6 r)
            else RegisterMap.find name exampleRegisters) ∧
    (exampleRegisters ≠ [] → (¬ ∃ r ∈ exampleRegisters, adjacentTo 6 r = true) →
      ∀ name, RegisterMap.find name (addQubitToQubitRegister keyLess exampleRegisters 6 "q")
        = if name = "q" ++ "_" ++ toString 6 then some (6, 1)
          else RegisterMap.find name exampleRegisters) ∧
    (∀ k, (addQubitToQubitRegister keyLess exampleRegisters 6 "q").covers k ↔
      exampleRegisters.covers k ∨ k = 6) ∧
    (exampleRegisters.NoOverlap →
      (addQubitToQubitRegister keyLess exampleRegisters 6 "q").NoOverlap) := by
  have hnew : ¬ exampleRegisters.covers 6 := by
    rintro ⟨q, hq, hk⟩
    simp only [exampleRegisters, List.mem_cons, List.mem_singleton, List.not_mem_nil,
      or_false] at hq
    rcases hq with rfl | rfl | rfl <;> (unfold inRegister at hk; simp at hk)
  exact ⟨by decide, hnew, by decide,
    addQubitToQubitRegister_spec keyLess exampleRegisters 6 "q" (by decide) hnew (by decide)⟩

/-- The maps returned for the example when an index next to a register, an index next to no
register and an index for the empty map are added. -/
theorem addQubitToQubitRegister_example :
    addQubitToQubitRegister keyLess exampleRegisters 6 "q"
      = [("anc", 5, 2), ("q", 0, 3), ("r", 3, 2)] ∧
    addQubitToQubitRegister keyLess exampleRegisters 8 "q"
      = [("anc", 5, 1), ("q", 0, 3), ("q_8", 8, 1), ("r", 3, 2)] ∧
    addQubitToQubitRegister keyLess [("q", 1, 2)] 0 "q" = [("q", 0, 3)] ∧
    addQubitToQubitRegister keyLess [] 4 "q" = [("q", 4, 1)] := by
  decide

/-! ## The number type `fp` as a `double` -/

set_option exponentiation.threshold 4096

namespace Binary64

theorem log2_eq (n k : Nat) (h1 : 2 ^ k ≤ n) (h2 : n < 2 ^ (k + 1)) : Nat.log2 n = k := by
  have hn : n ≠ 0 := by
    intro h
    rw [h] at h1
    exact absurd h1 (Nat.not_le.mpr (Nat.pow_pos (by decide)))
  have hle : k ≤ Nat.log2 n := (Nat.le_log2 hn).mpr h1
  have hlt : Nat.log2 n < k + 1 := (Nat.log2_lt hn).mpr h2
  omega

/-- The spacing of a known binade. -/
theorem spacing_eq (m k : Nat) (h1 : 2 ^ (k + 53) ≤ m) (h2 : m < 2 ^ (k + 54)) :
    spacing m = 2 ^ (k + 1) := by
  unfold spacing
  rw [log2_eq m (k + 53) h1 h2]
  congr 1

/-- The rounding of a magnitude of a known binade. -/
theorem roundMagnitude_eval (m k : Nat) (h1 : 2 ^ (k + 53) ≤ m) (h2 : m < 2 ^ (k + 54)) :
    roundMagnitude m
      = if 2 * (m % 2 ^ (k + 1)) < 2 ^ (k + 1) then m / 2 ^ (k + 1) * 2 ^ (k + 1)
        else if 2 * (m % 2 ^ (k + 1)) = 2 ^ (k + 1) ∧ (m / 2 ^ (k + 1)) % 2 = 0 then
          m / 2 ^ (k + 1) * 2 ^ (k + 1)
        else (m / 2 ^ (k + 1) + 1) * 2 ^ (k + 1) := by
  have h53 : ¬ m < 2 ^ 53 := by
    have : 2 ^ 53 ≤ 2 ^ (k + 53) := Nat.pow_le_pow_right (by decide) (by omega)
    omega
  unfold roundMagnitude
  rw [if_neg h53, spacing_eq m k h1 h2]

/-- Below `2^56` the rounding moves a magnitude up by at most 4, that is by `2^1076` units. -/
theorem roundMagnitude_le (m : Nat) (hm : m < 2 ^ 1130) : roundMagnitude m ≤ m + 2 ^ 1076 := by
  unfold roundMagnitude
  split
  · omega
  · rename_i h53
    have hm0 : m ≠ 0 := by
      intro h
      rw [h] at h53
      exact h53 (Nat.pow_pos (by decide))
    have hL : Nat.log2 m < 1130 := (Nat.log2_lt hm0).mpr hm
    have hL2 : 53 ≤ Nat.log2 m := (Nat.le_log2 hm0).mpr (Nat.le_of_not_lt h53)
    obtain ⟨t, ht⟩ : ∃ t, Nat.log2 m - 52 = t + 1 := ⟨Nat.log2 m - 53, by omega⟩
    have ht2 : t ≤ 1076 := by omega
    have hs : spacing m = 2 * 2 ^ t := by
      unfold spacing
      rw [ht, Nat.pow_succ, Nat.mul_comm]
    have hle : 2 ^ t ≤ 2 ^ 1076 := Nat.pow_le_pow_right (by decide) ht2
    have hdm : m / spacing m * spacing m + m % spacing m = m := Nat.div_add_mod' m (spacing m)
    have hup : (m / spacing m + 1) * spacing m = m / spacing m * spacing m + spacing m := by
      rw [Nat.add_mul, Nat.one_mul]
    rw [hup]
    generalize m / spacing m * spacing m = X at hdm ⊢
    generalize m % spacing m = r at hdm ⊢
    generalize (m / spacing m) % 2 = par
    rw [hs]
    generalize 2 ^ t = H at hle ⊢
    generalize (2 : Nat) ^ 1076 = C at hle ⊢
    split
    · omega
    · split
      · omega
      · omega

/-- An exact result below `2^56` is rounded to a finite value. -/
theorem round_eq (s : Bool) (m : Nat) (hm : m < 2 ^ 1130) :
    round s m = finite s (roundMagnitude m) ∧ roundMagnitude m ≤ m + 2 ^ 1076 := by
  have h := roundMagnitude_le m hm
  refine ⟨?_, h⟩
  unfold round
  rw [if_pos]
  have h1 : (2 : Nat) ^ 1130 + 2 ^ 1076 < 2 ^ 2098 := by norm_num
  omega

theorem twice_PI : twice PI = finite false (2 * (884279719003555 * 2 ^ 1026)) := by
  unfold twice PI
  simp only []
  rw [if_pos (by norm_num)]

theorem lt_zero (s : Bool) (u : Nat) : lt (finite s u) zero = (s && !(decide (u = 0))) := by
  cases s <;> simp [lt, zero]

theorem add_finite_same (s : Bool) (a b : Nat) :
    add (finite s a) (finite s b) = round s (a + b) := by
  simp [add]

theorem add_finite_eq (s t : Bool) (a : Nat) (hst : s ≠ t) :
    add (finite s a) (finite t a) = finite false 0 := by
  simp [add, hst]

theorem add_finite_gt (s t : Bool) (a b : Nat) (hst : s ≠ t) (h : b < a) :
    add (finite s a) (finite t b) = round s (a - b) := by
  have hab : a ≠ b := by omega
  simp [add, hst, hab, h]

theorem add_finite_lt (s t : Bool) (a b : Nat) (hst : s ≠ t) (h : a < b) :
    add (finite s a) (finite t b) = round t (b - a) := by
  have hab : a ≠ b := by omega
  have hba : ¬ b < a := by omega
  simp [add, hst, hab, hba]

theorem isDouble_finite (s : Bool) (u : Nat) :
    isDouble (finite s u)
      = (decide (u < 2 ^ 2098) && (decide (u < 2 ^ 53) || decide (u % spacing u = 0))) := rfl

theorem ge_finite (s t : Bool) (a b : Nat) :
    ge (finite s a) (finite t b) = !(lt (finite s a) (finite t b)) := rfl

end Binary64

/-! ## The container -/

namespace QuantumComputation

variable {F S Var : Type}

/-- Claim C4: after `invert()` the container holds as many operations as before, and for every
`i` below that number its `i`-th operation is `Operation::invert` applied once to the
original operation at position `n - 1 - i`. -/
theorem invert_reverses_and_inverts (opInvert : Operation F S → Operation F S)
    (qc : QuantumComputation F S Var) :
    (invert opInvert qc).getNops = qc.getNops ∧
      ∀ i, i < qc.getNops →
        (invert opInvert qc).opAt i = (qc.opAt (qc.getNops - 1 - i)).map opInvert := by
  have hops : (invert opInvert qc).ops = (qc.ops.map opInvert).reverse := by
    unfold invert
    split <;> rfl
  refine ⟨by simp [getNops, hops], fun i hi => ?_⟩
  simp only [getNops] at hi
  simp only [opAt, getNops, hops, List.get?_eq_getElem?]
  rw [List.getElem?_reverse (by simpa using hi)]
  simp [List.getElem?_map]

/-- Claim C4 on an example: the first operation after `invert()` is the inverse of the last. -/
theorem invert_reverses_and_inverts_witness :
    0 < exampleCircuit.getNops ∧
      (invert exampleInvert exampleCircuit).opAt 0
        = (exampleCircuit.opAt (exampleCircuit.getNops - 1 - 0)).map exampleInvert :=
  ⟨by decide, (invert_reverses_and_inverts exampleInvert exampleCircuit).2 0 (by decide)⟩

/-- Claim C5: `invert()` is a total function (it has no failing result); it always reverses and
inverts the operations; if `initialLayout` and `outputPermutation` have the same number of
entries the two maps are exchanged, and if their sizes differ both are left as they were. -/
theorem invert_layouts (opInvert : Operation F S → Operation F S)
    (qc : QuantumComputation F S Var) :
    (invert opInvert qc).ops = (qc.ops.map opInvert).reverse ∧
    (qc.initialLayout.length = qc.outputPermutation.length →
      (invert opInvert qc).initialLayout = qc.outputPermutation ∧
      (invert opInvert qc).outputPermutation = qc.initialLayout) ∧
    (qc.initialLayout.length ≠ qc.outputPermutation.length →
      (invert opInvert qc).initialLayout = qc.initialLayout ∧
      (invert opInvert qc).outputPermutation = qc.outputPermutation) := by
  unfold invert
  refine ⟨by split <;> rfl, fun h => ?_, fun h => ?_⟩
  · rw [if_pos h]; exact ⟨rfl, rfl⟩
  · rw [if_neg h]; exact ⟨rfl, rfl⟩

/-- Claim C5 on the example of the spec: with layouts of sizes 3 and 2 both maps are unchanged
and the operations are reversed and inverted. -/
theorem invert_layouts_witness :
    exampleCircuit.initialLayout.length = 3 ∧ exampleCircuit.outputPermutation.length = 2 ∧
    (invert exampleInvert exampleCircuit).ops =
      (exampleCircuit.ops.map exampleInvert).reverse ∧
    (invert exampleInvert exampleCircuit).initialLayout = exampleCircuit.initialLayout ∧
    (invert exampleInvert exampleCircuit).outputPermutation = exampleCircuit.outputPermutation :=
  ⟨rfl, rfl, (invert_layouts exampleInvert exampleCircuit).1,
    (invert_layouts exampleInvert exampleCircuit).2.2 (by decide)⟩

section emission

variable [DecidableEq Var] (vars : S → List Var)

theorem isVariableFree_emplace_back (qc : QuantumComputation F S Var) (op : Operation F S) :
    (qc.emplace_back op).isVariableFree = (qc.isVariableFree && !op.isSymbolicOperation) := by
  simp [isVariableFree, emplace_back, List.all_append]

/-- Claim C6: let a single-parameter rotation gate (the body of `mcrx`, `mcry`, `mcrz`, `mcp`; the
forms `op` and `c##op` are this body with no control and with one control) be emitted on a
variable-free container with qubits in range. With a number as angle the call succeeds, the
container is still variable-free and `getVariables()` is unchanged; with a symbolic angle the
call succeeds, the container is not variable-free and every variable of the angle is a member
of `getVariables()`. -/
theorem rotation_dispatch (op : OpType) (qc : QuantumComputation F S Var)
    (controls : Controls) (target : Qubit)
    (hfree : qc.isVariableFree = true)
    (hrange : checkQubitRange qc target controls = Except.ok ()) :
    (∀ x : F, ∃ qc', mcSingleTargetSingleParameter vars op qc (SymbolOrNumber.number x)
        controls target = Except.ok qc' ∧
      qc'.isVariableFree = true ∧ qc'.getVariables = qc.getVariables) ∧
    (∀ e : S, ∃ qc', mcSingleTargetSingleParameter vars op qc (SymbolOrNumber.symbol e)
        controls target = Except.ok qc' ∧
      qc'.isVariableFree = false ∧ ∀ v ∈ vars e, v ∈ qc'.getVariables) := by
  constructor
  · intro x
    refine ⟨qc.emplace_back (.standard controls [target] op [x]), ?_, ?_, rfl⟩
    · simp [mcSingleTargetSingleParameter, hrange, bind, Except.bind, pure, Except.pure]
    · rw [isVariableFree_emplace_back, hfree]; rfl
  · intro e
    refine ⟨(addVariables vars qc [.symbol e]).emplace_back
      (.symbolic controls [target] op [.symbol e]), ?_, ?_, ?_⟩
    · simp [mcSingleTargetSingleParameter, hrange, bind, Except.bind, pure, Except.pure]
    · rw [isVariableFree_emplace_back]; simp [Operation.isSymbolicOperation]
    · intro v hv
      simp only [getVariables, emplace_back, addVariables, addVariable, List.foldl_cons,
        List.foldl_nil]
      exact (mem_foldl_setEmplace _ _ _).mpr (Or.inr hv)

/-- Claim C6 on an example: `mcrx` with the symbolic angle `theta`, one control and target 1 on
the example container. -/
theorem rotation_dispatch_witness :
    exampleCircuit.isVariableFree = true ∧
    checkQubitRange exampleCircuit 1 [⟨0, Polarity.pos⟩] = Except.ok () ∧
    ∃ qc', mcrx exampleVars exampleCircuit (SymbolOrNumber.symbol "theta")
        [⟨0, Polarity.pos⟩] 1 = Except.ok qc' ∧
      qc'.isVariableFree = false ∧ ∀ v ∈ exampleVars "theta", v ∈ qc'.getVariables :=
  ⟨rfl, rfl, (rotation_dispatch exampleVars OpType.rx exampleCircuit [⟨0, Polarity.pos⟩] 1
    rfl rfl).2 "theta"⟩

theorem dispatched_standard (qc : QuantumComputation F S Var) (controls : Controls)
    (targets : Targets) (type : OpType) (xs : List F) :
    Dispatched vars qc controls targets type (xs.map SymbolOrNumber.number)
      (qc.emplace_back (.standard controls targets type xs)) := by
  have hall : ∀ p ∈ xs.map (SymbolOrNumber.number (S := S)), p.holdsFp = true := by
    intro p hp
    obtain ⟨x, -, rfl⟩ := List.mem_map.mp hp
    rfl
  refine ⟨_, rfl, ⟨fun _ => hall, fun _ => rfl⟩, fun _ => ⟨xs, rfl, rfl, rfl⟩, fun h => absurd hall h⟩

theorem dispatched_symbolic (qc : QuantumComputation F S Var) (controls : Controls)
    (targets : Targets) (type : OpType) (params : List (SymbolOrNumber S F))
    (h : ∃ p ∈ params, p.holdsFp = false) :
    Dispatched vars qc controls targets type params
      ((addVariables vars qc params).emplace_back (.symbolic controls targets type params)) := by
  have hnot : ¬ ∀ p ∈ params, p.holdsFp = true := by
    obtain ⟨p, hp, hfalse⟩ := h
    intro hall
    rw [hall p hp] at hfalse
    exact Bool.noConfusion hfalse
  refine ⟨_, ?_, ⟨fun h1 => ?_, fun h1 => absurd h1 hnot⟩, fun h1 => absurd h1 hnot,
    fun _ => ⟨rfl, rfl⟩⟩
  · simp only [emplace_back, List.append_cancel_right_eq]
    unfold addVariables
    generalize params = ps
    induction ps generalizing qc with
    | nil => rfl
    | cons p ps ih =>
      rw [List.foldl_cons, ih]
      cases p <;> rfl
  · simp [Operation.isStandardOperation] at h1

/-- Claim C7: for the bodies of `mcu2`, `mcu`, `mcxx_minus_yy` and `mcxx_plus_yy` (the forms `op`
and `c##op` are these bodies with no control and with one control), with any controls: if the
range check passes, the call succeeds and follows the dispatch rule `Dispatched`: exactly one
operation is appended at the end and the earlier ones are unchanged; it is the concrete
variant if and only if every parameter is a number, and otherwise the symbolic variant with
the same controls, targets, type and the parameters in the given order, after all parameters
have been passed to `addVariables`. -/
theorem multi_parameter_dispatch (op : OpType) (qc : QuantumComputation F S Var) :
    (∀ param0 param1 controls target, checkQubitRange qc target controls = .ok () →
      ∃ qc', mcSingleTargetTwoParameter vars op qc param0 param1 controls target = .ok qc' ∧
        Dispatched vars qc controls [target] op [param0, param1] qc') ∧
    (∀ param0 param1 param2 controls target, checkQubitRange qc target controls = .ok () →
      ∃ qc', mcSingleTargetThreeParameter vars op qc param0 param1 param2 controls target
          = .ok qc' ∧
        Dispatched vars qc controls [target] op [param0, param1, param2] qc') ∧
    (∀ param0 param1 controls target0 target1,
      checkQubitRange2 qc target0 target1 controls = .ok () →
      ∃ qc', mcTwoTargetTwoParameter vars op qc param0 param1 controls target0 target1
          = .ok qc' ∧
        Dispatched vars qc controls [target0, target1] op [param0, param1] qc') := by
  refine ⟨?_, ?_, ?_⟩
  · intro param0 param1 controls target hrange
    simp only [mcSingleTargetTwoParameter, hrange, bind, Except.bind, pure, Except.pure]
    cases param0 <;> cases param1 <;>
      first
      | exact ⟨_, rfl, dispatched_standard vars qc controls _ op [_, _]⟩
      | exact ⟨_, rfl, dispatched_symbolic vars qc controls _ op _
          ⟨_, List.mem_cons_self _ _, rfl⟩⟩
      | exact ⟨_, rfl, dispatched_symbolic vars qc controls _ op _
          ⟨_, List.mem_cons_of_mem _ (List.mem_cons_self _ _), rfl⟩⟩
  · intro param0 param1 param2 controls target hrange
    simp only [mcSingleTargetThreeParameter, hrange, bind, Except.bind, pure, Except.pure]
    cases param0 <;> cases param1 <;> cases param2 <;>
      first
      | exact ⟨_, rfl, dispatched_standard vars qc controls _ op [_, _, _]⟩
      | exact ⟨_, rfl, dispatched_symbolic vars qc controls _ op _
          ⟨_, List.mem_cons_self _ _, rfl⟩⟩
      | exact ⟨_, rfl, dispatched_symbolic vars qc controls _ op _
          ⟨_, List.mem_cons_of_mem _ (List.mem_cons_self _ _), rfl⟩⟩
      | exact ⟨_, rfl, dispatched_symbolic vars qc controls _ op _
          ⟨_, List.mem_cons_of_mem _ (List.mem_cons_of_mem _ (List.mem_cons_self _ _)), rfl⟩⟩
  · intro param0 param1 controls target0 target1 hrange
    simp only [mcTwoTargetTwoParameter, hrange, bind, Except.bind, pure, Except.pure]
    cases param0 <;> cases param1 <;>
      first
      | exact ⟨_, rfl, dispatched_standard vars qc controls _ op [_, _]⟩
      | exact ⟨_, rfl, dispatched_symbolic vars qc controls _ op _
          ⟨_, List.mem_cons_self _ _, rfl⟩⟩
      | exact ⟨_, rfl, dispatched_symbolic vars qc controls _ op _
          ⟨_, List.mem_cons_of_mem _ (List.mem_cons_self _ _), rfl⟩⟩


/-- Claim C7 on an example: `mcu2` with a symbolic and a numeric parameter on the example
container. -/
theorem multi_parameter_dispatch_witness :
    checkQubitRange exampleCircuit 2 [⟨0, Polarity.pos⟩] = Except.ok () ∧
    ∃ qc', mcu2 exampleVars exampleCircuit (SymbolOrNumber.symbol "phi")
        (SymbolOrNumber.number 1) [⟨0, Polarity.pos⟩] 2 = Except.ok qc' ∧
      Dispatched exampleVars exampleCircuit [⟨0, Polarity.pos⟩] [2] OpType.u2
        [SymbolOrNumber.symbol "phi", SymbolOrNumber.number 1] qc' :=
  ⟨rfl, (multi_parameter_dispatch exampleVars OpType.u2 exampleCircuit).1
    (SymbolOrNumber.symbol "phi") (SymbolOrNumber.number 1) [⟨0, Polarity.pos⟩] 2 rfl⟩

end emission

section phase

variable [LinearOrderedField F]

theorem gphaseRaise_of_nonneg (PI : F) (fuel : Nat) (p : F) (h : 0 ≤ p) :
    gphaseRaise PI fuel p = some p := by
  cases fuel <;> simp [gphaseRaise, not_lt.mpr h]

theorem gphaseLower_of_lt (PI : F) (fuel : Nat) (p : F) (h : p < 2 * PI) :
    gphaseLower PI fuel p = some p := by
  cases fuel <;> simp [gphaseLower, not_le.mpr h]

/-- The first loop of `gphase` stops, at the first value `p + k * 2π` that is not negative. -/
theorem gphaseRaise_spec [Archimedean F] (PI : F) (hPI : 0 < PI) (p : F) :
    ∃ (n : Nat) (k : Nat), (∀ m, n ≤ m → gphaseRaise PI m p = some (p + k * (2 * PI))) ∧
      0 ≤ p + k * (2 * PI) ∧ (p < 0 → p + k * (2 * PI) < 2 * PI) ∧ (0 ≤ p → k = 0) := by
  have h2 : (0 : F) < 2 * PI := by linarith
  obtain ⟨k, hk⟩ := Archimedean.arch (-p) h2
  induction k generalizing p with
  | zero =>
    have hp : 0 ≤ p := by simpa using hk
    exact ⟨0, 0, fun m _ => by simpa using gphaseRaise_of_nonneg PI m p hp, by simpa using hp,
      fun h => absurd hp (not_le.mpr h), fun _ => rfl⟩
  | succ k ih =>
    by_cases hp : 0 ≤ p
    · exact ⟨0, 0, fun m _ => by simpa using gphaseRaise_of_nonneg PI m p hp, by simpa using hp,
        fun h => absurd hp (not_le.mpr h), fun _ => rfl⟩
    · have hneg : p < 0 := not_le.mp hp
      have hk' : -(p + 2 * PI) ≤ k • (2 * PI) := by
        rw [succ_nsmul] at hk
        linarith
      obtain ⟨n, j, hrun, hnonneg, hlt, hzero⟩ := ih (p + 2 * PI) hk'
      have heq : p + 2 * PI + (j : F) * (2 * PI) = p + ((j + 1 : Nat) : F) * (2 * PI) := by
        push_cast; ring
      refine ⟨n + 1, j + 1, fun m hm => ?_, by rw [← heq]; exact hnonneg, fun _ => ?_,
        fun h => absurd h hp⟩
      · obtain ⟨m', rfl⟩ : ∃ m', m = m' + 1 := ⟨m - 1, by omega⟩
        rw [gphaseRaise, if_pos hneg, hrun m' (by omega), heq]
      · rw [← heq]
        by_cases hq : p + 2 * PI < 0
        · exact hlt hq
        · have := hzero (not_lt.mp hq)
          subst this
          simp only [Nat.cast_zero, zero_mul, add_zero]
          linarith

/-- The second loop of `gphase` stops, at the first value `p - k * 2π` below `2π`. -/
theorem gphaseLower_spec [Archimedean F] (PI : F) (hPI : 0 < PI) (p : F) (hp : 0 ≤ p) :
    ∃ (n : Nat) (k : Nat), (∀ m, n ≤ m → gphaseLower PI m p = some (p - k * (2 * PI))) ∧
      0 ≤ p - k * (2 * PI) ∧ p - k * (2 * PI) < 2 * PI ∧ (p < 2 * PI → k = 0) := by
  have h2 : (0 : F) < 2 * PI := by linarith
  obtain ⟨k, hk⟩ := Archimedean.arch p h2
  induction k generalizing p with
  | zero =>
    have hp0 : p < 2 * PI := by
      have : p ≤ 0 := by simpa using hk
      linarith
    exact ⟨0, 0, fun m _ => by simpa using gphaseLower_of_lt PI m p hp0, by simpa using hp,
      by simpa using hp0, fun _ => rfl⟩
  | succ k ih =>
    by_cases hlt : p < 2 * PI
    · exact ⟨0, 0, fun m _ => by simpa using gphaseLower_of_lt PI m p hlt, by simpa using hp,
        by simpa using hlt, fun _ => rfl⟩
    · have hge : p ≥ 2 * PI := not_lt.mp hlt
      have hk' : p - 2 * PI ≤ k • (2 * PI) := by
        rw [succ_nsmul] at hk
        linarith
      obtain ⟨n, j, hrun, hnonneg, hbelow, -⟩ := ih (p - 2 * PI) (by linarith) hk'
      have heq : p - 2 * PI - (j : F) * (2 * PI) = p - ((j + 1 : Nat) : F) * (2 * PI) := by
        push_cast; ring
      refine ⟨n + 1, j + 1, fun m hm => ?_, by rw [← heq]; exact hnonneg,
        by rw [← heq]; exact hbelow, fun h => absurd h hlt⟩
      obtain ⟨m', rfl⟩ : ∃ m', m = m' + 1 := ⟨m - 1, by omega⟩
      rw [gphaseLower, if_pos hge, hrun m' (by omega), heq]

/-- Two values of `[0, 2π)` that differ by an integer multiple of `2π` are equal. -/
theorem eq_of_congruent (PI : F) (hPI : 0 < PI) (x y : F) (k : ℤ)
    (hx0 : 0 ≤ x) (hx1 : x < 2 * PI) (hy0 : 0 ≤ y) (hy1 : y < 2 * PI)
    (h : y = x + k * (2 * PI)) : y = x := by
  have h2 : (0 : F) < 2 * PI := by linarith
  have hk : k = 0 := by
    by_contra hne
    rcases lt_or_gt_of_ne hne with hneg | hpos
    · have : (k : F) ≤ -1 := by exact_mod_cast Int.le_sub_one_of_lt hneg
      nlinarith
    · have : (1 : F) ≤ k := by exact_mod_cast Int.add_one_le_of_lt hpos
      nlinarith
  subst hk
  simpa using h

/-- `gphase` over an exact Archimedean field: with enough rounds it returns the container
with the phase replaced by the value of `[0, 2π)` congruent to `globalPhase + angle`. -/
theorem gphase_spec [Archimedean F] (PI : F) (hPI : 0 < PI) (qc : QuantumComputation F S Var)
    (angle : F) :
    ∃ (n : Nat) (p' : F) (k : ℤ),
      (∀ m, n ≤ m → gphase PI m qc angle = some { qc with globalPhase := p' }) ∧
      0 ≤ p' ∧ p' < 2 * PI ∧ p' = qc.globalPhase + angle + k * (2 * PI) := by
  obtain ⟨n1, k1, hrun1, hnn1, hlt1, hz1⟩ := gphaseRaise_spec PI hPI (qc.globalPhase + angle)
  obtain ⟨n2, k2, hrun2, hnn2, hlt2, hz2⟩ :=
    gphaseLower_spec PI hPI (qc.globalPhase + angle + k1 * (2 * PI)) hnn1
  refine ⟨max n1 n2, qc.globalPhase + angle + k1 * (2 * PI) - k2 * (2 * PI),
    (k1 : ℤ) - (k2 : ℤ), fun m hm => ?_, hnn2, hlt2, by push_cast; ring⟩
  unfold gphase
  rw [hrun1 m (le_trans (le_max_left _ _) hm)]
  simp only
  rw [hrun2 m (le_trans (le_max_right _ _) hm)]


end phase

/-- Over exact real arithmetic, with the real numbers in the place of `fp`: for every real
angle `θ` and every container (in particular one whose global phase lies in `[0, 2π)`),
`gphase(θ)` returns as soon as the bound on the rounds of its loops is large enough, and the
global phase `p'` it leaves satisfies `0 ≤ p' < 2π`. -/
theorem gphase_normalised (qc : QuantumComputation ℝ S Var) (θ : ℝ) :
    ∃ (n : Nat) (qc' : QuantumComputation ℝ S Var),
      (∀ m, n ≤ m → gphase Real.pi m qc θ = some qc') ∧
      0 ≤ qc'.getGlobalPhase ∧ qc'.getGlobalPhase < 2 * Real.pi := by
  obtain ⟨n, p', k, hrun, h0, h1, -⟩ := gphase_spec Real.pi Real.pi_pos qc θ
  exact ⟨n, { qc with globalPhase := p' }, hrun, h0, h1⟩

/-- Claim C9, over exact real arithmetic: for every container and angle `θ`, `gphase(θ)` leaves
a value of `[0, 2π)` that differs from `globalPhase + θ` by an integer multiple of `2π`, and
it is the only such value; hence `gphase(a)` followed by `gphase(b)` leaves the same
container as the single call `gphase(a + b)`. -/
theorem gphase_additive (qc : QuantumComputation ℝ S Var) (a b : ℝ) :
    (∀ θ : ℝ, ∃ (n : Nat) (qc' : QuantumComputation ℝ S Var),
      (∀ m, n ≤ m → gphase Real.pi m qc θ = some qc') ∧
      0 ≤ qc'.getGlobalPhase ∧ qc'.getGlobalPhase < 2 * Real.pi ∧
      (∃ k : ℤ, qc'.getGlobalPhase = qc.getGlobalPhase + θ + k * (2 * Real.pi)) ∧
      ∀ y : ℝ, 0 ≤ y → y < 2 * Real.pi →
        (∃ k : ℤ, y = qc.getGlobalPhase + θ + k * (2 * Real.pi)) → y = qc'.getGlobalPhase) ∧
    ∃ (n : Nat) (qa qab : QuantumComputation ℝ S Var), ∀ m, n ≤ m →
      gphase Real.pi m qc a = some qa ∧ gphase Real.pi m qa b = some qab ∧
      gphase Real.pi m qc (a + b) = some qab := by
  constructor
  · intro θ
    obtain ⟨n, p', k, hrun, h0, h1, hk⟩ := gphase_spec Real.pi Real.pi_pos qc θ
    refine ⟨n, { qc with globalPhase := p' }, hrun, h0, h1, ⟨k, hk⟩, ?_⟩
    rintro y hy0 hy1 ⟨k', hk'⟩
    refine eq_of_congruent Real.pi Real.pi_pos p' y (k' - k) h0 h1 hy0 hy1 ?_
    show y = p' + ((k' - k : ℤ) : ℝ) * (2 * Real.pi)
    rw [hk', hk]
    simp only [getGlobalPhase]
    push_cast
    ring
  · obtain ⟨n1, p1, k1, hrun1, h10, h11, hk1⟩ := gphase_spec Real.pi Real.pi_pos qc a
    obtain ⟨n2, p2, k2, hrun2, h20, h21, hk2⟩ :=
      gphase_spec Real.pi Real.pi_pos ({ qc with globalPhase := p1 }) b
    obtain ⟨n3, p3, k3, hrun3, h30, h31, hk3⟩ := gphase_spec Real.pi Real.pi_pos qc (a + b)
    have heq : p3 = p2 := by
      refine eq_of_congruent Real.pi Real.pi_pos p2 p3 (k3 - k2 - k1) h20 h21 h30 h31 ?_
      rw [hk3, hk2]
      simp only []
      rw [hk1]
      push_cast
      ring
    refine ⟨max n1 (max n2 n3), { qc with globalPhase := p1 }, { qc with globalPhase := p2 },
      fun m hm => ⟨hrun1 m (by omega), ?_, ?_⟩⟩
    · rw [hrun2 m (by omega)]
    · rw [hrun3 m (by omega), heq]


/-- The loops of `gphase` on an example over the rational numbers, with 3 in the place of `PI`
(a full turn is 6): from phase 0 the angle 20 leaves 2 after three subtractions, the angle -7
leaves 5 after two additions, and with a bound of two rounds the angle 20 is not finished. -/
theorem gphase_example :
    (gphase (3 : ℚ) 4 exampleCircuit 20).map getGlobalPhase = some 2 ∧
    (gphase (3 : ℚ) 4 exampleCircuit (-7)).map getGlobalPhase = some 5 ∧
    (gphase (3 : ℚ) 2 exampleCircuit 20).map getGlobalPhase = none := by
  refine ⟨?_, ?_, ?_⟩
  · simp [gphase, gphaseRaise, gphaseLower, exampleCircuit, getGlobalPhase]
    norm_num
  · simp [gphase, gphaseRaise, gphaseLower, exampleCircuit, getGlobalPhase]
    norm_num
  · simp [gphase, gphaseRaise, gphaseLower, exampleCircuit, getGlobalPhase]
    norm_num

/-! ### `gphase` over `double` -/

namespace Double

open Binary64

theorem gphaseRaise_stop (p : Binary64) (h : Binary64.lt p Binary64.zero = false) (fuel : Nat) :
    gphaseRaise fuel p = some p := by
  cases fuel <;> simp [gphaseRaise, h]

theorem gphaseRaise_step (p : Binary64) (h : Binary64.lt p Binary64.zero = true) (fuel : Nat) :
    gphaseRaise (fuel + 1) p = gphaseRaise fuel (Binary64.add p (Binary64.twice Binary64.PI)) := by
  simp [gphaseRaise, h]

theorem gphaseLower_stop (p : Binary64)
    (h : Binary64.ge p (Binary64.twice Binary64.PI) = false) (fuel : Nat) :
    gphaseLower fuel p = some p := by
  cases fuel <;> simp [gphaseLower, h]

theorem gphaseLower_step (p : Binary64)
    (h : Binary64.ge p (Binary64.twice Binary64.PI) = true) (fuel : Nat) :
    gphaseLower (fuel + 1) p
      = gphaseLower fuel (Binary64.sub p (Binary64.twice Binary64.PI)) := by
  simp [gphaseLower, h]

/-- The result of `gphase` from the results of its two loops. -/
theorem gphase_of_loops (fuel : Nat) (qc : QuantumComputation Binary64 S Var)
    (angle p1 p2 : Binary64)
    (h1 : gphaseRaise fuel (Binary64.add qc.globalPhase angle) = some p1)
    (h2 : gphaseLower fuel p1 = some p2) :
    gphase fuel qc angle = some { qc with globalPhase := p2 } := by
  unfold gphase
  rw [h1]
  simp only []
  rw [h2]

/-- A phase below zero that the addition of `2 * PI` does not change keeps the first loop
running. -/
theorem gphaseRaise_stuck (p : Binary64) (h : Binary64.lt p Binary64.zero = true)
    (hs : Binary64.add p (Binary64.twice Binary64.PI) = p) (fuel : Nat) :
    gphaseRaise fuel p = none := by
  induction fuel with
  | zero => simp [gphaseRaise, h]
  | succ fuel ih => rw [gphaseRaise_step p h, hs, ih]

/-- A phase of at least `2 * PI` that the subtraction of `2 * PI` does not change keeps the
second loop running. -/
theorem gphaseLower_stuck (p : Binary64)
    (h : Binary64.ge p (Binary64.twice Binary64.PI) = true)
    (hs : Binary64.sub p (Binary64.twice Binary64.PI) = p) (fuel : Nat) :
    gphaseLower fuel p = none := by
  induction fuel with
  | zero => simp [gphaseLower, h]
  | succ fuel ih => rw [gphaseLower_step p h, hs, ih]

/-- The rounding of `1e17 - 2 * PI`: the neighbours of `1e17` are 16 apart. -/
theorem roundMagnitude_hugeAngle :
    roundMagnitude (10 ^ 17 * 2 ^ 1074 - 2 * (884279719003555 * 2 ^ 1026))
      = 10 ^ 17 * 2 ^ 1074 := by
  rw [roundMagnitude_eval _ 1077 (by norm_num) (by norm_num)]
  norm_num

theorem isDouble_hugeAngle : Binary64.isDouble Binary64.hugeAngle = true := by
  have hs : spacing (10 ^ 17 * 2 ^ 1074) = 2 ^ (1077 + 1) :=
    spacing_eq _ 1077 (by norm_num) (by norm_num)
  have h1 : 10 ^ 17 * 2 ^ 1074 < 2 ^ 2098 := by norm_num
  have h2 : 10 ^ 17 * 2 ^ 1074 % 2 ^ (1077 + 1) = 0 := by norm_num
  rw [Binary64.hugeAngle, isDouble_finite, hs, decide_eq_true h1, decide_eq_true h2,
    Bool.or_true]
  rfl

theorem round_hugeAngle (s : Bool) :
    Binary64.round s (10 ^ 17 * 2 ^ 1074) = finite s (10 ^ 17 * 2 ^ 1074) := by
  have h : roundMagnitude (10 ^ 17 * 2 ^ 1074) = 10 ^ 17 * 2 ^ 1074 := by
    rw [roundMagnitude_eval _ 1077 (by norm_num) (by norm_num)]
    norm_num
  unfold Binary64.round
  rw [h, if_pos (by norm_num)]

/-- Claim C8 fails on the code, where `fp` is `double`: started with the global phase 0 and
the angle `1e17`, a `double`, the sum is `1e17`, whose neighbours are 16 apart, so that
`1e17 - 2 * PI` is rounded back to `1e17` and the second loop never stops; with the angle
`-1e17` the first loop never stops. -/
theorem gphase_double_diverges :
    Binary64.isDouble Binary64.hugeAngle = true ∧
    Binary64.ge examplePhaseCircuit.globalPhase Binary64.zero = true ∧
    Binary64.lt examplePhaseCircuit.globalPhase (Binary64.twice Binary64.PI) = true ∧
    Binary64.sub Binary64.hugeAngle (Binary64.twice Binary64.PI) = Binary64.hugeAngle ∧
    (∀ fuel, gphase fuel examplePhaseCircuit Binary64.hugeAngle = none) ∧
    (∀ fuel, gphase fuel examplePhaseCircuit (Binary64.neg Binary64.hugeAngle) = none) := by
  have hlt : (2 : Nat) * (884279719003555 * 2 ^ 1026) < 10 ^ 17 * 2 ^ 1074 := by norm_num
  have hsum : Binary64.add examplePhaseCircuit.globalPhase Binary64.hugeAngle
      = Binary64.hugeAngle := by
    show Binary64.add (finite false 0) (finite false (10 ^ 17 * 2 ^ 1074)) = _
    rw [add_finite_same, Nat.zero_add, round_hugeAngle]
    rfl
  have hsum2 : Binary64.add examplePhaseCircuit.globalPhase (Binary64.neg Binary64.hugeAngle)
      = finite true (10 ^ 17 * 2 ^ 1074) := by
    show Binary64.add (finite false 0) (finite true (10 ^ 17 * 2 ^ 1074)) = _
    rw [add_finite_lt _ _ _ _ (by decide) (by norm_num), Nat.sub_zero, round_hugeAngle]
  have hround : ∀ s, Binary64.round s
      (10 ^ 17 * 2 ^ 1074 - 2 * (884279719003555 * 2 ^ 1026))
      = finite s (10 ^ 17 * 2 ^ 1074) := by
    intro s
    unfold Binary64.round
    rw [roundMagnitude_hugeAngle, if_pos (by norm_num)]
  have hsub : Binary64.sub Binary64.hugeAngle (Binary64.twice Binary64.PI)
      = Binary64.hugeAngle := by
    rw [twice_PI]
    show Binary64.add (finite false (10 ^ 17 * 2 ^ 1074))
      (finite true (2 * (884279719003555 * 2 ^ 1026))) = _
    rw [add_finite_gt _ _ _ _ (by decide) hlt, hround]
    rfl
  have hadd : Binary64.add (finite true (10 ^ 17 * 2 ^ 1074)) (Binary64.twice Binary64.PI)
      = finite true (10 ^ 17 * 2 ^ 1074) := by
    rw [twice_PI, add_finite_gt _ _ _ _ (by decide) hlt, hround]
  have hge : Binary64.ge Binary64.hugeAngle (Binary64.twice Binary64.PI) = true := by
    rw [twice_PI]
    show (!(decide (10 ^ 17 * 2 ^ 1074 < 2 * (884279719003555 * 2 ^ 1026)))) = true
    rw [decide_eq_false (by omega)]
    rfl
  have hneg : Binary64.lt (finite true (10 ^ 17 * 2 ^ 1074)) Binary64.zero = true := by
    rw [lt_zero, decide_eq_false (by norm_num)]
    rfl
  refine ⟨isDouble_hugeAngle, rfl, ?_, hsub, fun fuel => ?_, fun fuel => ?_⟩
  · rw [twice_PI]
    show decide (0 < 2 * (884279719003555 * 2 ^ 1026)) = true
    exact decide_eq_true (by norm_num)
  · unfold gphase
    rw [hsum, gphaseRaise_stop _ (by rw [Binary64.hugeAngle, lt_zero]; rfl)]
    simp only []
    rw [gphaseLower_stuck _ hge hsub]
  · unfold gphase
    rw [hsum2, gphaseRaise_stuck _ hneg hadd]

/-- The first loop over `double` stops for a phase of magnitude at most `2^56`. -/
theorem gphaseRaise_terminates (u : Nat) :
    u ≤ 2 ^ 1130 → ∀ s : Bool, ∃ (n : Nat) (s' : Bool) (u' : Nat),
      (∀ m, n ≤ m → gphaseRaise m (finite s u) = some (finite s' u')) ∧
      Binary64.lt (finite s' u') Binary64.zero = false ∧ u' ≤ 2 ^ 1130 := by
  have hT1 : (2 : Nat) ^ 1076 < 2 * (884279719003555 * 2 ^ 1026) := by norm_num
  have hT2 : (2 : Nat) * (884279719003555 * 2 ^ 1026) + 2 ^ 1076 ≤ 2 ^ 1130 := by norm_num
  induction u using Nat.strong_induction_on with
  | _ u ih =>
    intro hu s
    by_cases hneg : Binary64.lt (finite s u) Binary64.zero = true
    · have hs : s = true := by
        rw [lt_zero] at hneg
        cases s
        · simp at hneg
        · rfl
      subst hs
      generalize hT : 2 * (884279719003555 * 2 ^ 1026) = T at hT1 hT2
      have htw : Binary64.twice Binary64.PI = finite false T := by rw [twice_PI, hT]
      rcases Nat.lt_trichotomy u T with hlt | heq | hgt
      · obtain ⟨hr, hb⟩ := round_eq false (T - u) (by omega)
        refine ⟨1, false, roundMagnitude (T - u), fun m hm => ?_, by rw [lt_zero]; rfl,
          by omega⟩
        obtain ⟨m', rfl⟩ : ∃ m', m = m' + 1 := ⟨m - 1, by omega⟩
        rw [gphaseRaise_step _ hneg, htw, add_finite_lt _ _ _ _ (by decide) hlt, hr]
        exact gphaseRaise_stop _ (by rw [lt_zero]; rfl) m'
      · refine ⟨1, false, 0, fun m hm => ?_, by rw [lt_zero]; rfl, by omega⟩
        obtain ⟨m', rfl⟩ : ∃ m', m = m' + 1 := ⟨m - 1, by omega⟩
        rw [gphaseRaise_step _ hneg, htw, heq, add_finite_eq _ _ _ (by decide)]
        exact gphaseRaise_stop _ (by rw [lt_zero]; rfl) m'
      · obtain ⟨hr, hb⟩ := round_eq true (u - T) (by omega)
        obtain ⟨n, s', u', hrun, hnn, hu'⟩ :=
          ih (roundMagnitude (u - T)) (by omega) (by omega) true
        refine ⟨n + 1, s', u', fun m hm => ?_, hnn, hu'⟩
        obtain ⟨m', rfl⟩ : ∃ m', m = m' + 1 := ⟨m - 1, by omega⟩
        rw [gphaseRaise_step _ hneg, htw, add_finite_gt _ _ _ _ (by decide) hgt, hr]
        exact hrun m' (by omega)
    · have hnn : Binary64.lt (finite s u) Binary64.zero = false := by
        cases h : Binary64.lt (finite s u) Binary64.zero
        · rfl
        · exact absurd h hneg
      exact ⟨0, s, u, fun m _ => gphaseRaise_stop _ hnn m, hnn, hu⟩

/-- The second loop over `double` stops for a phase from 0 to `2^56`, below `2 * PI`. -/
theorem gphaseLower_terminates (u : Nat) :
    u ≤ 2 ^ 1130 → ∀ s : Bool, Binary64.lt (finite s u) Binary64.zero = false →
      ∃ (n : Nat) (s' : Bool) (u' : Nat),
        (∀ m, n ≤ m → gphaseLower m (finite s u) = some (finite s' u')) ∧
        Binary64.lt (finite s' u') Binary64.zero = false ∧
        Binary64.lt (finite s' u') (Binary64.twice Binary64.PI) = true := by
  have hT1 : (2 : Nat) ^ 1076 < 2 * (884279719003555 * 2 ^ 1026) := by norm_num
  induction u using Nat.strong_induction_on with
  | _ u ih =>
    intro hu s hnn
    generalize hT : 2 * (884279719003555 * 2 ^ 1026) = T at hT1
    have htw : Binary64.twice Binary64.PI = finite false T := by rw [twice_PI, hT]
    by_cases hge : Binary64.ge (finite s u) (Binary64.twice Binary64.PI) = true
    · have hs : s = false ∧ T ≤ u := by
        rw [htw, ge_finite] at hge
        cases s
        · simp only [Binary64.lt, Bool.not_eq_true', decide_eq_false_iff_not, Nat.not_lt] at hge
          exact ⟨rfl, hge⟩
        · rw [lt_zero] at hnn
          have hu0 : u = 0 := by simpa using hnn
          subst hu0
          have hT0 : T ≠ 0 := by omega
          simp [Binary64.lt, hT0] at hge
      obtain ⟨rfl, hTu⟩ := hs
      have hsub : Binary64.sub (finite false u) (Binary64.twice Binary64.PI)
          = Binary64.add (finite false u) (finite true T) := by
        rw [htw]
        rfl
      rcases Nat.eq_or_lt_of_le hTu with heq | hgt
      · refine ⟨1, false, 0, fun m hm => ?_, by rw [lt_zero]; rfl, ?_⟩
        · obtain ⟨m', rfl⟩ : ∃ m', m = m' + 1 := ⟨m - 1, by omega⟩
          rw [gphaseLower_step _ hge, hsub, ← heq, add_finite_eq _ _ _ (by decide)]
          refine gphaseLower_stop _ ?_ m'
          rw [htw, ge_finite]
          simp only [Binary64.lt]
          rw [decide_eq_true (by omega)]
          rfl
        · rw [htw]
          simp only [Binary64.lt]
          exact decide_eq_true (by omega)
      · obtain ⟨hr, hb⟩ := round_eq false (u - T) (by omega)
        obtain ⟨n, s', u', hrun, hnn', hlt'⟩ :=
          ih (roundMagnitude (u - T)) (by omega) (by omega) false (by rw [lt_zero]; rfl)
        refine ⟨n + 1, s', u', fun m hm => ?_, hnn', ?_⟩
        · obtain ⟨m', rfl⟩ : ∃ m', m = m' + 1 := ⟨m - 1, by omega⟩
          rw [gphaseLower_step _ hge, hsub, add_finite_gt _ _ _ _ (by decide) hgt, hr]
          exact hrun m' (by omega)
        · exact hlt'
    · have hnge : Binary64.ge (finite s u) (Binary64.twice Binary64.PI) = false := by
        cases h : Binary64.ge (finite s u) (Binary64.twice Binary64.PI)
        · rfl
        · exact absurd h hge
      refine ⟨0, s, u, fun m _ => gphaseLower_stop _ hnge m, hnn, ?_⟩
      rw [htw, ge_finite] at hnge
      rw [htw]
      simpa using hnge

/-- A `double` from 0 to below `2 * PI` is finite, with fewer units than `2 * PI`. -/
theorem phase_range (p : Binary64) (h0 : Binary64.ge p Binary64.zero = true)
    (h1 : Binary64.lt p (Binary64.twice Binary64.PI) = true) :
    ∃ (s : Bool) (u : Nat), p = finite s u ∧ u < 2 * (884279719003555 * 2 ^ 1026) := by
  rw [twice_PI] at h1
  cases p with
  | nan => simp [Binary64.ge] at h0
  | infinite s =>
    cases s
    · simp [Binary64.lt] at h1
    · simp [Binary64.ge, Binary64.lt, Binary64.zero] at h0
  | finite s u =>
    refine ⟨s, u, rfl, ?_⟩
    cases s
    · simpa [Binary64.lt] using h1
    · have hu : u = 0 := by simpa [Binary64.ge, Binary64.lt, Binary64.zero] using h0
      rw [hu]
      norm_num

/-- A `double` from `-2^55` to `2^55` is finite, with at most as many units as `2^55`. -/
theorem angle_range (θ : Binary64)
    (hlo : Binary64.ge θ (Binary64.neg Binary64.angleBound) = true)
    (hhi : Binary64.ge Binary64.angleBound θ = true) :
    ∃ (s : Bool) (a : Nat), θ = finite s a ∧ a ≤ 2 ^ 55 * 2 ^ 1074 := by
  cases θ with
  | nan => simp [Binary64.ge] at hlo
  | infinite s =>
    cases s
    · simp [Binary64.ge, Binary64.lt, Binary64.angleBound] at hhi
    · simp [Binary64.ge, Binary64.lt, Binary64.angleBound, Binary64.neg] at hlo
  | finite s a =>
    refine ⟨s, a, rfl, ?_⟩
    cases s
    · simpa [Binary64.ge, Binary64.lt, Binary64.angleBound] using hhi
    · simpa [Binary64.ge, Binary64.lt, Binary64.angleBound, Binary64.neg] using hlo

/-- The sum of a phase below `2 * PI` and an angle of at most `2^55` is finite, of magnitude at
most `2^56`. -/
theorem add_bounded (s0 s : Bool) (u0 a : Nat) (hu0 : u0 < 2 * (884279719003555 * 2 ^ 1026))
    (ha : a ≤ 2 ^ 55 * 2 ^ 1074) :
    ∃ (s1 : Bool) (u1 : Nat),
      Binary64.add (finite s0 u0) (finite s a) = finite s1 u1 ∧ u1 ≤ 2 ^ 1130 := by
  have hT : (2 : Nat) * (884279719003555 * 2 ^ 1026) + 2 ^ 55 * 2 ^ 1074 + 2 ^ 1076
      ≤ 2 ^ 1130 := by norm_num
  generalize 2 * (884279719003555 * 2 ^ 1026) = T at hu0 hT
  generalize 2 ^ 55 * 2 ^ 1074 = B at ha hT
  by_cases hs : s0 = s
  · subst hs
    obtain ⟨hr, hb⟩ := round_eq s0 (u0 + a) (by omega)
    exact ⟨s0, _, by rw [add_finite_same, hr], by omega⟩
  · rcases Nat.lt_trichotomy u0 a with hlt | heq | hgt
    · obtain ⟨hr, hb⟩ := round_eq s (a - u0) (by omega)
      exact ⟨s, _, by rw [add_finite_lt _ _ _ _ hs hlt, hr], by omega⟩
    · subst heq
      exact ⟨false, 0, add_finite_eq _ _ _ hs, Nat.zero_le _⟩
    · obtain ⟨hr, hb⟩ := round_eq s0 (u0 - a) (by omega)
      exact ⟨s0, _, by rw [add_finite_gt _ _ _ _ hs hgt, hr], by omega⟩

/-- Claim C8, amended, on the code with `fp` the type `double`: for every container whose
global phase is a `double` from 0 to below `2 * PI` and every angle `θ` that is a `double`
from `-2^55` to `2^55`, `gphase(θ)` returns as soon as the bound on the rounds of its loops is
large enough; only the global phase is changed, and the global phase `p'` it leaves
satisfies `p' >= 0` and `p' < 2 * PI`. -/
theorem gphase_double_normalised (qc : QuantumComputation Binary64 S Var) (θ : Binary64)
    (h0 : Binary64.ge qc.globalPhase Binary64.zero = true)
    (h1 : Binary64.lt qc.globalPhase (Binary64.twice Binary64.PI) = true)
    (hlo : Binary64.ge θ (Binary64.neg Binary64.angleBound) = true)
    (hhi : Binary64.ge Binary64.angleBound θ = true) :
    ∃ (n : Nat) (p' : Binary64),
      (∀ m, n ≤ m → gphase m qc θ = some { qc with globalPhase := p' }) ∧
      Binary64.ge p' Binary64.zero = true ∧
      Binary64.lt p' (Binary64.twice Binary64.PI) = true := by
  obtain ⟨s0, u0, hp, hu0⟩ := phase_range qc.globalPhase h0 h1
  obtain ⟨s, a, hθ, ha⟩ := angle_range θ hlo hhi
  obtain ⟨s1, u1, hsum, hu1⟩ := add_bounded s0 s u0 a hu0 ha
  obtain ⟨n1, s2, u2, hrun1, hnn2, hu2⟩ := gphaseRaise_terminates u1 hu1 s1
  obtain ⟨n2, s3, u3, hrun2, hnn3, hlt3⟩ := gphaseLower_terminates u2 hu2 s2 hnn2
  refine ⟨max n1 n2, finite s3 u3, fun m hm => ?_, ?_, hlt3⟩
  · refine gphase_of_loops m qc θ (finite s2 u2) (finite s3 u3) ?_
      (hrun2 m (le_trans (le_max_right _ _) hm))
    rw [hp, hθ, hsum]
    exact hrun1 m (le_trans (le_max_left _ _) hm)
  · have hge : Binary64.ge (finite s3 u3) Binary64.zero
        = !(Binary64.lt (finite s3 u3) Binary64.zero) := rfl
    rw [hge, hnn3]
    rfl

/-- Claim C8, amended, on an example: the container with the global phase 0 and the angle
`2 * PI`. -/
theorem gphase_double_normalised_witness :
    Binary64.ge examplePhaseCircuit.globalPhase Binary64.zero = true ∧
    Binary64.lt examplePhaseCircuit.globalPhase (Binary64.twice Binary64.PI) = true ∧
    Binary64.ge (Binary64.twice Binary64.PI) (Binary64.neg Binary64.angleBound) = true ∧
    Binary64.ge Binary64.angleBound (Binary64.twice Binary64.PI) = true ∧
    ∃ (n : Nat) (p' : Binary64),
      (∀ m, n ≤ m → gphase m examplePhaseCircuit (Binary64.twice Binary64.PI)
        = some { examplePhaseCircuit with globalPhase := p' }) ∧
      Binary64.ge p' Binary64.zero = true ∧
      Binary64.lt p' (Binary64.twice Binary64.PI) = true := by
  have h1 : Binary64.lt examplePhaseCircuit.globalPhase (Binary64.twice Binary64.PI) = true := by
    rw [twice_PI]
    show decide (0 < 2 * (884279719003555 * 2 ^ 1026)) = true
    exact decide_eq_true (by norm_num)
  have hlo : Binary64.ge (Binary64.twice Binary64.PI) (Binary64.neg Binary64.angleBound)
      = true := by
    rw [twice_PI]
    rfl
  have hhi : Binary64.ge Binary64.angleBound (Binary64.twice Binary64.PI) = true := by
    rw [twice_PI]
    show (!(decide (2 ^ 55 * 2 ^ 1074 < 2 * (884279719003555 * 2 ^ 1026)))) = true
    rw [decide_eq_false (by norm_num)]
    rfl
  exact ⟨rfl, h1, hlo, hhi,
    gphase_double_normalised examplePhaseCircuit (Binary64.twice Binary64.PI) rfl h1 hlo hhi⟩

/-- The call `gphase(2 * PI)` on the container with the global phase 0: the sum is `2 * PI`,
the second loop subtracts `2 * PI` once, and the global phase is 0 again. -/
theorem gphase_double_example (fuel : Nat) :
    gphase (fuel + 1) examplePhaseCircuit (Binary64.twice Binary64.PI)
      = some { examplePhaseCircuit with globalPhase := finite false 0 } := by
  have hround : Binary64.round false (2 * (884279719003555 * 2 ^ 1026))
      = finite false (2 * (884279719003555 * 2 ^ 1026)) := by
    have h : roundMagnitude (2 * (884279719003555 * 2 ^ 1026))
        = 2 * (884279719003555 * 2 ^ 1026) := by
      rw [roundMagnitude_eval _ 1023 (by norm_num) (by norm_num)]
      norm_num
    unfold Binary64.round
    rw [h, if_pos (by norm_num)]
  have hsum : Binary64.add examplePhaseCircuit.globalPhase (Binary64.twice Binary64.PI)
      = finite false (2 * (884279719003555 * 2 ^ 1026)) := by
    rw [twice_PI]
    show Binary64.add (finite false 0) (finite false (2 * (884279719003555 * 2 ^ 1026))) = _
    rw [add_finite_same, Nat.zero_add, hround]
  have hge : Binary64.ge (finite false (2 * (884279719003555 * 2 ^ 1026)))
      (Binary64.twice Binary64.PI) = true := by
    rw [twice_PI, ge_finite]
    simp only [Binary64.lt, Nat.lt_irrefl, decide_False, Bool.not_false]
  have hsub : Binary64.sub (finite false (2 * (884279719003555 * 2 ^ 1026)))
      (Binary64.twice Binary64.PI) = finite false 0 := by
    rw [twice_PI]
    exact add_finite_eq _ _ _ (by decide)
  have hstop : Binary64.ge (finite false 0) (Binary64.twice Binary64.PI) = false := by
    rw [twice_PI, ge_finite]
    simp only [Binary64.lt]
    rw [decide_eq_true (by norm_num)]
    rfl
  refine gphase_of_loops _ _ _ (finite false (2 * (884279719003555 * 2 ^ 1026))) _ ?_ ?_
  · rw [hsum]
    exact gphaseRaise_stop _ (by rw [lt_zero]; rfl) _
  · rw [gphaseLower_step _ hge, hsub]
    exact gphaseLower_stop _ hstop _

end Double

/-! ### Range checks and the container after a throw -/

theorem Statement.seq_check (c : QuantumComputation F S Var → Except String Unit)
    (t : Statement F S Var) (qc : QuantumComputation F S Var) :
    Statement.seq (Statement.check c) t qc =
      match c qc with
      | .ok _ => t qc
      | .error e => (.error e, qc) := by
  unfold Statement.seq Statement.check
  cases c qc <;> rfl

theorem Statement.update_fst (f : QuantumComputation F S Var → QuantumComputation F S Var)
    (qc : QuantumComputation F S Var) : (Statement.update f qc).1 = .ok () := rfl

theorem Statement.seq_update_fst
    (f : QuantumComputation F S Var → QuantumComputation F S Var) (t : Statement F S Var)
    (qc : QuantumComputation F S Var) :
    Statement.seq (Statement.update f) t qc = t (f qc) := rfl

/-- A body made of one range check and statements that do not throw. -/
theorem Statement.checked_once (c : QuantumComputation F S Var → Except String Unit)
    (t : Statement F S Var) (ht : ∀ qc, (t qc).1 = .ok ())
    (qc : QuantumComputation F S Var) :
    (Statement.seq (Statement.check c) t qc).1 = c qc ∧
    ∀ e, c qc = .error e → (Statement.seq (Statement.check c) t qc).2 = qc := by
  rw [Statement.seq_check]
  cases h : c qc with
  | ok u => exact ⟨ht qc, fun e he => Except.noConfusion he⟩
  | error e => exact ⟨rfl, fun _ _ => rfl⟩

/-- A body made of two range checks and statements that do not throw. -/
theorem Statement.checked_twice (c1 c2 : QuantumComputation F S Var → Except String Unit)
    (t : Statement F S Var) (ht : ∀ qc, (t qc).1 = .ok ())
    (qc : QuantumComputation F S Var) :
    (Statement.seq (Statement.check c1) (Statement.seq (Statement.check c2) t) qc).1
      = (do c1 qc; c2 qc) ∧
    ∀ e, (do c1 qc; c2 qc) = .error e →
      (Statement.seq (Statement.check c1) (Statement.seq (Statement.check c2) t) qc).2 = qc := by
  rw [Statement.seq_check]
  cases h1 : c1 qc with
  | error e => exact ⟨rfl, fun _ _ => rfl⟩
  | ok u =>
    have h := Statement.checked_once c2 t ht qc
    simpa [bind, Except.bind] using h

section emission

variable [DecidableEq Var] (vars : S → List Var)

/-- Claim C21: for every call of a gate function (each of the seven families, in the forms
`op`, `c##op` and `mc##op`), of `measure`, `reset` and `barrier` on one or several qubits and
of `classicControlled`, the call throws exactly when one of its range checks throws, with the
same exception, and then the container after the call is the container before it: the
operations and the occurring variables are as they were. -/
theorem range_checks_before_mutation (call : EmissionCall F S)
    (qc : QuantumComputation F S Var) :
    (call.run vars qc).1 = call.rangeChecks qc ∧
    ∀ e, (call.run vars qc).1 = .error e →
      (call.run vars qc).2 = qc ∧ (call.run vars qc).2.ops = qc.ops ∧
      (call.run vars qc).2.occurringVariables = qc.occurringVariables := by
  have key : (call.run vars qc).1 = call.rangeChecks qc ∧
      ∀ e, call.rangeChecks qc = .error e → (call.run vars qc).2 = qc := by
    cases call with
    | singleTarget op form target =>
      exact Statement.checked_once _ _ (fun _ => rfl) qc
    | singleTargetSingleParameter op param form target =>
      refine Statement.checked_once _ _ (fun qc => ?_) qc
      cases param <;> rfl
    | singleTargetTwoParameter op param0 param1 form target =>
      refine Statement.checked_once _ _ (fun qc => ?_) qc
      cases param0 <;> cases param1 <;> rfl
    | singleTargetThreeParameter op param0 param1 param2 form target =>
      refine Statement.checked_once _ _ (fun qc => ?_) qc
      cases param0 <;> cases param1 <;> cases param2 <;> rfl
    | twoTarget op form target0 target1 =>
      exact Statement.checked_once _ _ (fun _ => rfl) qc
    | twoTargetSingleParameter op param form target0 target1 =>
      refine Statement.checked_once _ _ (fun qc => ?_) qc
      cases param <;> rfl
    | twoTargetTwoParameter op param0 param1 form target0 target1 =>
      refine Statement.checked_once _ _ (fun qc => ?_) qc
      cases param0 <;> cases param1 <;> rfl
    | measure qubit bit => exact Statement.checked_twice _ _ _ (fun _ => rfl) qc
    | measureQubits qubits bits => exact Statement.checked_twice _ _ _ (fun _ => rfl) qc
    | reset target => exact Statement.checked_once _ _ (fun _ => rfl) qc
    | resetQubits targets => exact Statement.checked_once _ _ (fun _ => rfl) qc
    | barrier target => exact Statement.checked_once _ _ (fun _ => rfl) qc
    | barrierQubits targets => exact Statement.checked_once _ _ (fun _ => rfl) qc
    | classicControlled op target form controlRegister expectedValue cmp params =>
      exact Statement.checked_twice _ _ _ (fun _ => rfl) qc
  refine ⟨key.1, fun e he => ?_⟩
  have h := key.2 e (by rw [← key.1]; exact he)
  exact ⟨h, by rw [h], by rw [h]⟩

/-- The bodies with the container made explicit agree with the bodies that return the new
container or throw. -/
theorem stmt_agrees (op : OpType) (qc : QuantumComputation F S Var)
    (param0 param1 param2 : SymbolOrNumber S F) (controls : Controls) (target0 target1 : Qubit) :
    (∀ qc1, mcSingleTargetSingleParameter vars op qc param0 controls target0 = .ok qc1 →
      stmt.mcSingleTargetSingleParameter vars op param0 controls target0 qc = (.ok (), qc1)) ∧
    (∀ qc1, mcSingleTargetTwoParameter vars op qc param0 param1 controls target0 = .ok qc1 →
      stmt.mcSingleTargetTwoParameter vars op param0 param1 controls target0 qc
        = (.ok (), qc1)) ∧
    (∀ qc1, mcSingleTargetThreeParameter vars op qc param0 param1 param2 controls target0
        = .ok qc1 →
      stmt.mcSingleTargetThreeParameter vars op param0 param1 param2 controls target0 qc
        = (.ok (), qc1)) ∧
    (∀ qc1, mcTwoTargetTwoParameter vars op qc param0 param1 controls target0 target1
        = .ok qc1 →
      stmt.mcTwoTargetTwoParameter vars op param0 param1 controls target0 target1 qc
        = (.ok (), qc1)) ∧
    (∀ qc1, barrierQubit qc target0 = .ok qc1 → stmt.barrier target0 qc = (.ok (), qc1)) := by
  refine ⟨?_, ?_, ?_, ?_, ?_⟩
  · intro qc1 h
    unfold mcSingleTargetSingleParameter at h
    unfold stmt.mcSingleTargetSingleParameter
    rw [Statement.seq_check]
    cases hc : checkQubitRange qc target0 controls with
    | error e => rw [hc] at h; cases h
    | ok u =>
      rw [hc] at h
      cases param0 <;> simp only [bind, Except.bind, pure, Except.pure] at h <;>
        injection h with h <;> subst h <;> rfl
  · intro qc1 h
    unfold mcSingleTargetTwoParameter at h
    unfold stmt.mcSingleTargetTwoParameter
    rw [Statement.seq_check]
    cases hc : checkQubitRange qc target0 controls with
    | error e => rw [hc] at h; cases h
    | ok u =>
      rw [hc] at h
      cases param0 <;> cases param1 <;> simp only [bind, Except.bind, pure, Except.pure] at h <;>
        injection h with h <;> subst h <;> rfl
  · intro qc1 h
    unfold mcSingleTargetThreeParameter at h
    unfold stmt.mcSingleTargetThreeParameter
    rw [Statement.seq_check]
    cases hc : checkQubitRange qc target0 controls with
    | error e => rw [hc] at h; cases h
    | ok u =>
      rw [hc] at h
      cases param0 <;> cases param1 <;> cases param2 <;>
        simp only [bind, Except.bind, pure, Except.pure] at h <;>
        injection h with h <;> subst h <;> rfl
  · intro qc1 h
    unfold mcTwoTargetTwoParameter at h
    unfold stmt.mcTwoTargetTwoParameter
    rw [Statement.seq_check]
    cases hc : checkQubitRange2 qc target0 target1 controls with
    | error e => rw [hc] at h; cases h
    | ok u =>
      rw [hc] at h
      cases param0 <;> cases param1 <;> simp only [bind, Except.bind, pure, Except.pure] at h <;>
        injection h with h <;> subst h <;> rfl
  · intro qc1 h
    unfold barrierQubit at h
    unfold stmt.barrier
    rw [Statement.seq_check]
    cases hc : checkQubit qc target0 with
    | error e => rw [hc] at h; cases h
    | ok u =>
      rw [hc] at h
      simp only [bind, Except.bind, pure, Except.pure] at h
      injection h with h
      subst h
      rfl

end emission

/-- A measurement of a qubit that is out of range throws and leaves the example container as
it was. -/
theorem range_check_example :
    (EmissionCall.measure 5 0).run exampleVars exampleClassicCircuit
      = (Except.error "Qubit index out of range", exampleClassicCircuit) ∧
    ((EmissionCall.measure 1 0).run exampleVars exampleClassicCircuit).2.ops
      = exampleClassicCircuit.ops ++ [Operation.nonUnitary [1] [0] OpType.Measure] :=
  ⟨rfl, rfl⟩

/-- Claim C22: `asOperation()` returns the only operation itself when the container holds
exactly one, the empty handle when it holds none, and otherwise a compound operation whose
children are the operations of the container in their order; afterwards the container holds
no operations and all its other members (qubit counts, registers, layouts among them) are as
before. -/
theorem asOperation_spec (qc : QuantumComputation F S Var) :
    (∀ op, qc.ops = [op] → qc.asOperation.1 = some op) ∧
    (qc.ops = [] → qc.asOperation.1 = none) ∧
    (2 ≤ qc.ops.length → qc.asOperation.1 = some (Operation.compound qc.ops)) ∧
    qc.asOperation.2.ops = [] ∧
    qc.asOperation.2 = { qc with ops := [] } := by
  obtain ⟨ops, nqubits, nclassics, nancillae, name, qregs, cregs, ancregs, seed, globalPhase,
    occurringVariables, initialLayout, outputPermutation, ancillary, garbage⟩ := qc
  cases ops with
  | nil => exact ⟨fun op h => (by cases h), fun _ => rfl, fun h => (by simp at h), rfl, rfl⟩
  | cons a rest =>
    cases rest with
    | nil =>
      refine ⟨fun op h => ?_, fun h => (by cases h), fun h => (by simp at h), rfl, rfl⟩
      simp only [List.cons.injEq, and_true] at h
      subst h
      rfl
    | cons b rest =>
      refine ⟨fun op h => ?_, fun h => (by cases h), fun _ => ?_, ?_, ?_⟩
      · simp at h
      · simp [asOperation, asCompoundOperation]
      · simp [asOperation, asCompoundOperation]
      · simp [asOperation, asCompoundOperation]

/-- The handle and the container after `asOperation()` on the example container. -/
theorem asOperation_example :
    exampleCircuit.asOperation.1 = some (Operation.compound exampleCircuit.ops) ∧
    exampleCircuit.asOperation.2.getNops = 0 ∧
    exampleCircuit.asOperation.2.getNqubits = 3 :=
  ⟨rfl, rfl, rfl⟩

/-- Claim C23, as stated, fails: in a container with two qubits of which the second is
ancillary and none is garbage, `getNmeasuredQubits()` is 2, so it counts the ancillary qubit;
only one qubit has its ancillary flag unset. -/
theorem getNmeasuredQubits_counts_ancillary :
    exampleAncillaCircuit.ancillary.getD 1 false = true ∧
    exampleAncillaCircuit.getNqubits = 2 ∧
    exampleAncillaCircuit.nonAncillaryQubits = 1 ∧
    exampleAncillaCircuit.getNmeasuredQubits = 2 ∧
    ¬ exampleAncillaCircuit.getNmeasuredQubits ≤ exampleAncillaCircuit.nonAncillaryQubits := by
  refine ⟨rfl, rfl, rfl, ?_, ?_⟩
  · decide
  · decide

/-- Claim C23, amended: in every container with fewer than `2^64` qubits and no more garbage
flags set than it has qubits, `getNmeasuredQubits()` is the number of qubits less the number
of garbage flags that are set, and it does not depend on the ancillary flags. -/
theorem getNmeasuredQubits_excludes_garbage (qc : QuantumComputation F S Var)
    (hn : qc.getNqubits < 2 ^ 64) (hg : qc.getNgarbageQubits ≤ qc.getNqubits) :
    qc.getNmeasuredQubits = qc.getNqubits - qc.garbage.count true ∧
    ∀ ancillary, getNmeasuredQubits { qc with ancillary := ancillary }
      = qc.getNmeasuredQubits := by
  refine ⟨?_, fun _ => rfl⟩
  unfold getNmeasuredQubits
  unfold getNgarbageQubits at hg ⊢
  have h1 : qc.garbage.count true % 2 ^ 64 = qc.garbage.count true :=
    Nat.mod_eq_of_lt (Nat.lt_of_le_of_lt hg hn)
  rw [h1]
  have h2 : qc.getNqubits + 2 ^ 64 - qc.garbage.count true
      = (qc.getNqubits - qc.garbage.count true) + 2 ^ 64 := by omega
  rw [h2, Nat.add_mod_right]
  exact Nat.mod_eq_of_lt (by omega)

/-- Claim C23, amended, on the example: both qubits are counted, and one is left when the
first is garbage. -/
theorem getNmeasuredQubits_excludes_garbage_witness :
    exampleAncillaCircuit.getNqubits < 2 ^ 64 ∧
    exampleAncillaCircuit.getNgarbageQubits ≤ exampleAncillaCircuit.getNqubits ∧
    exampleAncillaCircuit.getNmeasuredQubits
      = exampleAncillaCircuit.getNqubits - exampleAncillaCircuit.garbage.count true ∧
    ∀ ancillary, getNmeasuredQubits { exampleAncillaCircuit with ancillary := ancillary }
      = exampleAncillaCircuit.getNmeasuredQubits :=
  ⟨by decide, by decide,
    getNmeasuredQubits_excludes_garbage exampleAncillaCircuit (by decide) (by decide)⟩

/-- Claim C24: when the range checks of `classicControlled(op, target, controls,
controlRegister, expectedValue, cmp, params)` pass, the call returns and the operations of the
container are the old ones followed by one classically controlled operation, which wraps the
standard operation of type `op` on `target` with `controls` and `params` and carries the
register, the expected value and the comparison; with the defaults the expected value is 1,
the comparison is `Eq` and there are no parameters; the overload without controls is the call
with the empty set of controls and the overload with one control the call with the set of
this control. -/
theorem classicControlled_appends (op : OpType) (target : Qubit) (controls : Controls)
    (controlRegister : Bit × Nat) (expectedValue : Nat) (cmp : ComparisonKind)
    (params : List F) (qc : QuantumComputation F S Var)
    (hq : checkQubitRange qc target controls = .ok ())
    (hc : checkClassicalRegister qc controlRegister = .ok ()) :
    stmt.classicControlled op target controls controlRegister expectedValue cmp params qc
      = (.ok (), { qc with ops := qc.ops ++
          [Operation.classicControlled (Operation.standard controls [target] op params)
            controlRegister expectedValue cmp] }) ∧
    stmt.classicControlled op target controls controlRegister stmt.defaultExpectedValue
        stmt.defaultCmp stmt.defaultParams qc
      = (.ok (), { qc with ops := qc.ops ++
          [Operation.classicControlled (Operation.standard controls [target] op [])
            controlRegister 1 ComparisonKind.Eq] }) ∧
    (∀ qc1 : QuantumComputation F S Var,
      stmt.classicControlledNoControl op target controlRegister expectedValue cmp params qc1
        = stmt.classicControlled op target [] controlRegister expectedValue cmp params qc1) ∧
    (∀ (control : Control) (qc1 : QuantumComputation F S Var),
      stmt.classicControlledSingleControl op target control controlRegister expectedValue cmp
          params qc1
        = stmt.classicControlled op target [control] controlRegister expectedValue cmp
          params qc1) := by
  have h : ∀ (e : Nat) (c : ComparisonKind) (p : List F),
      stmt.classicControlled op target controls controlRegister e c p qc
        = (.ok (), { qc with ops := qc.ops ++
            [Operation.classicControlled (Operation.standard controls [target] op p)
              controlRegister e c] }) := by
    intro e c p
    unfold stmt.classicControlled
    rw [Statement.seq_check, hq]
    simp only []
    rw [Statement.seq_check, hc]
    rfl
  exact ⟨h _ _ _, h _ _ _, fun _ => rfl, fun _ _ => rfl⟩

/-- Claim C24 on an example: an `x` gate on qubit 1 controlled by the classical register of
the example container. -/
theorem classicControlled_appends_witness :
    checkQubitRange exampleClassicCircuit 1 [] = Except.ok () ∧
    checkClassicalRegister exampleClassicCircuit (0, 2) = Except.ok () ∧
    stmt.classicControlled OpType.x 1 [] (0, 2) 1 ComparisonKind.Eq [] exampleClassicCircuit
      = (Except.ok (), { exampleClassicCircuit with ops := exampleClassicCircuit.ops ++
          [Operation.classicControlled (Operation.standard [] [1] OpType.x [])
            (0, 2) 1 ComparisonKind.Eq] }) ∧
    stmt.classicControlled OpType.x 1 [] (0, 2) stmt.defaultExpectedValue
        stmt.defaultCmp stmt.defaultParams exampleClassicCircuit
      = (Except.ok (), { exampleClassicCircuit with ops := exampleClassicCircuit.ops ++
          [Operation.classicControlled (Operation.standard [] [1] OpType.x [])
            (0, 2) 1 ComparisonKind.Eq] }) ∧
    (∀ qc1 : QuantumComputation ℚ String String,
      stmt.classicControlledNoControl OpType.x 1 (0, 2) 1 ComparisonKind.Eq [] qc1
        = stmt.classicControlled OpType.x 1 [] (0, 2) 1 ComparisonKind.Eq [] qc1) ∧
    (∀ (control : Control) (qc1 : QuantumComputation ℚ String String),
      stmt.classicControlledSingleControl OpType.x 1 control (0, 2) 1 ComparisonKind.Eq [] qc1
        = stmt.classicControlled OpType.x 1 [control] (0, 2) 1 ComparisonKind.Eq [] qc1) :=
  ⟨rfl, rfl,
    classicControlled_appends OpType.x 1 [] (0, 2) 1 ComparisonKind.Eq [] exampleClassicCircuit
      rfl rfl⟩

/-! ### `invert` twice and `reset` -/

/-- Claim C36: two calls of `invert()` leave `initialLayout` and `outputPermutation` as
they were, whether or not their sizes are equal, and leave at every position of the sequence
the operation that stood there, inverted twice; if `Operation::invert` applied twice gives
back every operation of the container, the container after two calls is the original one. -/
theorem invert_twice (opInvert : Operation F S → Operation F S)
    (qc : QuantumComputation F S Var) :
    (invert opInvert (invert opInvert qc)).initialLayout = qc.initialLayout ∧
    (invert opInvert (invert opInvert qc)).outputPermutation = qc.outputPermutation ∧
    (invert opInvert (invert opInvert qc)).ops = qc.ops.map (fun op => opInvert (opInvert op)) ∧
    ((∀ op ∈ qc.ops, opInvert (opInvert op) = op) →
      invert opInvert (invert opInvert qc) = qc) := by
  have hops : (invert opInvert (invert opInvert qc)).ops
      = qc.ops.map (fun op => opInvert (opInvert op)) := by
    by_cases h : qc.initialLayout.length = qc.outputPermutation.length
    · simp [invert, h, List.map_reverse, Function.comp_def]
    · simp [invert, h, List.map_reverse, Function.comp_def]
  have hil : (invert opInvert (invert opInvert qc)).initialLayout = qc.initialLayout := by
    by_cases h : qc.initialLayout.length = qc.outputPermutation.length
    · simp [invert, h]
    · simp [invert, h]
  have hop : (invert opInvert (invert opInvert qc)).outputPermutation
      = qc.outputPermutation := by
    by_cases h : qc.initialLayout.length = qc.outputPermutation.length
    · simp [invert, h]
    · simp [invert, h]
  refine ⟨hil, hop, hops, fun hinv => ?_⟩
  have hid : qc.ops.map (fun op => opInvert (opInvert op)) = qc.ops := by
    conv_rhs => rw [← List.map_id qc.ops]
    exact List.map_congr_left (fun op hop => hinv op hop)
  rw [hid] at hops
  obtain ⟨ops, nqubits, nclassics, nancillae, name, qregs, cregs, ancregs, seed, globalPhase,
    occurringVariables, initialLayout, outputPermutation, ancillary, garbage⟩ := qc
  by_cases h : initialLayout.length = outputPermutation.length
  · simp only [invert, h, if_true] at hops ⊢
    rw [hops]
  · simp only [invert, h, if_false] at hops ⊢
    rw [hops]

/-- Claim C36 on the example container, whose layouts have different sizes, with an inversion
that exchanges `s` and `sdg`. -/
theorem invert_twice_witness :
    invert exampleInvert (invert exampleInvert exampleCircuit) = exampleCircuit :=
  (invert_twice exampleInvert exampleCircuit).2.2.2 (by
    intro op hop
    simp only [exampleCircuit, List.mem_cons, List.mem_singleton, List.not_mem_nil,
      or_false] at hop
    rcases hop with rfl | rfl | rfl <;> rfl)

/-- Claim C37: `invert()` leaves the three counts, the three register maps, the flags of the
ancillary and of the garbage qubits, the occurring variables and the global phase as they
were (the global phase is not negated), and also the name and the seed. -/
theorem invert_frame (opInvert : Operation F S → Operation F S)
    (qc : QuantumComputation F S Var) :
    (invert opInvert qc).nqubits = qc.nqubits ∧
    (invert opInvert qc).nancillae = qc.nancillae ∧
    (invert opInvert qc).nclassics = qc.nclassics ∧
    (invert opInvert qc).getNqubits = qc.getNqubits ∧
    (invert opInvert qc).qregs = qc.qregs ∧
    (invert opInvert qc).cregs = qc.cregs ∧
    (invert opInvert qc).ancregs = qc.ancregs ∧
    (invert opInvert qc).ancillary = qc.ancillary ∧
    (invert opInvert qc).garbage = qc.garbage ∧
    (invert opInvert qc).occurringVariables = qc.occurringVariables ∧
    (invert opInvert qc).globalPhase = qc.globalPhase ∧
    (invert opInvert qc).name = qc.name ∧
    (invert opInvert qc).seed = qc.seed := by
  unfold invert getNqubits
  split <;> exact ⟨rfl, rfl, rfl, rfl, rfl, rfl, rfl, rfl, rfl, rfl, rfl, rfl, rfl⟩

/-- Claim C39: after the parameterless `reset()` the container has no operations,
`getNqubits()`, `getNancillae()` and `getNcbits()` are 0, the three register maps and the two
layouts are empty, and the flags of the ancillary and of the garbage qubits, the global
phase, the occurring variables and the name are those from before the call. -/
theorem reset_frame (qc : QuantumComputation F S Var) :
    qc.reset.ops = [] ∧ qc.reset.getNops = 0 ∧
    qc.reset.getNqubits = 0 ∧ qc.reset.getNancillae = 0 ∧ qc.reset.getNcbits = 0 ∧
    qc.reset.qregs = [] ∧ qc.reset.cregs = [] ∧ qc.reset.ancregs = [] ∧
    qc.reset.initialLayout = [] ∧ qc.reset.outputPermutation = [] ∧
    qc.reset.ancillary = qc.ancillary ∧ qc.reset.garbage = qc.garbage ∧
    qc.reset.globalPhase = qc.globalPhase ∧
    qc.reset.occurringVariables = qc.occurringVariables ∧
    qc.reset.name = qc.name :=
  ⟨rfl, rfl, rfl, rfl, rfl, rfl, rfl, rfl, rfl, rfl, rfl, rfl, rfl, rfl, rfl⟩

/-- The example container with an ancillary qubit after `reset()`: the counts are 0 and the
two flag vectors still have their two entries. -/
theorem reset_example :
    exampleAncillaCircuit.reset.getNqubits = 0 ∧
    exampleAncillaCircuit.reset.ancillary = [false, true] ∧
    exampleAncillaCircuit.reset.garbage = [false, false] :=
  ⟨rfl, rfl, rfl⟩

/-! ### `findAndSWAP` -/

theorem keys_assignAt (key value : Qubit) (map : Permutation) :
    (assignAt key value map).map Prod.fst = map.map Prod.fst := by
  unfold assignAt
  rw [List.map_map]
  apply List.map_congr_left
  intro q _
  simp only [Function.comp]
  split
  · rename_i h; exact h.symm
  · rfl

theorem assignAt_cons (key value : Qubit) (e : Qubit × Qubit) (rest : Permutation) :
    assignAt key value (e :: rest)
      = (if e.1 = key then (key, value) else e) :: assignAt key value rest := rfl

theorem mapFind_assignAt (key value k : Qubit) (map : Permutation) :
    mapFind k (assignAt key value map)
      = if k = key then (mapFind key map).map (fun _ => value) else mapFind k map := by
  induction map with
  | nil => simp [assignAt, mapFind]
  | cons e rest ih =>
    obtain ⟨k', a'⟩ := e
    rw [assignAt_cons]
    by_cases h1 : k' = key
    · subst h1
      rw [show (if ((k', a') : Qubit × Qubit).1 = k' then (k', value) else (k', a'))
        = (k', value) from if_pos rfl, mapFind_cons, ih]
      simp only [mapFind_cons]
      by_cases h2 : k = k'
      · subst h2; simp
      · simp [h2]
    · rw [show (if ((k', a') : Qubit × Qubit).1 = key then (key, value) else (k', a'))
        = (k', a') from if_neg h1, mapFind_cons, ih]
      simp only [mapFind_cons]
      by_cases h2 : k = key
      · subst h2
        simp [Ne.symm h1]
      · simp [h2]

/-- Writing to a key the value it has changes nothing. -/
theorem assignAt_same {map : Permutation} (hkeys : (map.map Prod.fst).Nodup) {key value : Qubit}
    (h : mapFind key map = some value) : assignAt key value map = map := by
  unfold assignAt
  conv_rhs => rw [← List.map_id map]
  apply List.map_congr_left
  intro q hq
  by_cases hk : q.1 = key
  · rw [if_pos hk]
    have hq' : (key, q.2) ∈ map := by rw [← hk]; exact hq
    have := mapFind_of_mem hkeys hq'
    rw [h] at this
    simp only [Option.some.injEq] at this
    rw [this, ← hk]
    rfl
  · rw [if_neg hk]; rfl

/-- Writing `w` to a key that holds `v` exchanges one `v` for one `w` among the values. -/
theorem values_assignAt {map : Permutation} (hkeys : (map.map Prod.fst).Nodup)
    {key v : Qubit} (w : Qubit) (h : mapFind key map = some v) :
    List.Perm (v :: (assignAt key w map).map Prod.snd) (w :: map.map Prod.snd) := by
  induction map with
  | nil => simp [mapFind] at h
  | cons e rest ih =>
    obtain ⟨k', a'⟩ := e
    rw [List.map_cons, List.nodup_cons] at hkeys
    by_cases h1 : k' = key
    · subst h1
      simp only [mapFind, if_true, Option.some.injEq] at h
      subst h
      have hrest : assignAt k' w rest = rest := by
        unfold assignAt
        conv_rhs => rw [← List.map_id rest]
        apply List.map_congr_left
        intro q hq
        have : q.1 ≠ k' := fun hh => hkeys.1 (List.mem_map.mpr ⟨q, hq, hh⟩)
        rw [if_neg this]; rfl
      have : assignAt k' w ((k', a') :: rest) = (k', w) :: rest := by
        conv_lhs => unfold assignAt
        rw [List.map_cons, if_pos rfl]
        exact congrArg _ hrest
      rw [this]
      exact List.Perm.swap _ _ _
    · have hne : key ≠ k' := fun hh => h1 hh.symm
      simp only [mapFind, if_neg hne] at h
      have : assignAt key w ((k', a') :: rest) = (k', a') :: assignAt key w rest := by
        unfold assignAt
        rw [List.map_cons, if_neg h1]
      rw [this]
      simp only [List.map_cons]
      exact (List.Perm.swap _ _ _).trans (((ih hkeys.2 h).cons a').trans (List.Perm.swap _ _ _))

theorem countP_zip_map {A : Type} (F : A → A) (P : A × A → Bool) (m : List A) :
    (m.zip (m.map F)).countP P = m.countP (fun e => P (e, F e)) := by
  induction m with
  | nil => rfl
  | cons e rest ih =>
    rw [List.map_cons, List.zip_cons_cons, List.countP_cons, List.countP_cons, ih]

theorem countP_key_le_one {map : Permutation} (hkeys : (map.map Prod.fst).Nodup) (k : Qubit) :
    map.countP (fun e => decide (e.1 = k)) ≤ 1 := by
  have h := List.nodup_iff_count_le_one.mp hkeys k
  rw [List.count, List.countP_map] at h
  refine Nat.le_trans (Nat.le_of_eq ?_) h
  apply List.countP_congr
  intro e _
  simp [Function.comp]

theorem countP_or_le {A : Type} (p q : A → Bool) (l : List A) :
    l.countP (fun e => p e || q e) ≤ l.countP p + l.countP q := by
  induction l with
  | nil => simp
  | cons e rest ih =>
    simp only [List.countP_cons]
    cases p e <;> cases q e <;> simp <;> omega

/-- A call on a map that holds `targetValue` at `newPosition` changes nothing. -/
theorem findAndSWAP_fixed {targetValue newPosition : Qubit} {map : Permutation}
    (hkeys : (map.map Prod.fst).Nodup) (h : mapFind newPosition map = some targetValue) :
    findAndSWAP targetValue newPosition map = .ok map := by
  have hsome : ∃ q, map.find? (fun q => decide (q.2 = targetValue)) = some q := by
    cases hf : map.find? (fun q => decide (q.2 = targetValue)) with
    | some q => exact ⟨q, rfl⟩
    | none =>
      rw [List.find?_eq_none] at hf
      exact absurd (by simp) (hf _ (mapFind_some_mem h))
  obtain ⟨q, hq⟩ := hsome
  have hqv : q.2 = targetValue := by simpa using List.find?_some hq
  have hfq : mapFind q.1 map = some targetValue := by
    apply mapFind_of_mem hkeys
    rw [← hqv]
    exact List.mem_of_find?_eq_some hq
  unfold findAndSWAP
  rw [hq]
  simp only [h, hfq]
  rw [assignAt_same hkeys h, assignAt_same hkeys hfq]

/-- Claim C38: for a layout with distinct keys, a call of `findAndSWAP(targetValue,
newPosition, map)` leaves the map as it was when `targetValue` is not among its values; when
`targetValue` is among the values and `newPosition` among the keys the call returns with
`map[newPosition] = targetValue`, the same keys in the same order, the same values up to
their order (so a map with distinct values keeps distinct values) and at most two entries
that differ from before, and a second call with the same arguments leaves that map as it
is. -/
theorem findAndSWAP_spec (targetValue newPosition : Qubit) (map : Permutation)
    (hkeys : (map.map Prod.fst).Nodup) :
    (targetValue ∉ map.map Prod.snd → findAndSWAP targetValue newPosition map = .ok map) ∧
    (targetValue ∈ map.map Prod.snd → newPosition ∈ map.map Prod.fst →
      ∃ map', findAndSWAP targetValue newPosition map = .ok map' ∧
        mapFind newPosition map' = some targetValue ∧
        map'.map Prod.fst = map.map Prod.fst ∧
        List.Perm (map'.map Prod.snd) (map.map Prod.snd) ∧
        ((map.map Prod.snd).Nodup → (map'.map Prod.snd).Nodup) ∧
        (map.zip map').countP (fun e => decide (e.1 ≠ e.2)) ≤ 2 ∧
        findAndSWAP targetValue newPosition map' = .ok map') := by
  constructor
  · intro hnot
    have : map.find? (fun q => decide (q.2 = targetValue)) = none := by
      rw [List.find?_eq_none]
      intro q hq
      simp only [decide_eq_true_eq]
      intro hh
      exact hnot (hh ▸ List.mem_map_of_mem Prod.snd hq)
    unfold findAndSWAP
    rw [this]
  · intro hval hkey
    have hsome : ∃ q, map.find? (fun q => decide (q.2 = targetValue)) = some q := by
      cases hf : map.find? (fun q => decide (q.2 = targetValue)) with
      | some q => exact ⟨q, rfl⟩
      | none =>
        rw [List.find?_eq_none] at hf
        obtain ⟨e, he, hev⟩ := List.mem_map.mp hval
        exact absurd (by simpa using hev) (hf e he)
    obtain ⟨q, hq⟩ := hsome
    have hqv : q.2 = targetValue := by simpa using List.find?_some hq
    have hqmem : q ∈ map := List.mem_of_find?_eq_some hq
    have hfq : mapFind q.1 map = some targetValue := by
      apply mapFind_of_mem hkeys
      rw [← hqv]
      exact hqmem
    obtain ⟨e, he, hek⟩ := List.mem_map.mp hkey
    have hfp : mapFind newPosition map = some e.2 := by
      apply mapFind_of_mem hkeys
      rw [← hek]
      exact he
    have hrun : findAndSWAP targetValue newPosition map
        = .ok (assignAt q.1 e.2 (assignAt newPosition targetValue map)) := by
      unfold findAndSWAP
      rw [hq]
      simp only [hfp, hfq]
    have hkeys1 : ((assignAt newPosition targetValue map).map Prod.fst).Nodup := by
      rw [keys_assignAt]; exact hkeys
    have hkeys2 : ((assignAt q.1 e.2 (assignAt newPosition targetValue map)).map
        Prod.fst).Nodup := by
      rw [keys_assignAt]; exact hkeys1
    by_cases hpk : newPosition = q.1
    · -- the value is already at its place
      have hev : e.2 = targetValue := by
        rw [hpk, hfq] at hfp
        exact (Option.some.inj hfp).symm
      rw [hev] at hfp hrun
      rw [← hpk, assignAt_same hkeys hfp, assignAt_same hkeys hfp] at hrun
      refine ⟨map, hrun, hfp, rfl, List.Perm.refl _, fun h => h, ?_, hrun⟩
      have hz := countP_zip_map (fun x => x) (fun e : (Qubit × Qubit) × (Qubit × Qubit) =>
        decide (e.1 ≠ e.2)) map
      rw [List.map_id'] at hz
      rw [hz]
      simp
    · have hnew : mapFind newPosition
          (assignAt q.1 e.2 (assignAt newPosition targetValue map)) = some targetValue := by
        rw [mapFind_assignAt, if_neg hpk, mapFind_assignAt, if_pos rfl, hfp]
        rfl
      have hfq1 : mapFind q.1 (assignAt newPosition targetValue map) = some targetValue := by
        rw [mapFind_assignAt, if_neg (Ne.symm hpk), hfq]
      have hperm : List.Perm
          ((assignAt q.1 e.2 (assignAt newPosition targetValue map)).map Prod.snd)
          (map.map Prod.snd) := by
        have p1 := values_assignAt hkeys targetValue hfp
        have p2 := values_assignAt hkeys1 e.2 hfq1
        exact (p2.trans p1).cons_inv
      refine ⟨_, hrun, hnew, by rw [keys_assignAt, keys_assignAt], hperm,
        fun h => hperm.nodup_iff.mpr h, ?_, findAndSWAP_fixed hkeys2 hnew⟩
      have hcomp : assignAt q.1 e.2 (assignAt newPosition targetValue map)
          = map.map (fun x => (fun y : Qubit × Qubit => if y.1 = q.1 then (q.1, e.2) else y)
              (if x.1 = newPosition then (newPosition, targetValue) else x)) := by
        unfold assignAt
        rw [List.map_map]
        rfl
      rw [hcomp, countP_zip_map]
      refine Nat.le_trans (List.countP_mono_left (q := fun x =>
        decide (x.1 = newPosition) || decide (x.1 = q.1)) ?_) ?_
      · intro x _ hx
        by_cases h1 : x.1 = newPosition
        · simp [h1]
        · by_cases h2 : x.1 = q.1
          · simp [h2]
          · simp [h1, h2] at hx
      · exact Nat.le_trans (countP_or_le _ _ _)
          (Nat.add_le_add (countP_key_le_one hkeys _) (countP_key_le_one hkeys _))

/-- Claim C38 on an example: the value 3 is brought to the key 0 of a layout of four
qubits. -/
theorem findAndSWAP_spec_witness :
    (exampleLayout.map Prod.fst).Nodup ∧
    (3 ∈ exampleLayout.map Prod.snd) ∧ (0 ∈ exampleLayout.map Prod.fst) ∧
    ∃ map', findAndSWAP 3 0 exampleLayout = .ok map' ∧
      mapFind 0 map' = some 3 ∧
      map'.map Prod.fst = exampleLayout.map Prod.fst ∧
      List.Perm (map'.map Prod.snd) (exampleLayout.map Prod.snd) ∧
      ((exampleLayout.map Prod.snd).Nodup → (map'.map Prod.snd).Nodup) ∧
      (exampleLayout.zip map').countP (fun e => decide (e.1 ≠ e.2)) ≤ 2 ∧
      findAndSWAP 3 0 map' = .ok map' :=
  ⟨by decide, by decide, by decide,
    (findAndSWAP_spec 3 0 exampleLayout (by decide)).2 (by decide) (by decide)⟩

/-- The calls of `findAndSWAP` on the example layout: the values of the keys 0 and 2 are
exchanged; a value that does not occur leaves the map as it is; a key that does not occur
makes `at` throw. -/
theorem findAndSWAP_example :
    findAndSWAP 3 0 exampleLayout = .ok [(0, 3), (1, 0), (2, 2), (3, 1)] ∧
    findAndSWAP 7 0 exampleLayout = .ok exampleLayout ∧
    findAndSWAP 3 9 exampleLayout = .error "std::out_of_range" :=
  ⟨rfl, rfl, rfl⟩

end QuantumComputation

end qc

/-! ## The tensor export -/

namespace dd

open qc

variable {F S : Type}

/-! ### Strings -/

theorem intercalate_go (s acc : String) (l : List String) :
    String.intercalate.go acc s l = acc ++ catAll (l.map (fun a => s ++ a)) := by
  induction l generalizing acc with
  | nil => simp [String.intercalate.go, catAll]
  | cons a l ih =>
    rw [String.intercalate.go, ih]
    simp only [List.map_cons, catAll, List.foldr_cons, String.append_assoc]

theorem intercalate_cons (s a : String) (l : List String) :
    s.intercalate (a :: l) = a ++ catAll (l.map (fun b => s ++ b)) := by
  rw [String.intercalate, intercalate_go]

theorem catAll_append (l1 l2 : List String) : catAll (l1 ++ l2) = catAll l1 ++ catAll l2 := by
  induction l1 with
  | nil => simp [catAll]
  | cons a l ih =>
    simp only [catAll, List.cons_append, List.foldr_cons] at ih ⊢
    rw [ih, String.append_assoc]

theorem intercalate_append (s a b : String) (l1 l2 : List String) :
    s.intercalate ((a :: l1) ++ (b :: l2)) = s.intercalate (a :: l1) ++ s ++ s.intercalate (b :: l2) := by
  rw [List.cons_append, intercalate_cons, intercalate_cons, intercalate_cons, List.map_append,
    catAll_append]
  simp only [List.map_cons, catAll, List.foldr_cons, String.append_assoc]

/-! ### The map `orderedQubits` -/

theorem keys_emplace_mem (k : Qubit) (v : QubitOrControl) (m : OrderedQubits) (q : Qubit) :
    q ∈ keys (emplace k v m) ↔ q = k ∨ q ∈ keys m := by
  induction m with
  | nil => simp [emplace, keys]
  | cons e rest ih =>
    simp only [emplace]
    split
    · simp [keys]
    · split
      · rename_i h1 h2
        simp only [keys, List.map_cons, List.mem_cons]
        constructor
        · exact Or.inr
        · rintro (h | h)
          · exact Or.inl (h.trans h2)
          · exact h
      · simp only [keys, List.map_cons, List.mem_cons] at ih ⊢
        rw [ih]
        tauto

theorem keys_emplace_sorted (k : Qubit) (v : QubitOrControl) (m : OrderedQubits)
    (h : (keys m).Sorted (· < ·)) : (keys (emplace k v m)).Sorted (· < ·) := by
  induction m with
  | nil => simp [emplace, keys]
  | cons e rest ih =>
    have hrest : (keys rest).Sorted (· < ·) := (List.sorted_cons.mp h).2
    have hhead : ∀ b ∈ keys rest, e.1 < b := (List.sorted_cons.mp h).1
    simp only [emplace]
    split
    · rename_i hlt
      refine List.sorted_cons.mpr ⟨fun b hb => ?_, h⟩
      rcases List.mem_cons.mp hb with hb | hb
      · exact hb ▸ hlt
      · exact lt_trans hlt (hhead b hb)
    · split
      · exact h
      · rename_i h1 h2
        refine List.sorted_cons.mpr ⟨fun b hb => ?_, ih hrest⟩
        rcases (keys_emplace_mem k v rest b).mp hb with hb | hb
        · rw [hb]; exact lt_of_le_of_ne (not_lt.mp h1) (fun h => h2 h.symm)
        · exact hhead b hb

theorem dumpQubitTags_snd (controls : Controls) (targets : Targets) (out : String) :
    (dumpQubitTags controls targets out).2 = orderedQubitsOf controls targets := by
  unfold dumpQubitTags orderedQubitsOf
  have h1 : ∀ (l : Controls) (st : String × OrderedQubits),
      (l.foldl (fun (st : String × OrderedQubits) control =>
        (st.1 ++ "\"Q" ++ toString control.qubit ++ "\", ",
         emplace control.qubit (QubitOrControl.control control) st.2)) st).2
      = l.foldl (fun m control => emplace control.qubit (QubitOrControl.control control) m) st.2 := by
    intro l
    induction l with
    | nil => intro st; rfl
    | cons c l ih => intro st; rw [List.foldl_cons, ih]; rfl
  have h2 : ∀ (l : Targets) (st : String × OrderedQubits),
      (l.foldl (fun (st : String × OrderedQubits) target =>
        (st.1 ++ "\"Q" ++ toString target ++ "\", ",
         emplace target (QubitOrControl.target target) st.2)) st).2
      = l.foldl (fun m target => emplace target (QubitOrControl.target target) m) st.2 := by
    intro l
    induction l with
    | nil => intro st; rfl
    | cons c l ih => intro st; rw [List.foldl_cons, ih]; rfl
  simp only []
  rw [h2, h1]

theorem dumpQubitTags_fst (controls : Controls) (targets : Targets) (out : String) :
    (dumpQubitTags controls targets out).1 = out ++ qubitTags controls targets := by
  unfold dumpQubitTags qubitTags
  have h1 : ∀ (l : Controls) (st : String × OrderedQubits),
      (l.foldl (fun (st : String × OrderedQubits) control =>
        (st.1 ++ "\"Q" ++ toString control.qubit ++ "\", ",
         emplace control.qubit (QubitOrControl.control control) st.2)) st).1
      = st.1 ++ catAll (l.map (fun control => "\"Q" ++ toString control.qubit ++ "\", ")) := by
    intro l
    induction l with
    | nil => intro st; simp [catAll]
    | cons c l ih =>
      intro st
      rw [List.foldl_cons, ih]
      simp only [List.map_cons, catAll, List.foldr_cons, String.append_assoc]
  have h2 : ∀ (l : Targets) (st : String × OrderedQubits),
      (l.foldl (fun (st : String × OrderedQubits) target =>
        (st.1 ++ "\"Q" ++ toString target ++ "\", ",
         emplace target (QubitOrControl.target target) st.2)) st).1
      = st.1 ++ catAll (l.map (fun target => "\"Q" ++ toString target ++ "\", ")) := by
    intro l
    induction l with
    | nil => intro st; simp [catAll]
    | cons c l ih =>
      intro st
      rw [List.foldl_cons, ih]
      simp only [List.map_cons, catAll, List.foldr_cons, String.append_assoc]
  simp only []
  rw [h2, h1, String.append_assoc]

theorem keys_orderedQubitsOf_sorted (controls : Controls) (targets : Targets) :
    (keys (orderedQubitsOf controls targets)).Sorted (· < ·) := by
  unfold orderedQubitsOf
  have h1 : ∀ (l : Controls) (m : OrderedQubits), (keys m).Sorted (· < ·) →
      (keys (l.foldl (fun m control =>
        emplace control.qubit (QubitOrControl.control control) m) m)).Sorted (· < ·) := by
    intro l
    induction l with
    | nil => intro m h; exact h
    | cons c l ih => intro m h; exact ih _ (keys_emplace_sorted _ _ _ h)
  have h2 : ∀ (l : Targets) (m : OrderedQubits), (keys m).Sorted (· < ·) →
      (keys (l.foldl (fun m target =>
        emplace target (QubitOrControl.target target) m) m)).Sorted (· < ·) := by
    intro l
    induction l with
    | nil => intro m h; exact h
    | cons c l ih => intro m h; exact ih _ (keys_emplace_sorted _ _ _ h)
  exact h2 _ _ (h1 _ _ (by simp [keys]))

theorem keys_orderedQubitsOf_mem (controls : Controls) (targets : Targets) (q : Qubit) :
    q ∈ keys (orderedQubitsOf controls targets) ↔
      q ∈ controls.map Control.qubit ∨ q ∈ targets := by
  unfold orderedQubitsOf
  have h1 : ∀ (l : Controls) (m : OrderedQubits),
      q ∈ keys (l.foldl (fun m control =>
        emplace control.qubit (QubitOrControl.control control) m) m) ↔
      q ∈ l.map Control.qubit ∨ q ∈ keys m := by
    intro l
    induction l with
    | nil => intro m; simp
    | cons c l ih =>
      intro m
      rw [List.foldl_cons, ih, keys_emplace_mem, List.map_cons, List.mem_cons]
      tauto
  have h2 : ∀ (l : Targets) (m : OrderedQubits),
      q ∈ keys (l.foldl (fun m target =>
        emplace target (QubitOrControl.target target) m) m) ↔ q ∈ l ∨ q ∈ keys m := by
    intro l
    induction l with
    | nil => intro m; simp
    | cons c l ih =>
      intro m
      rw [List.foldl_cons, ih, keys_emplace_mem, List.mem_cons]
      tauto
  rw [h2, h1]
  simp only [keys, List.map_nil, List.not_mem_nil, or_false]
  tauto

/-! ### The counters -/

theorem length_bump (inds : List Nat) (k : Qubit) : (bump inds k).length = inds.length := by
  simp [bump]

theorem getD_bump_ne (inds : List Nat) {k q : Qubit} (h : q ≠ k) :
    (bump inds k).getD q 0 = inds.getD q 0 := by
  simp [bump, List.getD_eq_getElem?_getD, List.getElem?_set_ne (Ne.symm h)]

theorem getD_bump_self (inds : List Nat) {k : Qubit} (h : k < inds.length) :
    (bump inds k).getD k 0 = wrapIncr (inds.getD k 0) := by
  simp [bump, List.getD_eq_getElem?_getD, List.getElem?_set_self, h]

theorem length_foldl_bump (ks : List Qubit) (inds : List Nat) :
    (ks.foldl bump inds).length = inds.length := by
  induction ks generalizing inds with
  | nil => rfl
  | cons k ks ih => rw [List.foldl_cons, ih, length_bump]

theorem getD_foldl_bump (ks : List Qubit) (inds : List Nat) (hnd : ks.Nodup)
    (hlt : ∀ k ∈ ks, k < inds.length) (q : Qubit) :
    (ks.foldl bump inds).getD q 0
      = if q ∈ ks then wrapIncr (inds.getD q 0) else inds.getD q 0 := by
  induction ks generalizing inds with
  | nil => simp
  | cons k ks ih =>
    have hk : k ∉ ks := (List.nodup_cons.mp hnd).1
    rw [List.foldl_cons, ih (bump inds k) (List.nodup_cons.mp hnd).2
      (fun k' hk' => by rw [length_bump]; exact hlt k' (List.mem_cons_of_mem _ hk'))]
    by_cases hq : q = k
    · subst hq
      rw [if_neg hk, getD_bump_self inds (hlt q (List.mem_cons_self _ _)),
        if_pos (List.mem_cons_self _ _)]
    · have hmem : q ∈ k :: ks ↔ q ∈ ks := by simp [hq]
      rw [getD_bump_ne inds hq]
      simp only [hmem]

/-- The access `inds[q]` for `q` below the size of the vector. -/
theorem getElem?_of_lt {inds : List Nat} {q : Nat} (h : q < inds.length) :
    inds[q]? = some (inds.getD q 0) := by
  simp [List.getD_eq_getElem?_getD, List.getElem?_eq_getElem h]

theorem indexStep_eq (st : IndexState) (e : Qubit × QubitOrControl)
    (hlt : e.1 < st.inds.length) :
    indexStep st e = .ok
      { ssIn := st.ssIn ++ (", " ++ legName e.1 (st.inds.getD e.1 0))
        ssOut := st.ssOut ++ (", " ++ legName e.1 (wrapIncr (st.inds.getD e.1 0)))
        inds := bump st.inds e.1 } := by
  have h : ", \"q" = ", " ++ "\"q" := by decide
  simp only [indexStep, getElem?_of_lt hlt, legName, bump, h, String.append_assoc]

/-- A round of the loop for a qubit without a counter has no defined result. -/
theorem indexStep_out_of_range (st : IndexState) (e : Qubit × QubitOrControl)
    (hge : st.inds.length ≤ e.1) : indexStep st e = .error DumpError.undefinedBehaviour := by
  simp only [indexStep, List.getElem?_eq_none hge]

theorem foldlM_indexStep (l : OrderedQubits) (st : IndexState) (hnd : (keys l).Nodup)
    (hlt : ∀ q ∈ keys l, q < st.inds.length) :
    l.foldlM indexStep st = .ok
      { ssIn := st.ssIn ++
          catAll ((keys l).map (fun q => ", " ++ legName q (st.inds.getD q 0)))
        ssOut := st.ssOut ++
          catAll ((keys l).map (fun q => ", " ++ legName q (wrapIncr (st.inds.getD q 0))))
        inds := (keys l).foldl bump st.inds } := by
  induction l generalizing st with
  | nil => simp [keys, catAll, pure, Except.pure]
  | cons e l ih =>
    have hk : e.1 ∉ keys l := (List.nodup_cons.mp hnd).1
    have he : e.1 < st.inds.length := hlt e.1 (by simp [keys])
    have hcongr : ∀ q ∈ keys l, (bump st.inds e.1).getD q 0 = st.inds.getD q 0 :=
      fun q hq => getD_bump_ne st.inds (fun h => hk (h ▸ hq))
    rw [List.foldlM_cons, indexStep_eq st e he]
    simp only [bind, Except.bind]
    rw [ih _ (List.nodup_cons.mp hnd).2
      (fun q hq => by
        show q < (bump st.inds e.1).length
        rw [length_bump]
        exact hlt q (by simp only [keys, List.map_cons, List.mem_cons] at hq ⊢; exact Or.inr hq))]
    simp only [keys, List.map_cons, List.foldl_cons, catAll, List.foldr_cons,
      String.append_assoc]
    have e1 : List.map (fun q => ", " ++ legName q ((bump st.inds e.1).getD q 0)) (keys l)
        = List.map (fun q => ", " ++ legName q (st.inds.getD q 0)) (keys l) :=
      List.map_congr_left (fun q hq => by rw [hcongr q hq])
    have e2 : List.map (fun q => ", " ++ legName q (wrapIncr ((bump st.inds e.1).getD q 0)))
          (keys l)
        = List.map (fun q => ", " ++ legName q (wrapIncr (st.inds.getD q 0))) (keys l) :=
      List.map_congr_left (fun q hq => by rw [hcongr q hq])
    simp only [keys] at e1 e2
    rw [e1, e2]

/-- A loop that returns has found a counter for every qubit. -/
theorem foldlM_indexStep_bound (l : OrderedQubits) (st st' : IndexState)
    (h : l.foldlM indexStep st = .ok st') : ∀ q ∈ keys l, q < st.inds.length := by
  induction l generalizing st with
  | nil => intro q hq; simp [keys] at hq
  | cons e l ih =>
    rw [List.foldlM_cons] at h
    by_cases he : e.1 < st.inds.length
    · rw [indexStep_eq st e he] at h
      simp only [bind, Except.bind] at h
      have := ih _ h
      intro q hq
      simp only [keys, List.map_cons, List.mem_cons] at hq
      rcases hq with rfl | hq
      · exact he
      · have hq' := this q (by simpa [keys] using hq)
        simpa [length_bump] using hq'
    · rw [indexStep_out_of_range st e (Nat.le_of_not_lt he)] at h
      simp only [bind, Except.bind] at h
      cases h

theorem dumpIndices_spec (m : OrderedQubits) (inds : List Nat) (hnd : (keys m).Nodup)
    (hne : m ≠ []) (hlt : ∀ q ∈ keys m, q < inds.length) :
    ∃ ix, dumpIndices m inds = .ok ix ∧
      ix.ssIn = ", ".intercalate ((keys m).reverse.map (fun q => legName q (inds.getD q 0))) ∧
      ix.ssOut = ", ".intercalate
        ((keys m).reverse.map (fun q => legName q (wrapIncr (inds.getD q 0)))) ∧
      ix.inds = (keys m).reverse.foldl bump inds := by
  unfold dumpIndices
  have hrev : (keys m).reverse = keys m.reverse := by simp [keys, List.map_reverse]
  rw [hrev]
  have hnd' : (keys m.reverse).Nodup := by rw [← hrev]; exact List.nodup_reverse.mpr hnd
  have hlt' : ∀ q ∈ keys m.reverse, q < inds.length := by
    intro q hq
    rw [← hrev, List.mem_reverse] at hq
    exact hlt q hq
  cases hm : m.reverse with
  | nil => exact absurd (List.reverse_eq_nil_iff.mp hm) hne
  | cons e rest =>
    rw [hm] at hnd' hlt'
    have hk : e.1 ∉ keys rest := (List.nodup_cons.mp hnd').1
    have he : e.1 < inds.length := hlt' e.1 (by simp [keys])
    have hcongr : ∀ q ∈ keys rest, (bump inds e.1).getD q 0 = inds.getD q 0 :=
      fun q hq => getD_bump_ne inds (fun h => hk (h ▸ hq))
    simp only [getElem?_of_lt he]
    rw [foldlM_indexStep _ _ (List.nodup_cons.mp hnd').2
      (fun q hq => by
        show q < (bump inds e.1).length
        rw [length_bump]
        exact hlt' q (by simp only [keys, List.map_cons, List.mem_cons] at hq ⊢; exact Or.inr hq))]
    refine ⟨_, rfl, ?_, ?_, ?_⟩
    · simp only [keys, List.map_cons, intercalate_cons, List.map_map]
      congr 2
      apply List.map_congr_left
      intro a ha
      have := hcongr a.1 (List.mem_map_of_mem Prod.fst ha)
      simp only [Function.comp, bump] at this ⊢
      rw [this]
    · simp only [keys, List.map_cons, intercalate_cons, List.map_map]
      congr 2
      apply List.map_congr_left
      intro a ha
      have := hcongr a.1 (List.mem_map_of_mem Prod.fst ha)
      simp only [Function.comp, bump] at this ⊢
      rw [this]
    · rfl

/-- An index generation that returns has found the map non-empty and a counter for every
qubit of it. -/
theorem dumpIndices_bound (m : OrderedQubits) (inds : List Nat) (ix : IndexState)
    (h : dumpIndices m inds = .ok ix) : m ≠ [] ∧ ∀ q ∈ keys m, q < inds.length := by
  unfold dumpIndices at h
  have hrev : (keys m).reverse = keys m.reverse := by simp [keys, List.map_reverse]
  cases hm : m.reverse with
  | nil => rw [hm] at h; cases h
  | cons e rest =>
    rw [hm] at h
    simp only [] at h
    refine ⟨fun hnil => (by rw [hnil] at hm; cases hm), ?_⟩
    by_cases he : e.1 < inds.length
    · simp only [getElem?_of_lt he] at h
      have hb := foldlM_indexStep_bound _ _ _ h
      intro q hq
      have hq' : q ∈ keys (e :: rest) := by
        rw [← hm, ← hrev, List.mem_reverse]
        exact hq
      simp only [keys, List.map_cons, List.mem_cons] at hq'
      rcases hq' with rfl | hq'
      · exact he
      · have := hb q (by simpa [keys] using hq')
        simpa [bump] using this
    · simp only [List.getElem?_eq_none (Nat.le_of_not_lt he)] at h
      cases h


/-! ### Loops that only append to the stream -/

theorem foldl_append_only {A : Type} (f : String → A → String) (g : A → String)
    (h : ∀ out a, f out a = out ++ g a) (l : List A) (out : String) :
    l.foldl f out = out ++ catAll (l.map g) := by
  induction l generalizing out with
  | nil => simp [catAll]
  | cons a l ih =>
    rw [List.foldl_cons, ih, h]
    simp only [List.map_cons, catAll, List.foldr_cons, String.append_assoc]

theorem dumpDimensions_append (localQubits : Nat) (out : String) :
    dumpDimensions localQubits out = out ++ dumpDimensions localQubits "" := by
  have h : ∀ (out : String) (q : Nat),
      (if q ≠ 0 then out ++ ", " else out) ++ "2" ++ ", " ++ "2"
        = out ++ ((if q ≠ 0 then ", " else "") ++ "2" ++ ", " ++ "2") := by
    intro out q
    split <;> simp [String.append_assoc]
  unfold dumpDimensions
  rw [foldl_append_only _ _ h, foldl_append_only _ _ h, String.empty_append]

theorem dumpData_append (dd : Package F S) (localMatrix : List (List (F × F))) (out : String) :
    dumpData dd localMatrix out = out ++ dumpData dd localMatrix "" := by
  have hin : ∀ (row : Nat) (out : String) (c : Nat × (F × F)),
      (if row ≠ 0 ∨ c.1 ≠ 0 then out ++ ", " else out)
          ++ "[" ++ dd.showFp c.2.1 ++ ", " ++ dd.showFp c.2.2 ++ "]"
        = out ++ ((if row ≠ 0 ∨ c.1 ≠ 0 then ", " else "")
          ++ "[" ++ dd.showFp c.2.1 ++ ", " ++ dd.showFp c.2.2 ++ "]") := by
    intro row out c
    split <;> simp [String.append_assoc]
  have hout : ∀ (out : String) (r : Nat × List (F × F)),
      r.2.enum.foldl
        (fun out (c : Nat × (F × F)) =>
          (if r.1 ≠ 0 ∨ c.1 ≠ 0 then out ++ ", " else out)
            ++ "[" ++ dd.showFp c.2.1 ++ ", " ++ dd.showFp c.2.2 ++ "]") out
        = out ++ catAll (r.2.enum.map (fun c => (if r.1 ≠ 0 ∨ c.1 ≠ 0 then ", " else "")
          ++ "[" ++ dd.showFp c.2.1 ++ ", " ++ dd.showFp c.2.2 ++ "]")) :=
    fun out r => foldl_append_only _ _ (hin r.1) _ out
  unfold dumpData
  rw [foldl_append_only _ _ hout, foldl_append_only _ _ hout, String.empty_append]

/-- Claim C10, amended: for a standard operation with at least one involved qubit, all of them
below the length of the counter vector, `dumpTensor` returns; there is a strictly descending
list `desc` of exactly the involved qubits such that the stream receives, after the opening
bracket and the tags, the index list made of the in-legs `q<q>_<c>` for `q` in `desc` followed
by the out-legs `q<q>_<c'>` for `q` in `desc`, where `c` is the counter of `q` before the call
and `c'` is `c + 1` modulo `2^64`, then the dimensions and the data; afterwards the vector of
counters has its old length, the counter of every involved qubit is `c'` and every other
counter is unchanged. -/
theorem dumpTensor_index_list (dd : Package F S) (controls : Controls) (targets : Targets)
    (type : OpType) (params : List F) (st : DumpState)
    (hne : controls ≠ [] ∨ targets ≠ [])
    (hlt : ∀ q, q ∈ controls.map Control.qubit ∨ q ∈ targets → q < st.inds.length) :
    ∃ (desc : List Qubit) (st' : DumpState),
      desc.Sorted (· > ·) ∧
      (∀ q, q ∈ desc ↔ q ∈ controls.map Control.qubit ∨ q ∈ targets) ∧
      dumpTensor dd (.standard controls targets type params) st = .ok st' ∧
      st'.out = st.out ++ "["
        ++ ((dumpQubitTags controls targets
              ("[\"" ++ dd.getName (.standard controls targets type params) ++ "\", ")).1
            ++ "\"GATE" ++ toString st.gateIdx ++ "\"], ")
        ++ ("[" ++ ", ".intercalate
              (desc.map (fun q => legName q (st.inds.getD q 0))
                ++ desc.map (fun q => legName q ((st.inds.getD q 0 + 1) % 2 ^ 64))) ++ "], ")
        ++ (dumpDimensions (targets.length + controls.length) "[" ++ "], ")
        ++ (dumpData dd (dd.getMatrix
              (localOperation (.standard controls targets type params)
                (dumpQubitTags controls targets "").2)
              (targets.length + controls.length)) "[" ++ "]")
        ++ "]" ∧
      st'.inds.length = st.inds.length ∧
      ∀ q, st'.inds.getD q 0
        = if q ∈ desc then (st.inds.getD q 0 + 1) % 2 ^ 64 else st.inds.getD q 0 := by
  have hsorted := keys_orderedQubitsOf_sorted controls targets
  have hmem := keys_orderedQubitsOf_mem controls targets
  have hnd : (keys (orderedQubitsOf controls targets)).Nodup := hsorted.nodup
  have hnonempty : orderedQubitsOf controls targets ≠ [] := by
    intro h
    have hnone : ∀ q, ¬ (q ∈ controls.map Control.qubit ∨ q ∈ targets) := by
      intro q hq
      have := (hmem q).mpr hq
      rw [h] at this
      simp [keys] at this
    rcases hne with hc | ht
    · cases controls with
      | nil => exact hc rfl
      | cons c cs => exact hnone c.qubit (Or.inl (by simp))
    · cases targets with
      | nil => exact ht rfl
      | cons t ts => exact hnone t (Or.inr (by simp))
  obtain ⟨ix, hix, hin, hout, hinds⟩ :=
    dumpIndices_spec (orderedQubitsOf controls targets) st.inds hnd hnonempty
      (fun q hq => hlt q ((hmem q).mp hq))
  have hdesc : ∀ q, q ∈ (keys (orderedQubitsOf controls targets)).reverse ↔
      q ∈ controls.map Control.qubit ∨ q ∈ targets := fun q => by
    rw [List.mem_reverse]; exact hmem q
  obtain ⟨a, l, hal⟩ : ∃ a l, (keys (orderedQubitsOf controls targets)).reverse = a :: l := by
    cases h : (keys (orderedQubitsOf controls targets)).reverse with
    | nil =>
      have := List.reverse_eq_nil_iff.mp h
      simp [keys] at this
      exact absurd this hnonempty
    | cons a l => exact ⟨a, l, rfl⟩
  have hrun : ∃ out, dumpTensor dd (.standard controls targets type params) st
      = .ok { out := out, inds := ix.inds, gateIdx := wrapIncr st.gateIdx } ∧
      out = dumpData dd (dd.getMatrix
          (localOperation (.standard controls targets type params)
            (orderedQubitsOf controls targets)) (targets.length + controls.length))
        (dumpDimensions (targets.length + controls.length)
          ((dumpQubitTags controls targets (st.out ++ "[" ++ "[\""
            ++ dd.getName (.standard controls targets type params) ++ "\", ")).1
            ++ "\"GATE" ++ toString st.gateIdx ++ "\"], "
            ++ "[" ++ ix.ssIn ++ ", " ++ ix.ssOut ++ "], " ++ "[") ++ "], " ++ "[") ++ "]"
        ++ "]" := by
    refine ⟨_, ?_, rfl⟩
    simp only [dumpTensor, dumpStandard, Operation.getControls, Operation.getTargets,
      dumpQubitTags_snd, hix]
  obtain ⟨out, hrun, hout'⟩ := hrun
  refine ⟨(keys (orderedQubitsOf controls targets)).reverse,
    { out := out, inds := ix.inds, gateIdx := wrapIncr st.gateIdx },
    List.pairwise_reverse.mpr hsorted, hdesc, hrun, ?_, ?_, ?_⟩
  · simp only [wrapIncr] at hout
    simp only [hout', dumpQubitTags_snd, dumpQubitTags_fst, hin, hout]
    rw [dumpDimensions_append, dumpData_append]
    rw [dumpDimensions_append _ "[", dumpData_append _ _ "["]
    rw [hal]
    simp only [List.map_cons]
    rw [intercalate_append]
    simp only [String.append_assoc]
  · show ix.inds.length = _
    rw [hinds, length_foldl_bump]
  · intro q
    show ix.inds.getD q 0 = _
    rw [hinds]
    exact getD_foldl_bump _ _ (List.nodup_reverse.mpr hnd)
      (fun k hk => hlt k ((hdesc k).mp hk)) q


/-- Claim C10, amended, on an example: a gate with control 3 and target 1 and the counters
0, 0, 0, 7. -/
theorem dumpTensor_index_list_witness :
    (([⟨3, Polarity.pos⟩] : Controls) ≠ [] ∨ ([1] : Targets) ≠ []) ∧
    (∀ q, q ∈ ([⟨3, Polarity.pos⟩] : Controls).map Control.qubit ∨ q ∈ ([1] : Targets) →
      q < exampleDumpState.inds.length) ∧
    ∃ (desc : List Qubit) (st' : DumpState),
      desc.Sorted (· > ·) ∧
      (∀ q, q ∈ desc ↔ q ∈ ([⟨3, Polarity.pos⟩] : Controls).map Control.qubit ∨
        q ∈ ([1] : Targets)) ∧
      dumpTensor examplePackage exampleGate exampleDumpState = Except.ok st' ∧
      st'.out = exampleDumpState.out ++ "["
        ++ ((dumpQubitTags [⟨3, Polarity.pos⟩] [1]
              ("[\"" ++ examplePackage.getName exampleGate ++ "\", ")).1
            ++ "\"GATE" ++ toString exampleDumpState.gateIdx ++ "\"], ")
        ++ ("[" ++ ", ".intercalate
              (desc.map (fun q => legName q (exampleDumpState.inds.getD q 0))
                ++ desc.map
                  (fun q => legName q ((exampleDumpState.inds.getD q 0 + 1) % 2 ^ 64)))
            ++ "], ")
        ++ (dumpDimensions (([1] : Targets).length + ([⟨3, Polarity.pos⟩] : Controls).length)
              "[" ++ "], ")
        ++ (dumpData examplePackage (examplePackage.getMatrix
              (localOperation exampleGate (dumpQubitTags [⟨3, Polarity.pos⟩] [1] "").2)
              (([1] : Targets).length + ([⟨3, Polarity.pos⟩] : Controls).length)) "[" ++ "]")
        ++ "]" ∧
      st'.inds.length = exampleDumpState.inds.length ∧
      ∀ q, st'.inds.getD q 0 =
        if q ∈ desc then (exampleDumpState.inds.getD q 0 + 1) % 2 ^ 64
        else exampleDumpState.inds.getD q 0 := by
  have hlt : ∀ q, q ∈ ([⟨3, Polarity.pos⟩] : Controls).map Control.qubit ∨ q ∈ ([1] : Targets) →
      q < exampleDumpState.inds.length := by
    intro q hq
    have h4 : exampleDumpState.inds.length = 4 := rfl
    rw [h4]
    rcases hq with hq | hq
    · simp only [List.map_cons, List.map_nil, List.mem_singleton] at hq
      rw [hq]
      decide
    · simp only [List.mem_singleton] at hq
      rw [hq]
      decide
  exact ⟨Or.inl (by decide), hlt,
    dumpTensor_index_list examplePackage [⟨3, Polarity.pos⟩] [1] OpType.x [] exampleDumpState
      (Or.inl (by decide)) hlt⟩

set_option maxRecDepth 16384

/-- The stream and the counters after the export of the example gate. -/
theorem dumpTensor_example :
    ∃ st', dumpTensor examplePackage exampleGate exampleDumpState = Except.ok st' ∧
      st'.out = "[[\"x\", \"Q3\", \"Q1\", \"GATE4\"], [\"q3_7\", \"q1_0\", \"q3_8\", \"q1_1\"], "
        ++ "[2, 2, 2, 2], [[1, 0], [1, 0], [1, 0], [1, 0], [1, 0], [1, 0], [1, 0], [1, 0], "
        ++ "[1, 0], [1, 0], [1, 0], [1, 0], [1, 0], [1, 0], [1, 0], [1, 0]]]" ∧
      st'.inds = [0, 1, 0, 8] ∧ st'.gateIdx = 5 :=
  ⟨_, rfl, rfl, rfl, rfl⟩

/-- Claim C10 fails as stated: with the counter `c = 2^64 - 1` for qubit 3, the gate with
control 3 and target 1 gets the out-leg `q3_0`, not `q3_<c+1>`, and the counter of qubit 3
after the call is 0, not `c + 1`. -/
theorem dumpTensor_counter_wraps :
    wrappingDumpState.inds.getD 3 0 = 2 ^ 64 - 1 ∧
    (∀ q, q ∈ ([⟨3, Polarity.pos⟩] : Controls).map Control.qubit ∨ q ∈ ([1] : Targets) →
      q < wrappingDumpState.inds.length) ∧
    ∃ st', dumpTensor examplePackage exampleGate wrappingDumpState = Except.ok st' ∧
      st'.out = "[[\"x\", \"Q3\", \"Q1\", \"GATE18446744073709551615\"], "
        ++ "[\"q3_18446744073709551615\", \"q1_0\", \"q3_0\", \"q1_1\"], "
        ++ "[2, 2, 2, 2], [[1, 0], [1, 0], [1, 0], [1, 0], [1, 0], [1, 0], [1, 0], [1, 0], "
        ++ "[1, 0], [1, 0], [1, 0], [1, 0], [1, 0], [1, 0], [1, 0], [1, 0]]]" ∧
      st'.inds = [0, 1, 0, 0] ∧
      st'.inds.getD 3 0 ≠ wrappingDumpState.inds.getD 3 0 + 1 ∧
      legName 3 0 ≠ legName 3 (wrappingDumpState.inds.getD 3 0 + 1) := by
  refine ⟨rfl, ?_, _, rfl, rfl, rfl, by decide, by decide⟩
  intro q hq
  have h4 : wrappingDumpState.inds.length = 4 := rfl
  rw [h4]
  rcases hq with hq | hq
  · simp only [List.map_cons, List.map_nil, List.mem_singleton] at hq
    rw [hq]
    decide
  · simp only [List.mem_singleton] at hq
    rw [hq]
    decide

/-! ### The dimension list and the tensor data -/

theorem catAll_cons (a : String) (l : List String) : catAll (a :: l) = a ++ catAll l := rfl

theorem catAll_replicate_succ (n : Nat) (x : String) :
    catAll (List.replicate (n + 1) x) = x ++ catAll (List.replicate n x) := by
  simp [catAll, List.replicate_succ]

theorem catAll_replicate_double (n : Nat) (x : String) :
    catAll (List.replicate (2 * n) x) = catAll (List.replicate n (x ++ x)) := by
  induction n with
  | zero => rfl
  | succ n ih =>
    have h : 2 * (n + 1) = (2 * n + 1) + 1 := by omega
    rw [h, catAll_replicate_succ, catAll_replicate_succ, catAll_replicate_succ, ih,
      String.append_assoc]

/-- The text written by the loop over the tensor dimensions. -/
theorem dumpDimensions_eq (localQubits : Nat) :
    dumpDimensions localQubits "" = ", ".intercalate (List.replicate (2 * localQubits) "2") := by
  have h : ∀ (out : String) (q : Nat),
      (if q ≠ 0 then out ++ ", " else out) ++ "2" ++ ", " ++ "2"
        = out ++ ((if q ≠ 0 then ", " else "") ++ "2" ++ ", " ++ "2") := by
    intro out q
    split <;> simp [String.append_assoc]
  unfold dumpDimensions
  rw [foldl_append_only _ _ h, String.empty_append]
  cases localQubits with
  | zero => rfl
  | succ k =>
    have h2 : 2 * (k + 1) = (2 * k + 1) + 1 := by omega
    rw [h2, List.replicate_succ, intercalate_cons, List.map_replicate, catAll_replicate_succ,
      catAll_replicate_double, List.range_succ_eq_map, List.map_cons, List.map_map]
    have hconst : List.map ((fun q => (if q ≠ 0 then ", " else "") ++ "2" ++ ", " ++ "2") ∘ Nat.succ)
        (List.range k) = List.replicate k (", " ++ "2" ++ (", " ++ "2")) := by
      rw [List.eq_replicate_iff]
      refine ⟨by simp, ?_⟩
      intro b hb
      obtain ⟨q, -, rfl⟩ := List.mem_map.mp hb
      simp [String.append_assoc]
    rw [hconst]
    simp only [catAll, List.foldr_cons, if_neg (not_not.mpr rfl), String.empty_append,
      String.append_assoc]

theorem map_enumFrom_snd {A B : Type} (f : A → B) (l : List A) (n : Nat) :
    (l.enumFrom n).map (fun c => f c.2) = l.map f := by
  induction l generalizing n with
  | nil => rfl
  | cons a l ih => simp [List.enumFrom_cons, ih]

theorem catAll_flatten_map {A : Type} (f : A → String) (rows : List (List A)) :
    catAll (rows.map (fun r => catAll (r.map f))) = catAll (rows.flatten.map f) := by
  induction rows with
  | nil => rfl
  | cons r rows ih =>
    rw [List.map_cons, List.flatten_cons, List.map_append, catAll_append, ← ih]
    simp [catAll]

/-- The text written by the two loops over the matrix, when its first row is not empty. -/
theorem dumpData_eq (dd : Package F S) (e0 : F × F) (row0 : List (F × F))
    (rows : List (List (F × F))) :
    dumpData dd ((e0 :: row0) :: rows) ""
      = ", ".intercalate ((rowMajor ((e0 :: row0) :: rows)).map (pairText dd)) := by
  have hin : ∀ (row : Nat) (out : String) (c : Nat × (F × F)),
      (if row ≠ 0 ∨ c.1 ≠ 0 then out ++ ", " else out)
          ++ "[" ++ dd.showFp c.2.1 ++ ", " ++ dd.showFp c.2.2 ++ "]"
        = out ++ ((if row ≠ 0 ∨ c.1 ≠ 0 then ", " else "") ++ pairText dd c.2) := by
    intro row out c
    split <;> simp only [pairText, String.append_assoc, String.empty_append]
  have hout : ∀ (out : String) (r : Nat × List (F × F)),
      r.2.enum.foldl
        (fun out (c : Nat × (F × F)) =>
          (if r.1 ≠ 0 ∨ c.1 ≠ 0 then out ++ ", " else out)
            ++ "[" ++ dd.showFp c.2.1 ++ ", " ++ dd.showFp c.2.2 ++ "]") out
        = out ++ catAll (r.2.enum.map (fun c => (if r.1 ≠ 0 ∨ c.1 ≠ 0 then ", " else "")
          ++ pairText dd c.2)) :=
    fun out r => foldl_append_only _ _ (hin r.1) _ out
  unfold dumpData
  rw [foldl_append_only _ _ hout, String.empty_append]
  have hcols : ∀ (row n : Nat) (r : List (F × F)), (row ≠ 0 ∨ n ≠ 0) →
      (r.enumFrom n).map (fun c => (if row ≠ 0 ∨ c.1 ≠ 0 then ", " else "") ++ pairText dd c.2)
        = r.map (fun e => ", " ++ pairText dd e) := by
    intro row n r
    induction r generalizing n with
    | nil => intro _; rfl
    | cons a r ih =>
      intro hn
      rw [List.enumFrom_cons, List.map_cons, List.map_cons, ih (n + 1) (Or.inr (Nat.succ_ne_zero n))]
      simp only [if_pos hn]
  have hrows : ∀ (n : Nat) (rs : List (List (F × F))), n ≠ 0 →
      (rs.enumFrom n).map (fun r => catAll ((List.enumFrom 0 r.2).map
          (fun c => (if r.1 ≠ 0 ∨ c.1 ≠ 0 then ", " else "") ++ pairText dd c.2)))
        = rs.map (fun r => catAll (r.map (fun e => ", " ++ pairText dd e))) := by
    intro n rs
    induction rs generalizing n with
    | nil => intro _; rfl
    | cons a rs ih =>
      intro hn
      rw [List.enumFrom_cons, List.map_cons, List.map_cons, ih (n + 1) (Nat.succ_ne_zero n)]
      simp only [hcols n 0 a (Or.inl hn)]
  simp only [List.enum, List.enumFrom_cons, List.map_cons, rowMajor, List.flatten_cons,
    List.cons_append, intercalate_cons]
  rw [hrows (0 + 1) rows (by decide), hcols 0 (0 + 1) row0 (Or.inr (by decide)),
    catAll_cons, catAll_cons, catAll_flatten_map, List.map_map, List.map_append, catAll_append]
  simp only [if_neg (show ¬ ((0 : Nat) ≠ 0 ∨ (0 : Nat) ≠ 0) from by decide),
    String.empty_append, String.append_assoc, Function.comp_def]

/-! ### The branch of the standard operations -/

theorem orderedQubitsOf_ne_nil (controls : Controls) (targets : Targets)
    (hne : controls ≠ [] ∨ targets ≠ []) : orderedQubitsOf controls targets ≠ [] := by
  intro h
  have hnone : ∀ q, ¬ (q ∈ controls.map Control.qubit ∨ q ∈ targets) := by
    intro q hq
    have := (keys_orderedQubitsOf_mem controls targets q).mpr hq
    rw [h] at this
    simp [keys] at this
  rcases hne with hc | ht
  · cases controls with
    | nil => exact hc rfl
    | cons c cs => exact hnone c.qubit (Or.inl (by simp))
  · cases targets with
    | nil => exact ht rfl
    | cons t ts => exact hnone t (Or.inr (by simp))

theorem dumpIndices_ok (controls : Controls) (targets : Targets) (inds : List Nat)
    (hne : controls ≠ [] ∨ targets ≠ [])
    (hlt : ∀ q, q ∈ controls.map Control.qubit ∨ q ∈ targets → q < inds.length) :
    ∃ ix, dumpIndices (orderedQubitsOf controls targets) inds = .ok ix := by
  obtain ⟨ix, hix, -⟩ := dumpIndices_spec (orderedQubitsOf controls targets) inds
    (keys_orderedQubitsOf_sorted controls targets).nodup
    (orderedQubitsOf_ne_nil controls targets hne)
    (fun q hq => hlt q ((keys_orderedQubitsOf_mem controls targets q).mp hq))
  exact ⟨ix, hix⟩

/-- The record written for a standard operation, piece by piece. -/
theorem dumpTensor_standard (dd : Package F S) (controls : Controls) (targets : Targets)
    (type : OpType) (params : List F) (st : DumpState) (ix : IndexState)
    (hix : dumpIndices (orderedQubitsOf controls targets) st.inds = .ok ix) :
    dumpTensor dd (.standard controls targets type params) st = .ok
      { out := st.out ++ "["
          ++ ("[\"" ++ dd.getName (.standard controls targets type params) ++ "\", "
              ++ qubitTags controls targets ++ "\"GATE" ++ toString st.gateIdx ++ "\"], ")
          ++ ("[" ++ ix.ssIn ++ ", " ++ ix.ssOut ++ "], ")
          ++ ("[" ++ dumpDimensions (targets.length + controls.length) "" ++ "], ")
          ++ ("[" ++ dumpData dd (localMatrix dd (.standard controls targets type params)) ""
              ++ "]")
          ++ "]"
        inds := ix.inds
        gateIdx := wrapIncr st.gateIdx } := by
  simp only [dumpTensor, dumpStandard, Operation.getControls, Operation.getTargets,
    dumpQubitTags_snd, hix, localMatrix]
  rw [dumpDimensions_append, dumpData_append, dumpQubitTags_fst]
  simp only [String.append_assoc]

theorem length_flatten_of_rows {A : Type} (m : List (List A)) (n : Nat)
    (h : ∀ r ∈ m, r.length = n) : m.flatten.length = m.length * n := by
  induction m with
  | nil => simp
  | cons r m ih =>
    rw [List.flatten_cons, List.length_append, ih (fun r hr => h r (List.mem_cons_of_mem _ hr)),
      h r (List.mem_cons_self _ _), List.length_cons]
    ring

/-- Claim C13, amended: a standard operation with `k = |controls| + |targets| ≥ 1` involved
qubits, all of them below the length of the counter vector, whose backend matrix has `2^k` rows
of `2^k` entries makes `dumpTensor` return after appending one record
`[tags, indices, dimensions, data]` to the stream: the dimension list is the list of `2k`
entries `2`, the data list has the text `[real, imag]` of every entry of the matrix in
row-major order, these are `4^k` pairs, and the gate counter is incremented once, modulo
`2^64`. -/
theorem dumpTensor_dimensions_and_data (dd : Package F S) (controls : Controls)
    (targets : Targets) (type : OpType) (params : List F) (st : DumpState)
    (hk : 1 ≤ controls.length + targets.length)
    (hlt : ∀ q, q ∈ controls.map Control.qubit ∨ q ∈ targets → q < st.inds.length)
    (hrows : (localMatrix dd (.standard controls targets type params)).length
      = 2 ^ (controls.length + targets.length))
    (hcols : ∀ r ∈ localMatrix dd (.standard controls targets type params),
      r.length = 2 ^ (controls.length + targets.length)) :
    ∃ ix, dumpIndices (orderedQubitsOf controls targets) st.inds = .ok ix ∧
      dumpTensor dd (.standard controls targets type params) st = .ok
        { out := st.out ++ "["
            ++ ("[\"" ++ dd.getName (.standard controls targets type params) ++ "\", "
                ++ qubitTags controls targets ++ "\"GATE" ++ toString st.gateIdx ++ "\"], ")
            ++ ("[" ++ ix.ssIn ++ ", " ++ ix.ssOut ++ "], ")
            ++ ("[" ++ ", ".intercalate
                  (List.replicate (2 * (controls.length + targets.length)) "2") ++ "], ")
            ++ ("[" ++ ", ".intercalate
                  ((rowMajor (localMatrix dd (.standard controls targets type params))).map
                    (pairText dd)) ++ "]")
            ++ "]"
          inds := ix.inds
          gateIdx := (st.gateIdx + 1) % 2 ^ 64 } ∧
      (List.replicate (2 * (controls.length + targets.length)) "2").length
        = 2 * (controls.length + targets.length) ∧
      (rowMajor (localMatrix dd (.standard controls targets type params))).length
        = 4 ^ (controls.length + targets.length) := by
  have hne : controls ≠ [] ∨ targets ≠ [] := by
    cases controls with
    | nil =>
      cases targets with
      | nil => simp at hk
      | cons t ts => exact Or.inr (by simp)
    | cons c cs => exact Or.inl (by simp)
  obtain ⟨ix, hix⟩ := dumpIndices_ok controls targets st.inds hne hlt
  have hpos : 0 < 2 ^ (controls.length + targets.length) := Nat.pow_pos (by decide)
  have hdata : dumpData dd (localMatrix dd (.standard controls targets type params)) ""
      = ", ".intercalate
          ((rowMajor (localMatrix dd (.standard controls targets type params))).map
            (pairText dd)) := by
    cases hm : localMatrix dd (.standard controls targets type params) with
    | nil => rw [hm] at hrows; simp at hrows; omega
    | cons row0 rows =>
      cases hr : row0 with
      | nil =>
        have := hcols row0 (by rw [hm]; exact List.mem_cons_self _ _)
        rw [hr] at this
        simp at this
        omega
      | cons e0 row0 => exact dumpData_eq dd e0 row0 rows
  refine ⟨ix, hix, ?_, List.length_replicate _ _, ?_⟩
  · rw [dumpTensor_standard dd controls targets type params st ix hix, hdata,
      dumpDimensions_eq, Nat.add_comm targets.length controls.length]
    rfl
  · rw [rowMajor, length_flatten_of_rows _ _ hcols, hrows, ← Nat.mul_pow]

/-- Claim C13, amended, on a single-qubit gate: the dimension list is `[2, 2]` and the data
list has four pairs. -/
theorem dumpTensor_dimensions_and_data_witness :
    1 ≤ ([] : Controls).length + ([0] : Targets).length ∧
    (∀ q, q ∈ ([] : Controls).map Control.qubit ∨ q ∈ ([0] : Targets) →
      q < exampleDumpState.inds.length) ∧
    ∃ ix, dumpIndices (orderedQubitsOf [] [0]) exampleDumpState.inds = .ok ix ∧
      dumpTensor examplePackage exampleSingleQubitGate exampleDumpState = .ok
        { out := exampleDumpState.out ++ "["
            ++ ("[\"" ++ examplePackage.getName exampleSingleQubitGate ++ "\", "
                ++ qubitTags [] [0] ++ "\"GATE" ++ toString exampleDumpState.gateIdx ++ "\"], ")
            ++ ("[" ++ ix.ssIn ++ ", " ++ ix.ssOut ++ "], ")
            ++ ("[" ++ ", ".intercalate
                  (List.replicate (2 * (([] : Controls).length + ([0] : Targets).length)) "2")
                ++ "], ")
            ++ ("[" ++ ", ".intercalate
                  ((rowMajor (localMatrix examplePackage exampleSingleQubitGate)).map
                    (pairText examplePackage)) ++ "]")
            ++ "]"
          inds := ix.inds
          gateIdx := (exampleDumpState.gateIdx + 1) % 2 ^ 64 } ∧
      (List.replicate (2 * (([] : Controls).length + ([0] : Targets).length)) "2").length
        = 2 * (([] : Controls).length + ([0] : Targets).length) ∧
      (rowMajor (localMatrix examplePackage exampleSingleQubitGate)).length
        = 4 ^ (([] : Controls).length + ([0] : Targets).length) := by
  have hlt : ∀ q, q ∈ ([] : Controls).map Control.qubit ∨ q ∈ ([0] : Targets) →
      q < exampleDumpState.inds.length := by
    intro q hq
    have h4 : exampleDumpState.inds.length = 4 := rfl
    rw [h4]
    rcases hq with hq | hq
    · simp at hq
    · simp only [List.mem_singleton] at hq
      rw [hq]
      decide
  exact ⟨by decide, hlt,
    dumpTensor_dimensions_and_data examplePackage [] [0] OpType.x [] exampleDumpState
      (by decide) hlt (by decide) (by decide)⟩

/-- Claim C13 fails as stated: a single-qubit gate on qubit 9 has `k = 1` involved qubits, and
with a vector of four counters the access `inds[qubit]` is out of range, so that the call is
undefined and no record is guaranteed. -/
theorem dumpTensor_far_qubit_undefined :
    1 ≤ ([] : Controls).length + ([9] : Targets).length ∧
    exampleDumpState.inds.length = 4 ∧
    dumpTensor examplePackage exampleFarGate exampleDumpState
      = .error DumpError.undefinedBehaviour :=
  ⟨by decide, rfl, rfl⟩

/-- The record of the single-qubit example gate has the dimension list `[2, 2]` and four pairs
of data. -/
theorem dumpTensor_single_qubit_example :
    dumpTensor examplePackage exampleSingleQubitGate exampleDumpState = .ok
      { out := "[[\"x\", \"Q0\", \"GATE4\"], [\"q0_0\", \"q0_1\"], [2, 2], "
          ++ "[[1, 0], [1, 0], [1, 0], [1, 0]]]"
        inds := [1, 0, 0, 7]
        gateIdx := 5 } := rfl

theorem indexStep_not_exception (st : IndexState) (e : Qubit × QubitOrControl)
    (what : String) : indexStep st e ≠ .error (DumpError.exception what) := by
  unfold indexStep
  simp only []
  split <;> intro h <;> cases h

theorem foldlM_indexStep_not_exception (l : OrderedQubits) (st : IndexState) (what : String) :
    l.foldlM indexStep st ≠ .error (DumpError.exception what) := by
  induction l generalizing st with
  | nil => intro h; cases h
  | cons e l ih =>
    rw [List.foldlM_cons]
    cases he : indexStep st e with
    | error err =>
      intro h
      simp only [bind, Except.bind] at h
      cases h
      exact indexStep_not_exception st e what he
    | ok st2 =>
      simp only [bind, Except.bind]
      exact ih st2

theorem dumpIndices_not_exception (m : OrderedQubits) (inds : List Nat) (what : String) :
    dumpIndices m inds ≠ .error (DumpError.exception what) := by
  unfold dumpIndices
  cases hm : m.reverse with
  | nil => intro h; cases h
  | cons e rest =>
    simp only []
    cases hi : inds[e.1]? with
    | none => intro h; cases h
    | some idx => exact foldlM_indexStep_not_exception _ _ _

theorem dumpStandard_not_exception (dd : Package F S) (op : Operation F S) (st : DumpState)
    (what : String) : dumpStandard dd op st ≠ .error (DumpError.exception what) := by
  unfold dumpStandard
  simp only []
  cases h : dumpIndices (dumpQubitTags op.getControls op.getTargets
      (st.out ++ "[" ++ "[\"" ++ dd.getName op ++ "\", ")).2 st.inds with
  | error err =>
    intro h2
    simp only at h2
    cases h2
    exact dumpIndices_not_exception _ _ _ h
  | ok ix => intro h2; cases h2

/-! ### The local operation -/

theorem localFrame_step_sorted (m : OrderedQubits) (st : LocalState)
    (hs : st.localTargets.Sorted (· < ·)) (hb : ∀ t ∈ st.localTargets, t < st.localIdx) :
    (m.foldl
      (fun (st : LocalState) (e : Qubit × QubitOrControl) =>
        match e.2 with
        | .target _ =>
          { st with localTargets := st.localTargets ++ [st.localIdx], localIdx := st.localIdx + 1 }
        | .control control =>
          { st with localControls := setEmplace st.localControls ⟨st.localIdx, control.type⟩,
                    localIdx := st.localIdx + 1 }) st).localTargets.Sorted (· < ·) := by
  induction m generalizing st with
  | nil => exact hs
  | cons e m ih =>
    rw [List.foldl_cons]
    apply ih
    · cases h : e.2 with
      | target q =>
        simp only []
        rw [List.Sorted, List.pairwise_append]
        refine ⟨hs, List.pairwise_singleton _ _, ?_⟩
        intro a ha b hb'
        rw [List.mem_singleton.mp hb']
        exact hb a ha
      | control c => exact hs
    · cases h : e.2 with
      | target q =>
        intro t ht
        simp only [List.mem_append, List.mem_singleton] at ht
        rcases ht with ht | ht
        · exact Nat.lt_succ_of_lt (hb t ht)
        · rw [ht]; exact Nat.lt_succ_self _
      | control c =>
        intro t ht
        exact Nat.lt_succ_of_lt (hb t ht)

theorem localFrame_targets_sorted (m : OrderedQubits) :
    (localFrame m).localTargets.Sorted (· < ·) :=
  localFrame_step_sorted m _ List.sorted_nil (fun _ h => absurd h (List.not_mem_nil _))

/-- Claim C11 fails on the code: the local copy handed to the backend does not keep the order
of the targets. Its target list is strictly ascending for every standard operation, so the
gate with targets `(3, 1)` gets the local targets `(0, 1)`, while the renaming by rank gives
`(1, 0)`. -/
theorem localOperation_sorts_targets (controls : Controls) (targets : Targets) (type : OpType)
    (params : List F) :
    ((localOperation (Operation.standard controls targets type params : Operation F S)
        (dumpQubitTags controls targets "").2).getTargets).Sorted (· < ·) ∧
    localOperation exampleTwoTargetGate (dumpQubitTags [] [3, 1] "").2
      = Operation.standard [] [0, 1] OpType.ecr [] ∧
    renamedOperation exampleTwoTargetGate = Operation.standard [] [1, 0] OpType.ecr [] ∧
    localOperation exampleTwoTargetGate (dumpQubitTags [] [3, 1] "").2
      ≠ renamedOperation exampleTwoTargetGate :=
  ⟨localFrame_targets_sorted _, rfl, rfl,
    fun h => absurd (congrArg Operation.getTargets h) (by decide)⟩

/-- Claim C12 fails on the code: the separator is written before every child but the first,
whether or not the children write a record. A compound of a measurement and an operation
`op` writes the separator and then what `op` writes, so the separator precedes the first
record; a measurement between two gates gives two separators in a row; a trailing empty
compound and a trailing measurement give two separators after the last record. -/
theorem dumpTensor_compound_stray_separator (dd : Package F S) (op : Operation F S)
    (st : DumpState) :
    dumpTensor dd (.compound [.nonUnitary [0] [0] OpType.Measure, op]) st
      = dumpTensor dd op { st with out := st.out ++ ",\n" } ∧
    dumpTensor examplePackage (.compound [exampleMeasurement, exampleSingleQubitGate])
        exampleDumpState = .ok
      { out := ",\n[[\"x\", \"Q0\", \"GATE4\"], [\"q0_0\", \"q0_1\"], [2, 2], "
          ++ "[[1, 0], [1, 0], [1, 0], [1, 0]]]"
        inds := [1, 0, 0, 7]
        gateIdx := 5 } ∧
    dumpTensor examplePackage
        (.compound [exampleSingleQubitGate, exampleMeasurement, exampleSingleQubitGate])
        exampleDumpState = .ok
      { out := "[[\"x\", \"Q0\", \"GATE4\"], [\"q0_0\", \"q0_1\"], [2, 2], "
          ++ "[[1, 0], [1, 0], [1, 0], [1, 0]]],\n,\n"
          ++ "[[\"x\", \"Q0\", \"GATE5\"], [\"q0_1\", \"q0_2\"], [2, 2], "
          ++ "[[1, 0], [1, 0], [1, 0], [1, 0]]]"
        inds := [2, 0, 0, 7]
        gateIdx := 6 } ∧
    dumpTensor examplePackage
        (.compound [exampleSingleQubitGate, .compound [], exampleMeasurement])
        exampleDumpState = .ok
      { out := "[[\"x\", \"Q0\", \"GATE4\"], [\"q0_0\", \"q0_1\"], [2, 2], "
          ++ "[[1, 0], [1, 0], [1, 0], [1, 0]]],\n,\n"
        inds := [1, 0, 0, 7]
        gateIdx := 5 } := by
  refine ⟨?_, rfl, rfl, rfl⟩
  simp [dumpTensor, dumpChildren, dumpOther]
  cases dumpTensor dd op { out := st.out ++ ",\n", inds := st.inds, gateIdx := st.gateIdx } with
  | error err => rfl
  | ok st2 => rfl

/-- Claim C14 fails on the code: the barriers appended by `barrier` are standard operations, so
`dumpTensor` takes its first branch for them: for a target below the length of the counter
vector it writes a record, counts the gate and advances the counter of the qubit. -/
theorem dumpTensor_barrier_writes_record {Var : Type} (dd : Package F S)
    (qc : QuantumComputation F S Var) (target : Qubit) (st : DumpState) :
    (target < qc.getNqubits →
      qc.barrierQubit target
        = .ok (qc.emplace_back (.standard [] [target] OpType.Barrier []))) ∧
    qc.barrier = qc.emplace_back (.standard [] (List.range qc.getNqubits) OpType.Barrier []) ∧
    (Operation.standard [] [target] OpType.Barrier [] : Operation F S).getType
      = OpType.Barrier ∧
    (target < st.inds.length →
      ∃ st', dumpTensor dd (.standard [] [target] OpType.Barrier []) st = .ok st' ∧
        (∃ record, st'.out = st.out ++ "[" ++ record) ∧
        st'.inds = st.inds.set target ((st.inds.getD target 0 + 1) % 2 ^ 64) ∧
        st'.gateIdx = (st.gateIdx + 1) % 2 ^ 64) ∧
    dumpTensor examplePackage (.standard [] [0] OpType.Barrier []) exampleDumpState = .ok
      { out := "[[\"x\", \"Q0\", \"GATE4\"], [\"q0_0\", \"q0_1\"], [2, 2], "
          ++ "[[1, 0], [1, 0], [1, 0], [1, 0]]]"
        inds := [1, 0, 0, 7]
        gateIdx := 5 } := by
  refine ⟨?_, rfl, rfl, ?_, rfl⟩
  · intro h
    simp only [QuantumComputation.barrierQubit, QuantumComputation.checkQubit, if_pos h]
    rfl
  · intro hlt
    obtain ⟨ix, hix, -, -, hinds⟩ := dumpIndices_spec (orderedQubitsOf [] [target]) st.inds
      (keys_orderedQubitsOf_sorted [] [target]).nodup
      (orderedQubitsOf_ne_nil [] [target] (Or.inr (by simp)))
      (fun q hq => by
        have hq2 := (keys_orderedQubitsOf_mem [] [target] q).mp hq
        simp only [List.map_nil, List.not_mem_nil, false_or, List.mem_singleton] at hq2
        rw [hq2]
        exact hlt)
    refine ⟨_, dumpTensor_standard dd [] [target] OpType.Barrier [] st _ hix, ?_, hinds, rfl⟩
    simp only [String.append_assoc]
    exact ⟨_, rfl⟩

/-- Claim C15: for an operation that is not compound, `dumpTensor` throws the exception if and
only if the operation is not a standard operation and its type is neither `Barrier` nor
`Measure`; a measurement is skipped: the call returns with the stream and all counters as
they were. -/
theorem dumpTensor_throws_iff (dd : Package F S) (op : Operation F S) (st : DumpState)
    (hnc : op.isCompoundOperation = false) :
    ((∃ what, dumpTensor dd op st = .error (DumpError.exception what)) ↔
      (op.isStandardOperation = false ∧ op.getType ≠ OpType.Barrier ∧
        op.getType ≠ OpType.Measure)) ∧
    (op.isStandardOperation = false → op.getType = OpType.Measure →
      dumpTensor dd op st = .ok st) := by
  have hother : ∀ type : OpType,
      ((∃ what, dumpOther type st = .error (DumpError.exception what)) ↔
        (type ≠ OpType.Barrier ∧ type ≠ OpType.Measure)) ∧
      (type = OpType.Measure → dumpOther type st = .ok st) := by
    intro type
    unfold dumpOther
    by_cases h1 : type = OpType.Barrier
    · simp [h1]
    · by_cases h2 : type = OpType.Measure
      · simp [h2]
      · simp [h1, h2]
  cases op with
  | standard controls targets type params =>
    simp only [dumpTensor, Operation.isStandardOperation]
    refine ⟨⟨?_, ?_⟩, ?_⟩
    · rintro ⟨what, h⟩
      exact absurd h (dumpStandard_not_exception _ _ _ _)
    · rintro ⟨h, -⟩
      cases h
    · intro h
      cases h
  | symbolic controls targets type params =>
    simpa only [dumpTensor, Operation.isStandardOperation, Operation.getType, true_and,
      true_implies] using hother type
  | nonUnitary targets classics type =>
    simpa only [dumpTensor, Operation.isStandardOperation, Operation.getType, true_and,
      true_implies] using hother type
  | classicControlled inner creg expected cmp =>
    simpa only [dumpTensor, Operation.isStandardOperation, Operation.getType, true_and,
      true_implies] using hother OpType.ClassicControlled
  | compound ops => simp [Operation.isCompoundOperation] at hnc

/-- Claim C15 on a measurement. -/
theorem dumpTensor_throws_iff_witness :
    exampleMeasurement.isCompoundOperation = false ∧
    ((∃ what, dumpTensor examplePackage exampleMeasurement exampleDumpState
        = .error (DumpError.exception what)) ↔
      (exampleMeasurement.isStandardOperation = false ∧
        exampleMeasurement.getType ≠ OpType.Barrier ∧
        exampleMeasurement.getType ≠ OpType.Measure)) ∧
    (exampleMeasurement.isStandardOperation = false →
      exampleMeasurement.getType = OpType.Measure →
      dumpTensor examplePackage exampleMeasurement exampleDumpState = .ok exampleDumpState) :=
  ⟨rfl, dumpTensor_throws_iff examplePackage exampleMeasurement exampleDumpState rfl⟩

/-! ### The ordinals and the labels of the records -/

theorem shift_separator (sep : String) (l : List String) :
    sep ++ catAll (l.map (fun a => a ++ sep)) = catAll (l.map (fun a => sep ++ a)) ++ sep := by
  induction l with
  | nil => simp [catAll]
  | cons a l ih =>
    simp only [List.map_cons, catAll_cons, String.append_assoc]
    rw [ih]

theorem intercalate_snoc (sep a z : String) (l : List String) :
    sep.intercalate (a :: (l ++ [z])) = a ++ sep ++ catAll (l.map (fun b => b ++ sep)) ++ z := by
  rw [intercalate_cons, List.map_append, catAll_append]
  have h : catAll ([z].map (fun b => sep ++ b)) = sep ++ z := by
    simp [catAll]
  rw [h]
  calc a ++ (catAll (l.map (fun b => sep ++ b)) ++ (sep ++ z))
      = a ++ ((catAll (l.map (fun b => sep ++ b)) ++ sep) ++ z) := by
        simp only [String.append_assoc]
    _ = a ++ ((sep ++ catAll (l.map (fun b => b ++ sep))) ++ z) := by
        rw [shift_separator]
    _ = a ++ sep ++ catAll (l.map (fun b => b ++ sep)) ++ z := by
        simp only [String.append_assoc]

/-- The tags written by `dumpTensor` are the label tuple followed by `, `. -/
theorem labelTuple_eq (dd : Package F S) (op : Operation F S) (g : Nat) :
    "[\"" ++ dd.getName op ++ "\", " ++ qubitTags op.getControls op.getTargets
        ++ "\"GATE" ++ toString g ++ "\"], "
      = labelTuple (recordLabels dd op g) ++ ", " := by
  have hq : ∀ (l : List Nat),
      catAll (l.map (fun q => "\"Q" ++ toString q ++ "\", "))
        = catAll ((l.map (fun q => "\"" ++ ("Q" ++ toString q) ++ "\"")).map
            (fun a => a ++ ", ")) := by
    intro l
    rw [List.map_map]
    congr 1
    apply List.map_congr_left
    intro q _
    apply String.ext
    simp [String.data_append]
  have hc : catAll (op.getControls.map (fun c => "\"Q" ++ toString c.qubit ++ "\", "))
      = catAll (((op.getControls.map (fun c => "Q" ++ toString c.qubit)).map
          (fun l => "\"" ++ l ++ "\"")).map (fun a => a ++ ", ")) := by
    have := hq (op.getControls.map Control.qubit)
    simp only [List.map_map, Function.comp_def] at this ⊢
    exact this
  have ht : catAll (op.getTargets.map (fun t => "\"Q" ++ toString t ++ "\", "))
      = catAll (((op.getTargets.map (fun t => "Q" ++ toString t)).map
          (fun l => "\"" ++ l ++ "\"")).map (fun a => a ++ ", ")) := by
    have := hq op.getTargets
    simp only [List.map_map, Function.comp_def] at this ⊢
    exact this
  unfold labelTuple recordLabels qubitTags
  rw [hc, ht, ← catAll_append, ← List.map_append]
  simp only [List.map_append, List.map_cons, List.map_nil, List.singleton_append,
    List.cons_append, List.nil_append]
  rw [← List.map_append, ← List.map_append, intercalate_snoc]
  generalize catAll (List.map (fun a => a ++ ", ")
    (List.map (fun l => "\"" ++ l ++ "\"")
      (List.map (fun c => "Q" ++ toString c.qubit) op.getControls ++
        List.map (fun t => "Q" ++ toString t) op.getTargets))) = X
  apply String.ext
  simp [String.data_append]

/-- The state after the export of a standard operation. -/
theorem dumpTensor_standard_record (dd : Package F S) (controls : Controls) (targets : Targets)
    (type : OpType) (params : List F) (st st' : DumpState)
    (h : dumpTensor dd (.standard controls targets type params) st = .ok st') :
    st' = { out := st.out
              ++ recordText dd (.standard controls targets type params) st.inds st.gateIdx
            inds := countersAfter (.standard controls targets type params : Operation F S)
              st.inds
            gateIdx := wrapIncr st.gateIdx } := by
  have hrun : ∃ ix0, dumpIndices (orderedQubitsOf controls targets) st.inds = .ok ix0 := by
    cases hd : dumpIndices (orderedQubitsOf controls targets) st.inds with
    | error err =>
      simp only [dumpTensor, dumpStandard, Operation.getControls, Operation.getTargets,
        dumpQubitTags_snd, hd] at h
      cases h
    | ok ix0 => exact ⟨ix0, rfl⟩
  obtain ⟨ix0, hix0⟩ := hrun
  obtain ⟨hne, hlt⟩ := dumpIndices_bound (orderedQubitsOf controls targets) st.inds ix0 hix0
  obtain ⟨ix, hix, hin, hout, hinds⟩ := dumpIndices_spec (orderedQubitsOf controls targets)
    st.inds (keys_orderedQubitsOf_sorted controls targets).nodup hne hlt
  rw [dumpTensor_standard dd controls targets type params st ix hix] at h
  injection h with h
  rw [← h, hin, hout, hinds]
  have hl := labelTuple_eq dd (.standard controls targets type params) st.gateIdx
  simp only [Operation.getControls, Operation.getTargets] at hl
  have hl' : ∀ rest : String,
      "[\"" ++ (dd.getName (.standard controls targets type params) ++ ("\", "
        ++ (qubitTags controls targets ++ ("\"GATE" ++ (toString st.gateIdx
        ++ ("\"], " ++ rest))))))
      = labelTuple (recordLabels dd (.standard controls targets type params) st.gateIdx)
        ++ (", " ++ rest) := by
    intro rest
    have := congrArg (fun x => x ++ rest) hl
    simpa only [String.append_assoc] using this
  simp only [recordText, recordBody, countersAfter, Operation.getControls, Operation.getTargets,
    String.append_assoc]
  rw [hl']

theorem weave_cons_cons (s r : String) (seps recs : List String) :
    weave (s :: seps) (r :: recs) = s ++ r ++ weave seps recs := rfl

theorem recordsFrom_cons (dd : Package F S) (op : Operation F S) (rest : List (Operation F S))
    (inds : List Nat) (g : Nat) :
    recordsFrom dd (op :: rest) inds g
      = recordText dd op inds g :: recordsFrom dd rest (countersAfter op inds) (wrapIncr g) :=
  rfl

theorem weave_prepend (s t : String) (seps recs : List String) :
    weave ((s ++ t) :: seps) recs = s ++ weave (t :: seps) recs := by
  cases recs with
  | nil => rfl
  | cons r recs => rw [weave_cons_cons, weave_cons_cons]; simp only [String.append_assoc]

theorem SeparatorText.append {s t : String} (hs : SeparatorText s) (ht : SeparatorText t) :
    SeparatorText (s ++ t) := by
  obtain ⟨k1, rfl⟩ := hs
  obtain ⟨k2, rfl⟩ := ht
  exact ⟨k1 + k2, by rw [List.replicate_add, catAll_append]⟩

theorem SeparatorText.empty : SeparatorText "" := ⟨0, rfl⟩

theorem SeparatorText.one : SeparatorText ",\n" := ⟨1, rfl⟩

/-- Two woven texts one after the other are a woven text. -/
theorem weave_append (recs1 : List String) :
    ∀ (seps1 : List String) (seps2 recs2 : List String),
      seps1.length = recs1.length + 1 → seps2.length = recs2.length + 1 →
      (∀ s ∈ seps1, SeparatorText s) → (∀ s ∈ seps2, SeparatorText s) →
      ∃ seps, seps.length = (recs1 ++ recs2).length + 1 ∧ (∀ s ∈ seps, SeparatorText s) ∧
        weave seps (recs1 ++ recs2) = weave seps1 recs1 ++ weave seps2 recs2 := by
  induction recs1 with
  | nil =>
    intro seps1 seps2 recs2 h1 h2 hs1 hs2
    match seps1, h1, hs1 with
    | [s], _, hs1 =>
      match seps2, h2, hs2 with
      | t :: ts, h2, hs2 =>
        refine ⟨(s ++ t) :: ts, by simpa using h2, ?_, ?_⟩
        · intro x hx
          rcases List.mem_cons.mp hx with rfl | hx
          · exact (hs1 s (List.mem_singleton_self s)).append (hs2 t (List.mem_cons_self _ _))
          · exact hs2 x (List.mem_cons_of_mem _ hx)
        · rw [List.nil_append, weave_prepend]
          rfl
  | cons r recs1 ih =>
    intro seps1 seps2 recs2 h1 h2 hs1 hs2
    match seps1, h1, hs1 with
    | s :: seps1, h1, hs1 =>
      obtain ⟨seps, hlen, hsep, hw⟩ := ih seps1 seps2 recs2 (by simpa using h1) h2
        (fun x hx => hs1 x (List.mem_cons_of_mem _ hx)) hs2
      refine ⟨s :: seps, by simp [hlen], ?_, ?_⟩
      · intro x hx
        rcases List.mem_cons.mp hx with rfl | hx
        · exact hs1 x (List.mem_cons_self _ _)
        · exact hsep x hx
      · rw [List.cons_append, weave_cons_cons, weave_cons_cons, hw]
        simp only [String.append_assoc]

theorem recordsFrom_append (dd : Package F S) (l1 l2 : List (Operation F S)) (inds : List Nat)
    (g : Nat) :
    recordsFrom dd (l1 ++ l2) inds g
      = recordsFrom dd l1 inds g
        ++ recordsFrom dd l2 (l1.foldl (fun inds leaf => countersAfter leaf inds) inds)
            (wrapIncr^[l1.length] g) := by
  induction l1 generalizing inds g with
  | nil => rfl
  | cons op l1 ih =>
    rw [List.cons_append, recordsFrom_cons, recordsFrom_cons, ih, List.foldl_cons,
      List.length_cons, List.cons_append, Function.iterate_succ_apply]

theorem length_recordsFrom (dd : Package F S) (l : List (Operation F S)) (inds : List Nat)
    (g : Nat) : (recordsFrom dd l inds g).length = l.length := by
  induction l generalizing inds g with
  | nil => rfl
  | cons op l ih => simp only [recordsFrom, List.length_cons, ih]

theorem Exported.refl (dd : Package F S) (st : DumpState) : Exported dd [] st st :=
  ⟨rfl, rfl, [""], rfl, fun s hs => by
    rw [List.mem_singleton.mp hs]; exact SeparatorText.empty, by simp [weave, recordsFrom]⟩

theorem Exported.trans {dd : Package F S} {l1 l2 : List (Operation F S)} {st st1 st2 : DumpState}
    (h1 : Exported dd l1 st st1) (h2 : Exported dd l2 st1 st2) :
    Exported dd (l1 ++ l2) st st2 := by
  obtain ⟨hg1, hi1, seps1, hl1, hs1, ho1⟩ := h1
  obtain ⟨hg2, hi2, seps2, hl2, hs2, ho2⟩ := h2
  obtain ⟨seps, hlen, hsep, hw⟩ := weave_append (recordsFrom dd l1 st.inds st.gateIdx) seps1
    seps2 (recordsFrom dd l2 st1.inds st1.gateIdx)
    (by rw [length_recordsFrom]; exact hl1) (by rw [length_recordsFrom]; exact hl2) hs1 hs2
  refine ⟨?_, ?_, seps, ?_, hsep, ?_⟩
  · rw [hg2, hg1, List.length_append, Nat.add_comm, Function.iterate_add_apply]
  · rw [hi2, hi1, List.foldl_append]
  · rw [hlen, List.length_append, length_recordsFrom, length_recordsFrom, List.length_append]
  · rw [ho2, ho1, recordsFrom_append, ← hi1, ← hg1, hw, String.append_assoc]

/-- A separator written before an export joins its first separator text. -/
theorem Exported.separator {dd : Package F S} {l : List (Operation F S)} {st st' : DumpState}
    (h : Exported dd l { st with out := st.out ++ ",\n" } st') : Exported dd l st st' := by
  obtain ⟨hg, hi, seps, hl, hs, ho⟩ := h
  match seps, hl, hs, ho with
  | s :: seps, hl, hs, ho =>
    refine ⟨hg, hi, (",\n" ++ s) :: seps, by simpa using hl, ?_, ?_⟩
    · intro x hx
      rcases List.mem_cons.mp hx with rfl | hx
      · exact SeparatorText.one.append (hs s (List.mem_cons_self _ _))
      · exact hs x (List.mem_cons_of_mem _ hx)
    · rw [ho, weave_prepend, String.append_assoc]

theorem dumpOther_exported (dd : Package F S) (type : OpType) (st st' : DumpState)
    (h : dumpOther type st = .ok st') : Exported dd [] st st' := by
  unfold dumpOther at h
  split at h
  · injection h with h; rw [← h]; exact Exported.refl dd st
  · split at h
    · injection h with h; rw [← h]; exact Exported.refl dd st
    · cases h

mutual
/-- What a call of `dumpTensor` that returns leaves behind. -/
theorem dumpTensor_exported (dd : Package F S) :
    ∀ (op : Operation F S) (st st' : DumpState), dumpTensor dd op st = .ok st' →
      Exported dd (standardLeaves op) st st'
  | .standard controls targets type params, st, st', h => by
    have hrec := dumpTensor_standard_record dd controls targets type params st st' h
    rw [hrec, standardLeaves]
    exact ⟨rfl, rfl, ["", ""], rfl, fun s hs => by
      have : s = "" := by simpa using hs
      rw [this]; exact SeparatorText.empty, by simp [weave, recordsFrom]⟩
  | .compound ops, st, st', h => by
    rw [standardLeaves]
    rw [dumpTensor] at h
    exact dumpChildren_exported dd ops true st st' h
  | .symbolic _ _ type _, st, st', h => by
    rw [standardLeaves]
    rw [dumpTensor] at h
    exact dumpOther_exported dd type st st' h
  | .nonUnitary _ _ type, st, st', h => by
    rw [standardLeaves]
    rw [dumpTensor] at h
    exact dumpOther_exported dd type st st' h
  | .classicControlled _ _ _ _, st, st', h => by
    rw [standardLeaves]
    rw [dumpTensor] at h
    exact dumpOther_exported dd _ st st' h
/-- What the loop over the children of a compound operation leaves behind. -/
theorem dumpChildren_exported (dd : Package F S) :
    ∀ (ops : List (Operation F S)) (first : Bool) (st st' : DumpState),
      dumpChildren dd ops first st = .ok st' → Exported dd (standardLeavesOf ops) st st'
  | [], first, st, st', h => by
    rw [standardLeavesOf]
    rw [dumpChildren] at h
    injection h with h
    rw [← h]
    exact Exported.refl dd st
  | operation :: rest, first, st, st', h => by
    rw [standardLeavesOf]
    rw [dumpChildren] at h
    cases hchild : dumpTensor dd operation
        (if first = true then st else { st with out := st.out ++ ",\n" }) with
    | error err => rw [hchild] at h; cases h
    | ok st2 =>
      rw [hchild] at h
      have h1 := dumpTensor_exported dd operation _ st2 hchild
      have h2 := dumpChildren_exported dd rest false st2 st' h
      cases first with
      | true => exact Exported.trans h1 h2
      | false => exact Exported.trans (Exported.separator h1) h2
end

mutual
theorem standardLeaves_standard :
    ∀ (op leaf : Operation F S), leaf ∈ standardLeaves op → leaf.isStandardOperation = true
  | .standard controls targets type params, leaf, h => by
    rw [standardLeaves, List.mem_singleton] at h
    rw [h]
    rfl
  | .compound ops, leaf, h => by
    rw [standardLeaves] at h
    exact standardLeavesOf_standard ops leaf h
  | .symbolic _ _ _ _, leaf, h => by
    rw [standardLeaves] at h
    exact absurd h (List.not_mem_nil leaf)
  | .nonUnitary _ _ _, leaf, h => by
    rw [standardLeaves] at h
    exact absurd h (List.not_mem_nil leaf)
  | .classicControlled _ _ _ _, leaf, h => by
    rw [standardLeaves] at h
    exact absurd h (List.not_mem_nil leaf)
theorem standardLeavesOf_standard :
    ∀ (ops : List (Operation F S)) (leaf : Operation F S), leaf ∈ standardLeavesOf ops →
      leaf.isStandardOperation = true
  | [], leaf, h => by
    rw [standardLeavesOf] at h
    exact absurd h (List.not_mem_nil leaf)
  | op :: rest, leaf, h => by
    rw [standardLeavesOf, List.mem_append] at h
    rcases h with h | h
    · exact standardLeaves_standard op leaf h
    · exact standardLeavesOf_standard rest leaf h
end

/-- The counter after `n` increments. -/
theorem iterate_wrapIncr (n g : Nat) (hg : g < 2 ^ 64) :
    wrapIncr^[n] g = (g + n) % 2 ^ 64 := by
  induction n with
  | zero => exact (Nat.mod_eq_of_lt hg).symm
  | succ n ih =>
    rw [Function.iterate_succ_apply', ih]
    show ((g + n) % 2 ^ 64 + 1) % 2 ^ 64 = (g + (n + 1)) % 2 ^ 64
    rw [Nat.mod_add_mod, Nat.add_assoc]

/-- Fewer than `2^64` increments in a row give different values. -/
theorem wrapped_ordinals_nodup (g n : Nat) (hn : n ≤ 2 ^ 64) :
    ((List.range n).map (fun k => (g + k) % 2 ^ 64)).Nodup := by
  refine List.Nodup.map_on ?_ (List.nodup_range n)
  intro a ha b hb hab
  have ha2 : a < 2 ^ 64 := Nat.lt_of_lt_of_le (List.mem_range.mp ha) hn
  have hb2 : b < 2 ^ 64 := Nat.lt_of_lt_of_le (List.mem_range.mp hb) hn
  have hmod : a % 2 ^ 64 = b % 2 ^ 64 := Nat.ModEq.add_left_cancel' g hab
  rwa [Nat.mod_eq_of_lt ha2, Nat.mod_eq_of_lt hb2] at hmod

/-- The record at position `k` carries the ordinal reached after `k` increments. -/
theorem recordsFrom_get (dd : Package F S) (leaves : List (Operation F S)) (inds : List Nat)
    (g k : Nat) :
    (recordsFrom dd leaves inds g)[k]?
      = leaves[k]?.map (fun leaf => recordText dd leaf
          ((leaves.take k).foldl (fun inds leaf => countersAfter leaf inds) inds)
          (wrapIncr^[k] g)) := by
  induction leaves generalizing inds g k with
  | nil => rfl
  | cons op rest ih =>
    rw [recordsFrom_cons]
    cases k with
    | zero => simp
    | succ k =>
      rw [List.getElem?_cons_succ, List.getElem?_cons_succ, ih, List.take_succ_cons,
        List.foldl_cons, Function.iterate_succ_apply]

/-- Claim C31, amended: a call of `dumpTensor` that returns, started with a gate counter `g`
below `2^64`, leaves the gate counter at `g + n` modulo `2^64`, where `n` is the number of
standard operations at the leaves of the operation tree; the stream has received the `n`
records of these leaves in the order of the traversal, with separator texts before, between
and after them; the record at position `k` is the opening bracket, the label tuple and the
rest of the record, and its label tuple consists of the name of the operation, a tag `Q<q>`
for every control, a tag `Q<q>` for every target in the order of the target list, and the tag
`GATE<j>` with `j` equal to `g + k` modulo `2^64`; when `n` is at most `2^64` the ordinals of
the records are pairwise different. -/
theorem dumpTensor_gate_ordinals (dd : Package F S) (op : Operation F S) (st st' : DumpState)
    (h : dumpTensor dd op st = .ok st') (hsize : st.gateIdx < 2 ^ 64) :
    st'.gateIdx = (st.gateIdx + (standardLeaves op).length) % 2 ^ 64 ∧
    (∃ seps : List String, seps.length = (standardLeaves op).length + 1 ∧
      (∀ s ∈ seps, SeparatorText s) ∧
      st'.out = st.out ++ weave seps (recordsFrom dd (standardLeaves op) st.inds st.gateIdx)) ∧
    (recordsFrom dd (standardLeaves op) st.inds st.gateIdx).length
      = (standardLeaves op).length ∧
    (∀ k leaf, (standardLeaves op)[k]? = some leaf →
      leaf.isStandardOperation = true ∧
      (recordsFrom dd (standardLeaves op) st.inds st.gateIdx)[k]?
        = some ("[" ++ labelTuple
              ([dd.getName leaf] ++ leaf.getControls.map (fun c => "Q" ++ toString c.qubit)
                ++ leaf.getTargets.map (fun t => "Q" ++ toString t)
                ++ ["GATE" ++ toString ((st.gateIdx + k) % 2 ^ 64)])
            ++ ", " ++ recordBody dd leaf (((standardLeaves op).take k).foldl
              (fun inds leaf => countersAfter leaf inds) st.inds))) ∧
    ((standardLeaves op).length ≤ 2 ^ 64 →
      ((List.range (standardLeaves op).length).map
        (fun k => (st.gateIdx + k) % 2 ^ 64)).Nodup) := by
  obtain ⟨hg, -, hout⟩ := dumpTensor_exported dd op st st' h
  refine ⟨?_, hout, length_recordsFrom dd _ _ _, fun k leaf hk => ⟨?_, ?_⟩, ?_⟩
  · rw [hg, iterate_wrapIncr _ _ hsize]
  · exact standardLeaves_standard op leaf (List.getElem?_mem hk)
  · rw [recordsFrom_get, hk, iterate_wrapIncr _ _ hsize]
    rfl
  · exact wrapped_ordinals_nodup _ _

/-- Claim C31, amended, on the example of a gate, a measurement and a controlled gate, exported
with the gate counter 4. -/
theorem dumpTensor_gate_ordinals_witness :
    exampleDumpState.gateIdx < 2 ^ 64 ∧
    ∃ st', dumpTensor examplePackage exampleCompound exampleDumpState = .ok st' ∧
    st'.gateIdx
      = (exampleDumpState.gateIdx + (standardLeaves exampleCompound).length) % 2 ^ 64 ∧
    (∃ seps : List String, seps.length = (standardLeaves exampleCompound).length + 1 ∧
      (∀ s ∈ seps, SeparatorText s) ∧
      st'.out = exampleDumpState.out ++ weave seps (recordsFrom examplePackage
        (standardLeaves exampleCompound) exampleDumpState.inds exampleDumpState.gateIdx)) ∧
    (recordsFrom examplePackage (standardLeaves exampleCompound) exampleDumpState.inds
      exampleDumpState.gateIdx).length = (standardLeaves exampleCompound).length ∧
    (∀ k leaf, (standardLeaves exampleCompound)[k]? = some leaf →
      leaf.isStandardOperation = true ∧
      (recordsFrom examplePackage (standardLeaves exampleCompound) exampleDumpState.inds
          exampleDumpState.gateIdx)[k]?
        = some ("[" ++ labelTuple
              ([examplePackage.getName leaf]
                ++ leaf.getControls.map (fun c => "Q" ++ toString c.qubit)
                ++ leaf.getTargets.map (fun t => "Q" ++ toString t)
                ++ ["GATE" ++ toString ((exampleDumpState.gateIdx + k) % 2 ^ 64)])
            ++ ", " ++ recordBody examplePackage leaf (((standardLeaves exampleCompound).take
              k).foldl (fun inds leaf => countersAfter leaf inds) exampleDumpState.inds))) ∧
    ((standardLeaves exampleCompound).length ≤ 2 ^ 64 →
      ((List.range (standardLeaves exampleCompound).length).map
        (fun k => (exampleDumpState.gateIdx + k) % 2 ^ 64)).Nodup) :=
  ⟨by decide, _, rfl,
    dumpTensor_gate_ordinals examplePackage exampleCompound exampleDumpState _ rfl (by decide)⟩

/-- The export of the example: two records with the tags `GATE4` and `GATE5`, two
separators between them because of the measurement, and the gate counter 6. -/
theorem dumpTensor_gate_ordinals_example :
    standardLeaves exampleCompound = [exampleSingleQubitGate, exampleGate] ∧
    labelTuple (recordLabels examplePackage exampleGate 5)
      = "[\"x\", \"Q3\", \"Q1\", \"GATE5\"]" ∧
    dumpTensor examplePackage exampleCompound exampleDumpState = .ok
      { out := "[[\"x\", \"Q0\", \"GATE4\"], [\"q0_0\", \"q0_1\"], [2, 2], "
          ++ "[[1, 0], [1, 0], [1, 0], [1, 0]]],\n,\n"
          ++ "[[\"x\", \"Q3\", \"Q1\", \"GATE5\"], [\"q3_7\", \"q1_0\", \"q3_8\", \"q1_1\"], "
          ++ "[2, 2, 2, 2], [[1, 0], [1, 0], [1, 0], [1, 0], [1, 0], [1, 0], [1, 0], [1, 0], "
          ++ "[1, 0], [1, 0], [1, 0], [1, 0], [1, 0], [1, 0], [1, 0], [1, 0]]]"
        inds := [1, 1, 0, 8]
        gateIdx := 6 } :=
  ⟨rfl, rfl, rfl⟩

/-- Claim C31 fails as stated: started with the gate counter `g = 2^64 - 1`, the export of the
example, which has `n = 2` standard leaves, writes the tags `GATE18446744073709551615` and
`GATE0` and leaves the gate counter at 1, not at `g + n`; the second tag is not `GATE<g+1>`. -/
theorem dumpTensor_gate_counter_wraps :
    wrappingDumpState.gateIdx = 2 ^ 64 - 1 ∧
    (standardLeaves exampleCompound).length = 2 ∧
    dumpTensor examplePackage exampleCompound wrappingDumpState = .ok
      { out := "[[\"x\", \"Q0\", \"GATE18446744073709551615\"], [\"q0_0\", \"q0_1\"], [2, 2], "
          ++ "[[1, 0], [1, 0], [1, 0], [1, 0]]],\n,\n"
          ++ "[[\"x\", \"Q3\", \"Q1\", \"GATE0\"], "
          ++ "[\"q3_18446744073709551615\", \"q1_0\", \"q3_0\", \"q1_1\"], "
          ++ "[2, 2, 2, 2], [[1, 0], [1, 0], [1, 0], [1, 0], [1, 0], [1, 0], [1, 0], [1, 0], "
          ++ "[1, 0], [1, 0], [1, 0], [1, 0], [1, 0], [1, 0], [1, 0], [1, 0]]]"
        inds := [1, 1, 0, 0]
        gateIdx := 1 } ∧
    (1 : Nat) ≠ wrappingDumpState.gateIdx + (standardLeaves exampleCompound).length ∧
    "GATE0" ≠ "GATE" ++ toString (wrappingDumpState.gateIdx + 1) :=
  ⟨rfl, rfl, rfl, by decide, by decide⟩

end dd
